import Mathlib

/-! # AQChainRe: the Proof-of-Contribution epoch engine and the transaction processor

A shallow embedding of `pkg/consensus/poc/epoch_context.go` and of the parts of
`pkg/core/types/poc_context.go`, of `pkg/core/state_transition.go` and
`pkg/core/state_processor.go`, and of the record state of `pkg/core/state` with its
journal, followed by theorems about `kickoutValidator`, `lookupValidator`, `tryElect`,
`preCheck`, `TransitionDb`, `ApplyDataMessage`, `ApplyTransaction`, `RevertToSnapshot`,
`Finalise`, `CommitTo`, the roots and snapshots of a `PocContext`, and `Process`.

Conventions of the embedding:

* Go `[]byte` and Go `string` values are lists of bytes; Go compares strings
  bytewise, which is `bytesLt`.
* A trie is its key/value content in key order (the order in which a trie
  iterator visits it) together with a table of keys whose path cannot be
  resolved from the database; `TryDelete` and `TryUpdate` on such a key return
  the recorded error and leave the trie as it was, `TryGet` returns it, and
  `Get` reads such a key as absent. The iterators read the content.
* A method with a pointer receiver that returns `error` becomes a function that
  returns the new receiver together with `Option Error` (`none` is Go `nil`).
* `int64` arithmetic is arithmetic on `Int` wrapped by `int64`; `/` and `%` are
  the truncating `Int.tdiv` and `Int.tmod`; a `uint64` nonce is a `Nat` taken
  modulo `2 ^ 64` where it is incremented, and a `*big.Int` is an `Int`.
* Constants and library functions the files use but do not define
  (`epochInterval`, `common.Address.String`, `rlp`, `math/rand`, ...) are the
  fields of `Params` and `StateParams`.
* The account state `state.StateDB` is modelled from the spec; the record state
  `state.StateDBRecord` is translated from its source.
* A Go panic of a method of the record state is the result `none`.
* Where the sharing of tries between two `PocContext` values matters, for `Copy`,
  `Snapshot` and `RevertToSnapShot`, a context is five pointers into a heap of
  tries (`PocContextRef`); elsewhere it is the five tries.
-/

namespace AQChain

/-! ## Bytes -/

abbrev Byte := Fin 256

abbrev Bytes := List Byte

/-- Bytewise lexicographic order, the order of Go strings and of trie keys. -/
def bytesLt : Bytes → Bytes → Bool
  | [], [] => false
  | [], _ :: _ => true
  | _ :: _, [] => false
  | a :: as, b :: bs => decide (a < b) || (decide (a = b) && bytesLt as bs)

/-- Go `bytes.HasPrefix`. -/
def startsWith : Bytes → Bytes → Bool
  | _, [] => true
  | [], _ :: _ => false
  | a :: as, p :: ps => decide (a = p) && startsWith as ps

/-- Go `binary.BigEndian.PutUint64` into a fresh 8-byte slice. -/
def PutUint64 (v : Nat) : Bytes :=
  [Fin.ofNat (v / 2 ^ 56), Fin.ofNat (v / 2 ^ 48), Fin.ofNat (v / 2 ^ 40), Fin.ofNat (v / 2 ^ 32),
   Fin.ofNat (v / 2 ^ 24), Fin.ofNat (v / 2 ^ 16), Fin.ofNat (v / 2 ^ 8), Fin.ofNat v]

/-- Go `binary.BigEndian.Uint64`: the first eight bytes as a big-endian number;
`none` is the index-out-of-range panic on a slice shorter than eight bytes. -/
def Uint64 : Bytes → Option Nat
  | b0 :: b1 :: b2 :: b3 :: b4 :: b5 :: b6 :: b7 :: _ =>
    some (b0.val * 2 ^ 56 + b1.val * 2 ^ 48 + b2.val * 2 ^ 40 + b3.val * 2 ^ 32
      + b4.val * 2 ^ 24 + b5.val * 2 ^ 16 + b6.val * 2 ^ 8 + b7.val)
  | _ => none

/-- Conversion of an integer to Go `int64` (two's complement wrap-around). -/
def int64 (x : Int) : Int := (x + 2 ^ 63) % 2 ^ 64 - 2 ^ 63

/-- Conversion of an integer to Go `uint64`. -/
def uint64 (x : Int) : Nat := (x % 2 ^ 64).toNat

/-! ## Addresses -/

/-- Go `common.Address`, a 20-byte array. -/
structure Address where
  bytes : Bytes
  len : bytes.length = 20
deriving DecidableEq

/-- Go `Address.Bytes`. -/
def Address.Bytes (a : Address) : Bytes := a.bytes

/-- Go `common.BytesToAddress`: the last 20 bytes, left-padded with zeros. -/
def BytesToAddress (b : Bytes) : Address :=
  ⟨List.replicate (20 - b.length) 0 ++ b.drop (b.length - 20), by
    simp only [List.length_append, List.length_replicate, List.length_drop]; omega⟩

/-! ## Tries -/

/-- The errors a trie operation can return. -/
inductive TrieError where
  | missingNode
  | other
deriving DecidableEq

/-- Insertion of a binding into a key-ordered list, replacing a binding of the same key. -/
def insertEntry (k v : Bytes) : List (Bytes × Bytes) → List (Bytes × Bytes)
  | [] => [(k, v)]
  | e :: rest =>
    if bytesLt k e.1 then (k, v) :: e :: rest
    else if k = e.1 then (k, v) :: rest
    else e :: insertEntry k v rest

theorem bytesLt_irrefl (a : Bytes) : bytesLt a a = false := by
  induction a with
  | nil => rfl
  | cons x xs ih => simp [bytesLt, ih]

theorem bytesLt_trans {a b c : Bytes} (h1 : bytesLt a b = true) (h2 : bytesLt b c = true) :
    bytesLt a c = true := by
  induction a generalizing b c with
  | nil =>
    cases b with
    | nil => simp [bytesLt] at h1
    | cons y ys =>
      cases c with
      | nil => simp [bytesLt] at h2
      | cons z zs => simp [bytesLt]
  | cons x xs ih =>
    cases b with
    | nil => simp [bytesLt] at h1
    | cons y ys =>
      cases c with
      | nil => simp [bytesLt] at h2
      | cons z zs =>
        simp only [bytesLt, Bool.or_eq_true, Bool.and_eq_true, decide_eq_true_eq] at h1 h2 ⊢
        rcases h1 with h1 | ⟨h1, h1r⟩
        · rcases h2 with h2 | ⟨h2, _⟩
          · exact Or.inl (lt_trans h1 h2)
          · exact Or.inl (h2 ▸ h1)
        · rcases h2 with h2 | ⟨h2, h2r⟩
          · exact Or.inl (h1 ▸ h2)
          · exact Or.inr ⟨h1.trans h2, ih h1r h2r⟩

theorem bytesLt_total {a b : Bytes} (h1 : bytesLt a b = false) (h2 : a ≠ b) :
    bytesLt b a = true := by
  induction a generalizing b with
  | nil =>
    cases b with
    | nil => exact absurd rfl h2
    | cons y ys => simp [bytesLt] at h1
  | cons x xs ih =>
    cases b with
    | nil => simp [bytesLt]
    | cons y ys =>
      simp only [bytesLt, Bool.or_eq_false_iff, Bool.and_eq_false_iff, decide_eq_false_iff_not,
        Bool.or_eq_true, Bool.and_eq_true, decide_eq_true_eq] at h1 ⊢
      obtain ⟨hlt, hr⟩ := h1
      by_cases hxy : x = y
      · subst hxy
        right
        refine ⟨rfl, ih ?_ ?_⟩
        · rcases hr with hr | hr
          · exact absurd rfl hr
          · exact hr
        · intro h; exact h2 (by rw [h])
      · left
        exact lt_of_le_of_ne (not_lt.mp hlt) (Ne.symm hxy)

theorem bytesLt_asymm {a b : Bytes} (h : bytesLt a b = true) : bytesLt b a = false := by
  cases hba : bytesLt b a with
  | false => rfl
  | true => have := bytesLt_trans h hba; rw [bytesLt_irrefl] at this; cases this

theorem bytesLt_ne {a b : Bytes} (h : bytesLt a b = true) : a ≠ b := by
  intro hab; subst hab; rw [bytesLt_irrefl] at h; cases h

/-- Key order on bindings. -/
def entryLt (a b : Bytes × Bytes) : Prop := bytesLt a.1 b.1 = true

theorem insertEntry_fst_mem {k v : Bytes} {l : List (Bytes × Bytes)} {e : Bytes × Bytes}
    (h : e ∈ insertEntry k v l) : e = (k, v) ∨ e ∈ l := by
  induction l with
  | nil => simp [insertEntry] at h; exact Or.inl h
  | cons x xs ih =>
    simp only [insertEntry] at h
    split at h
    · rcases List.mem_cons.mp h with h | h
      · exact Or.inl h
      · exact Or.inr h
    · split at h
      · rcases List.mem_cons.mp h with h | h
        · exact Or.inl h
        · exact Or.inr (List.mem_cons_of_mem _ h)
      · rcases List.mem_cons.mp h with h | h
        · exact Or.inr (h ▸ List.mem_cons_self _ _)
        · rcases ih h with h | h
          · exact Or.inl h
          · exact Or.inr (List.mem_cons_of_mem _ h)

theorem insertEntry_sorted (k v : Bytes) {l : List (Bytes × Bytes)}
    (h : l.Pairwise entryLt) : (insertEntry k v l).Pairwise entryLt := by
  induction l with
  | nil => simp [insertEntry]
  | cons x xs ih =>
    obtain ⟨hx, hxs⟩ := List.pairwise_cons.mp h
    simp only [insertEntry]
    split
    · rename_i hk
      refine List.pairwise_cons.mpr ⟨?_, h⟩
      intro e he
      rcases List.mem_cons.mp he with he | he
      · subst he; exact hk
      · exact bytesLt_trans hk (hx e he)
    · split
      · rename_i _ hk
        refine List.pairwise_cons.mpr ⟨?_, hxs⟩
        intro e he
        have := hx e he
        unfold entryLt at this ⊢
        simpa [hk] using this
      · rename_i hk1 hk2
        refine List.pairwise_cons.mpr ⟨?_, ih hxs⟩
        intro e he
        rcases insertEntry_fst_mem he with he | he
        · subst he
          exact bytesLt_total (by simpa using hk1) hk2
        · exact hx e he

/-- A trie: its bindings in key order, and the keys whose path cannot be resolved
from the database with the error the trie reports for them. -/
structure Trie where
  entries : List (Bytes × Bytes)
  sorted : entries.Pairwise entryLt
  faults : List (Bytes × TrieError)
deriving DecidableEq

/-- A trie with no bindings, opened on the empty root: `trie.NewTrieWithPrefix(common.Hash{}, ...)`. -/
def Trie.empty : Trie := ⟨[], List.Pairwise.nil, []⟩

/-- The error recorded for a key whose path cannot be resolved. -/
def Trie.fault (t : Trie) (k : Bytes) : Option TrieError :=
  (t.faults.find? (fun f => decide (f.1 = k))).map Prod.snd

/-- Go `Trie.TryGet`: the value bound to the key, `none` for Go `nil`, or the error of a key
whose path cannot be resolved. -/
def Trie.TryGet (t : Trie) (k : Bytes) : Except TrieError (Option Bytes) :=
  match t.fault k with
  | some e => .error e
  | none => .ok ((t.entries.find? (fun e => decide (e.1 = k))).map Prod.snd)

/-- Go `Trie.Get`: `TryGet` whose error is logged and dropped. -/
def Trie.Get (t : Trie) (k : Bytes) : Option Bytes :=
  match t.TryGet k with
  | .ok v => v
  | .error _ => none

/-- Go `Trie.TryDelete`. -/
def Trie.TryDelete (t : Trie) (k : Bytes) : Except TrieError Trie :=
  match t.fault k with
  | some e => .error e
  | none => .ok ⟨t.entries.filter (fun e => !decide (e.1 = k)), t.sorted.filter _, t.faults⟩

/-- Go `Trie.TryUpdate`: an empty value deletes the key. -/
def Trie.TryUpdate (t : Trie) (k v : Bytes) : Except TrieError Trie :=
  match t.fault k with
  | some e => .error e
  | none =>
    if v.length ≠ 0 then .ok ⟨insertEntry k v t.entries, insertEntry_sorted k v t.sorted, t.faults⟩
    else .ok ⟨t.entries.filter (fun e => !decide (e.1 = k)), t.sorted.filter _, t.faults⟩

/-- Go `Trie.Update`: `TryUpdate` whose error is logged and dropped. -/
def Trie.Update (t : Trie) (k v : Bytes) : Trie :=
  match t.TryUpdate k v with
  | .ok t1 => t1
  | .error _ => t

/-- The bindings a `trie.NewIterator(t.NodeIterator(nil))` visits, in order. -/
def Trie.iterate (t : Trie) : List (Bytes × Bytes) := t.entries

/-- The bindings a `trie.NewIterator(t.PrefixIterator(p))` visits, in order. -/
def Trie.iteratePrefixed (t : Trie) (p : Bytes) : List (Bytes × Bytes) :=
  t.entries.filter (fun e => startsWith e.1 p)

/-! ## Constants and library functions -/

/-- Go `types.AccountContribution`. -/
structure AccountContribution where
  Account : Address
  Contribution : Int
deriving DecidableEq

/-- What `epoch_context.go` and `poc_context.go` use without defining it: the consensus
constants of package `poc`, and the library functions, each with the part of its
contract the engine relies on. -/
structure Params where
  /-- The constant `epochInterval` (an `int64`). -/
  epochInterval : Int
  /-- The constant `blockInterval` (an `int64`). -/
  blockInterval : Int
  /-- The constant `maxValidatorSize`. -/
  maxValidatorSize : Nat
  /-- The constant `safeSize`. -/
  safeSize : Nat
  /-- The package variable `timeOfFirstBlock`. -/
  timeOfFirstBlock : Int
  /-- Go `common.Address.String`. -/
  addressString : Address → Bytes
  /-- Go `rlp.EncodeToBytes` on a `[]common.Address`. -/
  EncodeValidators : List Address → Bytes
  /-- Go `rlp.DecodeBytes` into a `[]common.Address`; `none` is a decoding error. -/
  DecodeValidators : Bytes → Option (List Address)
  /-- Go `rlp.EncodeToBytes` on a `[]AccountContribution`; `none` is an encoding error. -/
  EncodeContributions : List AccountContribution → Option Bytes
  /-- Go `binary.LittleEndian.Uint32(crypto.Keccak512(h))` of a header hash. -/
  keccakSeed : Bytes → Nat
  /-- Go `rand.NewSource`: the generator state for a seed. -/
  NewSource : Int → Nat
  /-- Go `Rand.Int31n`: the number drawn and the next generator state. -/
  Int31n : Nat → Nat → Nat × Nat
  /-- Go `Trie.Hash`: the root hash of a trie content. -/
  rootHash : List (Bytes × Bytes) → Bytes
  epochInterval_pos : 0 < epochInterval
  blockInterval_pos : 0 < blockInterval
  maxValidatorSize_pos : 0 < maxValidatorSize
  maxValidatorSize_lt : maxValidatorSize < 2 ^ 31
  addressString_inj : ∀ a b, addressString a = addressString b → a = b
  decode_encode : ∀ vs, DecodeValidators (EncodeValidators vs) = some vs
  decode_nil : DecodeValidators [] = none
  encode_ne_nil : ∀ vs, (EncodeValidators vs).length ≠ 0
  Int31n_lt : ∀ s n, 0 < n → (Int31n s n).1 < n

/-- Go `Trie.Hash`. -/
def Trie.Hash (P : Params) (t : Trie) : Bytes := P.rootHash t.entries

/-! ## `types.PocContext` -/

/-- The errors the engine returns; `panic` is a Go run-time panic. -/
inductive Error where
  | ErrInvalidMintBlockTime
  | failedToDecodeValidators
  | failedToGetValidator
  | noValidatorCouldBeKickout
  | failedToLookupValidator
  | noCandidates
  | tooFewCandidates
  | failedToEncodeContributions
  | failedToEncodeTransaction
  | trie (e : TrieError)
  | panic
deriving DecidableEq

deriving instance DecidableEq for Except

/-- Go `types.PocContext`. -/
structure PocContext where
  epochTrie : Trie
  contributionTrie : Trie
  latestTxTrie : Trie
  candidateTrie : Trie
  mintCntTrie : Trie
deriving DecidableEq

/-- The key `[]byte("validator")`. -/
def validatorKey : Bytes := [118, 97, 108, 105, 100, 97, 116, 111, 114]

/-- The key `[]byte("contribution")`. -/
def contributionKey : Bytes := [99, 111, 110, 116, 114, 105, 98, 117, 116, 105, 111, 110]

/-- Go `PocContext.KickoutCandidate`. -/
def PocContext.KickoutCandidate (pc : PocContext) (candidateAddr : Address) :
    PocContext × Option Error :=
  match pc.candidateTrie.TryDelete candidateAddr.Bytes with
  | .error .missingNode => (pc, none)
  | .error e => (pc, some (.trie e))
  | .ok t => ({ pc with candidateTrie := t }, none)

/-- Go `PocContext.BecomeCandidate`. -/
def PocContext.BecomeCandidate (pc : PocContext) (candidateAddr : Address) :
    PocContext × Option Error :=
  match pc.candidateTrie.TryUpdate candidateAddr.Bytes candidateAddr.Bytes with
  | .error e => (pc, some (.trie e))
  | .ok t => ({ pc with candidateTrie := t }, none)

/-- Go `PocContext.GetValidators`. -/
def PocContext.GetValidators (P : Params) (pc : PocContext) : Except Error (List Address) :=
  match P.DecodeValidators ((pc.epochTrie.Get validatorKey).getD []) with
  | none => .error .failedToDecodeValidators
  | some validators => .ok validators

/-- Go `PocContext.SetValidators`; encoding a list of addresses does not fail. -/
def PocContext.SetValidators (P : Params) (pc : PocContext) (validators : List Address) :
    PocContext × Option Error :=
  ({ pc with epochTrie := pc.epochTrie.Update validatorKey (P.EncodeValidators validators) }, none)

/-- Go `PocContext.SetContributions`. -/
def PocContext.SetContributions (P : Params) (pc : PocContext)
    (contributions : List AccountContribution) : PocContext × Option Error :=
  match P.EncodeContributions contributions with
  | none => (pc, some .failedToEncodeContributions)
  | some contributionsRLP =>
    ({ pc with contributionTrie := pc.contributionTrie.Update contributionKey contributionsRLP },
      none)

/-- Go `PocContext.SetEpoch`. -/
def PocContext.SetEpoch (pc : PocContext) (epoch : Trie) : PocContext :=
  { pc with epochTrie := epoch }

/-- Go `PocContext.GetCandidates`. -/
def PocContext.GetCandidates (pc : PocContext) : List Address :=
  pc.candidateTrie.iterate.map (fun e => BytesToAddress e.2)

/-! ## `poc.EpochContext` -/

/-- Go `types.Header`, the parts `tryElect` reads: `Time.Int64()` and `Hash().Bytes()`. -/
structure Header where
  Time : Int
  Hash : Bytes

/-- Go `poc.EpochContext`; `stateDB` is `stateDB.GetContribution`. -/
structure EpochContext where
  TimeStamp : Int
  PocContext : PocContext
  stateDB : Address → Int

/-- Go `sortableAddress`. -/
structure sortableAddress where
  address : Address
  weight : Int
deriving DecidableEq

/-- Go `sortableAddresses.Less`, on the two entries it compares. -/
def Less (P : Params) (pi pj : sortableAddress) : Bool :=
  if pi.weight < pj.weight then false
  else if pi.weight > pj.weight then true
  else bytesLt (P.addressString pi.address) (P.addressString pj.address)

/-- Insertion of an element behind every element that is less than it. -/
def insertInOrder {α : Type} (less : α → α → Bool) (a : α) : List α → List α
  | [] => [a]
  | b :: l => if less b a then b :: insertInOrder less a l else a :: b :: l

/-- Go `sort.Sort` with the given `Less`: a rearrangement in which no element is less than
an earlier one. Where `Less` is a strict total order, as `sortableAddresses.Less` is, there
is one such rearrangement (`sortSort_unique`). -/
def sortSort {α : Type} (less : α → α → Bool) : List α → List α
  | [] => []
  | a :: l => insertInOrder less a (sortSort less l)

/-- The epoch duration `kickoutValidator` computes first. -/
def epochDuration (P : Params) (ec : EpochContext) : Int :=
  if int64 (ec.TimeStamp - P.timeOfFirstBlock) < P.epochInterval then
    int64 (ec.TimeStamp - P.timeOfFirstBlock)
  else P.epochInterval

/-- The bound `epochDuration/blockInterval/maxValidatorSize/2` of `kickoutValidator`. -/
def kickoutThreshold (P : Params) (ec : EpochContext) : Int :=
  Int.tdiv (Int.tdiv (Int.tdiv (epochDuration P ec) P.blockInterval) P.maxValidatorSize) 2

/-- The count `cnt` that `kickoutValidator` reads for a validator; `none` is the panic of
`binary.BigEndian.Uint64` on a value shorter than eight bytes. -/
def mintCnt (ec : EpochContext) (epoch : Int) (validator : Address) : Option Int :=
  match ec.PocContext.mintCntTrie.Get (PutUint64 (uint64 epoch) ++ validator.Bytes) with
  | none => some 0
  | some cntBytes => (Uint64 cntBytes).map (fun (n : Nat) => int64 (n : Int))

/-- The first loop of `kickoutValidator`: the validators to kick out, with their counts. -/
def needKickoutValidators (P : Params) (ec : EpochContext) (epoch : Int) :
    List Address → Option (List sortableAddress)
  | [] => some []
  | validator :: rest =>
    match mintCnt ec epoch validator with
    | none => none
    | some cnt =>
      match needKickoutValidators P ec epoch rest with
      | none => none
      | some l => if cnt < kickoutThreshold P ec then some (⟨validator, cnt⟩ :: l) else some l

/-- The second loop of `kickoutValidator`: counting candidates up to a limit. -/
def countCandidates (limit : Nat) : List (Bytes × Bytes) → Nat → Nat
  | [], candidateCount => candidateCount
  | _ :: rest, candidateCount =>
    if candidateCount + 1 ≥ limit then candidateCount + 1
    else countCandidates limit rest (candidateCount + 1)

/-- The third loop of `kickoutValidator`. -/
def kickoutLoop (P : Params) : PocContext → Nat → List sortableAddress → PocContext × Option Error
  | pc, _, [] => (pc, none)
  | pc, candidateCount, validator :: rest =>
    if candidateCount ≤ P.safeSize then (pc, none)
    else
      match pc.KickoutCandidate validator.address with
      | (pc1, some err) => (pc1, some err)
      | (pc1, none) => kickoutLoop P pc1 (candidateCount - 1) rest

/-- Go `EpochContext.kickoutValidator`. -/
def kickoutValidator (P : Params) (ec : EpochContext) (epoch : Int) : EpochContext × Option Error :=
  match ec.PocContext.GetValidators P with
  | .error _ => (ec, some .failedToGetValidator)
  | .ok validators =>
    if validators.length = 0 then (ec, some .noValidatorCouldBeKickout)
    else
      match needKickoutValidators P ec epoch validators with
      | none => (ec, some .panic)
      | some needKickout =>
        if needKickout.length ≤ 0 then (ec, none)
        else
          let sorted := sortSort (fun a b => Less P b a) needKickout
          let candidateCount :=
            countCandidates (needKickout.length + P.safeSize) ec.PocContext.candidateTrie.iterate 0
          let r := kickoutLoop P ec.PocContext candidateCount sorted
          ({ ec with PocContext := r.1 }, r.2)

/-- Go `EpochContext.lookupValidator`. -/
def lookupValidator (P : Params) (ec : EpochContext) (now : Int) : Except Error Address :=
  let offset := Int.tmod now P.epochInterval
  if Int.tmod offset P.blockInterval ≠ 0 then .error .ErrInvalidMintBlockTime
  else
    let offset := Int.tdiv offset P.blockInterval
    match ec.PocContext.GetValidators P with
    | .error e => .error e
    | .ok validators =>
      if validators.length = 0 then .error .failedToLookupValidator
      else
        let offset := Int.tmod offset validators.length
        if offset < 0 then .error .panic
        else
          match validators.get? offset.toNat with
          | some validator => .ok validator
          | none => .error .panic

/-- Go `EpochContext.countContributions`. -/
def countContributions (ec : EpochContext) : Except Error (List AccountContribution) :=
  match ec.PocContext.candidateTrie.iterate with
  | [] => .error .noCandidates
  | e :: es =>
    .ok ((e :: es).map (fun c =>
      ⟨BytesToAddress c.2, ec.stateDB (BytesToAddress c.2)⟩))

/-- The exchange `c[i], c[j] = c[j], c[i]`. -/
def swap {α : Type} (c : List α) (i j : Nat) : List α :=
  match c.get? i, c.get? j with
  | some a, some b => (c.set i b).set j a
  | _, _ => c

/-- The shuffle loop of `tryElect`, `for i := len(c) - 1; i > 0; i--`, entered with `i`
and the generator state `r`. -/
def shuffle {α : Type} (P : Params) : Nat → Nat → List α → List α
  | 0, _, c => c
  | i + 1, r, c => shuffle P i (P.Int31n r (i + 1 + 1)).2 (swap c (i + 1) (P.Int31n r (i + 1 + 1)).1)

/-- The part of the loop body of `tryElect` from `sort.Sort(candidates)` to the shuffled
`sortedValidators`, for the loop variable `i`. -/
def sortedValidators (P : Params) (candidates : List sortableAddress) (parent : Header) (i : Int) :
    List Address :=
  let candidates := sortSort (Less P) candidates
  let candidates :=
    if candidates.length > P.maxValidatorSize then candidates.take P.maxValidatorSize
    else candidates
  let seed := int64 (P.keccakSeed parent.Hash + i)
  let candidates := shuffle P (candidates.length - 1) (P.NewSource seed) candidates
  candidates.map (fun c => c.address)

/-- The body of the loop of `tryElect` after the kickout: the election of epoch `i`. -/
def elect (P : Params) (ec : EpochContext) (parent : Header) (i : Int) :
    EpochContext × Option Error :=
  match countContributions ec with
  | .error e => (ec, some e)
  | .ok ctbs =>
    let candidates := ctbs.map (fun c => (⟨c.Account, c.Contribution⟩ : sortableAddress))
    if candidates.length < P.safeSize then (ec, some .tooFewCandidates)
    else
      let pc := ec.PocContext.SetEpoch Trie.empty
      match pc.SetValidators P (sortedValidators P candidates parent i) with
      | (pc1, some err) => ({ ec with PocContext := pc1 }, some err)
      | (pc1, none) =>
        match pc1.SetContributions P ctbs with
        | (pc2, some err) => ({ ec with PocContext := pc2 }, some err)
        | (pc2, none) => ({ ec with PocContext := pc2 }, none)

/-- The list `candidates` that the loop body of `tryElect` builds from the result of
`countContributions`: every candidate of the candidate trie with its contribution. -/
def candidatesOf (ec : EpochContext) : List sortableAddress :=
  ec.PocContext.GetCandidates.map (fun a => ⟨a, ec.stateDB a⟩)

/-- The loop of `tryElect`, with `n` iterations left, entered with the loop variable `i`
and the bindings `iter` has not visited yet. -/
def tryElectLoop (P : Params) (parent : Header) (prevEpoch : Int) (prevEpochIsGenesis : Bool) :
    Nat → Int → List (Bytes × Bytes) → EpochContext → EpochContext × Option Error
  | 0, _, _, ec => (ec, none)
  | n + 1, i, iter, ec =>
    let kicked :=
      if !prevEpochIsGenesis && !iter.isEmpty then kickoutValidator P ec prevEpoch else (ec, none)
    match kicked with
    | (ec1, some err) => (ec1, some err)
    | (ec1, none) =>
      match elect P ec1 parent i with
      | (ec2, some err) => (ec2, some err)
      | (ec2, none) =>
        tryElectLoop P parent prevEpoch prevEpochIsGenesis n (i + 1)
          (if prevEpochIsGenesis then iter else iter.tail) ec2

/-- Go `EpochContext.tryElect`. -/
def tryElect (P : Params) (ec : EpochContext) (genesis parent : Header) :
    EpochContext × Option Error :=
  let genesisEpoch := Int.tdiv genesis.Time P.epochInterval
  let prevEpoch := Int.tdiv parent.Time P.epochInterval
  let currentEpoch := Int.tdiv ec.TimeStamp P.epochInterval
  let prevEpochIsGenesis := decide (prevEpoch = genesisEpoch)
  let prevEpoch :=
    if prevEpochIsGenesis && decide (prevEpoch < currentEpoch) then currentEpoch - 1 else prevEpoch
  let prevEpochBytes := PutUint64 (uint64 prevEpoch)
  let iter := ec.PocContext.mintCntTrie.iteratePrefixed prevEpochBytes
  tryElectLoop P parent prevEpoch prevEpochIsGenesis (currentEpoch - prevEpoch).toNat prevEpoch
    iter ec

/-- What an election reads from two contexts is the same: the time stamp, the candidate trie,
the mint counts, the stored validators, and the contribution of every candidate. -/
def sameElectionInput (P : Params) (ec1 ec2 : EpochContext) : Prop :=
  ec1.TimeStamp = ec2.TimeStamp
    ∧ ec1.PocContext.candidateTrie = ec2.PocContext.candidateTrie
    ∧ ec1.PocContext.mintCntTrie = ec2.PocContext.mintCntTrie
    ∧ ec1.PocContext.GetValidators P = ec2.PocContext.GetValidators P
    ∧ ∀ a ∈ ec1.PocContext.GetCandidates, ec1.stateDB a = ec2.stateDB a

/-! ## A concrete instance of the parameters

Used to run the engine on concrete inputs: a length-prefixed encoding of address lists,
the identity as `Address.String`, and a generator that always draws `0`. -/

/-- The concatenation of the addresses, each behind the byte `148`. -/
def sampleEncodeItems : List Address → Bytes
  | [] => []
  | a :: vs => 148 :: (a.bytes ++ sampleEncodeItems vs)

/-- The inverse of `sampleEncodeItems`, reading at most `n` addresses. -/
def sampleDecodeItems : Nat → Bytes → Option (List Address)
  | _, [] => some []
  | 0, _ :: _ => none
  | n + 1, b :: rest =>
    if h : b = 148 ∧ (rest.take 20).length = 20 then
      (sampleDecodeItems n (rest.drop 20)).map (fun vs => ⟨rest.take 20, h.2⟩ :: vs)
    else none

/-- The sample encoding of a validator list. -/
def sampleEncode (vs : List Address) : Bytes := 192 :: sampleEncodeItems vs

/-- The sample decoding of a validator list. -/
def sampleDecode : Bytes → Option (List Address)
  | [] => none
  | b :: rest => if b = 192 then sampleDecodeItems rest.length rest else none

theorem sampleDecodeItems_encode (vs : List Address) (n : Nat)
    (h : (sampleEncodeItems vs).length ≤ n) :
    sampleDecodeItems n (sampleEncodeItems vs) = some vs := by
  induction vs generalizing n with
  | nil => cases n <;> rfl
  | cons a vs ih =>
    cases n with
    | zero => simp [sampleEncodeItems] at h
    | succ n =>
      have h1 : (a.bytes ++ sampleEncodeItems vs).take 20 = a.bytes := by
        rw [List.take_append_of_le_length (by rw [a.len])]
        exact List.take_of_length_le (by rw [a.len])
      have h2 : (a.bytes ++ sampleEncodeItems vs).drop 20 = sampleEncodeItems vs := by
        rw [← a.len]; exact List.drop_left _ _
      have h3 : (sampleEncodeItems vs).length ≤ n := by
        simp only [sampleEncodeItems, List.length_cons, List.length_append] at h; omega
      simp only [sampleEncodeItems, sampleDecodeItems]
      rw [dif_pos ⟨trivial, by rw [h1]; exact a.len⟩]
      simp only [h2, ih n h3, Option.map_some']
      congr 2
      cases a
      simp only [Address.mk.injEq]
      exact h1

/-- Parameters with the given constants and the sample library functions. -/
def sampleParams (epochInterval blockInterval : Int) (maxValidatorSize safeSize : Nat)
    (timeOfFirstBlock : Int) (hE : 0 < epochInterval) (hB : 0 < blockInterval)
    (hM : 0 < maxValidatorSize) (hM2 : maxValidatorSize < 2 ^ 31) : Params where
  epochInterval := epochInterval
  blockInterval := blockInterval
  maxValidatorSize := maxValidatorSize
  safeSize := safeSize
  timeOfFirstBlock := timeOfFirstBlock
  addressString := fun a => a.bytes
  EncodeValidators := sampleEncode
  DecodeValidators := sampleDecode
  EncodeContributions := fun _ => some [192]
  keccakSeed := fun _ => 0
  NewSource := fun _ => 0
  Int31n := fun s _ => (0, s)
  rootHash := fun es => es.flatMap (fun e => e.1 ++ e.2)
  epochInterval_pos := hE
  blockInterval_pos := hB
  maxValidatorSize_pos := hM
  maxValidatorSize_lt := hM2
  addressString_inj := fun a b h => by cases a; cases b; simpa using h
  decode_encode := fun vs => by
    simp only [sampleEncode, sampleDecode, if_true]
    exact sampleDecodeItems_encode vs _ (le_refl _)
  decode_nil := rfl
  encode_ne_nil := fun vs => by simp [sampleEncode]
  Int31n_lt := fun _ _ h => h

/-- The address `common.BytesToAddress([]byte{n})`. -/
def addr (n : Byte) : Address := BytesToAddress [n]

/-- Sample constants: epochs of 1200 seconds, a block every 10 seconds, at most 5 validators,
a safe size of 3, first block at time 0. The kickout bound of a full epoch is 12. -/
def smallNet : Params :=
  sampleParams 1200 10 5 3 0 (by decide) (by decide) (by decide) (by decide)

/-- A context of five empty tries, as `NewPocContext` returns it. -/
def emptyPocContext : PocContext := ⟨Trie.empty, Trie.empty, Trie.empty, Trie.empty, Trie.empty⟩

/-- The context after the count `n` was written for the validator in the epoch. -/
def withMintCnt (pc : PocContext) (epoch : Int) (validator : Address) (n : Nat) : PocContext :=
  { pc with mintCntTrie :=
      pc.mintCntTrie.Update (PutUint64 (uint64 epoch) ++ validator.Bytes) (PutUint64 n) }

/-- A context in the manner of the tests: each listed validator is a candidate with the listed
count in epoch 1, the other addresses are candidates, and the validators are stored. -/
def samplePocContext (P : Params) (validators : List (Byte × Nat)) (others : List Byte) :
    PocContext :=
  let pc := validators.foldl
    (fun pc v => withMintCnt (pc.BecomeCandidate (addr v.1)).1 1 (addr v.1) v.2) emptyPocContext
  let pc := others.foldl (fun pc v => (pc.BecomeCandidate (addr v)).1) pc
  (pc.SetValidators P (validators.map (fun v => addr v.1))).1

/-- Five validators that each minted 11 blocks in epoch 1, below the bound 12, and one more
candidate; the contribution of an address is its last byte plus one. -/
def sampleEpochContext : EpochContext :=
  ⟨1200, samplePocContext smallNet [(0, 11), (1, 11), (2, 11), (3, 11), (4, 11)] [77],
    fun a => (a.bytes.getLastD 0).val + 1⟩

/-- Sample constants whose epoch is not a whole number of block intervals. -/
def oddNet : Params :=
  sampleParams 15 10 5 3 0 (by decide) (by decide) (by decide) (by decide)

/-- Sample constants whose epoch holds two block intervals. -/
def shortNet : Params :=
  sampleParams 20 10 5 3 0 (by decide) (by decide) (by decide) (by decide)

/-- A context whose stored validators are the addresses 0, 1 and 2. -/
def threeValidators : EpochContext :=
  ⟨0, samplePocContext smallNet [(0, 0), (1, 0), (2, 0)] [], fun _ => 0⟩

/-- Five validators of which only the address 1 minted fewer blocks than the bound 12 in
epoch 1, and one more candidate. -/
def oneIdleValidator : EpochContext :=
  ⟨1200, samplePocContext smallNet [(0, 12), (1, 11), (2, 12), (3, 12), (4, 12)] [9],
    fun _ => 0⟩

/-- Five validators, all candidates and no other candidate, that minted 11, 10, 9, 8 and 7
blocks in epoch 1, all below the bound 12. -/
def allIdleValidators : EpochContext :=
  ⟨1200, samplePocContext smallNet [(0, 11), (1, 10), (2, 9), (3, 8), (4, 7)] [],
    fun _ => 0⟩

/-- A context without stored validators and without candidates. -/
def emptyEpochContext : EpochContext := ⟨1200, emptyPocContext, fun _ => 0⟩

/-- Two validators, both candidates and no other candidate: fewer than the safe size 3. -/
def twoCandidates : EpochContext :=
  ⟨1200, samplePocContext smallNet [(0, 11), (1, 11)] [], fun _ => 0⟩

/-- The sample context one epoch later, at time 2400. -/
def laterEpochContext : EpochContext := { sampleEpochContext with TimeStamp := 2400 }

/-- The context `laterEpochContext` with another epoch trie: the address 0 is the one stored
validator. -/
def laterOneValidator : EpochContext :=
  { laterEpochContext with
    PocContext := (laterEpochContext.PocContext.SetValidators smallNet [addr 0]).1 }

/-- The context `laterEpochContext` with another mint-count trie: the address 4 minted 12
blocks in epoch 1. -/
def laterBusyValidator : EpochContext :=
  { laterEpochContext with PocContext := withMintCnt laterEpochContext.PocContext 1 (addr 4) 12 }

/-! ## `common.Hash` and the encoding of byte strings -/

/-- Go `common.Address{}`, the zero address. -/
def Address.zero : Address := ⟨List.replicate 20 0, rfl⟩

/-- Go `common.Hash`, a 32-byte array. -/
structure Hash where
  bytes : Bytes
  len : bytes.length = 32
deriving DecidableEq

/-- Go `common.Hash{}`, the zero hash. -/
def Hash.zero : Hash := ⟨List.replicate 32 0, rfl⟩

/-- Go `common.BytesToHash`, which is `Hash.SetBytes`: the last 32 bytes of the argument,
left-padded with zeros. Package `common` is the one of go-ethereum; no digest is taken. -/
def BytesToHash (b : Bytes) : Hash :=
  ⟨List.replicate (32 - b.length) 0 ++ b.drop (b.length - 32), by
    simp only [List.length_append, List.length_replicate, List.length_drop]; omega⟩

/-- Go `Address.Hash`: `BytesToHash` of the 20 bytes. -/
def Address.Hash (a : Address) : Hash := BytesToHash a.bytes

/-- The big-endian bytes of a number, without leading zeros, at most `fuel` of them. -/
def bigEndian : Nat → Nat → Bytes → Bytes
  | 0, _, acc => acc
  | fuel + 1, n, acc =>
    if n = 0 then acc else bigEndian fuel (n / 256) (Fin.ofNat (n % 256) :: acc)

/-- Go `rlp.EncodeToBytes` on a `[]byte`, the RLP encoding of a byte string: a single byte
below 128 is its own encoding, a string of fewer than 56 bytes follows the byte
`128 + length`, a longer one follows `183 + n` and the `n` big-endian bytes of its length. -/
def rlpEncodeBytes (b : Bytes) : Bytes :=
  match b with
  | [x] => if x.val < 128 then [x] else [129, x]
  | _ =>
    if b.length < 56 then Fin.ofNat (128 + b.length) :: b
    else Fin.ofNat (183 + (bigEndian 8 b.length []).length) :: (bigEndian 8 b.length [] ++ b)

/-! ## The account state -/

/-- Modelled from the spec: an account of the account state, whose file `statedb.go` is not
among the sources, with the fields `nonce`, `balance`, `contribution` and `records`. -/
structure Account where
  Nonce : Nat
  Balance : Int
  Contribution : Int
  Records : List Hash
deriving DecidableEq

/-- Modelled from the spec: a fresh account, with nonce, balance and contribution zero and no
records. -/
def Account.new : Account := ⟨0, 0, 0, []⟩

/-- Modelled from the spec: an account is empty when its nonce, balance and contribution are
zero, the test that `state_object_record.go` keeps in a comment. -/
def Account.empty (a : Account) : Bool :=
  decide (a.Nonce = 0) && decide (a.Balance = 0) && decide (a.Contribution = 0)

/-- Modelled from the spec: the binding of an address in a list of accounts. -/
def lookupAccount (a : Address) (l : List (Address × Account)) : Option Account :=
  (l.find? (fun e => decide (e.1 = a))).map Prod.snd

/-- Modelled from the spec: replacement of the binding of an address, or a new binding at the
end. -/
def setAccount (a : Address) (v : Account) : List (Address × Account) → List (Address × Account)
  | [] => [(a, v)]
  | e :: rest => if e.1 = a then (a, v) :: rest else e :: setAccount a v rest

theorem setAccount_fst_mem {a : Address} {v : Account} {l : List (Address × Account)}
    {b : Address} (h : b ∈ (setAccount a v l).map Prod.fst) : b = a ∨ b ∈ l.map Prod.fst := by
  induction l with
  | nil => simp [setAccount] at h; exact Or.inl h
  | cons e rest ih =>
    unfold setAccount at h
    split at h
    · rename_i he
      simp only [List.map_cons, List.mem_cons] at h ⊢
      rcases h with h | h
      · exact Or.inl h
      · exact Or.inr (Or.inr h)
    · simp only [List.map_cons, List.mem_cons] at h ⊢
      rcases h with h | h
      · exact Or.inr (Or.inl h)
      · rcases ih h with h | h
        · exact Or.inl h
        · exact Or.inr (Or.inr h)

theorem setAccount_nodup (a : Address) (v : Account) {l : List (Address × Account)}
    (h : (l.map Prod.fst).Nodup) : ((setAccount a v l).map Prod.fst).Nodup := by
  induction l with
  | nil => simp [setAccount]
  | cons e rest ih =>
    simp only [List.map_cons, List.nodup_cons] at h
    unfold setAccount
    split
    · rename_i he
      simp only [List.map_cons, List.nodup_cons]
      exact ⟨he ▸ h.1, h.2⟩
    · rename_i he
      simp only [List.map_cons, List.nodup_cons]
      refine ⟨?_, ih h.2⟩
      intro hm
      rcases setAccount_fst_mem hm with hm | hm
      · exact he hm
      · exact h.1 hm

/-- Modelled from the spec: the account state `state.StateDB`, whose file `statedb.go` is not
among the sources. The spec gives an account the fields `nonce`, `balance`, `contribution`
and `records`, creates accounts lazily on first reference, and lets `Finalise` walk the dirty
set and delete an account that is empty when that is requested. The state is the list of its
accounts, one binding for an address, with the addresses touched since the last `Finalise`. -/
structure StateDB where
  accounts : List (Address × Account)
  nodup : (accounts.map Prod.fst).Nodup
  dirty : List Address
deriving DecidableEq

/-- Modelled from the spec: a state without accounts. -/
def StateDB.empty : StateDB := ⟨[], List.nodup_nil, []⟩

/-- Modelled from the spec: the account of an address, `none` when there is none. -/
def StateDB.getAccount (s : StateDB) (a : Address) : Option Account := lookupAccount a s.accounts

/-- Modelled from the spec: `StateDB.Exist`. -/
def StateDB.Exist (s : StateDB) (a : Address) : Bool := (s.getAccount a).isSome

/-- Modelled from the spec: the write of an account, which enters the dirty set. -/
def StateDB.setAccount (s : StateDB) (a : Address) (v : Account) : StateDB :=
  ⟨AQChain.setAccount a v s.accounts, setAccount_nodup a v s.nodup,
    if a ∈ s.dirty then s.dirty else s.dirty ++ [a]⟩

/-- Modelled from the spec: a change of the account of an address, which is created first
when there is none. -/
def StateDB.update (s : StateDB) (a : Address) (f : Account → Account) : StateDB :=
  s.setAccount a (f ((s.getAccount a).getD Account.new))

/-- Modelled from the spec: `StateDB.CreateAccount`, a fresh account that carries over the
balance of an account it replaces. -/
def StateDB.CreateAccount (s : StateDB) (a : Address) : StateDB :=
  s.setAccount a { Account.new with Balance := ((s.getAccount a).getD Account.new).Balance }

/-- Modelled from the spec: `StateDB.GetNonce`, zero without an account. -/
def StateDB.GetNonce (s : StateDB) (a : Address) : Nat := ((s.getAccount a).getD Account.new).Nonce

/-- Modelled from the spec: `StateDB.SetNonce`. -/
def StateDB.SetNonce (s : StateDB) (a : Address) (n : Nat) : StateDB :=
  s.update a (fun v => { v with Nonce := n })

/-- Modelled from the spec: `StateDB.GetBalance`, zero without an account. -/
def StateDB.GetBalance (s : StateDB) (a : Address) : Int :=
  ((s.getAccount a).getD Account.new).Balance

/-- Modelled from the spec: `StateDB.AddBalance`. -/
def StateDB.AddBalance (s : StateDB) (a : Address) (amount : Int) : StateDB :=
  s.update a (fun v => { v with Balance := v.Balance + amount })

/-- Modelled from the spec: `StateDB.SubBalance`. -/
def StateDB.SubBalance (s : StateDB) (a : Address) (amount : Int) : StateDB :=
  s.update a (fun v => { v with Balance := v.Balance - amount })

/-- Modelled from the spec: `StateDB.GetContribution`, zero without an account. -/
def StateDB.GetContribution (s : StateDB) (a : Address) : Int :=
  ((s.getAccount a).getD Account.new).Contribution

/-- Modelled from the spec: `StateDB.AddContribution`. -/
def StateDB.AddContribution (s : StateDB) (a : Address) (amount : Int) : StateDB :=
  s.update a (fun v => { v with Contribution := v.Contribution + amount })

/-- Modelled from the spec: the records of an account, none without an account. -/
def StateDB.GetRecords (s : StateDB) (a : Address) : List Hash :=
  ((s.getAccount a).getD Account.new).Records

/-- Modelled from the spec: `StateDB.AddRecords`, which appends a hash to the records. -/
def StateDB.AddRecords (s : StateDB) (a : Address) (h : Hash) : StateDB :=
  s.update a (fun v => { v with Records := v.Records ++ [h] })

/-- Modelled from the spec: `StateDB.RemoveRecords`, which takes a hash out of the records. -/
def StateDB.RemoveRecords (s : StateDB) (a : Address) (h : Hash) : StateDB :=
  s.update a (fun v => { v with Records := v.Records.filter (fun x => !decide (x = h)) })

/-- Modelled from the spec: `StateDB.Finalise`, which deletes the dirty accounts that are
empty when `deleteEmptyObjects` is set, writes the other dirty accounts, and clears the
dirty set with the journal. -/
def StateDB.Finalise (s : StateDB) (deleteEmptyObjects : Bool) : StateDB :=
  ⟨s.accounts.filter (fun e => !(deleteEmptyObjects && decide (e.1 ∈ s.dirty) && e.2.empty)),
    (s.nodup.sublist ((List.filter_sublist _).map _)), []⟩

/-- The sum of the balances of all accounts. -/
def StateDB.totalBalance (s : StateDB) : Int := (s.accounts.map (fun e => e.2.Balance)).sum

/-! ## `state.StateDBRecord`

A pointer to a state object is the object it points to: a method of an object takes the
state and the object and returns both, and the object it returns is the one the live set
holds under the hash. The maps of Go are lists of bindings, walked in the order of insertion.
The log and preimage fields, which no transaction writes, are left out. -/

/-- Go `state.Record`. -/
structure Record where
  Origin : Address
  Owner : Address
  Txs : List Hash
  Status : Fin 256
  Root : Hash
deriving DecidableEq

/-- Go `Record{}`, the zero record. -/
def Record.zero : Record := ⟨Address.zero, Address.zero, [], 0, Hash.zero⟩

/-- Go `state.Storage`, a `map[common.Hash]common.Hash`. -/
abbrev Storage := List (Hash × Hash)

/-- Go `state.stateObjectRecord`; `onDirty` tells whether the callback is still set. The
field `confirmTrie`, which nothing reads or writes, is left out. -/
structure stateObjectRecord where
  hash : Hash
  data : Record
  dbErr : Option TrieError
  trie : Option Trie
  cachedStorage : Storage
  dirtyStorage : Storage
  suicided : Bool
  touched : Bool
  deleted : Bool
  onDirty : Bool
deriving DecidableEq

/-- Go `journalEntryRecord`, the entries of the journal. The type `txsChange`, which
`SetTxs` appends, is declared like its siblings `originChange` and `ownerChange`. -/
inductive journalEntryRecord where
  | createObjectChangeRecord (record : Hash)
  | resetObjectChangeRecord (prev : stateObjectRecord)
  | suicideChangeRecord (record : Hash) (prev : Bool) (prevbalance : Int)
  | storageChangeRecord (account : Hash) (key prevalue : Hash)
  | addLogChangeRecord (txhash : Hash)
  | addPreimageChangeRecord (hash : Hash)
  | touchChangeRecord (account : Hash) (prev prevDirty : Bool)
  | originChange (hash : Hash) (prev : Address)
  | ownerChange (hash : Hash) (prev : Address)
  | statusChange (hash : Hash) (prev : Fin 256)
  | txsChange (hash : Hash) (prev : List Hash)
deriving DecidableEq

/-- Go `state.revision`. -/
structure revision where
  id : Int
  journalIndex : Nat
deriving DecidableEq

/-- Go `state.StateDBRecord`. -/
structure StateDBRecord where
  trie : Trie
  stateObjects : List (Hash × stateObjectRecord)
  stateObjectsDirty : List Hash
  dbErr : Option TrieError
  journal : List journalEntryRecord
  validRevisions : List revision
  nextRevisionId : Int
deriving DecidableEq

/-- What package `state` uses without defining it: the database that opens storage tries,
and `rlp` on records. -/
structure StateParams where
  /-- Go `Database.OpenStorageTrie` of a record hash and a root; the zero root opens the
  empty trie. -/
  OpenStorageTrie : Hash → Hash → Except TrieError Trie
  /-- Go `rlp.EncodeToBytes` on a state object, the encoding of its record. -/
  EncodeRecord : Record → Bytes
  /-- Go `rlp.DecodeBytes` into a `Record`; `none` is a decoding error. -/
  DecodeRecord : Bytes → Option Record
  /-- The root hash of the account trie that holds a list of accounts. -/
  accountsRoot : List (Address × Account) → Bytes
  open_zero : ∀ h, OpenStorageTrie h Hash.zero = .ok Trie.empty

/-- Modelled from the spec: `StateDB.IntermediateRoot`, which is `Finalise` and the root
hash of the account trie. -/
def StateDB.IntermediateRoot (D : StateParams) (s : StateDB) (deleteEmptyObjects : Bool) :
    StateDB × Bytes :=
  (s.Finalise deleteEmptyObjects, D.accountsRoot (s.Finalise deleteEmptyObjects).accounts)

/-- Go `stateObjectRecord.empty`. -/
def stateObjectRecord.empty (_ : stateObjectRecord) : Bool := false

/-- Go `newObjectRecord`. -/
def newObjectRecord (address : Hash) (data : Record) : stateObjectRecord :=
  { hash := address, data := data, dbErr := none, trie := none, cachedStorage := [],
    dirtyStorage := [], suicided := false, touched := false, deleted := false, onDirty := true }

/-- Go `NewRecord` on an opened trie. -/
def NewRecord (tr : Trie) : StateDBRecord :=
  { trie := tr, stateObjects := [], stateObjectsDirty := [], dbErr := none, journal := [],
    validRevisions := [], nextRevisionId := 0 }

/-- Go `StateDBRecord.setError`. -/
def StateDBRecord.setError (self : StateDBRecord) (err : Option TrieError) : StateDBRecord :=
  if self.dbErr = none then { self with dbErr := err } else self

/-- Go `stateObjectRecord.setError`. -/
def stateObjectRecord.setError (self : stateObjectRecord) (err : Option TrieError) :
    stateObjectRecord :=
  if self.dbErr = none then { self with dbErr := err } else self

/-- Go `self.stateObjects[addr]`. -/
def StateDBRecord.liveObject (self : StateDBRecord) (addr : Hash) : Option stateObjectRecord :=
  (self.stateObjects.find? (fun e => decide (e.1 = addr))).map Prod.snd

/-- Replacement of the binding of a hash, or a new binding at the end. -/
def setObject (object : stateObjectRecord) :
    List (Hash × stateObjectRecord) → List (Hash × stateObjectRecord)
  | [] => [(object.hash, object)]
  | e :: rest =>
    if e.1 = object.hash then (object.hash, object) :: rest else e :: setObject object rest

/-- Go `StateDBRecord.setStateObject`. -/
def StateDBRecord.setStateObject (self : StateDBRecord) (object : stateObjectRecord) :
    StateDBRecord :=
  { self with stateObjects := setObject object self.stateObjects }

/-- Go `StateDBRecord.MarkStateObjectDirty`. -/
def StateDBRecord.MarkStateObjectDirty (self : StateDBRecord) (addr : Hash) : StateDBRecord :=
  { self with
    stateObjectsDirty :=
      if addr ∈ self.stateObjectsDirty then self.stateObjectsDirty
      else self.stateObjectsDirty ++ [addr] }

/-- Go `StateDBRecord.getStateObject`: a deleted live object reads as `nil`, an object that
is not live is loaded from the trie into the live set, and a read error is remembered. -/
def StateDBRecord.getStateObject (D : StateParams) (self : StateDBRecord) (addr : Hash) :
    StateDBRecord × Option stateObjectRecord :=
  match self.liveObject addr with
  | some obj => if obj.deleted then (self, none) else (self, some obj)
  | none =>
    match self.trie.TryGet addr.bytes with
    | .error err => (self.setError (some err), none)
    | .ok none => (self.setError none, none)
    | .ok (some enc) =>
      if enc.length = 0 then (self.setError none, none)
      else
        match D.DecodeRecord enc with
        | none => (self, none)
        | some data => (self.setStateObject (newObjectRecord addr data), some (newObjectRecord addr data))

/-- The callback of a setter: the object enters the dirty set once, and is written back. -/
def stateObjectRecord.markDirty (db : StateDBRecord) (self : stateObjectRecord) :
    StateDBRecord × stateObjectRecord :=
  ((if self.onDirty then db.MarkStateObjectDirty self.hash else db).setStateObject
      { self with onDirty := false },
    { self with onDirty := false })

/-- Go `stateObjectRecord.setOrigin`. -/
def stateObjectRecord.setOrigin (db : StateDBRecord) (self : stateObjectRecord)
    (address : Address) : StateDBRecord × stateObjectRecord :=
  stateObjectRecord.markDirty db { self with data := { self.data with Origin := address } }

/-- Go `stateObjectRecord.SetOrigin`. -/
def stateObjectRecord.SetOrigin (db : StateDBRecord) (self : stateObjectRecord)
    (address : Address) : StateDBRecord × stateObjectRecord :=
  stateObjectRecord.setOrigin
    { db with journal := db.journal ++ [.originChange self.hash self.data.Origin] } self address

/-- Go `stateObjectRecord.setOwner`. -/
def stateObjectRecord.setOwner (db : StateDBRecord) (self : stateObjectRecord)
    (address : Address) : StateDBRecord × stateObjectRecord :=
  stateObjectRecord.markDirty db { self with data := { self.data with Owner := address } }

/-- Go `stateObjectRecord.SetOwner`. -/
def stateObjectRecord.SetOwner (db : StateDBRecord) (self : stateObjectRecord)
    (address : Address) : StateDBRecord × stateObjectRecord :=
  stateObjectRecord.setOwner
    { db with journal := db.journal ++ [.ownerChange self.hash self.data.Owner] } self address

/-- Go `stateObjectRecord.setTxs`. -/
def stateObjectRecord.setTxs (db : StateDBRecord) (self : stateObjectRecord)
    (txs : List Hash) : StateDBRecord × stateObjectRecord :=
  stateObjectRecord.markDirty db { self with data := { self.data with Txs := txs } }

/-- Go `stateObjectRecord.SetTxs`. -/
def stateObjectRecord.SetTxs (db : StateDBRecord) (self : stateObjectRecord)
    (txs : List Hash) : StateDBRecord × stateObjectRecord :=
  stateObjectRecord.setTxs
    { db with journal := db.journal ++ [.txsChange self.hash self.data.Txs] } self txs

/-- Go `stateObjectRecord.setStatus`. -/
def stateObjectRecord.setStatus (db : StateDBRecord) (self : stateObjectRecord)
    (status : Fin 256) : StateDBRecord × stateObjectRecord :=
  stateObjectRecord.markDirty db { self with data := { self.data with Status := status } }

/-- Go `stateObjectRecord.SetStatus`. -/
def stateObjectRecord.SetStatus (db : StateDBRecord) (self : stateObjectRecord)
    (status : Fin 256) : StateDBRecord × stateObjectRecord :=
  stateObjectRecord.setStatus
    { db with journal := db.journal ++ [.statusChange self.hash self.data.Status] } self status

/-- Go `StateDBRecord.createObject`: the new object has status 0 and is dirty from the
start, the journal keeps the hash or the object that was live under it, and the new object
replaces that one in the live set. -/
def StateDBRecord.createObject (D : StateParams) (self : StateDBRecord) (hash : Hash) :
    StateDBRecord × stateObjectRecord × Option stateObjectRecord :=
  match self.getStateObject D hash with
  | (s1, prev) =>
    let newobj : stateObjectRecord :=
      { newObjectRecord hash Record.zero with
        data := { Record.zero with Status := 0 }, onDirty := false }
    let s2 := s1.MarkStateObjectDirty hash
    let entry : journalEntryRecord :=
      match prev with
      | none => .createObjectChangeRecord hash
      | some p => .resetObjectChangeRecord p
    (StateDBRecord.setStateObject { s2 with journal := s2.journal ++ [entry] } newobj,
      newobj, prev)

/-- Go `StateDBRecord.GetOrNewStateObject`. -/
def StateDBRecord.GetOrNewStateObject (D : StateParams) (self : StateDBRecord) (addr : Hash) :
    StateDBRecord × stateObjectRecord :=
  match self.getStateObject D addr with
  | (s1, some stateObject) =>
    if stateObject.deleted then ((s1.createObject D addr).1, (s1.createObject D addr).2.1)
    else (s1, stateObject)
  | (s1, none) => ((s1.createObject D addr).1, (s1.createObject D addr).2.1)

/-- Go `StateDBRecord.CreateRecord`. -/
def StateDBRecord.CreateRecord (D : StateParams) (self : StateDBRecord) (addr : Hash) :
    StateDBRecord :=
  match self.createObject D addr with
  | (s1, new, some prev) => (stateObjectRecord.setOrigin s1 new prev.data.Origin).1
  | (s1, _, none) => s1

/-- Go `StateDBRecord.Exist`. -/
def StateDBRecord.Exist (D : StateParams) (self : StateDBRecord) (addr : Hash) :
    StateDBRecord × Bool :=
  ((self.getStateObject D addr).1, (self.getStateObject D addr).2.isSome)

/-- Go `StateDBRecord.GetOrigin`. -/
def StateDBRecord.GetOrigin (D : StateParams) (self : StateDBRecord) (addr : Hash) :
    StateDBRecord × Address :=
  match self.getStateObject D addr with
  | (s1, some stateObject) => (s1, stateObject.data.Origin)
  | (s1, none) => (s1, Address.zero)

/-- Go `StateDBRecord.GetOwner`. -/
def StateDBRecord.GetOwner (D : StateParams) (self : StateDBRecord) (addr : Hash) :
    StateDBRecord × Address :=
  match self.getStateObject D addr with
  | (s1, some stateObject) => (s1, stateObject.data.Owner)
  | (s1, none) => (s1, Address.zero)

/-- Go `StateDBRecord.GetStatus`. -/
def StateDBRecord.GetStatus (D : StateParams) (self : StateDBRecord) (addr : Hash) :
    StateDBRecord × Fin 256 :=
  match self.getStateObject D addr with
  | (s1, some stateObject) => (s1, stateObject.data.Status)
  | (s1, none) => (s1, 100)

/-- The transaction hashes of a record, `stateObjectRecord.Txs` of the object under the
hash, none without an object. -/
def StateDBRecord.GetTxs (D : StateParams) (self : StateDBRecord) (addr : Hash) :
    StateDBRecord × List Hash :=
  match self.getStateObject D addr with
  | (s1, some stateObject) => (s1, stateObject.data.Txs)
  | (s1, none) => (s1, [])

/-- Go `StateDBRecord.SetOrigin`. -/
def StateDBRecord.SetOrigin (D : StateParams) (self : StateDBRecord) (addr : Hash)
    (account : Address) : StateDBRecord :=
  match self.GetOrNewStateObject D addr with
  | (s1, stateObject) => (stateObjectRecord.SetOrigin s1 stateObject account).1

/-- Go `StateDBRecord.SetOwner`, which calls `SetOrigin` on the object. -/
def StateDBRecord.SetOwner (D : StateParams) (self : StateDBRecord) (addr : Hash)
    (account : Address) : StateDBRecord :=
  match self.GetOrNewStateObject D addr with
  | (s1, stateObject) => (stateObjectRecord.SetOrigin s1 stateObject account).1

/-- Modelled from the spec: `StateDBRecord.AddTxHash`, which `ApplyDataMessage` calls and
`statedb_record.go` does not define; it appends a transaction hash to the `txs` of a record. -/
def StateDBRecord.AddTxHash (D : StateParams) (self : StateDBRecord) (addr : Hash)
    (txHash : Hash) : StateDBRecord :=
  match self.GetOrNewStateObject D addr with
  | (s1, stateObject) =>
    (stateObjectRecord.SetTxs s1 stateObject (stateObject.data.Txs ++ [txHash])).1

/-- Go `stateObjectRecord.getTrie`: the storage trie, opened on first access; when the root
of the record cannot be opened the zero root is, and the error is remembered. -/
def stateObjectRecord.getTrie (D : StateParams) (self : stateObjectRecord) :
    stateObjectRecord × Trie :=
  match self.trie with
  | some t => (self, t)
  | none =>
    match D.OpenStorageTrie self.hash self.data.Root with
    | .ok t => ({ self with trie := some t }, t)
    | .error _ =>
      match D.OpenStorageTrie self.hash Hash.zero with
      | .ok t => (stateObjectRecord.setError { self with trie := some t } (some .other), t)
      | .error _ =>
        (stateObjectRecord.setError { self with trie := some Trie.empty } (some .other),
          Trie.empty)

/-- One round of the loop of `updateTrie`: the entry leaves `dirtyStorage`, and the storage
trie drops the key of a zero value or binds the key to the encoding of the value without its
leading zeros. -/
def stateObjectRecord.updateTrieEntry (self : stateObjectRecord) (tr : Trie) (key value : Hash) :
    stateObjectRecord × Trie :=
  let self1 : stateObjectRecord :=
    { self with dirtyStorage := self.dirtyStorage.filter (fun e => !decide (e.1 = key)) }
  if value = Hash.zero then
    match tr.TryDelete key.bytes with
    | .ok t1 => (self1.setError none, t1)
    | .error err => (self1.setError (some err), tr)
  else
    match tr.TryUpdate key.bytes (rlpEncodeBytes (value.bytes.dropWhile (fun b => decide (b = 0)))) with
    | .ok t1 => (self1.setError none, t1)
    | .error err => (self1.setError (some err), tr)

/-- The loop of `updateTrie` over the entries of `dirtyStorage`. -/
def stateObjectRecord.updateTrieLoop :
    List (Hash × Hash) → stateObjectRecord → Trie → stateObjectRecord × Trie
  | [], self, tr => (self, tr)
  | e :: rest, self, tr =>
    stateObjectRecord.updateTrieLoop rest (self.updateTrieEntry tr e.1 e.2).1
      (self.updateTrieEntry tr e.1 e.2).2

/-- Go `stateObjectRecord.updateTrie`. -/
def stateObjectRecord.updateTrie (D : StateParams) (self : stateObjectRecord) :
    stateObjectRecord × Trie :=
  match self.getTrie D with
  | (self1, tr) =>
    match stateObjectRecord.updateTrieLoop self1.dirtyStorage self1 tr with
    | (self2, tr2) => ({ self2 with trie := some tr2 }, tr2)

/-- Go `stateObjectRecord.updateRoot`; the bytes of the root hash are the `common.Hash`. -/
def stateObjectRecord.updateRoot (P : Params) (D : StateParams) (self : stateObjectRecord) :
    stateObjectRecord :=
  match self.updateTrie D with
  | (self1, tr) => { self1 with data := { self1.data with Root := BytesToHash (tr.Hash P) } }

/-- Go `StateDBRecord.updateStateObject`. -/
def StateDBRecord.updateStateObject (D : StateParams) (self : StateDBRecord)
    (stateObject : stateObjectRecord) : StateDBRecord :=
  match self.trie.TryUpdate stateObject.hash.bytes (D.EncodeRecord stateObject.data) with
  | .ok t1 => StateDBRecord.setError { self with trie := t1 } none
  | .error err => self.setError (some err)

/-- Go `StateDBRecord.deleteStateObject`. -/
def StateDBRecord.deleteStateObject (self : StateDBRecord) (stateObject : stateObjectRecord) :
    StateDBRecord :=
  match (self.setStateObject { stateObject with deleted := true }).trie.TryDelete
      stateObject.hash.bytes with
  | .ok t1 =>
    StateDBRecord.setError
      { self.setStateObject { stateObject with deleted := true } with trie := t1 } none
  | .error err => (self.setStateObject { stateObject with deleted := true }).setError (some err)

/-- Go `StateDBRecord.clearJournalAndRefund`. -/
def StateDBRecord.clearJournalAndRefund (s : StateDBRecord) : StateDBRecord :=
  { s with journal := [], validRevisions := [] }

/-- One round of the loop of `Finalise`; `none` is the nil dereference on a dirty hash
without a live object. -/
def StateDBRecord.finaliseObject (P : Params) (D : StateParams) (s : StateDBRecord)
    (deleteEmptyObjects : Bool) (addr : Hash) : Option StateDBRecord :=
  match s.liveObject addr with
  | none => none
  | some stateObject =>
    if stateObject.suicided || (deleteEmptyObjects && stateObject.empty) then
      some (s.deleteStateObject stateObject)
    else
      some ((s.setStateObject (stateObject.updateRoot P D)).updateStateObject D
        (stateObject.updateRoot P D))

/-- The loop of `Finalise` over the dirty set. -/
def StateDBRecord.finaliseLoop (P : Params) (D : StateParams) (deleteEmptyObjects : Bool) :
    List Hash → StateDBRecord → Option StateDBRecord
  | [], s => some s
  | addr :: rest, s =>
    match s.finaliseObject P D deleteEmptyObjects addr with
    | none => none
    | some s1 => StateDBRecord.finaliseLoop P D deleteEmptyObjects rest s1

/-- Go `StateDBRecord.Finalise`; `none` is a panic. -/
def StateDBRecord.Finalise (P : Params) (D : StateParams) (s : StateDBRecord)
    (deleteEmptyObjects : Bool) : Option StateDBRecord :=
  (StateDBRecord.finaliseLoop P D deleteEmptyObjects s.stateObjectsDirty s).map
    StateDBRecord.clearJournalAndRefund

/-- Go `StateDBRecord.IntermediateRoot`; `none` is a panic. -/
def StateDBRecord.IntermediateRoot (P : Params) (D : StateParams) (s : StateDBRecord)
    (deleteEmptyObjects : Bool) : Option (StateDBRecord × Bytes) :=
  (s.Finalise P D deleteEmptyObjects).map (fun s1 => (s1, s1.trie.Hash P))

/-! ## The storage of a record, the journal and the commit of `state.StateDBRecord` -/

/-- Go `rlp` `readSize`: the big-endian number in the first `slen` bytes; `none` is an error:
too few bytes, a leading zero byte, or a size below 56. -/
def rlpReadSize (b : Bytes) (slen : Nat) : Option Nat :=
  if slen > b.length then none
  else
    match b with
    | [] => none
    | b0 :: _ =>
      if (b.take slen).foldl (fun acc x => acc * 256 + x.val) 0 < 56 ∨ b0 = 0 then none
      else some ((b.take slen).foldl (fun acc x => acc * 256 + x.val) 0)

/-- Go `rlp.Split`, its result `content`: the payload of the first value of the input; `none`
is an error. -/
def rlpSplit (buf : Bytes) : Option Bytes :=
  match buf with
  | [] => none
  | b :: rest =>
    if b.val < 128 then some [b]
    else if b.val < 184 then
      match rest with
      | b1 :: _ =>
        if b.val - 128 = 1 ∧ b1.val < 128 then none
        else if b.val - 128 > rest.length then none
        else some (rest.take (b.val - 128))
      | [] => if b.val - 128 > 0 then none else some []
    else if b.val < 192 then
      match rlpReadSize rest (b.val - 183) with
      | none => none
      | some size =>
        if size > rest.length - (b.val - 183) then none
        else some ((rest.drop (b.val - 183)).take size)
    else if b.val < 248 then
      if b.val - 192 > rest.length then none else some (rest.take (b.val - 192))
    else
      match rlpReadSize rest (b.val - 247) with
      | none => none
      | some size =>
        if size > rest.length - (b.val - 247) then none
        else some ((rest.drop (b.val - 247)).take size)

/-- Go `self.cachedStorage[key]` and `self.dirtyStorage[key]`. -/
def Storage.get (m : Storage) (key : Hash) : Option Hash :=
  (m.find? (fun e => decide (e.1 = key))).map Prod.snd

/-- Go `m[key] = value` on a `Storage`. -/
def Storage.set (key value : Hash) : Storage → Storage
  | [] => [(key, value)]
  | e :: rest => if e.1 = key then (key, value) :: rest else e :: Storage.set key value rest

/-- Go `stateObjectRecord.GetState`: the cached value, or the value the storage trie holds,
which is cached unless it is zero; a read error is remembered and gives the zero hash. -/
def stateObjectRecord.GetState (D : StateParams) (self : stateObjectRecord) (key : Hash) :
    stateObjectRecord × Hash :=
  match Storage.get self.cachedStorage key with
  | some value => (self, value)
  | none =>
    match self.getTrie D with
    | (self1, tr) =>
      match tr.TryGet key.bytes with
      | .error err => (self1.setError (some err), Hash.zero)
      | .ok enc =>
        let self2 : stateObjectRecord :=
          if (enc.getD []).length > 0 ∧ rlpSplit (enc.getD []) = none then
            self1.setError (some .other)
          else self1
        let value : Hash :=
          if (enc.getD []).length > 0 then BytesToHash ((rlpSplit (enc.getD [])).getD [])
          else Hash.zero
        (if value ≠ Hash.zero then
            { self2 with cachedStorage := Storage.set key value self2.cachedStorage }
          else self2,
          value)

/-- Go `stateObjectRecord.setState`. -/
def stateObjectRecord.setState (db : StateDBRecord) (self : stateObjectRecord)
    (key value : Hash) : StateDBRecord × stateObjectRecord :=
  stateObjectRecord.markDirty db
    { self with
      cachedStorage := Storage.set key value self.cachedStorage,
      dirtyStorage := Storage.set key value self.dirtyStorage }

/-- Go `stateObjectRecord.SetState`: the journal gets the value `GetState` reads. -/
def stateObjectRecord.SetState (D : StateParams) (db : StateDBRecord) (self : stateObjectRecord)
    (key value : Hash) : StateDBRecord × stateObjectRecord :=
  match self.GetState D key with
  | (self1, prevalue) =>
    stateObjectRecord.setState
      { db with journal := db.journal ++ [.storageChangeRecord self.hash key prevalue] }
      self1 key value

/-- Go `StateDBRecord.GetState`; the object `GetState` has written to is the live one. -/
def StateDBRecord.GetState (D : StateParams) (self : StateDBRecord) (a b : Hash) :
    StateDBRecord × Hash :=
  match self.getStateObject D a with
  | (s1, some stateObject) =>
    (s1.setStateObject (stateObject.GetState D b).1, (stateObject.GetState D b).2)
  | (s1, none) => (s1, Hash.zero)

/-- Go `StateDBRecord.SetState`. -/
def StateDBRecord.SetState (D : StateParams) (self : StateDBRecord) (addr key value : Hash) :
    StateDBRecord :=
  match self.GetOrNewStateObject D addr with
  | (s1, stateObject) => (stateObjectRecord.SetState D s1 stateObject key value).1

/-- Go `StateDBRecord.Snapshot`; the `int` counter wraps at 64 bits. -/
def StateDBRecord.Snapshot (self : StateDBRecord) : StateDBRecord × Int :=
  ({ self with
      nextRevisionId := int64 (self.nextRevisionId + 1),
      validRevisions := self.validRevisions ++ [⟨self.nextRevisionId, self.journal.length⟩] },
    self.nextRevisionId)

/-- The loop of Go `sort.Search`: binary search between `i` and `j`. -/
def sortSearchLoop (f : Nat → Bool) : Nat → Nat → Nat → Nat
  | 0, i, _ => i
  | fuel + 1, i, j =>
    if i < j then
      if !f ((i + j) / 2) then sortSearchLoop f fuel ((i + j) / 2 + 1) j
      else sortSearchLoop f fuel i ((i + j) / 2)
    else i

/-- Go `sort.Search`. -/
def sortSearch (n : Nat) (f : Nat → Bool) : Nat := sortSearchLoop f n 0 n

/-- Modelled from the spec: the undo of a `txsChange`, an entry that `SetTxs` appends and
whose declaration is not in `journal_record.go`: the setter with the previous value on the
object of the hash, as the undo of its siblings `originChange` and `ownerChange`; `none` is
the call of the setter on the `nil` that `getStateObject` returns. -/
def txsChangeUndo (D : StateParams) (s : StateDBRecord) (hash : Hash) (prev : List Hash) :
    Option StateDBRecord :=
  match s.getStateObject D hash with
  | (s1, some obj) => some (stateObjectRecord.setTxs s1 obj prev).1
  | (_, none) => none

/-- Go `journalEntryRecord.undo`; `none` is a panic: the `panic("implement me")` of four
entries, or the call of a setter on the `nil` that `getStateObject` returns. -/
def journalEntryRecord.undo (D : StateParams) (s : StateDBRecord) :
    journalEntryRecord → Option StateDBRecord
  | .statusChange hash prev =>
    match s.getStateObject D hash with
    | (s1, some obj) => some (stateObjectRecord.setStatus s1 obj prev).1
    | (_, none) => none
  | .originChange hash prev =>
    match s.getStateObject D hash with
    | (s1, some obj) => some (stateObjectRecord.setOrigin s1 obj prev).1
    | (_, none) => none
  | .ownerChange hash prev =>
    match s.getStateObject D hash with
    | (s1, some obj) => some (stateObjectRecord.setOwner s1 obj prev).1
    | (_, none) => none
  | .txsChange hash prev => txsChangeUndo D s hash prev
  | .addPreimageChangeRecord _ => none
  | .addLogChangeRecord _ => none
  | .storageChangeRecord _ _ _ => none
  | .touchChangeRecord _ _ _ => none
  | .createObjectChangeRecord record =>
    some { s with
      stateObjects := s.stateObjects.filter (fun e => !decide (e.1 = record)),
      stateObjectsDirty := s.stateObjectsDirty.filter (fun h => !decide (h = record)) }
  | .resetObjectChangeRecord prev => some (s.setStateObject prev)
  | .suicideChangeRecord record _ _ => some (s.getStateObject D record).1

/-- The undo of a list of journal entries, one after the other. -/
def undoLoop (D : StateParams) : List journalEntryRecord → StateDBRecord → Option StateDBRecord
  | [], s => some s
  | e :: rest, s =>
    match e.undo D s with
    | none => none
    | some s1 => undoLoop D rest s1

/-- Go `StateDBRecord.RevertToSnapshot`; `none` is a panic: the revision is not on the
stack, or an undo panics. A journal index beyond the journal, which no method leaves on the
stack, is a panic too. -/
def StateDBRecord.RevertToSnapshot (D : StateParams) (self : StateDBRecord) (revid : Int) :
    Option StateDBRecord :=
  let idx := sortSearch self.validRevisions.length
    (fun i => match self.validRevisions.get? i with
      | some r => decide (r.id ≥ revid)
      | none => true)
  match self.validRevisions.get? idx with
  | none => none
  | some r =>
    if r.id ≠ revid then none
    else if r.journalIndex > self.journal.length then none
    else
      match undoLoop D (self.journal.drop r.journalIndex).reverse self with
      | none => none
      | some s1 =>
        some { s1 with
          journal := s1.journal.take r.journalIndex,
          validRevisions := s1.validRevisions.take idx }

/-- Go `trie.DatabaseWriter`: the error of the write of a trie content, `none` when the
write succeeds. -/
abbrev DatabaseWriter := List (Bytes × Bytes) → Option TrieError

/-- Go `Trie.CommitTo`: the root hash, or the zero hash with the error of the write. -/
def Trie.CommitTo (P : Params) (dbw : DatabaseWriter) (t : Trie) : Bytes × Option TrieError :=
  match dbw t.entries with
  | none => (t.Hash P, none)
  | some err => (Hash.zero.bytes, some err)

/-- Go `stateObjectRecord.CommitTrie`. -/
def stateObjectRecord.CommitTrie (P : Params) (D : StateParams) (dbw : DatabaseWriter)
    (self : stateObjectRecord) : stateObjectRecord × Option TrieError :=
  match self.updateTrie D with
  | (self1, tr) =>
    match self1.dbErr with
    | some err => (self1, some err)
    | none =>
      match tr.CommitTo P dbw with
      | (root, none) => ({ self1 with data := { self1.data with Root := BytesToHash root } }, none)
      | (_, some err) => (self1, some err)

/-- Go `delete(s.stateObjectsDirty, addr)`. -/
def StateDBRecord.removeDirty (s : StateDBRecord) (addr : Hash) : StateDBRecord :=
  { s with stateObjectsDirty := s.stateObjectsDirty.filter (fun h => !decide (h = addr)) }

/-- One round of the loop of `CommitTo`, on the live object bound to `addr`; an error of
`CommitTrie` ends the loop. -/
def StateDBRecord.commitObject (P : Params) (D : StateParams) (dbw : DatabaseWriter)
    (deleteEmptyObjects : Bool) (s : StateDBRecord) (addr : Hash)
    (stateObject : stateObjectRecord) : StateDBRecord × Option TrieError :=
  let isDirty := decide (addr ∈ s.stateObjectsDirty)
  if stateObject.suicided || (isDirty && deleteEmptyObjects && stateObject.empty) then
    ((s.deleteStateObject stateObject).removeDirty addr, none)
  else if isDirty then
    match stateObject.CommitTrie P D dbw with
    | (obj1, some err) => (s.setStateObject obj1, some err)
    | (obj1, none) => (((s.setStateObject obj1).updateStateObject D obj1).removeDirty addr, none)
  else (s.removeDirty addr, none)

/-- The loop of `CommitTo` over the live objects. -/
def StateDBRecord.commitLoop (P : Params) (D : StateParams) (dbw : DatabaseWriter)
    (deleteEmptyObjects : Bool) :
    List (Hash × stateObjectRecord) → StateDBRecord → StateDBRecord × Option TrieError
  | [], s => (s, none)
  | e :: rest, s =>
    match s.commitObject P D dbw deleteEmptyObjects e.1 e.2 with
    | (s1, some err) => (s1, some err)
    | (s1, none) => StateDBRecord.commitLoop P D dbw deleteEmptyObjects rest s1

/-- Go `StateDBRecord.CommitTo`: the state left behind, the root and the error; the journal
is cleared on every path. -/
def StateDBRecord.CommitTo (P : Params) (D : StateParams) (dbw : DatabaseWriter)
    (s : StateDBRecord) (deleteEmptyObjects : Bool) : StateDBRecord × Bytes × Option TrieError :=
  match StateDBRecord.commitLoop P D dbw deleteEmptyObjects s.stateObjects s with
  | (s1, some err) => (s1.clearJournalAndRefund, Hash.zero.bytes, some err)
  | (s1, none) =>
    (s1.clearJournalAndRefund, (s1.trie.CommitTo P dbw).1, (s1.trie.CommitTo P dbw).2)

/-- A journaled mutation of the record state: `CreateRecord`, `SetOrigin` and `SetOwner` of
`StateDBRecord`, and `SetOwner` and `SetStatus` of the object `GetOrNewStateObject` returns. -/
inductive Mutation where
  | CreateRecord (addr : Hash)
  | SetOrigin (addr : Hash) (account : Address)
  | SetOwner (addr : Hash) (account : Address)
  | objectSetOwner (addr : Hash) (account : Address)
  | objectSetStatus (addr : Hash) (status : Fin 256)
deriving DecidableEq

/-- The state after a mutation. -/
def Mutation.apply (D : StateParams) (s : StateDBRecord) : Mutation → StateDBRecord
  | .CreateRecord addr => s.CreateRecord D addr
  | .SetOrigin addr account => s.SetOrigin D addr account
  | .SetOwner addr account => s.SetOwner D addr account
  | .objectSetOwner addr account =>
    (stateObjectRecord.SetOwner (s.GetOrNewStateObject D addr).1
      (s.GetOrNewStateObject D addr).2 account).1
  | .objectSetStatus addr status =>
    (stateObjectRecord.SetStatus (s.GetOrNewStateObject D addr).1
      (s.GetOrNewStateObject D addr).2 status).1

/-- The state after a sequence of mutations. -/
def applyMutations (D : StateParams) : List Mutation → StateDBRecord → StateDBRecord
  | [], s => s
  | m :: rest, s => applyMutations D rest (m.apply D s)

/-! ## `core`: state transitions -/

/-- Go `types.TxType`, the six transaction types. -/
inductive TxType where
  | Binary
  | LoginCandidate
  | LogoutCandidate
  | ConfirmationData
  | AuthorizationData
  | TransferData
deriving DecidableEq

/-- The errors of package `core`: `nonceTooLow` is `errors.New("nonce too low")`,
`emptyText` is `errors.New("")`, `invalid` is an error of `Transaction.AsMessage` or
`Transaction.Validate`, and `panic` is a Go run-time panic. -/
inductive TxError where
  | ErrNonceTooHigh
  | nonceTooLow
  | ErrInsufficientBalance
  | ErrInvalidType
  | emptyText
  | invalid
  | panic
deriving DecidableEq

/-- Go `core.Message`, the values its methods return; `To` is `none` for a nil pointer,
`Nonce` is a `uint64` and `Type_` is the method `Type`. The gas methods, which nothing
calls, are left out. -/
structure Message where
  From : Address
  To : Option Address
  Value : Int
  Nonce : Nat
  CheckNonce : Bool
  Data : Bytes
  Type_ : TxType
deriving DecidableEq

/-- Go `core.StateTransition`, without the gas fields. -/
structure StateTransition where
  msg : Message
  value : Int
  data : Bytes
  statedb : StateDB
deriving DecidableEq

/-- Go `NewStateTransition`. -/
def NewStateTransition (msg : Message) (statedb : StateDB) : StateTransition :=
  { msg := msg, value := msg.Value, data := msg.Data, statedb := statedb }

/-- Go `StateTransition.from`, named `from_` here: the sender, whose account is created when
it does not exist. -/
def StateTransition.from_ (st : StateTransition) : StateTransition × Address :=
  (if !st.statedb.Exist st.msg.From then
      { st with statedb := st.statedb.CreateAccount st.msg.From }
    else st,
    st.msg.From)

/-- Go `StateTransition.to`: the recipient, whose account is created when it does not exist,
or the zero address without a recipient. -/
def StateTransition.to (st : StateTransition) : StateTransition × Address :=
  match st.msg.To with
  | none => (st, Address.zero)
  | some recipient =>
    (if !st.statedb.Exist recipient then
        { st with statedb := st.statedb.CreateAccount recipient }
      else st,
      recipient)

/-- Go `StateTransition.preCheck`. -/
def StateTransition.preCheck (st : StateTransition) : StateTransition × Option TxError :=
  match st.from_ with
  | (st1, sender) =>
    if st1.msg.CheckNonce then
      if st1.statedb.GetNonce sender < st1.msg.Nonce then (st1, some .ErrNonceTooHigh)
      else if st1.statedb.GetNonce sender > st1.msg.Nonce then (st1, some .nonceTooLow)
      else (st1, none)
    else (st1, none)

/-- Go `core.CanTransfer`. -/
def CanTransfer (db : StateDB) (addr : Address) (amount : Int) : Bool :=
  decide (db.GetBalance addr ≥ amount)

/-- Go `core.Transfer`. -/
def Transfer (db : StateDB) (sender recipient : Address) (amount : Int) : StateDB :=
  (db.SubBalance sender amount).AddBalance recipient amount

/-- Go `StateTransition.TransitionDb`: the state left behind, `ret`, `failed` and `err`. -/
def StateTransition.TransitionDb (st : StateTransition) :
    StateDB × Bytes × Bool × Option TxError :=
  match st.preCheck with
  | (st1, some err) => (st1.statedb, [], false, some err)
  | (st1, none) =>
    match st1.from_ with
    | (st2, sender) =>
      match st2.to with
      | (st3, recipient) =>
        let stateDB := st3.statedb.SetNonce sender ((st3.statedb.GetNonce sender + 1) % 2 ^ 64)
        if !CanTransfer stateDB sender st3.msg.Value then
          (stateDB, [], true, some .ErrInsufficientBalance)
        else
          (Transfer (if !stateDB.Exist recipient then stateDB.CreateAccount recipient else stateDB)
            sender recipient st3.msg.Value, [], false, none)

/-- The state `TransitionDb` works on after the pre-check: the sender and the recipient have
an account, and every getter reads what it read before. -/
def StateTransition.prepared (st : StateTransition) : StateDB := st.from_.1.to.1.statedb

/-- Go `core.ApplyMessage`. -/
def ApplyMessage (msg : Message) (statedb : StateDB) : StateDB × Bytes × Bool × Option TxError :=
  (NewStateTransition msg statedb).TransitionDb

/-- Go `core.applyPocMessage`; the errors of `BecomeCandidate` and `KickoutCandidate` are
dropped. -/
def applyPocMessage (pocContext : PocContext) (msg : Message) : PocContext × Option TxError :=
  match msg.Type_ with
  | .LoginCandidate => ((pocContext.BecomeCandidate msg.From).1, none)
  | .LogoutCandidate => ((pocContext.KickoutCandidate msg.From).1, none)
  | _ => (pocContext, some .ErrInvalidType)

/-- The key under which `ApplyDataMessage` keeps the record of a payload:
`common.BytesToHash` of `rlp.EncodeToBytes` of the data. -/
def recordKey (data : Bytes) : Hash := BytesToHash (rlpEncodeBytes data)

/-- The `ConfirmationData` case of `ApplyDataMessage`. -/
def applyConfirmationData (D : StateParams) (txHash hash : Hash) (sender : Address)
    (statedb : StateDB) (statedbRecord : StateDBRecord) :
    StateDB × StateDBRecord × Bool × Option TxError :=
  match statedbRecord.Exist D hash with
  | (r1, true) => (statedb, r1, true, some .emptyText)
  | (r1, false) =>
    match r1.GetOrNewStateObject D hash with
    | (r2, obj) =>
      match stateObjectRecord.SetOrigin r2 obj sender with
      | (r3, obj3) =>
        match stateObjectRecord.SetOwner r3 obj3 sender with
        | (r4, obj4) =>
          match stateObjectRecord.SetTxs r4 obj4 [txHash] with
          | (r5, _) =>
            ((statedb.AddRecords sender hash).AddContribution sender (2 * 10 ^ 18), r5, false,
              none)

/-- The `TransferData` case of `ApplyDataMessage`. -/
def applyTransferData (D : StateParams) (txHash hash : Hash) (sender : Address)
    (st : StateTransition) (statedbRecord : StateDBRecord) :
    StateDB × StateDBRecord × Bool × Option TxError :=
  match statedbRecord.GetOwner D hash with
  | (r1, owner) =>
    if owner.Hash ≠ sender.Hash then (st.statedb, r1, true, some .emptyText)
    else
      match r1.GetStatus D hash with
      | (r2, status) =>
        if status ≠ 0 then (st.statedb, r2, true, some .emptyText)
        else
          match st.to with
          | (st1, to1) =>
            match st1.to with
            | (st2, to2) =>
              ((((st2.statedb.AddRecords to2 txHash).RemoveRecords sender txHash).AddContribution
                  sender (10 ^ 18)),
                (r2.SetOwner D hash to1).AddTxHash D hash txHash, false, none)

/-- Go `core.ApplyDataMessage`: the two states left behind, `failed` and `err`. -/
def ApplyDataMessage (D : StateParams) (txHash : Hash) (msg : Message) (statedb : StateDB)
    (statedbRecord : StateDBRecord) : StateDB × StateDBRecord × Bool × Option TxError :=
  match (NewStateTransition msg statedb).preCheck with
  | (st1, some err) => (st1.statedb, statedbRecord, false, some err)
  | (st1, none) =>
    match st1.from_ with
    | (st2, sender) =>
      let hash := recordKey st2.msg.Data
      let st3 : StateTransition :=
        { st2 with
          statedb := st2.statedb.SetNonce sender ((st2.statedb.GetNonce sender + 1) % 2 ^ 64) }
      match st3.msg.Type_ with
      | .ConfirmationData => applyConfirmationData D txHash hash sender st3.statedb statedbRecord
      | .TransferData => applyTransferData D txHash hash sender st3 statedbRecord
      | _ => (st3.statedb, statedbRecord, false, none)

/-! ## `core`: the state processor -/

/-- Go `types.Transaction`, the values of the three methods `ApplyTransaction` calls. -/
structure Transaction where
  AsMessage : Except TxError Message
  Validate : Option TxError
  Hash : Hash

/-- Go `params.ChainConfig` at the number of the header: `IsByzantium` and `IsEIP158`. -/
structure ChainConfig where
  IsByzantium : Bool
  IsEIP158 : Bool
deriving DecidableEq

/-- Go `types.Receipt`: the arguments of `types.NewReceipt` and the transaction hash. No
transaction writes a log, so the logs and their bloom filter are left out. -/
structure Receipt where
  root : Bytes
  rootRecord : Bytes
  failed : Bool
  TxHash : Hash
deriving DecidableEq

/-- The three states a transaction is applied to. -/
structure ChainState where
  pocContext : PocContext
  statedb : StateDB
  statedbRecord : StateDBRecord
deriving DecidableEq

/-- The end of `ApplyTransaction`: both states are finalised, with their roots taken before
Byzantium, and the receipt is made; a panic of `Finalise` is the error `panic`. -/
def makeReceipt (P : Params) (D : StateParams) (config : ChainConfig) (s : ChainState)
    (failed : Bool) (txHash : Hash) : ChainState × Except TxError Receipt :=
  if config.IsByzantium then
    match s.statedbRecord.Finalise P D true with
    | none => ({ s with statedb := s.statedb.Finalise true }, .error .panic)
    | some r1 =>
      ({ s with statedb := s.statedb.Finalise true, statedbRecord := r1 },
        .ok { root := [], rootRecord := [], failed := failed, TxHash := txHash })
  else
    match s.statedbRecord.IntermediateRoot P D config.IsEIP158 with
    | none => ({ s with statedb := (s.statedb.IntermediateRoot D config.IsEIP158).1 }, .error .panic)
    | some (r1, rootRecord) =>
      ({ s with statedb := (s.statedb.IntermediateRoot D config.IsEIP158).1, statedbRecord := r1 },
        .ok { root := (s.statedb.IntermediateRoot D config.IsEIP158).2, rootRecord := rootRecord,
              failed := failed, TxHash := txHash })

/-- Go `core.ApplyTransaction`: the states left behind and the receipt or the error. The
call of `ApplyDataMessage`, written with three arguments, gets the hash of the transaction
as its `txHash`. -/
def ApplyTransaction (P : Params) (D : StateParams) (config : ChainConfig) (s : ChainState)
    (tx : Transaction) : ChainState × Except TxError Receipt :=
  match tx.AsMessage with
  | .error err => (s, .error err)
  | .ok msg =>
    match tx.Validate with
    | some err => (s, .error err)
    | none =>
      match msg.Type_ with
      | .Binary =>
        match ApplyMessage msg s.statedb with
        | (db, _, _, some err) => ({ s with statedb := db }, .error err)
        | (db, _, failed, none) => makeReceipt P D config { s with statedb := db } failed tx.Hash
      | .ConfirmationData | .AuthorizationData | .TransferData =>
        match ApplyDataMessage D tx.Hash msg s.statedb s.statedbRecord with
        | (db, r, _, some err) => ({ s with statedb := db, statedbRecord := r }, .error err)
        | (db, r, failed, none) =>
          makeReceipt P D config { s with statedb := db, statedbRecord := r } failed tx.Hash
      | .LoginCandidate | .LogoutCandidate =>
        match applyPocMessage s.pocContext msg with
        | (pc, some err) => ({ s with pocContext := pc }, .error err)
        | (pc, none) => makeReceipt P D config { s with pocContext := pc } false tx.Hash

/-! ## Concrete transactions

Used to run the transaction processor on concrete inputs: records are encoded as the byte 1,
the origin, the owner, the status, the storage root and the transaction hashes. -/

/-- The hash whose last byte is `n`. -/
def hashOf (n : Byte) : Hash := BytesToHash [n]

/-- The concatenation of the hashes. -/
def sampleEncodeHashes : List Hash → Bytes
  | [] => []
  | h :: hs => h.bytes ++ sampleEncodeHashes hs

/-- The inverse of `sampleEncodeHashes`, reading at most `n` hashes. -/
def sampleDecodeHashes : Nat → Bytes → Option (List Hash)
  | _, [] => some []
  | 0, _ :: _ => none
  | n + 1, b :: rest =>
    if h : ((b :: rest).take 32).length = 32 then
      (sampleDecodeHashes n ((b :: rest).drop 32)).map (fun hs => ⟨(b :: rest).take 32, h⟩ :: hs)
    else none

/-- The sample encoding of a record. -/
def sampleEncodeRecord (r : Record) : Bytes :=
  1 :: (r.Origin.bytes ++ (r.Owner.bytes ++ (r.Status :: (r.Root.bytes
    ++ sampleEncodeHashes r.Txs))))

/-- The inverse of `sampleEncodeRecord`. -/
def sampleDecodeRecord : Bytes → Option Record
  | [] => none
  | b :: rest =>
    if h : b = 1 ∧ (rest.take 20).length = 20 ∧ (((rest.drop 20).take 20).length = 20
        ∧ ((rest.drop 41).take 32).length = 32) then
      match rest.drop 40 with
      | [] => none
      | status :: _ =>
        (sampleDecodeHashes rest.length (rest.drop 73)).map (fun txs =>
          { Origin := ⟨rest.take 20, h.2.1⟩, Owner := ⟨(rest.drop 20).take 20, h.2.2.1⟩,
            Txs := txs, Status := status, Root := ⟨(rest.drop 41).take 32, h.2.2.2⟩ })
    else none

/-- A database that holds the empty storage trie only. -/
def sampleStateParams : StateParams where
  OpenStorageTrie := fun _ root => if root = Hash.zero then .ok Trie.empty else .error .missingNode
  EncodeRecord := sampleEncodeRecord
  DecodeRecord := sampleDecodeRecord
  accountsRoot := fun l => l.flatMap (fun e => e.1.bytes)
  open_zero := fun _ => if_pos rfl

/-- A state with the given nonces and balances, in the order given. -/
def sampleStateDB : List (Byte × Nat × Int) → StateDB
  | [] => StateDB.empty
  | (a, n, b) :: rest =>
    (sampleStateDB rest).setAccount (addr a) { Account.new with Nonce := n, Balance := b }

/-- A message of the given type from `addr from_` to `addr to_` with nonce checking. -/
def sampleMessage (t : TxType) (sender recipient : Byte) (value : Int) (nonce : Nat)
    (data : Bytes) : Message :=
  { From := addr sender, To := some (addr recipient), Value := value, Nonce := nonce,
    CheckNonce := true, Data := data, Type_ := t }

/-- A record state without records. -/
def emptyRecordState : StateDBRecord := NewRecord Trie.empty

/-! ## Observations of the record state -/

/-- The object `getStateObject` returns for a hash, `none` for Go `nil`. -/
def StateDBRecord.view (D : StateParams) (self : StateDBRecord) (addr : Hash) :
    Option stateObjectRecord :=
  (self.getStateObject D addr).2

/-- The object `getStateObject` loads from the trie for a hash that has no live object. -/
def trieObject (D : StateParams) (t : Trie) (addr : Hash) : Option stateObjectRecord :=
  match t.TryGet addr.bytes with
  | .error _ => none
  | .ok none => none
  | .ok (some enc) =>
    if enc.length = 0 then none
    else (D.DecodeRecord enc).map (fun data => newObjectRecord addr data)

/-- The accounts of the examples: the address 1 with nonce 0 and balance 100, the address 2
with nonce 5 and balance 7. -/
def sampleAccounts : StateDB := sampleStateDB [(1, 0, 100), (2, 5, 7)]

/-- The result of the ConfirmationData message of the address 1 for the payload `[7, 7]`,
with the transaction hash 50, on `sampleAccounts` and no records. -/
def afterConfirmation : StateDB × StateDBRecord × Bool × Option TxError :=
  ApplyDataMessage sampleStateParams (hashOf 50) (sampleMessage .ConfirmationData 1 2 0 0 [7, 7])
    sampleAccounts emptyRecordState

/-- The record `getStateObject` returns for a hash. -/
def StateDBRecord.dataView (D : StateParams) (self : StateDBRecord) (addr : Hash) :
    Option Record :=
  (self.view D addr).map (fun o => o.data)

/-- A record state as the methods of the package leave it: every live object is bound to
its own hash, and none is deleted or marked for deletion, which only `deleteStateObject`
and `markSuicided` do and which no method reaches. -/
def StateDBRecord.sound (self : StateDBRecord) : Prop :=
  ∀ e ∈ self.stateObjects, e.2.hash = e.1 ∧ e.2.deleted = false ∧ e.2.suicided = false

instance (self : StateDBRecord) : Decidable self.sound := by
  unfold StateDBRecord.sound; infer_instance

/-- Two record states hold the same trie and read the same record under every hash. -/
def sameRecords (D : StateParams) (t s : StateDBRecord) : Prop :=
  t.trie = s.trie ∧ ∀ h, t.dataView D h = s.dataView D h

/-- The object `createObject` makes for a hash: the zero record with status 0, dirty from
the start. -/
def freshObject (hash : Hash) : stateObjectRecord :=
  { newObjectRecord hash Record.zero with
    data := { Record.zero with Status := 0 }, onDirty := false }

/-- The state `s1` is the state `s` after the write of the live object `o` and the journal
entries `es`: the trie and the revisions are those of `s`, and what is dirty stays dirty. -/
def wrote (s s1 : StateDBRecord) (o : stateObjectRecord) (es : List journalEntryRecord) : Prop :=
  s1.stateObjects = setObject o s.stateObjects ∧ s1.trie = s.trie
    ∧ s1.journal = s.journal ++ es ∧ s1.validRevisions = s.validRevisions
    ∧ s1.nextRevisionId = s.nextRevisionId
    ∧ ∀ x ∈ s.stateObjectsDirty, x ∈ s1.stateObjectsDirty

/-- The step from `s` to `s1` can be undone: `s1` is sound, holds the trie and the revisions
of `s`, keeps what is dirty and what exists, and its journal is the one of `s` with entries
whose undo, in reverse order, takes every sound state that reads as `s1` to a sound state
that reads as `s`, with the same journal and revisions; a hash that is dirty before
the undo is dirty after it unless `s` reads it as `nil`. -/
def Undoable (D : StateParams) (s s1 : StateDBRecord) : Prop :=
  s1.sound ∧ s1.trie = s.trie ∧ s1.validRevisions = s.validRevisions
    ∧ s1.nextRevisionId = s.nextRevisionId
    ∧ (∀ x ∈ s.stateObjectsDirty, x ∈ s1.stateObjectsDirty)
    ∧ (∀ h, s.view D h ≠ none → s1.view D h ≠ none)
    ∧ ∃ es, s1.journal = s.journal ++ es
      ∧ ∀ t : StateDBRecord, t.sound → sameRecords D t s1 →
        ∃ t1, undoLoop D es.reverse t = some t1 ∧ t1.sound ∧ sameRecords D t1 s
          ∧ t1.journal = t.journal ∧ t1.validRevisions = t.validRevisions
          ∧ t1.nextRevisionId = t.nextRevisionId
          ∧ ∀ x ∈ t.stateObjectsDirty, x ∈ t1.stateObjectsDirty ∨ s.view D x = none

/-- The result of the TransferData message of the address 1 to the address 2 for the payload
`[7, 7]`, with the transaction hash 51, after `afterConfirmation`. -/
def afterTransfer : StateDB × StateDBRecord × Bool × Option TxError :=
  ApplyDataMessage sampleStateParams (hashOf 51) (sampleMessage .TransferData 1 2 0 1 [7, 7])
    afterConfirmation.1 afterConfirmation.2.1

/-- A transaction that is valid and carries the given message and hash. -/
def sampleTransaction (msg : Message) (hash : Byte) : Transaction :=
  ⟨.ok msg, none, hashOf hash⟩

/-- The states without accounts, records and candidates. -/
def emptyChainState : ChainState := ⟨emptyPocContext, StateDB.empty, emptyRecordState⟩

/-- The states and the receipt after the ConfirmationData of the payload `[8]` by the
address 2 on `emptyChainState`, with the transaction hash 49. -/
def afterOneTransaction : ChainState × Except TxError Receipt :=
  ApplyTransaction smallNet sampleStateParams ⟨true, true⟩ emptyChainState
    (sampleTransaction (sampleMessage .ConfirmationData 2 1 0 0 [8]) 49)

/-- The states and the receipt after the ConfirmationData of the payload `[7, 7]` by the
address 1 on the states of `afterOneTransaction`, with the transaction hash 50. -/
def afterTwoTransactions : ChainState × Except TxError Receipt :=
  ApplyTransaction smallNet sampleStateParams ⟨true, true⟩ afterOneTransaction.1
    (sampleTransaction (sampleMessage .ConfirmationData 1 2 0 0 [7, 7]) 50)

/-- The states and the receipt after the TransferData of the payload `[7, 7]` from the
address 1 to the address 2 on the states of `afterTwoTransactions`, with the transaction
hash 51. -/
def afterThreeTransactions : ChainState × Except TxError Receipt :=
  ApplyTransaction smallNet sampleStateParams ⟨true, true⟩ afterTwoTransactions.1
    (sampleTransaction (sampleMessage .TransferData 1 2 0 1 [7, 7]) 51)

/-- A record state whose trie holds one record, under the hash 7, with origin and owner the
address 1 and the zero storage root; no object is live. -/
def storedRecord : StateDBRecord :=
  NewRecord (Trie.empty.Update (hashOf 7).bytes
    (sampleEncodeRecord ⟨addr 1, addr 1, [hashOf 50], 0, Hash.zero⟩))

/-- The record state `storedRecord` with the storage root 9, which `sampleStateParams` cannot
open. -/
def storedRecordLost : StateDBRecord :=
  NewRecord (Trie.empty.Update (hashOf 7).bytes
    (sampleEncodeRecord ⟨addr 1, addr 1, [hashOf 50], 0, hashOf 9⟩))

/-- A record state without live objects on a trie whose path to the hash 7 cannot be
resolved. -/
def unreadableRecordState : StateDBRecord :=
  NewRecord ⟨[], List.Pairwise.nil, [((hashOf 7).bytes, .missingNode)]⟩

/-- The trie of the state binds the hash to the encoding of the record of its live object,
which is not deleted. -/
def StateDBRecord.written (D : StateParams) (s : StateDBRecord) (h : Hash) : Prop :=
  ∃ o, s.liveObject h = some o ∧ o.deleted = false
    ∧ s.trie.TryGet h.bytes = .ok (some (D.EncodeRecord o.data))

/-- The step from `s` to `s1` keeps the records: no live object of `s1` is deleted, the trie
has the faults of `s` and binds every key the trie of `s` binds, and every hash that reads
a record, or has a live object, in `s` does so in `s1`. -/
def keepsRecords (D : StateParams) (s s1 : StateDBRecord) : Prop :=
  s1.sound ∧ s1.trie.faults = s.trie.faults
    ∧ (∀ k ∈ s.trie.entries.map Prod.fst, k ∈ s1.trie.entries.map Prod.fst)
    ∧ (∀ x, s.view D x ≠ none → s1.view D x ≠ none)
    ∧ (∀ x, s.liveObject x ≠ none → s1.liveObject x ≠ none)

/-! ## `types.PocContext`: roots, commit and snapshots -/

/-- Go `types.AccountLastedTx`. -/
structure AccountLastedTx where
  Account : Address
  TxHash : Hash
  RecordTime : Int
deriving DecidableEq

/-- What `poc_context.go` uses of the packages `sha3` and `rlp` without defining it. -/
structure PocParams where
  /-- Go `sha3.NewKeccak256` with `Sum`: the digest of the bytes written to the hasher. -/
  keccak256 : Bytes → Bytes
  /-- Go `rlp.Encode` on a `common.Hash`: the bytes it writes. -/
  EncodeHash : Bytes → Bytes
  /-- Go `rlp.EncodeToBytes` on an `AccountLastedTx`; `none` is an encoding error. -/
  EncodeLastedTx : AccountLastedTx → Option Bytes

/-- Go `PocContext.Root`: the digest of the encodings of the five root hashes, written to
the hasher in the order epoch, contribution, candidate, latestTx, mintCnt. -/
def PocContext.Root (P : Params) (H : PocParams) (pc : PocContext) : Bytes :=
  H.keccak256 (H.EncodeHash (pc.epochTrie.Hash P) ++ (H.EncodeHash (pc.contributionTrie.Hash P)
    ++ (H.EncodeHash (pc.candidateTrie.Hash P) ++ (H.EncodeHash (pc.latestTxTrie.Hash P)
    ++ H.EncodeHash (pc.mintCntTrie.Hash P)))))

/-- Go `types.PocContextProto`. -/
structure PocContextProto where
  EpochHash : Bytes
  ContributionHash : Bytes
  CandidateHash : Bytes
  LatestTxHash : Bytes
  MintCntHash : Bytes
deriving DecidableEq

/-- Go `PocContext.ToProto`. -/
def PocContext.ToProto (P : Params) (pc : PocContext) : PocContextProto :=
  { EpochHash := pc.epochTrie.Hash P, ContributionHash := pc.contributionTrie.Hash P,
    CandidateHash := pc.candidateTrie.Hash P, LatestTxHash := pc.latestTxTrie.Hash P,
    MintCntHash := pc.mintCntTrie.Hash P }

/-- Go `PocContextProto.Root`. -/
def PocContextProto.Root (H : PocParams) (p : PocContextProto) : Bytes :=
  H.keccak256 (H.EncodeHash p.EpochHash ++ (H.EncodeHash p.ContributionHash
    ++ (H.EncodeHash p.CandidateHash ++ (H.EncodeHash p.LatestTxHash
    ++ H.EncodeHash p.MintCntHash))))

/-- Go `PocContext.CommitTo`: the tries are committed in the order epoch, contribution,
latestTx, candidate, mintCnt, and the first error is returned without a proto. -/
def PocContext.CommitTo (P : Params) (dbw : DatabaseWriter) (pc : PocContext) :
    Option PocContextProto × Option TrieError :=
  match pc.epochTrie.CommitTo P dbw with
  | (_, some err) => (none, some err)
  | (epochRoot, none) =>
    match pc.contributionTrie.CommitTo P dbw with
    | (_, some err) => (none, some err)
    | (contributionRoot, none) =>
      match pc.latestTxTrie.CommitTo P dbw with
      | (_, some err) => (none, some err)
      | (latestTxRoot, none) =>
        match pc.candidateTrie.CommitTo P dbw with
        | (_, some err) => (none, some err)
        | (candidateRoot, none) =>
          match pc.mintCntTrie.CommitTo P dbw with
          | (_, some err) => (none, some err)
          | (mintCntRoot, none) =>
            (some { EpochHash := epochRoot, ContributionHash := contributionRoot,
                    LatestTxHash := latestTxRoot, CandidateHash := candidateRoot,
                    MintCntHash := mintCntRoot },
              none)

/-- Go `PocContext.SetLastedTx`. -/
def PocContext.SetLastedTx (H : PocParams) (pc : PocContext) (lastedTx : AccountLastedTx) :
    PocContext × Option Error :=
  match H.EncodeLastedTx lastedTx with
  | none => (pc, some .failedToEncodeTransaction)
  | some txRLP =>
    ({ pc with latestTxTrie := pc.latestTxTrie.Update lastedTx.Account.Bytes txRLP }, none)

/-- A call of one of the methods of `PocContext` that write a trie. -/
inductive PocMutation where
  | BecomeCandidate (candidateAddr : Address)
  | KickoutCandidate (candidateAddr : Address)
  | SetValidators (validators : List Address)
  | SetContributions (contributions : List AccountContribution)
  | SetLastedTx (lastedTx : AccountLastedTx)
deriving DecidableEq

/-- The context after a call and the error the call returns. -/
def PocMutation.apply (P : Params) (H : PocParams) (pc : PocContext) :
    PocMutation → PocContext × Option Error
  | .BecomeCandidate candidateAddr => pc.BecomeCandidate candidateAddr
  | .KickoutCandidate candidateAddr => pc.KickoutCandidate candidateAddr
  | .SetValidators validators => pc.SetValidators P validators
  | .SetContributions contributions => pc.SetContributions P contributions
  | .SetLastedTx lastedTx => pc.SetLastedTx H lastedTx

/-- The context after a sequence of calls, whatever they return. -/
def applyPocMutations (P : Params) (H : PocParams) : List PocMutation → PocContext → PocContext
  | [], pc => pc
  | m :: rest, pc => applyPocMutations P H rest (m.apply P H pc).1

/-- Every binding of the candidate trie binds the 20 bytes of an address to themselves, as
`BecomeCandidate` writes them. -/
def PocContext.candidatesBound (pc : PocContext) : Prop :=
  ∀ e ∈ pc.candidateTrie.entries, e.2 = e.1 ∧ e.1.length = 20

instance (pc : PocContext) : Decidable pc.candidatesBound := by
  unfold PocContext.candidatesBound
  infer_instance

/-- The trie objects of a run: a `*trie.Trie` is an index into the list, and an index
outside the list points to no trie. -/
abbrev TrieHeap := List Trie

/-- Go `types.PocContext` as the struct of its five pointers to trie objects. -/
structure PocContextRef where
  epochTrie : Nat
  contributionTrie : Nat
  latestTxTrie : Nat
  candidateTrie : Nat
  mintCntTrie : Nat
deriving DecidableEq

/-- The five pointers of a context. -/
def PocContextRef.pointers (pc : PocContextRef) : List Nat :=
  [pc.epochTrie, pc.contributionTrie, pc.latestTxTrie, pc.candidateTrie, pc.mintCntTrie]

/-- Every pointer of the context points to a trie object. -/
def PocContextRef.valid (h : TrieHeap) (pc : PocContextRef) : Prop :=
  ∀ p ∈ pc.pointers, p < h.length

instance (h : TrieHeap) (pc : PocContextRef) : Decidable (pc.valid h) := by
  unfold PocContextRef.valid
  infer_instance

/-- The five tries a context points to; `none` when one of its pointers points to no
trie. -/
def PocContextRef.deref (h : TrieHeap) (pc : PocContextRef) : Option PocContext :=
  match h.get? pc.epochTrie, h.get? pc.contributionTrie, h.get? pc.latestTxTrie,
    h.get? pc.candidateTrie, h.get? pc.mintCntTrie with
  | some e, some c, some l, some ca, some m => some ⟨e, c, l, ca, m⟩
  | _, _, _, _, _ => none

/-- Go `PocContext.Copy`: five new trie objects, each a copy of the trie object the context
points to (`epochTrie := *pc.epochTrie`), and a context of the pointers to them; `none` is
the panic of the dereference of a pointer to no trie. -/
def PocContextRef.Copy (h : TrieHeap) (pc : PocContextRef) : Option (TrieHeap × PocContextRef) :=
  match pc.deref h with
  | none => none
  | some v =>
    some (h ++ [v.epochTrie, v.contributionTrie, v.latestTxTrie, v.candidateTrie, v.mintCntTrie],
      { epochTrie := h.length, contributionTrie := h.length + 1, latestTxTrie := h.length + 2,
        candidateTrie := h.length + 3, mintCntTrie := h.length + 4 })

/-- Go `PocContext.Snapshot`. -/
def PocContextRef.Snapshot (h : TrieHeap) (pc : PocContextRef) :
    Option (TrieHeap × PocContextRef) :=
  pc.Copy h

/-- Go `PocContext.RevertToSnapShot`: the five pointers become those of the snapshot. -/
def PocContextRef.RevertToSnapShot (pc snapshot : PocContextRef) : PocContextRef :=
  { pc with
    epochTrie := snapshot.epochTrie, contributionTrie := snapshot.contributionTrie,
    candidateTrie := snapshot.candidateTrie, latestTxTrie := snapshot.latestTxTrie,
    mintCntTrie := snapshot.mintCntTrie }

/-- Go `PocContext.Root` of a context of pointers; `none` is the panic of a pointer to no
trie. -/
def PocContextRef.Root (P : Params) (H : PocParams) (h : TrieHeap) (pc : PocContextRef) :
    Option Bytes :=
  (pc.deref h).map (fun v => v.Root P H)

/-- Go `PocContext.KickoutCandidate` on the trie objects: `TryDelete` writes the trie object
`pc.candidateTrie` points to; `none` is the panic of a pointer to no trie. -/
def PocContextRef.KickoutCandidate (h : TrieHeap) (pc : PocContextRef) (candidateAddr : Address) :
    Option (TrieHeap × Option Error) :=
  match h.get? pc.candidateTrie with
  | none => none
  | some t =>
    match t.TryDelete candidateAddr.Bytes with
    | .error .missingNode => some (h, none)
    | .error e => some (h, some (.trie e))
    | .ok t1 => some (h.set pc.candidateTrie t1, none)

/-- Go `PocContext.BecomeCandidate` on the trie objects. -/
def PocContextRef.BecomeCandidate (h : TrieHeap) (pc : PocContextRef) (candidateAddr : Address) :
    Option (TrieHeap × Option Error) :=
  match h.get? pc.candidateTrie with
  | none => none
  | some t =>
    match t.TryUpdate candidateAddr.Bytes candidateAddr.Bytes with
    | .error e => some (h, some (.trie e))
    | .ok t1 => some (h.set pc.candidateTrie t1, none)

/-- Go `PocContext.SetValidators` on the trie objects. -/
def PocContextRef.SetValidators (P : Params) (h : TrieHeap) (pc : PocContextRef)
    (validators : List Address) : Option (TrieHeap × Option Error) :=
  match h.get? pc.epochTrie with
  | none => none
  | some t => some (h.set pc.epochTrie (t.Update validatorKey (P.EncodeValidators validators)), none)

/-- Go `PocContext.SetContributions` on the trie objects; an encoding error is returned
before the pointer is used. -/
def PocContextRef.SetContributions (P : Params) (h : TrieHeap) (pc : PocContextRef)
    (contributions : List AccountContribution) : Option (TrieHeap × Option Error) :=
  match P.EncodeContributions contributions with
  | none => some (h, some .failedToEncodeContributions)
  | some contributionsRLP =>
    match h.get? pc.contributionTrie with
    | none => none
    | some t => some (h.set pc.contributionTrie (t.Update contributionKey contributionsRLP), none)

/-- Go `PocContext.SetLastedTx` on the trie objects. -/
def PocContextRef.SetLastedTx (H : PocParams) (h : TrieHeap) (pc : PocContextRef)
    (lastedTx : AccountLastedTx) : Option (TrieHeap × Option Error) :=
  match H.EncodeLastedTx lastedTx with
  | none => some (h, some .failedToEncodeTransaction)
  | some txRLP =>
    match h.get? pc.latestTxTrie with
    | none => none
    | some t => some (h.set pc.latestTxTrie (t.Update lastedTx.Account.Bytes txRLP), none)

/-- The trie objects after a call on a context of pointers, and the error the call
returns. -/
def PocMutation.applyRef (P : Params) (H : PocParams) (h : TrieHeap) (pc : PocContextRef) :
    PocMutation → Option (TrieHeap × Option Error)
  | .BecomeCandidate candidateAddr => pc.BecomeCandidate h candidateAddr
  | .KickoutCandidate candidateAddr => pc.KickoutCandidate h candidateAddr
  | .SetValidators validators => pc.SetValidators P h validators
  | .SetContributions contributions => pc.SetContributions P h contributions
  | .SetLastedTx lastedTx => pc.SetLastedTx H h lastedTx

/-- The trie objects after a sequence of calls on a context, whatever they return. -/
def applyPocMutationsRef (P : Params) (H : PocParams) (pc : PocContextRef) :
    List PocMutation → TrieHeap → Option TrieHeap
  | [], h => some h
  | m :: rest, h =>
    match m.applyRef P H h pc with
    | none => none
    | some (h1, _) => applyPocMutationsRef P H pc rest h1

/-- Sample library functions: the identity as the digest, and the encoding of a hash behind
the byte `160`. -/
def samplePocParams : PocParams where
  keccak256 := fun b => b
  EncodeHash := fun b => 160 :: b
  EncodeLastedTx := fun t => some (192 :: t.Account.bytes)

/-- The trie objects of the sample context, and the context that points to them. -/
def sampleTrieHeap : TrieHeap :=
  [sampleEpochContext.PocContext.epochTrie, sampleEpochContext.PocContext.contributionTrie,
    sampleEpochContext.PocContext.latestTxTrie, sampleEpochContext.PocContext.candidateTrie,
    sampleEpochContext.PocContext.mintCntTrie]

/-- The context of the pointers to the five trie objects of `sampleTrieHeap`. -/
def samplePocContextRef : PocContextRef :=
  { epochTrie := 0, contributionTrie := 1, latestTxTrie := 2, candidateTrie := 3,
    mintCntTrie := 4 }

/-! ## `poc.EpochContext`: the iterations of `tryElect` -/

/-- The value of `prevEpochIsGenesis` in `tryElect`. -/
def prevEpochIsGenesis (P : Params) (genesis parent : Header) : Bool :=
  decide (Int.tdiv parent.Time P.epochInterval = Int.tdiv genesis.Time P.epochInterval)

/-- The value of `prevEpoch` in `tryElect` when its loop starts. -/
def prevEpochOf (P : Params) (ec : EpochContext) (genesis parent : Header) : Int :=
  if prevEpochIsGenesis P genesis parent
      && decide (Int.tdiv parent.Time P.epochInterval < Int.tdiv ec.TimeStamp P.epochInterval)
  then Int.tdiv ec.TimeStamp P.epochInterval - 1
  else Int.tdiv parent.Time P.epochInterval

/-- The loop of `tryElect` as in `tryElectLoop`, together with the record of the iterations
entered: for each one, in order, whether `kickoutValidator` is called in it. -/
def tryElectLoopTraced (P : Params) (parent : Header) (prevEpoch : Int)
    (prevEpochIsGenesis : Bool) :
    Nat → Int → List (Bytes × Bytes) → EpochContext → (EpochContext × Option Error) × List Bool
  | 0, _, _, ec => ((ec, none), [])
  | n + 1, i, iter, ec =>
    let run := !prevEpochIsGenesis && !iter.isEmpty
    let kicked := if run then kickoutValidator P ec prevEpoch else (ec, none)
    match kicked with
    | (ec1, some err) => ((ec1, some err), [run])
    | (ec1, none) =>
      match elect P ec1 parent i with
      | (ec2, some err) => ((ec2, some err), [run])
      | (ec2, none) =>
        let r := tryElectLoopTraced P parent prevEpoch prevEpochIsGenesis n (i + 1)
          (if prevEpochIsGenesis then iter else iter.tail) ec2
        (r.1, run :: r.2)

/-- Go `EpochContext.tryElect`, together with the record of the iterations of its loop. -/
def tryElectTraced (P : Params) (ec : EpochContext) (genesis parent : Header) :
    (EpochContext × Option Error) × List Bool :=
  tryElectLoopTraced P parent (prevEpochOf P ec genesis parent)
    (prevEpochIsGenesis P genesis parent)
    (Int.tdiv ec.TimeStamp P.epochInterval - prevEpochOf P ec genesis parent).toNat
    (prevEpochOf P ec genesis parent)
    (ec.PocContext.mintCntTrie.iteratePrefixed
      (PutUint64 (uint64 (prevEpochOf P ec genesis parent))))
    ec

/-- Six candidates, the addresses 0 to 5, of which the address 0 is the one stored
validator and has the one mint count, 5 blocks in epoch 1; the time is 3600, in epoch 3. -/
def oneMintCntEntry : EpochContext :=
  ⟨3600, samplePocContext smallNet [(0, 5)] [1, 2, 3, 4, 5], fun _ => 0⟩

/-! ## `core`: `StateProcessor.Process` -/

/-- What `Process` uses without defining it: whether the DAO fork applies to the block
(`DAOForkSupport`, with `DAOForkBlock` the number of the block), `misc.ApplyDAOHardFork`,
and `Finalize` of the consensus engine, as the states it leaves. -/
structure ProcessParams where
  daoFork : Bool
  ApplyDAOHardFork : StateDB → StateDB
  Finalize : ChainState → List Transaction → List Receipt → ChainState

/-- The loop of `Process` over the transactions of the block: the receipts are appended in
the order of the transactions, and the first error ends the loop. The call
`statedb.Prepare`, which sets the transaction of the logs, is left out with the logs. -/
def processLoop (P : Params) (D : StateParams) (config : ChainConfig) :
    List Transaction → ChainState → List Receipt → ChainState × Except TxError (List Receipt)
  | [], s, receipts => (s, .ok receipts)
  | tx :: rest, s, receipts =>
    match ApplyTransaction P D config s tx with
    | (s1, .error err) => (s1, .error err)
    | (s1, .ok receipt) => processLoop P D config rest s1 (receipts ++ [receipt])

/-- Go `StateProcessor.Process` on the transactions of a block: the states left behind, and
the receipts or the error; an error returns no receipt. The logs, of which there are none,
and the gas used, which is zero, are left out. -/
def Process (P : Params) (D : StateParams) (E : ProcessParams) (config : ChainConfig)
    (txs : List Transaction) (s : ChainState) : ChainState × Except TxError (List Receipt) :=
  match processLoop P D config txs
      (if E.daoFork then { s with statedb := E.ApplyDAOHardFork s.statedb } else s) [] with
  | (s1, .error err) => (s1, .error err)
  | (s1, .ok receipts) => (E.Finalize s1 txs receipts, .ok receipts)

/-- An engine whose `Finalize` leaves the states, and no DAO fork. -/
def sampleProcessParams : ProcessParams where
  daoFork := false
  ApplyDAOHardFork := fun s => s
  Finalize := fun s _ _ => s

/-- The three transactions of `afterThreeTransactions`, in their order. -/
def threeTransactions : List Transaction :=
  [sampleTransaction (sampleMessage .ConfirmationData 2 1 0 0 [8]) 49,
    sampleTransaction (sampleMessage .ConfirmationData 1 2 0 0 [7, 7]) 50,
    sampleTransaction (sampleMessage .TransferData 1 2 0 1 [7, 7]) 51]

/-- A transfer of the value 5 by the address 3, which has no balance, with the transaction
hash 52. -/
def poorTransaction : Transaction :=
  sampleTransaction (sampleMessage .Binary 3 1 5 0 []) 52

/-! ## Observations of the record state for `IntermediateRoot` -/

/-- The object without its flag `onDirty`, which tells whether the callback of the setters
is still set and which `Finalise` does not read. -/
def stateObjectRecord.core (o : stateObjectRecord) : stateObjectRecord :=
  { o with onDirty := false }

/-- The object `getStateObject` returns for a hash, without its flag `onDirty`. -/
def StateDBRecord.objView (D : StateParams) (self : StateDBRecord) (addr : Hash) :
    Option stateObjectRecord :=
  (self.view D addr).map stateObjectRecord.core

/-- Two record states hold the same trie and read the same object under every hash, the flag
`onDirty` apart. -/
def sameObjects (D : StateParams) (t s : StateDBRecord) : Prop :=
  t.trie = s.trie ∧ ∀ h, t.objView D h = s.objView D h

/-- A record state as the methods of the package leave it: the live objects are bound to
their own hash and not deleted, the dirty set, a Go map, holds no hash twice, and every
dirty hash has a live object. -/
def StateDBRecord.tidy (self : StateDBRecord) : Prop :=
  self.sound ∧ self.stateObjectsDirty.Nodup
    ∧ ∀ x ∈ self.stateObjectsDirty, self.liveObject x ≠ none

instance (self : StateDBRecord) : Decidable self.tidy := by
  unfold StateDBRecord.tidy; infer_instance

/-- The bytes `Finalise` writes to the trie for a dirty object: the encoding of its record
after `updateRoot`. -/
def finalRecord (P : Params) (D : StateParams) (o : stateObjectRecord) : Bytes :=
  D.EncodeRecord (o.updateRoot P D).data

/-- The hash a mutation names. -/
def Mutation.addr : Mutation → Hash
  | .CreateRecord addr => addr
  | .SetOrigin addr _ => addr
  | .SetOwner addr _ => addr
  | .objectSetOwner addr _ => addr
  | .objectSetStatus addr _ => addr

/-- The hash is written back as it is stored: it reads as `nil`, or the trie cannot resolve
its path, or the trie binds it to the bytes `Finalise` writes for the object it reads. -/
def StateDBRecord.writesBack (P : Params) (D : StateParams) (self : StateDBRecord)
    (x : Hash) : Prop :=
  match self.view D x with
  | none => True
  | some o =>
    self.trie.fault x.bytes ≠ none
      ∨ self.trie.TryGet x.bytes = .ok (some (finalRecord P D o))

instance (P : Params) (D : StateParams) (self : StateDBRecord) (x : Hash) :
    Decidable (self.writesBack P D x) := by
  unfold StateDBRecord.writesBack
  split <;> infer_instance

/-- The step from `s` to `s1` can be undone object by object: `s1` is tidy, a hash that is
dirty in `s1` is dirty in `s` or among the hashes `A`, and the journal of `s1` is the one of
`s` with entries whose undo, in reverse order, takes every tidy state that reads the
objects of `s1` to a tidy state that reads the objects of `s`, in which a dirty hash was
dirty before the undo or is among `A`. -/
def Restorable (D : StateParams) (A : List Hash) (s s1 : StateDBRecord) : Prop :=
  s1.tidy
    ∧ (∀ x ∈ s1.stateObjectsDirty, x ∈ s.stateObjectsDirty ∨ x ∈ A)
    ∧ ∃ es, s1.journal = s.journal ++ es
      ∧ ∀ t : StateDBRecord, t.tidy → sameObjects D t s1 →
        ∃ t1, undoLoop D es.reverse t = some t1 ∧ t1.tidy ∧ sameObjects D t1 s
          ∧ ∀ x ∈ t1.stateObjectsDirty, x ∈ t.stateObjectsDirty ∨ x ∈ A

/-! ## Further sample inputs -/

/-- Five candidates, the addresses 0 to 4, and the stored validators 0, 0 and 1: the address
0 is stored twice. In epoch 1 the address 0 minted no block and the address 1 one block. -/
def repeatedValidator : EpochContext :=
  ⟨1200, samplePocContext smallNet [(0, 0), (0, 0), (1, 1)] [2, 3, 4], fun _ => 0⟩

/-- A TransferData message of the zero address to the address 2 for the payload `[9]`,
without nonce checking. -/
def zeroSenderTransfer : Message :=
  { From := Address.zero, To := some (addr 2), Value := 0, Nonce := 0, CheckNonce := false,
    Data := [9], Type_ := .TransferData }

/-- The context of `oneIdleValidator` on a candidate trie that cannot resolve the path of
the address 1, with the given error. -/
def unreadableCandidates (e : TrieError) : PocContext :=
  { oneIdleValidator.PocContext with
    candidateTrie :=
      { oneIdleValidator.PocContext.candidateTrie with faults := [((addr 1).Bytes, e)] } }

/-- The sample context on an epoch trie that cannot resolve the path of the key
`"validator"`, with the given error. -/
def unreadableEpoch (e : TrieError) : PocContext :=
  { sampleEpochContext.PocContext with
    epochTrie :=
      { sampleEpochContext.PocContext.epochTrie with faults := [(validatorKey, e)] } }

/-- Five validators and one more candidate, as in `oneIdleValidator`, where the count stored
for the address 1 in epoch 1 is `2 ^ 63`, the bytes `80 00 00 00 00 00 00 00`. -/
def hugeMintCnt : EpochContext :=
  ⟨1200, samplePocContext smallNet [(0, 12), (1, 2 ^ 63), (2, 12), (3, 12), (4, 12)] [9],
    fun _ => 0⟩

/-! ## Facts about tries -/

theorem Trie.Get_noFaults (t : Trie) (h : t.faults = []) (k : Bytes) :
    t.Get k = (t.entries.find? (fun e => decide (e.1 = k))).map Prod.snd := by
  simp [Trie.Get, Trie.TryGet, Trie.fault, h]

theorem KickoutCandidate_faults (pc : PocContext) (a : Address) :
    (pc.KickoutCandidate a).1.candidateTrie.faults = pc.candidateTrie.faults := by
  unfold PocContext.KickoutCandidate Trie.TryDelete
  cases pc.candidateTrie.fault a.Bytes with
  | some e => cases e <;> rfl
  | none => rfl

theorem filter_key_length {l : List (Bytes × Bytes)} (h : l.Pairwise entryLt) (k : Bytes) :
    l.length ≤ (l.filter (fun e => !decide (e.1 = k))).length + 1 := by
  induction l with
  | nil => simp
  | cons x xs ih =>
    obtain ⟨hx, hxs⟩ := List.pairwise_cons.mp h
    by_cases hk : x.1 = k
    · have hall : xs.filter (fun e => !decide (e.1 = k)) = xs := by
        apply List.filter_eq_self.mpr
        intro e he
        have hne : x.1 ≠ e.1 := bytesLt_ne (hx e he)
        have : e.1 ≠ k := fun h2 => hne (hk.trans h2.symm)
        simp [this]
      simp [List.filter_cons, hk, hall]
    · have := ih hxs
      simp only [List.filter_cons, hk, decide_False, Bool.not_false, if_true, List.length_cons]
      omega

theorem KickoutCandidate_length (pc : PocContext) (a : Address) :
    pc.GetCandidates.length ≤ (pc.KickoutCandidate a).1.GetCandidates.length + 1 := by
  unfold PocContext.KickoutCandidate Trie.TryDelete
  cases hf : pc.candidateTrie.fault a.Bytes with
  | some e => cases e <;> simp
  | none =>
    simp only [PocContext.GetCandidates, Trie.iterate, List.length_map]
    exact filter_key_length pc.candidateTrie.sorted _

theorem countCandidates_le (limit : Nat) (es : List (Bytes × Bytes)) (c : Nat) :
    countCandidates limit es c ≤ c + es.length := by
  induction es generalizing c with
  | nil => simp [countCandidates]
  | cons e es ih =>
    simp only [countCandidates, List.length_cons]
    split
    · omega
    · have := ih (c + 1); omega

theorem kickoutLoop_length (P : Params) (l : List sortableAddress) (pc : PocContext) (cc : Nat)
    (h : cc ≤ pc.GetCandidates.length) :
    min pc.GetCandidates.length P.safeSize ≤ (kickoutLoop P pc cc l).1.GetCandidates.length := by
  induction l generalizing pc cc with
  | nil => simp [kickoutLoop]
  | cons v rest ih =>
    simp only [kickoutLoop]
    split
    · exact Nat.min_le_left _ _
    · rename_i hcc
      have hlen := KickoutCandidate_length pc v.address
      split
      · rename_i pc1 err heq
        have : (pc.KickoutCandidate v.address).1 = pc1 := by rw [heq]
        rw [this] at hlen
        have : P.safeSize ≤ pc1.GetCandidates.length := by omega
        exact le_trans (Nat.min_le_right _ _) this
      · rename_i pc1 heq
        have : (pc.KickoutCandidate v.address).1 = pc1 := by rw [heq]
        rw [this] at hlen
        have h1 := ih pc1 (cc - 1) (by omega)
        have : min pc1.GetCandidates.length P.safeSize = P.safeSize := by
          apply Nat.min_eq_right; omega
        rw [this] at h1
        exact le_trans (Nat.min_le_right _ _) h1

/-! ## Facts about `sort.Sort` and `Less` -/

theorem insertInOrder_perm {α : Type} (less : α → α → Bool) (a : α) (l : List α) :
    (insertInOrder less a l).Perm (a :: l) := by
  induction l with
  | nil => exact List.Perm.refl _
  | cons b l ih =>
    simp only [insertInOrder]
    split
    · exact ((List.Perm.cons b ih).trans (List.Perm.swap a b l))
    · exact List.Perm.refl _

theorem sortSort_perm {α : Type} (less : α → α → Bool) (l : List α) :
    (sortSort less l).Perm l := by
  induction l with
  | nil => exact List.Perm.refl _
  | cons a l ih => exact (insertInOrder_perm less a _).trans (List.Perm.cons a ih)

theorem insertInOrder_sorted {α : Type} (less : α → α → Bool)
    (hasymm : ∀ a b, less a b = true → less b a = false)
    (hneg : ∀ a b c, less a b = false → less b c = false → less a c = false)
    (a : α) {l : List α} (h : l.Pairwise (fun x y => less y x = false)) :
    (insertInOrder less a l).Pairwise (fun x y => less y x = false) := by
  induction l with
  | nil => simp [insertInOrder]
  | cons b l ih =>
    obtain ⟨hb, hl⟩ := List.pairwise_cons.mp h
    simp only [insertInOrder]
    split
    · rename_i hba
      refine List.pairwise_cons.mpr ⟨?_, ih hl⟩
      intro x hx
      rcases List.mem_cons.mp ((insertInOrder_perm less a l).subset hx) with hx | hx
      · subst hx; exact hasymm _ _ hba
      · exact hb x hx
    · rename_i hba
      have hba : less b a = false := by simpa using hba
      refine List.pairwise_cons.mpr ⟨?_, h⟩
      intro x hx
      rcases List.mem_cons.mp hx with hx | hx
      · subst hx; exact hba
      · exact hneg _ _ _ (hb x hx) hba

theorem sortSort_sorted {α : Type} (less : α → α → Bool)
    (hasymm : ∀ a b, less a b = true → less b a = false)
    (hneg : ∀ a b c, less a b = false → less b c = false → less a c = false)
    (l : List α) : (sortSort less l).Pairwise (fun x y => less y x = false) := by
  induction l with
  | nil => exact List.Pairwise.nil
  | cons a l ih => exact insertInOrder_sorted less hasymm hneg a ih

/-- Where `less` is a strict total order, `sort.Sort` has one possible result: every
rearrangement in which no element is less than an earlier one is the one of `sortSort`. -/
theorem sortSort_unique {α : Type} (less : α → α → Bool)
    (hasymm : ∀ a b, less a b = true → less b a = false)
    (hneg : ∀ a b c, less a b = false → less b c = false → less a c = false)
    (htotal : ∀ a b, less a b = false → less b a = false → a = b)
    {l s : List α} (hperm : s.Perm l) (hsorted : s.Pairwise (fun x y => less y x = false)) :
    s = sortSort less l := by
  haveI : IsAntisymm α (fun x y => less y x = false) := ⟨fun a b h1 h2 => htotal a b h2 h1⟩
  exact List.eq_of_perm_of_sorted (hperm.trans (sortSort_perm less l).symm) hsorted
    (sortSort_sorted less hasymm hneg l)

theorem Less_asymm (P : Params) (a b : sortableAddress) (h : Less P a b = true) :
    Less P b a = false := by
  unfold Less at h ⊢
  by_cases h1 : a.weight < b.weight
  · simp [h1] at h
  · by_cases h2 : a.weight > b.weight
    · simp [h2]
    · have heq : a.weight = b.weight := by omega
      simp only [h1, h2, if_false] at h
      simp only [heq, lt_self_iff_false, gt_iff_lt, if_false]
      exact bytesLt_asymm h

theorem bytesLt_negtrans {a b c : Bytes} (h1 : bytesLt a b = false) (h2 : bytesLt b c = false) :
    bytesLt a c = false := by
  cases hac : bytesLt a c with
  | false => rfl
  | true =>
    by_cases hab : a = b
    · subst hab; rw [h2] at hac; cases hac
    · have hba := bytesLt_total h1 hab
      have := bytesLt_trans hba hac
      rw [h2] at this; cases this

theorem Less_negtrans (P : Params) (a b c : sortableAddress) (h1 : Less P a b = false)
    (h2 : Less P b c = false) : Less P a c = false := by
  unfold Less at h1 h2 ⊢
  by_cases hab : a.weight < b.weight
  · by_cases hbc : b.weight < c.weight
    · have : a.weight < c.weight := by omega
      simp [this]
    · by_cases hbc2 : b.weight > c.weight
      · simp [hbc, hbc2] at h2
      · have : a.weight < c.weight := by omega
        simp [this]
  · by_cases hab2 : a.weight > b.weight
    · simp [hab, hab2] at h1
    · simp only [hab, hab2, if_false] at h1
      by_cases hbc : b.weight < c.weight
      · have : a.weight < c.weight := by omega
        simp [this]
      · by_cases hbc2 : b.weight > c.weight
        · simp [hbc, hbc2] at h2
        · simp only [hbc, hbc2, if_false] at h2
          have h3 : ¬ a.weight < c.weight := by omega
          have h4 : ¬ a.weight > c.weight := by omega
          simp only [h3, h4, if_false]
          exact bytesLt_negtrans h1 h2

theorem Less_total (P : Params) (a b : sortableAddress) (h1 : Less P a b = false)
    (h2 : Less P b a = false) : a = b := by
  unfold Less at h1 h2
  by_cases hab : a.weight < b.weight
  · have h3 : ¬ b.weight < a.weight := by omega
    simp [h3, hab] at h2
  · by_cases hab2 : a.weight > b.weight
    · simp [hab, hab2] at h1
    · simp only [hab, hab2, if_false] at h1
      have h3 : ¬ b.weight < a.weight := by omega
      have h4 : ¬ b.weight > a.weight := by omega
      simp only [h3, h4, if_false] at h2
      have hs : P.addressString a.address = P.addressString b.address := by
        by_contra hne
        have := bytesLt_total h1 hne
        rw [h2] at this; cases this
      have haddr := P.addressString_inj _ _ hs
      cases a; cases b
      simp only [sortableAddress.mk.injEq]
      exact ⟨haddr, by simp only at hab hab2; omega⟩

/-! ## Facts about the shuffle -/

theorem swap_perm {α : Type} (l : List α) (i j : Nat) : (swap l i j).Perm l := by
  classical
  unfold swap
  cases hi : l.get? i with
  | none => simp
  | some a =>
    cases hj : l.get? j with
    | none => simp
    | some b =>
      simp only
      obtain ⟨hil, hia⟩ := List.get?_eq_some.mp hi
      obtain ⟨hjl, hjb⟩ := List.get?_eq_some.mp hj
      rw [List.perm_iff_count]
      intro x
      have hjl2 : j < (l.set i b).length := by simpa using hjl
      rw [List.count_set _ _ _ _ hjl2, List.count_set _ _ _ _ hil]
      have hget : (l.set i b)[j] = b := by
        rw [List.getElem_set]
        split
        · rfl
        · simpa using hjb
      have hia2 : l[i] = a := by simpa using hia
      rw [hget, hia2]
      have hmem : a ∈ l := hia2 ▸ List.getElem_mem _
      have hcount : (a == x) = true → 0 < l.count x := by
        intro h
        have : a = x := by simpa using h
        subst this
        exact List.count_pos_iff.mpr hmem
      by_cases hax : (a == x) = true <;> by_cases hbx : (b == x) = true
      · have := hcount hax; simp [hax, hbx]; omega
      · have := hcount hax; simp [hax, hbx]; omega
      · simp [hax, hbx]
      · simp [hax, hbx]

theorem shuffle_perm {α : Type} (P : Params) (i r : Nat) (c : List α) :
    (shuffle P i r c).Perm c := by
  induction i generalizing r c with
  | zero => exact List.Perm.refl _
  | succ i ih => exact (ih _ _).trans (swap_perm c _ _)

/-! ## Facts about the election -/

theorem GetValidators_SetValidators_fresh (P : Params) (pc : PocContext) (vs : List Address) :
    ((pc.SetEpoch Trie.empty).SetValidators P vs).1.GetValidators P = .ok vs := by
  have hne := P.encode_ne_nil vs
  simp [PocContext.SetValidators, PocContext.SetEpoch, PocContext.GetValidators, Trie.Update,
    Trie.TryUpdate, Trie.fault, Trie.empty, hne, insertEntry, Trie.Get, Trie.TryGet,
    P.decode_encode]

theorem countContributions_ok {ec : EpochContext} {ctbs : List AccountContribution}
    (h : countContributions ec = .ok ctbs) :
    ctbs.map (fun c => (⟨c.Account, c.Contribution⟩ : sortableAddress)) = candidatesOf ec := by
  unfold countContributions at h
  unfold candidatesOf PocContext.GetCandidates
  split at h
  · cases h
  · rename_i e es heq
    injection h with h
    subst h
    rw [heq]
    simp [List.map_map]

theorem elect_none {P : Params} {ec ec1 : EpochContext} {parent : Header} {i : Int}
    (h : elect P ec parent i = (ec1, none)) :
    ec1.TimeStamp = ec.TimeStamp ∧ ec1.stateDB = ec.stateDB
      ∧ ec1.PocContext.candidateTrie = ec.PocContext.candidateTrie
      ∧ ec1.PocContext.mintCntTrie = ec.PocContext.mintCntTrie
      ∧ P.safeSize ≤ (candidatesOf ec).length
      ∧ ec1.PocContext.GetValidators P = .ok (sortedValidators P (candidatesOf ec) parent i) := by
  unfold elect at h
  split at h
  · cases h
  · rename_i ctbs hctbs
    have hc := countContributions_ok hctbs
    simp only [hc] at h
    split at h
    · cases h
    · rename_i hsafe
      have hget := GetValidators_SetValidators_fresh P ec.PocContext
        (sortedValidators P (candidatesOf ec) parent i)
      simp only [PocContext.SetValidators, PocContext.SetContributions] at h hget
      cases henc : P.EncodeContributions ctbs with
      | none => simp [henc] at h
      | some enc =>
        simp only [henc, Prod.mk.injEq, and_true] at h
        subst h
        refine ⟨rfl, rfl, rfl, rfl, by omega, ?_⟩
        simpa [PocContext.GetValidators] using hget

theorem sortedValidators_perm (P : Params) (candidates : List sortableAddress) (parent : Header)
    (i : Int) :
    (sortedValidators P candidates parent i).Perm
      (((sortSort (Less P) candidates).take P.maxValidatorSize).map (fun c => c.address)) := by
  unfold sortedValidators
  apply List.Perm.map
  refine (shuffle_perm P _ _ _).trans ?_
  split
  · exact List.Perm.refl _
  · rename_i h
    rw [List.take_of_length_le (by omega)]

theorem sortedValidators_length (P : Params) (candidates : List sortableAddress) (parent : Header)
    (i : Int) :
    (sortedValidators P candidates parent i).length = min candidates.length P.maxValidatorSize := by
  rw [(sortedValidators_perm P candidates parent i).length_eq, List.length_map, List.length_take,
    (sortSort_perm (Less P) candidates).length_eq, Nat.min_comm]

theorem elect_candidateTrie (P : Params) (ec : EpochContext) (parent : Header) (i : Int) :
    (elect P ec parent i).1.PocContext.candidateTrie = ec.PocContext.candidateTrie := by
  unfold elect
  split
  · rfl
  · rename_i ctbs _
    simp only
    split
    · rfl
    · simp only [PocContext.SetValidators, PocContext.SetContributions]
      cases P.EncodeContributions ctbs <;> rfl

theorem candidatesOf_congr {ec ec1 : EpochContext} (h1 : ec1.stateDB = ec.stateDB)
    (h2 : ec1.PocContext.candidateTrie = ec.PocContext.candidateTrie) :
    candidatesOf ec1 = candidatesOf ec := by
  unfold candidatesOf PocContext.GetCandidates
  rw [h1, h2]

/-- A `tryElect` loop that runs at least once and returns `nil` ends with an election. -/
theorem tryElectLoop_last (P : Params) (parent : Header) (prevEpoch : Int) (g : Bool) (n : Nat) :
    ∀ (i : Int) (iter : List (Bytes × Bytes)) (ec ec1 : EpochContext),
      tryElectLoop P parent prevEpoch g (n + 1) i iter ec = (ec1, none) →
      ∃ (ecm : EpochContext) (j : Int), elect P ecm parent j = (ec1, none) := by
  induction n with
  | zero =>
    intro i iter ec ec1 h
    simp only [tryElectLoop] at h
    split at h
    · cases h
    · rename_i ecm _
      split at h
      · cases h
      · rename_i ec2 hel
        simp only [Prod.mk.injEq, and_true] at h
        subst h
        exact ⟨ecm, i, hel⟩
  | succ n ih =>
    intro i iter ec ec1 h
    rw [tryElectLoop] at h
    split at h
    · cases h
    · split at h
      · cases h
      · exact ih _ _ _ _ h

theorem kickoutValidator_stateDB (P : Params) (ec : EpochContext) (epoch : Int) :
    (kickoutValidator P ec epoch).1.stateDB = ec.stateDB := by
  unfold kickoutValidator
  split
  · rfl
  · split
    · rfl
    · split
      · rfl
      · split <;> rfl

theorem elect_stateDB (P : Params) (ec : EpochContext) (parent : Header) (i : Int) :
    (elect P ec parent i).1.stateDB = ec.stateDB := by
  unfold elect
  split
  · rfl
  · rename_i ctbs _
    simp only
    split
    · rfl
    · simp only [PocContext.SetValidators, PocContext.SetContributions]
      cases P.EncodeContributions ctbs <;> rfl

theorem tryElectLoop_stateDB (P : Params) (parent : Header) (prevEpoch : Int) (g : Bool) (n : Nat) :
    ∀ (i : Int) (iter : List (Bytes × Bytes)) (ec : EpochContext),
      (tryElectLoop P parent prevEpoch g n i iter ec).1.stateDB = ec.stateDB := by
  induction n with
  | zero => intro i iter ec; rfl
  | succ n ih =>
    intro i iter ec
    have hk : (if (!g && !iter.isEmpty) = true then kickoutValidator P ec prevEpoch
        else (ec, none)).1.stateDB = ec.stateDB := by
      split
      · exact kickoutValidator_stateDB P ec prevEpoch
      · rfl
    rw [tryElectLoop]
    split
    · rename_i ec1 err heq
      rw [heq] at hk
      exact hk
    · rename_i ec1 heq
      rw [heq] at hk
      have he := elect_stateDB P ec1 parent i
      split
      · rename_i ec2 err heq2
        rw [heq2] at he
        exact he.trans hk
      · rename_i ec2 heq2
        rw [heq2] at he
        exact (ih _ _ _).trans (he.trans hk)

/-- With the parent in an earlier epoch than the current time, `tryElect` runs its loop at
least once. -/
theorem tryElect_eq_loop (P : Params) (ec : EpochContext) (genesis parent : Header)
    (helect : Int.tdiv parent.Time P.epochInterval < Int.tdiv ec.TimeStamp P.epochInterval) :
    ∃ (prevEpoch : Int) (g : Bool) (n : Nat) (iter : List (Bytes × Bytes)),
      tryElect P ec genesis parent = tryElectLoop P parent prevEpoch g (n + 1) prevEpoch iter ec := by
  unfold tryElect
  simp only
  by_cases hg : Int.tdiv parent.Time P.epochInterval = Int.tdiv genesis.Time P.epochInterval
  · refine ⟨Int.tdiv ec.TimeStamp P.epochInterval - 1, true, 0,
      ec.PocContext.mintCntTrie.iteratePrefixed
        (PutUint64 (uint64 (Int.tdiv ec.TimeStamp P.epochInterval - 1))), ?_⟩
    have h1 : (Int.tdiv ec.TimeStamp P.epochInterval
        - (Int.tdiv ec.TimeStamp P.epochInterval - 1)).toNat = 1 := by
      have : Int.tdiv ec.TimeStamp P.epochInterval
        - (Int.tdiv ec.TimeStamp P.epochInterval - 1) = 1 := by omega
      rw [this]; rfl
    simp only [hg, decide_True, Bool.true_and, decide_eq_true_eq, hg ▸ helect, if_true, h1]
  · obtain ⟨n, hn⟩ : ∃ n : Nat, (Int.tdiv ec.TimeStamp P.epochInterval
        - Int.tdiv parent.Time P.epochInterval).toNat = n + 1 := by
      refine ⟨(Int.tdiv ec.TimeStamp P.epochInterval
        - Int.tdiv parent.Time P.epochInterval).toNat - 1, ?_⟩
      omega
    refine ⟨Int.tdiv parent.Time P.epochInterval, false, n,
      ec.PocContext.mintCntTrie.iteratePrefixed
        (PutUint64 (uint64 (Int.tdiv parent.Time P.epochInterval))), ?_⟩
    simp only [hg, decide_False, Bool.false_and, Bool.false_eq_true, if_false, hn]

/-- A `tryElect` that elects and returns `nil` leaves the validators elected among the
candidates it leaves. -/
theorem tryElect_elected (P : Params) (ec : EpochContext) (genesis parent : Header)
    (helect : Int.tdiv parent.Time P.epochInterval < Int.tdiv ec.TimeStamp P.epochInterval)
    (hnil : (tryElect P ec genesis parent).2 = none) :
    (tryElect P ec genesis parent).1.stateDB = ec.stateDB
      ∧ P.safeSize ≤ (candidatesOf (tryElect P ec genesis parent).1).length
      ∧ ∃ j : Int, (tryElect P ec genesis parent).1.PocContext.GetValidators P
          = .ok (sortedValidators P (candidatesOf (tryElect P ec genesis parent).1) parent j) := by
  obtain ⟨prevEpoch, g, n, iter, hloop⟩ := tryElect_eq_loop P ec genesis parent helect
  have hst : (tryElect P ec genesis parent).1.stateDB = ec.stateDB := by
    rw [hloop]; exact tryElectLoop_stateDB _ _ _ _ _ _ _ _
  refine ⟨hst, ?_⟩
  have hpair : tryElectLoop P parent prevEpoch g (n + 1) prevEpoch iter ec
      = ((tryElect P ec genesis parent).1, none) := by
    rw [← hloop, ← hnil]
  obtain ⟨ecm, j, hel⟩ := tryElectLoop_last P parent prevEpoch g n _ _ _ _ hpair
  obtain ⟨_, h2, h3, _, h5, h6⟩ := elect_none hel
  have hc := candidatesOf_congr h2 h3
  rw [hc]
  exact ⟨h5, j, h6⟩

/-! ## Facts about `lookupValidator` -/

theorem tmod_tmod_eq_zero_iff {E B : Int} (hdiv : B ∣ E) (t : Int) :
    Int.tmod (Int.tmod t E) B = 0 ↔ Int.tmod t B = 0 := by
  rw [← Int.dvd_iff_tmod_eq_zero, ← Int.dvd_iff_tmod_eq_zero]
  have hq : B ∣ E * Int.tdiv t E := Dvd.dvd.mul_right hdiv _
  constructor
  · intro h
    have := Int.dvd_add h hq
    rwa [Int.tmod_add_tdiv] at this
  · intro h
    rw [Int.tmod_def]
    exact Int.dvd_sub h hq

theorem lookupValidator_invalid_iff (P : Params) (ec : EpochContext) (t : Int) :
    lookupValidator P ec t = .error .ErrInvalidMintBlockTime
      ↔ Int.tmod (Int.tmod t P.epochInterval) P.blockInterval ≠ 0 := by
  unfold lookupValidator
  simp only
  split
  · rename_i h; simp [h]
  · rename_i h
    simp only [h, iff_false]
    cases hd : P.DecodeValidators ((ec.PocContext.epochTrie.Get validatorKey).getD []) with
    | none => simp [PocContext.GetValidators, hd]
    | some vs =>
      simp only [PocContext.GetValidators, hd]
      split
      · simp
      · split
        · simp
        · split <;> simp

theorem lookupValidator_ok (P : Params) (ec : EpochContext) (t : Int) (vs : List Address)
    (hget : ec.PocContext.GetValidators P = .ok vs) (hne : vs ≠ [])
    (ht : 0 ≤ t) (hoff : (t % P.epochInterval) % P.blockInterval = 0) :
    ∃ v : Address, vs.get? (((t % P.epochInterval) / P.blockInterval) % vs.length).toNat = some v
      ∧ lookupValidator P ec t = .ok v := by
  have hE := P.epochInterval_pos
  have hB := P.blockInterval_pos
  have hlen : 0 < vs.length := List.length_pos.mpr hne
  have h1 : Int.tmod t P.epochInterval = t % P.epochInterval :=
    Int.tmod_eq_emod ht (le_of_lt hE)
  have h2 : 0 ≤ t % P.epochInterval := Int.emod_nonneg _ (ne_of_gt hE)
  have h3 : Int.tmod (t % P.epochInterval) P.blockInterval
      = (t % P.epochInterval) % P.blockInterval := Int.tmod_eq_emod h2 (le_of_lt hB)
  have h4 : Int.tdiv (t % P.epochInterval) P.blockInterval
      = (t % P.epochInterval) / P.blockInterval := Int.tdiv_eq_ediv h2 (le_of_lt hB)
  have h5 : 0 ≤ (t % P.epochInterval) / P.blockInterval := Int.ediv_nonneg h2 (le_of_lt hB)
  have h6 : Int.tmod ((t % P.epochInterval) / P.blockInterval) vs.length
      = ((t % P.epochInterval) / P.blockInterval) % vs.length :=
    Int.tmod_eq_emod h5 (Int.ofNat_nonneg _)
  have hlen2 : (0 : Int) < vs.length := by exact_mod_cast hlen
  have h7 : 0 ≤ ((t % P.epochInterval) / P.blockInterval) % vs.length :=
    Int.emod_nonneg _ (ne_of_gt hlen2)
  have h8 : ((t % P.epochInterval) / P.blockInterval) % vs.length < vs.length :=
    Int.emod_lt_of_pos _ hlen2
  have h9 : (((t % P.epochInterval) / P.blockInterval) % vs.length).toNat < vs.length := by
    omega
  refine ⟨vs.get ⟨_, h9⟩, List.get?_eq_get h9, ?_⟩
  unfold lookupValidator
  simp only [h1, h3, hoff, ne_eq, not_true_eq_false, if_false, hget, h4, h6]
  rw [if_neg (by omega), if_neg (by omega), List.get?_eq_get h9]

/-! ## Facts about the kickout -/

theorem Uint64_PutUint64 (n : Nat) (h : n < 2 ^ 64) : Uint64 (PutUint64 n) = some n := by
  simp only [PutUint64, Uint64, Fin.ofNat, Option.some.injEq]
  omega

theorem int64_of_lt (n : Nat) (h : n < 2 ^ 63) : int64 n = n := by
  unfold int64
  omega

theorem find_filter_key (es : List (Bytes × Bytes)) (ks : List Bytes) (a : Bytes) :
    (es.filter (fun e => !decide (e.1 ∈ ks))).find? (fun e => decide (e.1 = a))
      = if a ∈ ks then none else es.find? (fun e => decide (e.1 = a)) := by
  induction es with
  | nil => simp
  | cons e es ih =>
    by_cases hk : e.1 ∈ ks
    · simp only [List.filter_cons, hk, decide_True, Bool.not_true, Bool.false_eq_true, if_false, ih]
      by_cases ha : a ∈ ks
      · simp [ha]
      · have : e.1 ≠ a := fun h => ha (h ▸ hk)
        simp [ha, List.find?_cons, this]
    · simp only [List.filter_cons, hk, decide_False, Bool.not_false, if_true, List.find?_cons]
      by_cases hea : e.1 = a
      · have : a ∉ ks := hea ▸ hk
        simp [hea, this]
      · simp [hea, ih]

theorem Address.Bytes_inj {a b : Address} (h : a.Bytes = b.Bytes) : a = b := by
  cases a; cases b; simpa [Address.Bytes] using h

theorem KickoutCandidate_Get (pc : PocContext) (a v : Address) (h : a ≠ v) :
    (pc.KickoutCandidate a).1.candidateTrie.Get v.Bytes = pc.candidateTrie.Get v.Bytes := by
  unfold PocContext.KickoutCandidate Trie.TryDelete
  cases hf : pc.candidateTrie.fault a.Bytes with
  | some e => cases e <;> rfl
  | none =>
    have hne : v.Bytes ∉ [a.Bytes] := by
      simp only [List.mem_singleton]
      exact fun h2 => h (Address.Bytes_inj h2.symm)
    have := find_filter_key pc.candidateTrie.entries [a.Bytes] v.Bytes
    simp only [List.mem_singleton, hne, if_false] at this
    simp only [Trie.Get, Trie.TryGet, Trie.fault]
    rw [← this]

theorem kickoutLoop_Get (P : Params) (v : Address) (l : List sortableAddress) :
    ∀ (pc : PocContext) (cc : Nat), (∀ x ∈ l, x.address ≠ v) →
      (kickoutLoop P pc cc l).1.candidateTrie.Get v.Bytes = pc.candidateTrie.Get v.Bytes := by
  induction l with
  | nil => intro pc cc _; rfl
  | cons x rest ih =>
    intro pc cc h
    have hx := KickoutCandidate_Get pc x.address v (h x (List.mem_cons_self _ _))
    have hrest : ∀ y ∈ rest, y.address ≠ v := fun y hy => h y (List.mem_cons_of_mem _ hy)
    simp only [kickoutLoop]
    split
    · rfl
    · split
      · rename_i pc1 err heq
        rw [heq] at hx
        exact hx
      · rename_i pc1 heq
        rw [heq] at hx
        exact (ih pc1 _ hrest).trans hx

theorem kickoutLoop_faults (P : Params) (l : List sortableAddress) :
    ∀ (pc : PocContext) (cc : Nat),
      (kickoutLoop P pc cc l).1.candidateTrie.faults = pc.candidateTrie.faults := by
  induction l with
  | nil => intro pc cc; rfl
  | cons x rest ih =>
    intro pc cc
    have hx := KickoutCandidate_faults pc x.address
    simp only [kickoutLoop]
    split
    · rfl
    · split
      · rename_i pc1 err heq
        rw [heq] at hx
        exact hx
      · rename_i pc1 heq
        rw [heq] at hx
        exact (ih pc1 _).trans hx

theorem kickoutValidator_faults (P : Params) (ec : EpochContext) (epoch : Int) :
    (kickoutValidator P ec epoch).1.PocContext.candidateTrie.faults
      = ec.PocContext.candidateTrie.faults := by
  unfold kickoutValidator
  split
  · rfl
  · split
    · rfl
    · split
      · rfl
      · split
        · rfl
        · exact kickoutLoop_faults P _ _ _

theorem needKickoutValidators_mem (P : Params) (ec : EpochContext) (epoch : Int) :
    ∀ (validators : List Address) (need : List sortableAddress),
      needKickoutValidators P ec epoch validators = some need →
      ∀ (v : Address) (w : Int), (⟨v, w⟩ : sortableAddress) ∈ need
        ↔ v ∈ validators ∧ mintCnt ec epoch v = some w ∧ w < kickoutThreshold P ec := by
  intro validators
  induction validators with
  | nil =>
    intro need h v w
    simp only [needKickoutValidators, Option.some.injEq] at h
    subst h
    simp
  | cons x xs ih =>
    intro need h v w
    simp only [needKickoutValidators] at h
    cases hc : mintCnt ec epoch x with
    | none => simp [hc] at h
    | some cnt =>
      cases hr : needKickoutValidators P ec epoch xs with
      | none => simp [hc, hr] at h
      | some l =>
        simp only [hc, hr] at h
        have ihl := ih l hr v w
        by_cases hlt : cnt < kickoutThreshold P ec
        · simp only [hlt, if_true, Option.some.injEq] at h
          subst h
          simp only [List.mem_cons, sortableAddress.mk.injEq, ihl]
          constructor
          · rintro (⟨h1, h2⟩ | ⟨h1, h2, h3⟩)
            · subst h1 h2; exact ⟨Or.inl rfl, hc, hlt⟩
            · exact ⟨Or.inr h1, h2, h3⟩
          · rintro ⟨h1 | h1, h2, h3⟩
            · subst h1
              rw [hc] at h2
              injection h2 with h2
              exact Or.inl ⟨rfl, h2.symm⟩
            · exact Or.inr ⟨h1, h2, h3⟩
        · simp only [hlt, if_false, Option.some.injEq] at h
          subst h
          rw [ihl]
          constructor
          · rintro ⟨h1, h2, h3⟩
            exact ⟨List.mem_cons_of_mem _ h1, h2, h3⟩
          · rintro ⟨h1, h2, h3⟩
            rcases List.mem_cons.mp h1 with h1 | h1
            · subst h1
              rw [hc] at h2
              injection h2 with h2
              subst h2
              exact absurd h3 hlt
            · exact ⟨h1, h2, h3⟩

theorem kickoutValidator_Get_of_not_need (P : Params) (ec : EpochContext) (epoch : Int)
    (validators : List Address) (need : List sortableAddress)
    (hget : ec.PocContext.GetValidators P = .ok validators)
    (hneed : needKickoutValidators P ec epoch validators = some need)
    (v : Address) (hv : ∀ x ∈ need, x.address ≠ v) :
    (kickoutValidator P ec epoch).1.PocContext.candidateTrie.Get v.Bytes
      = ec.PocContext.candidateTrie.Get v.Bytes := by
  unfold kickoutValidator
  simp only [hget, hneed]
  split
  · rfl
  · split
    · rfl
    · apply kickoutLoop_Get
      intro x hx
      exact hv x ((sortSort_perm _ need).subset hx)

theorem kickoutValidator_Get (P : Params) (ec : EpochContext) (epoch : Int) (v : Address)
    (cnt : Int) (hcnt : mintCnt ec epoch v = some cnt) (hge : kickoutThreshold P ec ≤ cnt) :
    (kickoutValidator P ec epoch).1.PocContext.candidateTrie.Get v.Bytes
      = ec.PocContext.candidateTrie.Get v.Bytes := by
  cases hget : ec.PocContext.GetValidators P with
  | error e => simp [kickoutValidator, hget]
  | ok validators =>
    cases hneed : needKickoutValidators P ec epoch validators with
    | none =>
      unfold kickoutValidator
      simp only [hget, hneed]
      split <;> rfl
    | some need =>
      apply kickoutValidator_Get_of_not_need P ec epoch validators need hget hneed
      intro x hx hxv
      have := (needKickoutValidators_mem P ec epoch validators need hneed x.address x.weight).mp hx
      rw [hxv, hcnt] at this
      obtain ⟨_, h2, h3⟩ := this
      injection h2 with h2
      omega

theorem countCandidates_eq (limit : Nat) (es : List (Bytes × Bytes)) (c : Nat)
    (h : c + 1 ≤ limit) : countCandidates limit es c = min (c + es.length) limit := by
  induction es generalizing c with
  | nil => simp only [countCandidates, List.length_nil]; omega
  | cons e es ih =>
    simp only [countCandidates, List.length_cons]
    split
    · omega
    · rw [ih (c + 1) (by omega)]; omega

theorem filter_filter_key (es : List (Bytes × Bytes)) (k : Bytes) (ks : List Bytes) :
    (es.filter (fun e => !decide (e.1 = k))).filter (fun e => !decide (e.1 ∈ ks))
      = es.filter (fun e => !decide (e.1 ∈ k :: ks)) := by
  rw [List.filter_filter]
  congr 1
  funext e
  by_cases h1 : e.1 = k <;> by_cases h2 : e.1 ∈ ks <;> simp [h1, h2]

theorem kickoutLoop_noFault (P : Params) (l : List sortableAddress) :
    ∀ (pc : PocContext) (cc : Nat), pc.candidateTrie.faults = [] →
      (kickoutLoop P pc cc l).2 = none
        ∧ (kickoutLoop P pc cc l).1.candidateTrie.entries
          = pc.candidateTrie.entries.filter (fun e =>
              !decide (e.1 ∈ (l.take (cc - P.safeSize)).map (fun x => x.address.Bytes))) := by
  induction l with
  | nil =>
    intro pc cc _
    simp [kickoutLoop]
  | cons x rest ih =>
    intro pc cc hf
    simp only [kickoutLoop]
    split
    · rename_i hcc
      have : cc - P.safeSize = 0 := by omega
      simp [this]
    · rename_i hcc
      have hk : cc - P.safeSize = (cc - 1 - P.safeSize) + 1 := by omega
      have hfault : pc.candidateTrie.fault x.address.Bytes = none := by
        simp [Trie.fault, hf]
      have hkick : pc.KickoutCandidate x.address
          = ({ pc with candidateTrie :=
                ⟨pc.candidateTrie.entries.filter (fun e => !decide (e.1 = x.address.Bytes)),
                  pc.candidateTrie.sorted.filter _, pc.candidateTrie.faults⟩ }, none) := by
        simp only [PocContext.KickoutCandidate, Trie.TryDelete, hfault]
      rw [hkick]
      simp only
      have := ih { pc with candidateTrie :=
                ⟨pc.candidateTrie.entries.filter (fun e => !decide (e.1 = x.address.Bytes)),
                  pc.candidateTrie.sorted.filter _, pc.candidateTrie.faults⟩ } (cc - 1) hf
      refine ⟨this.1, ?_⟩
      rw [this.2, hk, List.take_succ_cons, List.map_cons]
      exact filter_filter_key _ _ _

theorem kickoutValidator_noFault (P : Params) (ec : EpochContext) (epoch : Int)
    (validators : List Address) (need : List sortableAddress)
    (hget : ec.PocContext.GetValidators P = .ok validators) (hne : validators ≠ [])
    (hneed : needKickoutValidators P ec epoch validators = some need)
    (hfaults : ec.PocContext.candidateTrie.faults = []) :
    (kickoutValidator P ec epoch).2 = none
      ∧ (kickoutValidator P ec epoch).1.PocContext.candidateTrie.iterate
        = ec.PocContext.candidateTrie.iterate.filter (fun e =>
            !decide (e.1 ∈ ((sortSort (fun a b => Less P b a) need).take
              (ec.PocContext.candidateTrie.iterate.length - P.safeSize)).map
                (fun x => x.address.Bytes))) := by
  have hlen : validators.length ≠ 0 := fun h => hne (List.length_eq_zero.mp h)
  unfold kickoutValidator
  simp only [hget, hneed, hlen, if_false]
  split
  · rename_i h
    have : need = [] := List.length_eq_zero.mp (by omega)
    subst this
    simp [sortSort]
  · rename_i h
    have hloop := kickoutLoop_noFault P (sortSort (fun a b => Less P b a) need) ec.PocContext
      (countCandidates (need.length + P.safeSize) ec.PocContext.candidateTrie.iterate 0) hfaults
    refine ⟨hloop.1, ?_⟩
    simp only [Trie.iterate] at hloop ⊢
    have hsl : (sortSort (fun a b => Less P b a) need).length = need.length :=
      (sortSort_perm _ need).length_eq
    have hT : (sortSort (fun a b => Less P b a) need).take
          (countCandidates (need.length + P.safeSize) ec.PocContext.candidateTrie.entries 0
            - P.safeSize)
        = (sortSort (fun a b => Less P b a) need).take
          (ec.PocContext.candidateTrie.entries.length - P.safeSize) := by
      rw [countCandidates_eq _ _ _ (by omega)]
      by_cases hc : ec.PocContext.candidateTrie.entries.length ≤ need.length + P.safeSize
      · have : min (0 + ec.PocContext.candidateTrie.entries.length) (need.length + P.safeSize)
            = ec.PocContext.candidateTrie.entries.length := by omega
        rw [this]
      · have : min (0 + ec.PocContext.candidateTrie.entries.length) (need.length + P.safeSize)
            = need.length + P.safeSize := by omega
        rw [this, List.take_of_length_le (by omega), List.take_of_length_le (by omega)]
    rw [hloop.2]
    simp only [hT]

theorem needKickoutValidators_all (P : Params) (ec : EpochContext) (epoch : Int)
    (validators : List Address)
    (hunder : ∀ v ∈ validators, ∃ cnt : Int,
      mintCnt ec epoch v = some cnt ∧ cnt < kickoutThreshold P ec) :
    ∃ need : List sortableAddress,
      needKickoutValidators P ec epoch validators = some need
        ∧ need.map (fun x => x.address) = validators := by
  induction validators with
  | nil => exact ⟨[], rfl, rfl⟩
  | cons v vs ih =>
    obtain ⟨cnt, hc, hlt⟩ := hunder v (List.mem_cons_self _ _)
    obtain ⟨need, hn, hm⟩ := ih (fun w hw => hunder w (List.mem_cons_of_mem _ hw))
    refine ⟨⟨v, cnt⟩ :: need, ?_, ?_⟩
    · simp only [needKickoutValidators, hc, hn, hlt, if_true]
    · simp [hm]

theorem keys_nodup {es : List (Bytes × Bytes)} (h : es.Pairwise entryLt) :
    (es.map Prod.fst).Nodup := by
  rw [List.Nodup, List.pairwise_map]
  exact h.imp (fun hab => bytesLt_ne hab)

theorem filter_keys_length (es : List (Bytes × Bytes)) (h : es.Pairwise entryLt)
    (ks : List Bytes) (hks : ks.Nodup) (hsub : ∀ k ∈ ks, k ∈ es.map Prod.fst) :
    (es.filter (fun e => !decide (e.1 ∈ ks))).length + ks.length = es.length := by
  have hsplit := List.length_eq_length_filter_add (l := es)
    (fun e : Bytes × Bytes => decide (e.1 ∈ ks))
  have hin : ((es.filter (fun e => decide (e.1 ∈ ks))).map Prod.fst).Perm ks := by
    rw [List.perm_ext_iff_of_nodup ((keys_nodup h).sublist ((List.filter_sublist _).map _)) hks]
    intro a
    simp only [List.mem_map, List.mem_filter, decide_eq_true_eq]
    constructor
    · rintro ⟨e, ⟨_, h2⟩, rfl⟩; exact h2
    · intro ha
      obtain ⟨e, he, rfl⟩ := List.mem_map.mp (hsub a ha)
      exact ⟨e, ⟨he, ha⟩, rfl⟩
  have hl := hin.length_eq
  rw [List.length_map] at hl
  simp only at hsplit
  omega

theorem Get_isSome_iff (t : Trie) (h : t.faults = []) (k : Bytes) :
    (t.Get k).isSome = true ↔ k ∈ t.entries.map Prod.fst := by
  rw [Trie.Get_noFaults t h]
  rw [Option.isSome_map', List.find?_isSome]
  simp only [decide_eq_true_eq, List.mem_map]

/-! ## Facts about two runs of the election -/

theorem KickoutCandidate_others (pc : PocContext) (a : Address) :
    (pc.KickoutCandidate a).1.epochTrie = pc.epochTrie
      ∧ (pc.KickoutCandidate a).1.contributionTrie = pc.contributionTrie
      ∧ (pc.KickoutCandidate a).1.latestTxTrie = pc.latestTxTrie
      ∧ (pc.KickoutCandidate a).1.mintCntTrie = pc.mintCntTrie := by
  unfold PocContext.KickoutCandidate
  cases pc.candidateTrie.TryDelete a.Bytes with
  | error e => cases e <;> exact ⟨rfl, rfl, rfl, rfl⟩
  | ok t => exact ⟨rfl, rfl, rfl, rfl⟩

theorem KickoutCandidate_congr (pc1 pc2 : PocContext) (a : Address)
    (h : pc1.candidateTrie = pc2.candidateTrie) :
    (pc1.KickoutCandidate a).2 = (pc2.KickoutCandidate a).2
      ∧ (pc1.KickoutCandidate a).1.candidateTrie = (pc2.KickoutCandidate a).1.candidateTrie := by
  unfold PocContext.KickoutCandidate
  rw [h]
  cases pc2.candidateTrie.TryDelete a.Bytes with
  | error e => cases e <;> exact ⟨rfl, h⟩
  | ok t => exact ⟨rfl, rfl⟩

theorem KickoutCandidate_subset (pc : PocContext) (a : Address) :
    (pc.KickoutCandidate a).1.GetCandidates ⊆ pc.GetCandidates := by
  unfold PocContext.KickoutCandidate Trie.TryDelete
  cases pc.candidateTrie.fault a.Bytes with
  | some e => cases e <;> exact fun _ h => h
  | none =>
    simp only [PocContext.GetCandidates, Trie.iterate]
    exact List.Sublist.subset ((List.filter_sublist _).map _)

theorem kickoutLoop_others (P : Params) (l : List sortableAddress) :
    ∀ (pc : PocContext) (cc : Nat),
      (kickoutLoop P pc cc l).1.epochTrie = pc.epochTrie
        ∧ (kickoutLoop P pc cc l).1.contributionTrie = pc.contributionTrie
        ∧ (kickoutLoop P pc cc l).1.latestTxTrie = pc.latestTxTrie
        ∧ (kickoutLoop P pc cc l).1.mintCntTrie = pc.mintCntTrie
        ∧ (kickoutLoop P pc cc l).1.GetCandidates ⊆ pc.GetCandidates := by
  induction l with
  | nil => intro pc cc; exact ⟨rfl, rfl, rfl, rfl, fun _ h => h⟩
  | cons x rest ih =>
    intro pc cc
    have hx := KickoutCandidate_others pc x.address
    have hs := KickoutCandidate_subset pc x.address
    simp only [kickoutLoop]
    split
    · exact ⟨rfl, rfl, rfl, rfl, fun _ h => h⟩
    · split
      · rename_i pc1 err heq
        rw [heq] at hx hs
        exact ⟨hx.1, hx.2.1, hx.2.2.1, hx.2.2.2, hs⟩
      · rename_i pc1 heq
        rw [heq] at hx hs
        obtain ⟨h1, h2, h3, h4, h5⟩ := ih pc1 (cc - 1)
        exact ⟨h1.trans hx.1, h2.trans hx.2.1, h3.trans hx.2.2.1, h4.trans hx.2.2.2,
          fun _ h => hs (h5 h)⟩

theorem kickoutLoop_congr (P : Params) (l : List sortableAddress) :
    ∀ (pc1 pc2 : PocContext) (cc : Nat), pc1.candidateTrie = pc2.candidateTrie →
      (kickoutLoop P pc1 cc l).2 = (kickoutLoop P pc2 cc l).2
        ∧ (kickoutLoop P pc1 cc l).1.candidateTrie = (kickoutLoop P pc2 cc l).1.candidateTrie := by
  induction l with
  | nil => intro pc1 pc2 cc h; exact ⟨rfl, h⟩
  | cons x rest ih =>
    intro pc1 pc2 cc h
    obtain ⟨h1, h2⟩ := KickoutCandidate_congr pc1 pc2 x.address h
    simp only [kickoutLoop]
    split
    · exact ⟨rfl, h⟩
    · cases hk1 : pc1.KickoutCandidate x.address with
      | mk q1 e1 =>
        cases hk2 : pc2.KickoutCandidate x.address with
        | mk q2 e2 =>
          rw [hk1, hk2] at h1 h2
          simp only at h1 h2
          subst h1
          cases e1 with
          | some err => exact ⟨rfl, h2⟩
          | none => exact ih q1 q2 (cc - 1) h2

theorem kickoutValidator_others (P : Params) (ec : EpochContext) (epoch : Int) :
    (kickoutValidator P ec epoch).1.TimeStamp = ec.TimeStamp
      ∧ (kickoutValidator P ec epoch).1.PocContext.epochTrie = ec.PocContext.epochTrie
      ∧ (kickoutValidator P ec epoch).1.PocContext.contributionTrie
        = ec.PocContext.contributionTrie
      ∧ (kickoutValidator P ec epoch).1.PocContext.latestTxTrie = ec.PocContext.latestTxTrie
      ∧ (kickoutValidator P ec epoch).1.PocContext.mintCntTrie = ec.PocContext.mintCntTrie
      ∧ (kickoutValidator P ec epoch).1.PocContext.GetCandidates
        ⊆ ec.PocContext.GetCandidates := by
  unfold kickoutValidator
  split
  · exact ⟨rfl, rfl, rfl, rfl, rfl, fun _ h => h⟩
  · split
    · exact ⟨rfl, rfl, rfl, rfl, rfl, fun _ h => h⟩
    · split
      · exact ⟨rfl, rfl, rfl, rfl, rfl, fun _ h => h⟩
      · split
        · exact ⟨rfl, rfl, rfl, rfl, rfl, fun _ h => h⟩
        · exact ⟨rfl, kickoutLoop_others P _ _ _⟩

theorem KickoutCandidate_sublist (pc : PocContext) (a : Address) :
    (pc.KickoutCandidate a).1.GetCandidates.Sublist pc.GetCandidates := by
  unfold PocContext.KickoutCandidate Trie.TryDelete
  cases pc.candidateTrie.fault a.Bytes with
  | some e => cases e <;> exact List.Sublist.refl _
  | none =>
    simp only [PocContext.GetCandidates, Trie.iterate]
    exact (List.filter_sublist _).map _

theorem kickoutLoop_sublist (P : Params) (l : List sortableAddress) :
    ∀ (pc : PocContext) (cc : Nat),
      (kickoutLoop P pc cc l).1.GetCandidates.Sublist pc.GetCandidates := by
  induction l with
  | nil => intro pc cc; exact List.Sublist.refl _
  | cons x rest ih =>
    intro pc cc
    have hs := KickoutCandidate_sublist pc x.address
    simp only [kickoutLoop]
    split
    · exact List.Sublist.refl _
    · split
      · rename_i pc1 err heq
        rw [heq] at hs
        exact hs
      · rename_i pc1 heq
        rw [heq] at hs
        exact (ih pc1 (cc - 1)).trans hs

theorem kickoutValidator_sublist (P : Params) (ec : EpochContext) (epoch : Int) :
    (kickoutValidator P ec epoch).1.PocContext.GetCandidates.Sublist
      ec.PocContext.GetCandidates := by
  unfold kickoutValidator
  split
  · exact List.Sublist.refl _
  · split
    · exact List.Sublist.refl _
    · split
      · exact List.Sublist.refl _
      · split
        · exact List.Sublist.refl _
        · exact kickoutLoop_sublist P _ _ _

theorem mintCnt_congr {ec1 ec2 : EpochContext}
    (h : ec1.PocContext.mintCntTrie = ec2.PocContext.mintCntTrie) (epoch : Int) (v : Address) :
    mintCnt ec1 epoch v = mintCnt ec2 epoch v := by
  unfold mintCnt
  rw [h]

theorem kickoutThreshold_congr (P : Params) {ec1 ec2 : EpochContext}
    (h : ec1.TimeStamp = ec2.TimeStamp) : kickoutThreshold P ec1 = kickoutThreshold P ec2 := by
  unfold kickoutThreshold epochDuration
  rw [h]

theorem needKickoutValidators_congr (P : Params) {ec1 ec2 : EpochContext}
    (h1 : ec1.TimeStamp = ec2.TimeStamp)
    (h2 : ec1.PocContext.mintCntTrie = ec2.PocContext.mintCntTrie) (epoch : Int)
    (validators : List Address) :
    needKickoutValidators P ec1 epoch validators = needKickoutValidators P ec2 epoch validators := by
  induction validators with
  | nil => rfl
  | cons v vs ih =>
    simp only [needKickoutValidators, mintCnt_congr h2, kickoutThreshold_congr P h1, ih]

theorem kickoutValidator_congr (P : Params) (ec1 ec2 : EpochContext) (epoch : Int)
    (h : sameElectionInput P ec1 ec2) :
    (kickoutValidator P ec1 epoch).2 = (kickoutValidator P ec2 epoch).2
      ∧ sameElectionInput P (kickoutValidator P ec1 epoch).1 (kickoutValidator P ec2 epoch).1 := by
  obtain ⟨hts, hct, hmt, hgv, hdb⟩ := h
  have o1 := kickoutValidator_others P ec1 epoch
  have o2 := kickoutValidator_others P ec2 epoch
  have hrest : (kickoutValidator P ec1 epoch).2 = (kickoutValidator P ec2 epoch).2
      ∧ (kickoutValidator P ec1 epoch).1.PocContext.candidateTrie
        = (kickoutValidator P ec2 epoch).1.PocContext.candidateTrie
      ∧ (kickoutValidator P ec1 epoch).1.stateDB = ec1.stateDB
      ∧ (kickoutValidator P ec2 epoch).1.stateDB = ec2.stateDB := by
    refine ⟨?_, ?_, kickoutValidator_stateDB P ec1 epoch, kickoutValidator_stateDB P ec2 epoch⟩
    · unfold kickoutValidator
      rw [hgv, hct]
      cases ec2.PocContext.GetValidators P with
      | error e => rfl
      | ok validators =>
        simp only [needKickoutValidators_congr P hts hmt epoch validators]
        split
        · rfl
        · cases needKickoutValidators P ec2 epoch validators with
          | none => rfl
          | some need =>
            simp only
            split
            · rfl
            · exact (kickoutLoop_congr P _ ec1.PocContext ec2.PocContext _ hct).1
    · unfold kickoutValidator
      rw [hgv, hct]
      cases ec2.PocContext.GetValidators P with
      | error e => exact hct
      | ok validators =>
        simp only [needKickoutValidators_congr P hts hmt epoch validators]
        split
        · exact hct
        · cases needKickoutValidators P ec2 epoch validators with
          | none => exact hct
          | some need =>
            simp only
            split
            · exact hct
            · exact (kickoutLoop_congr P _ ec1.PocContext ec2.PocContext _ hct).2
  obtain ⟨he, hc, hs1, hs2⟩ := hrest
  refine ⟨he, ?_, hc, ?_, ?_, ?_⟩
  · rw [o1.1, o2.1]; exact hts
  · rw [o1.2.2.2.2.1, o2.2.2.2.2.1]; exact hmt
  · unfold PocContext.GetValidators at hgv ⊢
    rw [o1.2.1, o2.2.1]; exact hgv
  · intro a ha
    rw [hs1, hs2]
    exact hdb a (o1.2.2.2.2.2 ha)

theorem candidatesOf_same (P : Params) {ec1 ec2 : EpochContext}
    (h : sameElectionInput P ec1 ec2) : candidatesOf ec1 = candidatesOf ec2 := by
  obtain ⟨_, hct, _, _, hdb⟩ := h
  unfold candidatesOf
  have hg : ec1.PocContext.GetCandidates = ec2.PocContext.GetCandidates := by
    unfold PocContext.GetCandidates; rw [hct]
  rw [← hg]
  apply List.map_congr_left
  intro a ha
  rw [hdb a ha]

theorem countContributions_congr (P : Params) {ec1 ec2 : EpochContext}
    (h : sameElectionInput P ec1 ec2) : countContributions ec1 = countContributions ec2 := by
  obtain ⟨_, hct, _, _, hdb⟩ := h
  unfold countContributions
  have hdb2 : ∀ e ∈ ec1.PocContext.candidateTrie.iterate,
      ec1.stateDB (BytesToAddress e.2) = ec2.stateDB (BytesToAddress e.2) := by
    intro e he
    apply hdb
    unfold PocContext.GetCandidates
    exact List.mem_map_of_mem (fun e => BytesToAddress e.2) he
  rw [← hct]
  cases hit : ec1.PocContext.candidateTrie.iterate with
  | nil => rfl
  | cons e es =>
    simp only
    congr 1
    apply List.map_congr_left
    intro c hc
    rw [hdb2 c (hit ▸ hc)]

theorem elect_others (P : Params) (ec : EpochContext) (parent : Header) (i : Int) :
    (elect P ec parent i).1.TimeStamp = ec.TimeStamp
      ∧ (elect P ec parent i).1.PocContext.mintCntTrie = ec.PocContext.mintCntTrie
      ∧ (elect P ec parent i).1.PocContext.latestTxTrie = ec.PocContext.latestTxTrie := by
  unfold elect
  split
  · exact ⟨rfl, rfl, rfl⟩
  · rename_i ctbs _
    simp only
    split
    · exact ⟨rfl, rfl, rfl⟩
    · simp only [PocContext.SetValidators, PocContext.SetContributions]
      cases P.EncodeContributions ctbs <;> exact ⟨rfl, rfl, rfl⟩

/-- The outcome of an election: an error that leaves the context as it was, or the validators
stored in a fresh epoch trie. -/
theorem elect_outcome (P : Params) (ec : EpochContext) (parent : Header) (i : Int) :
    (elect P ec parent i = (ec, some .noCandidates) ∧ countContributions ec = .error .noCandidates)
      ∨ (elect P ec parent i = (ec, some .tooFewCandidates)
        ∧ (∃ ctbs : List AccountContribution, countContributions ec = .ok ctbs)
        ∧ (candidatesOf ec).length < P.safeSize)
      ∨ (∃ ctbs : List AccountContribution, countContributions ec = .ok ctbs
        ∧ ¬ (candidatesOf ec).length < P.safeSize
        ∧ (elect P ec parent i).2
          = (match P.EncodeContributions ctbs with
            | none => some Error.failedToEncodeContributions
            | some _ => none)
        ∧ (elect P ec parent i).1.PocContext.GetValidators P
          = .ok (sortedValidators P (candidatesOf ec) parent i)) := by
  unfold elect
  cases hcc : countContributions ec with
  | error e =>
    left
    unfold countContributions at hcc
    split at hcc
    · injection hcc with hcc; subst hcc; exact ⟨rfl, rfl⟩
    · cases hcc
  | ok ctbs =>
    right
    have hc := countContributions_ok hcc
    simp only [hc]
    by_cases hsafe : (candidatesOf ec).length < P.safeSize
    · left; exact ⟨by simp [hsafe], ⟨ctbs, rfl⟩, hsafe⟩
    · right
      refine ⟨ctbs, rfl, hsafe, ?_⟩
      have hget := GetValidators_SetValidators_fresh P ec.PocContext
        (sortedValidators P (candidatesOf ec) parent i)
      simp only [PocContext.SetValidators, PocContext.SetContributions, hsafe, if_false] at hget ⊢
      cases henc : P.EncodeContributions ctbs with
      | none => exact ⟨rfl, by simpa [PocContext.GetValidators] using hget⟩
      | some enc => exact ⟨rfl, by simpa [PocContext.GetValidators] using hget⟩

theorem elect_congr (P : Params) (ec1 ec2 : EpochContext) (parent : Header) (i : Int)
    (h : sameElectionInput P ec1 ec2) :
    (elect P ec1 parent i).2 = (elect P ec2 parent i).2
      ∧ sameElectionInput P (elect P ec1 parent i).1 (elect P ec2 parent i).1 := by
  have hcc := countContributions_congr P h
  have hcand := candidatesOf_same P h
  obtain ⟨hts, hct, hmt, hgv, hdb⟩ := h
  have o1 := elect_others P ec1 parent i
  have o2 := elect_others P ec2 parent i
  have c1 := elect_candidateTrie P ec1 parent i
  have c2 := elect_candidateTrie P ec2 parent i
  have s1 := elect_stateDB P ec1 parent i
  have s2 := elect_stateDB P ec2 parent i
  have hframe : ∀ hv : (elect P ec1 parent i).1.PocContext.GetValidators P
      = (elect P ec2 parent i).1.PocContext.GetValidators P,
      sameElectionInput P (elect P ec1 parent i).1 (elect P ec2 parent i).1 := by
    intro hv
    refine ⟨by rw [o1.1, o2.1]; exact hts, by rw [c1, c2]; exact hct,
      by rw [o1.2.1, o2.2.1]; exact hmt, hv, ?_⟩
    intro a ha
    rw [s1, s2]
    apply hdb
    unfold PocContext.GetCandidates at ha ⊢
    rw [c1] at ha
    exact ha
  rcases elect_outcome P ec1 parent i with ⟨e1, k1⟩ | ⟨e1, ⟨c1s, k1⟩, m1⟩ | ⟨ctbs1, k1, n1, e1, v1⟩
  · rcases elect_outcome P ec2 parent i with
      ⟨e2, k2⟩ | ⟨e2, ⟨c2s, k2⟩, m2⟩ | ⟨ctbs2, k2, n2, e2, v2⟩
    · refine ⟨by rw [e1, e2], hframe ?_⟩
      rw [e1, e2]; exact hgv
    · rw [hcc, k2] at k1; cases k1
    · rw [hcc, k2] at k1; cases k1
  · rcases elect_outcome P ec2 parent i with
      ⟨e2, k2⟩ | ⟨e2, ⟨c2s, k2⟩, m2⟩ | ⟨ctbs2, k2, n2, e2, v2⟩
    · rw [hcc, k2] at k1; cases k1
    · refine ⟨by rw [e1, e2], hframe ?_⟩
      rw [e1, e2]; exact hgv
    · rw [hcand] at m1; exact absurd m1 n2
  · rcases elect_outcome P ec2 parent i with
      ⟨e2, k2⟩ | ⟨e2, ⟨c2s, k2⟩, m2⟩ | ⟨ctbs2, k2, n2, e2, v2⟩
    · rw [hcc, k2] at k1; cases k1
    · rw [hcand] at n1; exact absurd m2 n1
    · rw [hcc, k2] at k1
      injection k1 with k1
      subst k1
      refine ⟨by rw [e1, e2], hframe ?_⟩
      rw [v1, v2, hcand]

theorem tryElectLoop_congr (P : Params) (parent : Header) (prevEpoch : Int) (g : Bool) (n : Nat) :
    ∀ (i : Int) (iter : List (Bytes × Bytes)) (ec1 ec2 : EpochContext),
      sameElectionInput P ec1 ec2 →
      (tryElectLoop P parent prevEpoch g n i iter ec1).2
          = (tryElectLoop P parent prevEpoch g n i iter ec2).2
        ∧ sameElectionInput P (tryElectLoop P parent prevEpoch g n i iter ec1).1
            (tryElectLoop P parent prevEpoch g n i iter ec2).1 := by
  induction n with
  | zero => intro i iter ec1 ec2 h; exact ⟨rfl, h⟩
  | succ n ih =>
    intro i iter ec1 ec2 h
    have hk : (if (!g && !iter.isEmpty) = true then kickoutValidator P ec1 prevEpoch
          else (ec1, none)).2
        = (if (!g && !iter.isEmpty) = true then kickoutValidator P ec2 prevEpoch
          else (ec2, none)).2
        ∧ sameElectionInput P
          (if (!g && !iter.isEmpty) = true then kickoutValidator P ec1 prevEpoch
            else (ec1, none)).1
          (if (!g && !iter.isEmpty) = true then kickoutValidator P ec2 prevEpoch
            else (ec2, none)).1 := by
      split
      · exact kickoutValidator_congr P ec1 ec2 prevEpoch h
      · exact ⟨rfl, h⟩
    rw [tryElectLoop, tryElectLoop]
    cases hk1 : (if (!g && !iter.isEmpty) = true then kickoutValidator P ec1 prevEpoch
          else (ec1, none)) with
    | mk a1 e1 =>
      cases hk2 : (if (!g && !iter.isEmpty) = true then kickoutValidator P ec2 prevEpoch
            else (ec2, none)) with
      | mk a2 e2 =>
        rw [hk1, hk2] at hk
        obtain ⟨hke, hkr⟩ := hk
        simp only at hke hkr
        subst hke
        cases e1 with
        | some err => exact ⟨rfl, hkr⟩
        | none =>
          simp only
          have hel := elect_congr P a1 a2 parent i hkr
          cases he1 : elect P a1 parent i with
          | mk b1 f1 =>
            cases he2 : elect P a2 parent i with
            | mk b2 f2 =>
              rw [he1, he2] at hel
              obtain ⟨hee, her⟩ := hel
              simp only at hee her
              subst hee
              cases f1 with
              | some err => exact ⟨rfl, her⟩
              | none => exact ih _ _ b1 b2 her

/-- A `tryElect` that has to elect among fewer than `safeSize` candidates fails in its first
iteration and leaves the epoch trie and the contribution trie as they were. -/
theorem tryElectLoop_few (P : Params) (parent : Header) (prevEpoch : Int) (g : Bool) (n : Nat)
    (i : Int) (iter : List (Bytes × Bytes)) (ec : EpochContext)
    (hfew : ec.PocContext.GetCandidates.length < P.safeSize) :
    (tryElectLoop P parent prevEpoch g (n + 1) i iter ec).2 ≠ none
      ∧ (tryElectLoop P parent prevEpoch g (n + 1) i iter ec).1.PocContext.epochTrie
        = ec.PocContext.epochTrie
      ∧ (tryElectLoop P parent prevEpoch g (n + 1) i iter ec).1.PocContext.contributionTrie
        = ec.PocContext.contributionTrie := by
  have hk : (if (!g && !iter.isEmpty) = true then kickoutValidator P ec prevEpoch
          else (ec, none)).1.PocContext.epochTrie = ec.PocContext.epochTrie
      ∧ (if (!g && !iter.isEmpty) = true then kickoutValidator P ec prevEpoch
          else (ec, none)).1.PocContext.contributionTrie = ec.PocContext.contributionTrie
      ∧ (if (!g && !iter.isEmpty) = true then kickoutValidator P ec prevEpoch
          else (ec, none)).1.PocContext.GetCandidates.length < P.safeSize := by
    split
    · have o := kickoutValidator_others P ec prevEpoch
      have hs := kickoutValidator_sublist P ec prevEpoch
      exact ⟨o.2.1, o.2.2.1, lt_of_le_of_lt hs.length_le hfew⟩
    · exact ⟨rfl, rfl, hfew⟩
  rw [tryElectLoop]
  cases hk1 : (if (!g && !iter.isEmpty) = true then kickoutValidator P ec prevEpoch
        else (ec, none)) with
  | mk a1 e1 =>
    rw [hk1] at hk
    obtain ⟨h1, h2, h3⟩ := hk
    simp only at h1 h2 h3
    cases e1 with
    | some err => exact ⟨by simp, h1, h2⟩
    | none =>
      simp only
      have hlen : (candidatesOf a1).length < P.safeSize := by
        simpa [candidatesOf] using h3
      rcases elect_outcome P a1 parent i with ⟨e, _⟩ | ⟨e, _, _⟩ | ⟨_, _, hn, _, _⟩
      · rw [e]; exact ⟨by simp, h1, h2⟩
      · rw [e]; exact ⟨by simp, h1, h2⟩
      · exact absurd hlen hn

/-! ## Facts about the account state -/

theorem lookupAccount_setAccount (a b : Address) (v : Account) (l : List (Address × Account)) :
    lookupAccount b (setAccount a v l) = if b = a then some v else lookupAccount b l := by
  induction l with
  | nil =>
    by_cases h : b = a
    · subst h; simp [lookupAccount, setAccount]
    · have h2 : ¬ a = b := fun e => h e.symm
      simp [lookupAccount, setAccount, h, h2]
  | cons e rest ih =>
    unfold setAccount
    by_cases he : e.1 = a
    · rw [if_pos he]
      by_cases h : b = a
      · subst h; simp [lookupAccount]
      · have h2 : ¬ a = b := fun e => h e.symm
        have h3 : ¬ e.1 = b := fun e2 => h (e2.symm.trans he)
        simp [lookupAccount, h, h2, h3]
    · rw [if_neg he]
      by_cases h : b = a
      · subst h
        have ih2 := ih
        simp only [if_true] at ih2
        simp only [lookupAccount, List.find?_cons, he, decide_False, if_true] at ih2 ⊢
        exact ih2
      · simp only [if_neg h] at ih ⊢
        by_cases hb : e.1 = b
        · simp [lookupAccount, hb]
        · simp only [lookupAccount, List.find?_cons, hb, decide_False] at ih ⊢
          exact ih

theorem sum_setAccount (a : Address) (v : Account) (l : List (Address × Account)) :
    ((setAccount a v l).map (fun e => e.2.Balance)).sum
      = (l.map (fun e => e.2.Balance)).sum - ((lookupAccount a l).getD Account.new).Balance
        + v.Balance := by
  induction l with
  | nil => simp [setAccount, lookupAccount, Account.new]
  | cons e rest ih =>
    unfold setAccount
    by_cases he : e.1 = a
    · rw [if_pos he]
      simp only [List.map_cons, List.sum_cons, lookupAccount, List.find?_cons, he, decide_True,
        Option.map_some', Option.getD_some]
      omega
    · rw [if_neg he]
      simp only [List.map_cons, List.sum_cons, lookupAccount, List.find?_cons, he, decide_False]
      simp only [lookupAccount] at ih
      rw [ih]
      omega

theorem StateDB.getAccount_setAccount (s : StateDB) (a b : Address) (v : Account) :
    (s.setAccount a v).getAccount b = if b = a then some v else s.getAccount b :=
  lookupAccount_setAccount a b v s.accounts

theorem StateDB.getAccount_update (s : StateDB) (a b : Address) (f : Account → Account) :
    (s.update a f).getAccount b
      = if b = a then some (f ((s.getAccount a).getD Account.new)) else s.getAccount b :=
  lookupAccount_setAccount a b _ s.accounts

theorem StateDB.getAccount_CreateAccount (s : StateDB) (a b : Address) :
    (s.CreateAccount a).getAccount b
      = if b = a then some { Account.new with Balance := s.GetBalance a } else s.getAccount b :=
  lookupAccount_setAccount a b _ s.accounts

theorem StateDB.totalBalance_setAccount (s : StateDB) (a : Address) (v : Account) :
    (s.setAccount a v).totalBalance = s.totalBalance - s.GetBalance a + v.Balance :=
  sum_setAccount a v s.accounts

/-- An account that does not exist reads as a fresh one, so its creation changes no getter. -/
theorem StateDB.getD_CreateAccount (s : StateDB) (a b : Address) (h : s.Exist a = false) :
    ((s.CreateAccount a).getAccount b).getD Account.new = (s.getAccount b).getD Account.new := by
  rw [StateDB.getAccount_CreateAccount]
  have hn : s.getAccount a = none := by
    simpa [StateDB.Exist] using h
  by_cases hb : b = a
  · subst hb
    simp [hn, StateDB.GetBalance, Account.new]
  · simp [hb]

theorem StateDB.totalBalance_CreateAccount (s : StateDB) (a : Address) :
    (s.CreateAccount a).totalBalance = s.totalBalance := by
  unfold StateDB.CreateAccount
  rw [StateDB.totalBalance_setAccount]
  simp [StateDB.GetBalance]

/-- The getters after `StateTransition.from`. -/
theorem StateTransition.from_getD (st : StateTransition) (b : Address) :
    (st.from_.1.statedb.getAccount b).getD Account.new
      = (st.statedb.getAccount b).getD Account.new := by
  unfold StateTransition.from_
  cases h : st.statedb.Exist st.msg.From with
  | true => simp
  | false => simpa using StateDB.getD_CreateAccount st.statedb st.msg.From b h

theorem StateTransition.from_msg (st : StateTransition) :
    st.from_.1.msg = st.msg ∧ st.from_.2 = st.msg.From := by
  unfold StateTransition.from_
  cases st.statedb.Exist st.msg.From <;> simp

/-- The state after `StateTransition.from`. -/
theorem StateTransition.from_statedb (st : StateTransition) :
    st.from_.1.statedb
      = if st.statedb.Exist st.msg.From then st.statedb
        else st.statedb.CreateAccount st.msg.From := by
  unfold StateTransition.from_
  cases st.statedb.Exist st.msg.From <;> simp

theorem StateTransition.from_Exist (st : StateTransition) :
    st.from_.1.statedb.Exist st.msg.From = true := by
  rw [StateTransition.from_statedb]
  cases h : st.statedb.Exist st.msg.From with
  | true => simpa using h
  | false => simp [StateDB.Exist, StateDB.getAccount_CreateAccount]

/-- A second `StateTransition.from` changes nothing. -/
theorem StateTransition.from_from (st : StateTransition) : st.from_.1.from_ = st.from_ := by
  have h := StateTransition.from_Exist st
  have hm := StateTransition.from_msg st
  unfold StateTransition.from_ at h hm ⊢
  cases hE : st.statedb.Exist st.msg.From with
  | true => simp [hE]
  | false =>
    simp only [hE, Bool.not_false, if_true] at h hm ⊢
    simp [h]

theorem StateTransition.to_msg (st : StateTransition) :
    st.to.1.msg = st.msg ∧ st.to.2 = st.msg.To.getD Address.zero := by
  unfold StateTransition.to
  cases st.msg.To with
  | none => simp
  | some r => cases h : st.statedb.Exist r <;> simp [h]

/-- The getters after `StateTransition.to`. -/
theorem StateTransition.to_getD (st : StateTransition) (b : Address) :
    (st.to.1.statedb.getAccount b).getD Account.new
      = (st.statedb.getAccount b).getD Account.new := by
  unfold StateTransition.to
  cases st.msg.To with
  | none => simp
  | some r =>
    cases h : st.statedb.Exist r with
    | true => simp [h]
    | false => simpa [h] using StateDB.getD_CreateAccount st.statedb r b h

theorem StateTransition.to_totalBalance (st : StateTransition) :
    st.to.1.statedb.totalBalance = st.statedb.totalBalance := by
  unfold StateTransition.to
  cases st.msg.To with
  | none => simp
  | some r =>
    cases h : st.statedb.Exist r with
    | true => simp [h]
    | false => simpa [h] using StateDB.totalBalance_CreateAccount st.statedb r

theorem StateTransition.from_totalBalance (st : StateTransition) :
    st.from_.1.statedb.totalBalance = st.statedb.totalBalance := by
  rw [StateTransition.from_statedb]
  cases h : st.statedb.Exist st.msg.From with
  | true => simp
  | false => simpa using StateDB.totalBalance_CreateAccount st.statedb st.msg.From

/-- The outcome of `preCheck` in terms of the nonce of the sender before the call. -/
theorem StateTransition.preCheck_eq (st : StateTransition) :
    st.preCheck
      = (st.from_.1,
          if st.msg.CheckNonce then
            if st.statedb.GetNonce st.msg.From < st.msg.Nonce then some TxError.ErrNonceTooHigh
            else if st.statedb.GetNonce st.msg.From > st.msg.Nonce then some TxError.nonceTooLow
            else none
          else none) := by
  have hm := StateTransition.from_msg st
  have hn : st.from_.1.statedb.GetNonce st.msg.From = st.statedb.GetNonce st.msg.From := by
    unfold StateDB.GetNonce
    rw [StateTransition.from_getD]
  unfold StateTransition.preCheck
  rcases hf : st.from_ with ⟨st1, sender⟩
  rw [hf] at hm hn
  simp only at hm hn ⊢
  rw [hm.1, hm.2, hn]
  cases st.msg.CheckNonce with
  | false => simp
  | true =>
    simp only [if_true]
    split_ifs <;> rfl

theorem StateDB.getD_update (s : StateDB) (a b : Address) (f : Account → Account) :
    ((s.update a f).getAccount b).getD Account.new
      = if b = a then f ((s.getAccount a).getD Account.new)
        else (s.getAccount b).getD Account.new := by
  rw [StateDB.getAccount_update]
  split_ifs <;> rfl

theorem StateDB.totalBalance_update (s : StateDB) (a : Address) (f : Account → Account) :
    (s.update a f).totalBalance
      = s.totalBalance - s.GetBalance a + (f ((s.getAccount a).getD Account.new)).Balance :=
  StateDB.totalBalance_setAccount s a _

theorem StateTransition.prepared_getD (st : StateTransition) (b : Address) :
    (st.prepared.getAccount b).getD Account.new = (st.statedb.getAccount b).getD Account.new := by
  unfold StateTransition.prepared
  rw [StateTransition.to_getD, StateTransition.from_getD]

theorem StateTransition.prepared_totalBalance (st : StateTransition) :
    st.prepared.totalBalance = st.statedb.totalBalance := by
  unfold StateTransition.prepared
  rw [StateTransition.to_totalBalance, StateTransition.from_totalBalance]

/-- The result of `TransitionDb` when the pre-check passes. -/
theorem StateTransition.TransitionDb_eq (st : StateTransition) (h : st.preCheck.2 = none) :
    st.TransitionDb
      = if st.statedb.GetBalance st.msg.From ≥ st.msg.Value then
          (Transfer
            (if !(st.prepared.SetNonce st.msg.From
                  ((st.statedb.GetNonce st.msg.From + 1) % 2 ^ 64)).Exist
                (st.msg.To.getD Address.zero) then
              (st.prepared.SetNonce st.msg.From
                ((st.statedb.GetNonce st.msg.From + 1) % 2 ^ 64)).CreateAccount
                (st.msg.To.getD Address.zero)
            else st.prepared.SetNonce st.msg.From
              ((st.statedb.GetNonce st.msg.From + 1) % 2 ^ 64))
            st.msg.From (st.msg.To.getD Address.zero) st.msg.Value, [], false, none)
        else
          (st.prepared.SetNonce st.msg.From ((st.statedb.GetNonce st.msg.From + 1) % 2 ^ 64),
            [], true, some TxError.ErrInsufficientBalance) := by
  have hpre : st.preCheck = (st.from_.1, none) := by
    rw [StateTransition.preCheck_eq] at h ⊢
    simp only at h
    rw [h]
  have hff := StateTransition.from_from st
  have hfm := StateTransition.from_msg st
  have htm := StateTransition.to_msg st.from_.1
  have hnonce : st.prepared.GetNonce st.msg.From = st.statedb.GetNonce st.msg.From := by
    unfold StateDB.GetNonce; rw [StateTransition.prepared_getD]
  have hbal : (st.prepared.SetNonce st.msg.From
        ((st.statedb.GetNonce st.msg.From + 1) % 2 ^ 64)).GetBalance st.msg.From
      = st.statedb.GetBalance st.msg.From := by
    unfold StateDB.GetBalance StateDB.SetNonce
    rw [StateDB.getD_update, if_pos rfl, StateTransition.prepared_getD]
  unfold StateTransition.TransitionDb
  rw [hpre]
  simp only
  rw [hff]
  rcases hf : st.from_ with ⟨st2, sender⟩
  rw [hf] at hfm htm
  simp only at hfm htm ⊢
  rcases ht : st2.to with ⟨st3, recipient⟩
  rw [ht] at htm
  simp only at htm ⊢
  have hprep : st.prepared = st3.statedb := by
    unfold StateTransition.prepared
    rw [hf]; simp only; rw [ht]
  rw [hprep] at hnonce hbal
  rw [htm.1, htm.2, hfm.1, hfm.2, hnonce]
  unfold CanTransfer
  rw [hbal, hprep]
  by_cases hc : st.statedb.GetBalance st.msg.From ≥ st.msg.Value
  · simp [hc]
  · simp [hc]

theorem StateDB.GetBalance_CreateAccount (s : StateDB) (a b : Address) :
    (s.CreateAccount a).GetBalance b = s.GetBalance b := by
  unfold StateDB.GetBalance
  rw [StateDB.getAccount_CreateAccount]
  by_cases h : b = a
  · subst h; simp [StateDB.GetBalance]
  · simp [h]

theorem StateDB.GetBalance_SetNonce (s : StateDB) (a b : Address) (n : Nat) :
    (s.SetNonce a n).GetBalance b = s.GetBalance b := by
  unfold StateDB.GetBalance StateDB.SetNonce
  rw [StateDB.getD_update]
  by_cases h : b = a
  · subst h; simp
  · simp [h]

theorem StateDB.totalBalance_SetNonce (s : StateDB) (a : Address) (n : Nat) :
    (s.SetNonce a n).totalBalance = s.totalBalance := by
  unfold StateDB.SetNonce
  rw [StateDB.totalBalance_update]
  simp [StateDB.GetBalance]

theorem StateDB.GetNonce_SetNonce (s : StateDB) (a b : Address) (n : Nat) :
    (s.SetNonce a n).GetNonce b = if b = a then n else s.GetNonce b := by
  unfold StateDB.GetNonce StateDB.SetNonce
  rw [StateDB.getD_update]
  by_cases h : b = a
  · subst h; simp
  · simp [h]

/-- The balances after `Transfer`. -/
theorem Transfer_GetBalance (db : StateDB) (sender recipient b : Address) (amount : Int) :
    (Transfer db sender recipient amount).GetBalance b
      = db.GetBalance b - (if b = sender then amount else 0)
        + (if b = recipient then amount else 0) := by
  unfold Transfer StateDB.AddBalance StateDB.SubBalance StateDB.GetBalance
  simp only [StateDB.getD_update]
  by_cases h1 : b = recipient
  · subst h1
    by_cases h2 : b = sender
    · subst h2; simp
    · simp [h2]
  · by_cases h2 : b = sender
    · subst h2; simp [h1]
    · simp [h1, h2]

theorem Transfer_totalBalance (db : StateDB) (sender recipient : Address) (amount : Int) :
    (Transfer db sender recipient amount).totalBalance = db.totalBalance := by
  unfold Transfer StateDB.AddBalance StateDB.SubBalance
  rw [StateDB.totalBalance_update, StateDB.totalBalance_update]
  simp only [StateDB.GetBalance]
  omega

/-- The balances of the state `TransitionDb` works on. -/
theorem StateTransition.prepared_GetBalance (st : StateTransition) (b : Address) :
    st.prepared.GetBalance b = st.statedb.GetBalance b := by
  unfold StateDB.GetBalance
  rw [StateTransition.prepared_getD]

theorem StateTransition.prepared_GetNonce (st : StateTransition) (b : Address) :
    st.prepared.GetNonce b = st.statedb.GetNonce b := by
  unfold StateDB.GetNonce
  rw [StateTransition.prepared_getD]

/-- The pre-check passes when the nonce of the sender is the nonce of the message. -/
theorem StateTransition.preCheck_pass (st : StateTransition)
    (hnonce : st.statedb.GetNonce st.msg.From = st.msg.Nonce) : st.preCheck.2 = none := by
  rw [StateTransition.preCheck_eq]
  simp [hnonce]

theorem lookupAccount_eq_none {a : Address} {l : List (Address × Account)}
    (h : a ∉ l.map Prod.fst) : lookupAccount a l = none := by
  induction l with
  | nil => rfl
  | cons e rest ih =>
    simp only [List.map_cons, List.mem_cons, not_or] at h
    have he : ¬ e.1 = a := fun e2 => h.1 e2.symm
    simp only [lookupAccount, List.find?_cons, he, decide_False]
    exact ih h.2

/-- The account of an address in a list without the bindings a test rejects. -/
theorem lookupAccount_filter (q : Address × Account → Bool) (a : Address)
    {l : List (Address × Account)} (hl : (l.map Prod.fst).Nodup) :
    lookupAccount a (l.filter q)
      = match lookupAccount a l with
        | some v => if q (a, v) then some v else none
        | none => none := by
  induction l with
  | nil => rfl
  | cons e rest ih =>
    simp only [List.map_cons, List.nodup_cons] at hl
    by_cases he : e.1 = a
    · have hrest : a ∉ (rest.filter q).map Prod.fst := by
        intro hm
        apply hl.1
        rw [he]
        exact ((List.filter_sublist rest).map Prod.fst).subset hm
      have hnone := lookupAccount_eq_none hrest
      have hea : e = (a, e.2) := by rw [← he]
      cases hq : q e with
      | true =>
        have hq2 : q (a, e.2) = true := by rw [← hea]; exact hq
        simp [lookupAccount, List.filter_cons, hq, he, hq2]
      | false =>
        have hq2 : q (a, e.2) = false := by rw [← hea]; exact hq
        rw [List.filter_cons, hq]
        simp only [Bool.false_eq_true, if_false]
        rw [hnone]
        simp [lookupAccount, he, hq2]
    · have ih2 := ih hl.2
      cases hq : q e with
      | true =>
        simp only [lookupAccount, List.filter_cons, hq, if_true, List.find?_cons, he,
          decide_False] at ih2 ⊢
        exact ih2
      | false =>
        simp only [lookupAccount, List.filter_cons, hq, Bool.false_eq_true, if_false,
          List.find?_cons, he, decide_False] at ih2 ⊢
        exact ih2

/-- `Finalise` changes no nonce: an account it deletes is empty, with nonce 0. -/
theorem StateDB.GetNonce_Finalise (s : StateDB) (deleteEmptyObjects : Bool) (a : Address) :
    (s.Finalise deleteEmptyObjects).GetNonce a = s.GetNonce a := by
  unfold StateDB.GetNonce StateDB.getAccount StateDB.Finalise
  simp only
  rw [lookupAccount_filter _ a s.nodup]
  cases hl : lookupAccount a s.accounts with
  | none => rfl
  | some v =>
    simp only
    split_ifs with hq
    · rfl
    · simp only [Bool.not_eq_true', Bool.not_eq_false, Bool.and_eq_true, Account.empty,
        decide_eq_true_eq] at hq
      simp [Account.new, hq.2.1.1]

/-! ## Facts about the record state -/

theorem find_setObject (object : stateObjectRecord) (h : Hash)
    (l : List (Hash × stateObjectRecord)) :
    ((setObject object l).find? (fun e => decide (e.1 = h))).map Prod.snd
      = if h = object.hash then some object
        else (l.find? (fun e => decide (e.1 = h))).map Prod.snd := by
  induction l with
  | nil =>
    by_cases hh : h = object.hash
    · subst hh; simp [setObject]
    · have h2 : ¬ object.hash = h := fun e => hh e.symm
      simp [setObject, hh, h2]
  | cons e rest ih =>
    unfold setObject
    by_cases he : e.1 = object.hash
    · rw [if_pos he]
      by_cases hh : h = object.hash
      · subst hh; simp
      · have h2 : ¬ object.hash = h := fun e => hh e.symm
        have h3 : ¬ e.1 = h := fun e2 => hh (e2.symm.trans he)
        simp [hh, h2, h3]
    · rw [if_neg he]
      by_cases hh : h = object.hash
      · subst hh
        simp only [if_true] at ih
        simp only [List.find?_cons, he, decide_False, if_true]
        exact ih
      · simp only [if_neg hh] at ih ⊢
        by_cases hb : e.1 = h
        · simp [hb]
        · simp only [List.find?_cons, hb, decide_False]
          exact ih

/-- The live object under a hash after `setStateObject`. -/
theorem StateDBRecord.liveObject_setStateObject (self : StateDBRecord)
    (object : stateObjectRecord) (h : Hash) :
    (self.setStateObject object).liveObject h
      = if h = object.hash then some object else self.liveObject h :=
  find_setObject object h self.stateObjects

theorem StateDBRecord.setError_setError (self : StateDBRecord) (err : Option TrieError) :
    (self.setError err).setError err = self.setError err := by
  unfold StateDBRecord.setError
  by_cases h : self.dbErr = none
  · simp only [h, if_true]
    cases err with
    | none => simp
    | some e => simp
  · simp [h]

theorem StateDBRecord.setError_fields (self : StateDBRecord) (err : Option TrieError) :
    (self.setError err).trie = self.trie
      ∧ (self.setError err).stateObjects = self.stateObjects
      ∧ (self.setError err).stateObjectsDirty = self.stateObjectsDirty
      ∧ (self.setError err).journal = self.journal
      ∧ (self.setError err).validRevisions = self.validRevisions
      ∧ (self.setError err).nextRevisionId = self.nextRevisionId := by
  unfold StateDBRecord.setError
  split_ifs <;> simp

theorem StateDBRecord.liveObject_setError (self : StateDBRecord) (err : Option TrieError)
    (h : Hash) : (self.setError err).liveObject h = self.liveObject h := by
  unfold StateDBRecord.liveObject
  rw [(StateDBRecord.setError_fields self err).2.1]

/-- A live object that is not deleted is what `getStateObject` returns, and the state is as
it was. -/
theorem StateDBRecord.getStateObject_live (D : StateParams) (self : StateDBRecord) (addr : Hash)
    (obj : stateObjectRecord) (h : self.liveObject addr = some obj) (hd : obj.deleted = false) :
    self.getStateObject D addr = (self, some obj) := by
  unfold StateDBRecord.getStateObject
  rw [h]
  simp [hd]

/-- A hash that `getStateObject` finds no object for has none on a second call, which
leaves the state as the first call left it. -/
theorem StateDBRecord.getStateObject_none (D : StateParams) (self : StateDBRecord) (addr : Hash)
    (h : (self.getStateObject D addr).2 = none) :
    (self.getStateObject D addr).1.getStateObject D addr
      = ((self.getStateObject D addr).1, none) := by
  unfold StateDBRecord.getStateObject at h ⊢
  cases hl : self.liveObject addr with
  | some obj =>
    rw [hl] at h
    simp only at h ⊢
    cases hd : obj.deleted with
    | true => simp [hl, hd]
    | false => simp [hd] at h
  | none =>
    rw [hl] at h
    simp only at h ⊢
    cases ht : self.trie.TryGet addr.bytes with
    | error err =>
      simp only [StateDBRecord.liveObject_setError, hl,
        (StateDBRecord.setError_fields self (some err)).1, ht,
        StateDBRecord.setError_setError]
    | ok v =>
      cases v with
      | none =>
        simp only [StateDBRecord.liveObject_setError, hl,
          (StateDBRecord.setError_fields self none).1, ht,
          StateDBRecord.setError_setError]
      | some enc =>
        rw [ht] at h
        simp only at h ⊢
        by_cases hlen : enc.length = 0
        · simp only [hlen, if_true, StateDBRecord.liveObject_setError, hl,
            (StateDBRecord.setError_fields self none).1, ht,
            StateDBRecord.setError_setError]
        · simp only [hlen, if_false] at h ⊢
          cases hdec : D.DecodeRecord enc with
          | none => simp only [hl, ht, hlen, if_false, hdec]
          | some data => rw [hdec] at h; simp at h

/-- The `ConfirmationData` case on a hash without an object: the result, and the live object
the record state holds under the hash afterwards. -/
theorem applyConfirmationData_fresh (D : StateParams) (txHash hash : Hash) (sender : Address)
    (statedb : StateDB) (r : StateDBRecord) (h : (r.getStateObject D hash).2 = none) :
    (applyConfirmationData D txHash hash sender statedb r).1
        = (statedb.AddRecords sender hash).AddContribution sender (2 * 10 ^ 18)
      ∧ (applyConfirmationData D txHash hash sender statedb r).2.2 = (false, none)
      ∧ ((applyConfirmationData D txHash hash sender statedb r).2.1.liveObject hash).map
          (fun o => (o.deleted, o.data.Origin, o.data.Owner, o.data.Txs, o.data.Status))
        = some (false, sender, sender, [txHash], 0) := by
  have h2 := StateDBRecord.getStateObject_none D r hash h
  unfold applyConfirmationData StateDBRecord.Exist
  rw [h]
  simp only [Option.isSome_none]
  unfold StateDBRecord.GetOrNewStateObject
  rw [h2]
  simp only
  unfold StateDBRecord.createObject
  rw [h2]
  simp only [stateObjectRecord.SetOrigin, stateObjectRecord.setOrigin,
    stateObjectRecord.SetOwner, stateObjectRecord.setOwner, stateObjectRecord.SetTxs,
    stateObjectRecord.setTxs, stateObjectRecord.markDirty, newObjectRecord]
  refine ⟨trivial, trivial, ?_⟩
  simp [StateDBRecord.liveObject_setStateObject]

/-! ## Facts about `ApplyDataMessage` and `ApplyTransaction` -/

/-- The state `ApplyDataMessage` hands to the case of the message type: the sender has an
account and its nonce is incremented. -/
theorem ApplyDataMessage_eq (D : StateParams) (txHash : Hash) (msg : Message) (statedb : StateDB)
    (r : StateDBRecord) (hnonce : statedb.GetNonce msg.From = msg.Nonce) :
    ApplyDataMessage D txHash msg statedb r
      = match msg.Type_ with
        | .ConfirmationData =>
          applyConfirmationData D txHash (recordKey msg.Data) msg.From
            ((NewStateTransition msg statedb).from_.1.statedb.SetNonce msg.From
              ((statedb.GetNonce msg.From + 1) % 2 ^ 64)) r
        | .TransferData =>
          applyTransferData D txHash (recordKey msg.Data) msg.From
            { (NewStateTransition msg statedb).from_.1 with
              statedb := (NewStateTransition msg statedb).from_.1.statedb.SetNonce msg.From
                ((statedb.GetNonce msg.From + 1) % 2 ^ 64) } r
        | _ =>
          ((NewStateTransition msg statedb).from_.1.statedb.SetNonce msg.From
              ((statedb.GetNonce msg.From + 1) % 2 ^ 64), r, false, none) := by
  have hpass : (NewStateTransition msg statedb).preCheck.2 = none :=
    StateTransition.preCheck_pass _ hnonce
  have hpre : (NewStateTransition msg statedb).preCheck
      = ((NewStateTransition msg statedb).from_.1, none) := by
    rw [StateTransition.preCheck_eq] at hpass ⊢
    simp only at hpass
    rw [hpass]
  have hff := StateTransition.from_from (NewStateTransition msg statedb)
  have hfm := StateTransition.from_msg (NewStateTransition msg statedb)
  have hn : (NewStateTransition msg statedb).from_.1.statedb.GetNonce msg.From
      = statedb.GetNonce msg.From := by
    unfold StateDB.GetNonce
    rw [StateTransition.from_getD]
    rfl
  unfold ApplyDataMessage
  rw [hpre]
  simp only
  rw [hff]
  rcases hf : (NewStateTransition msg statedb).from_ with ⟨st2, sender⟩
  rw [hf] at hfm hn
  simp only [NewStateTransition] at hfm hn ⊢
  rw [hfm.1, hfm.2, hn]

theorem StateDB.getD_SetNonce_Records (s : StateDB) (a b : Address) (n : Nat) :
    (s.SetNonce a n).GetRecords b = s.GetRecords b
      ∧ (s.SetNonce a n).GetContribution b = s.GetContribution b := by
  unfold StateDB.GetRecords StateDB.GetContribution StateDB.SetNonce
  rw [StateDB.getD_update]
  by_cases h : b = a
  · subst h; simp
  · simp [h]

/-- The end of `ApplyTransaction` finalises the account state. -/
theorem makeReceipt_statedb (P : Params) (D : StateParams) (config : ChainConfig)
    (s : ChainState) (failed : Bool) (txHash : Hash) :
    ∃ del, (makeReceipt P D config s failed txHash).1.statedb = s.statedb.Finalise del := by
  unfold makeReceipt
  cases config.IsByzantium with
  | true =>
    simp only [if_true]
    cases s.statedbRecord.Finalise P D true with
    | none => exact ⟨true, rfl⟩
    | some r1 => exact ⟨true, rfl⟩
  | false =>
    simp only [Bool.false_eq_true, if_false]
    cases s.statedbRecord.IntermediateRoot P D config.IsEIP158 with
    | none => exact ⟨config.IsEIP158, rfl⟩
    | some p => exact ⟨config.IsEIP158, rfl⟩

/-! ## Facts about reading the record state -/

/-- What `getStateObject` returns, in terms of the live set and the trie. -/
theorem StateDBRecord.view_eq (D : StateParams) (self : StateDBRecord) (addr : Hash) :
    self.view D addr
      = match self.liveObject addr with
        | some obj => if obj.deleted then none else some obj
        | none => trieObject D self.trie addr := by
  unfold StateDBRecord.view StateDBRecord.getStateObject trieObject
  cases self.liveObject addr with
  | some obj => cases hd : obj.deleted <;> simp [hd]
  | none =>
    simp only
    cases self.trie.TryGet addr.bytes with
    | error err => rfl
    | ok v =>
      cases v with
      | none => rfl
      | some enc =>
        simp only
        by_cases hlen : enc.length = 0
        · simp [hlen]
        · simp only [hlen, if_false]
          cases D.DecodeRecord enc <;> rfl

/-- The trie, the dirty set, the journal and the revisions after `getStateObject`. -/
theorem StateDBRecord.getStateObject_fields (D : StateParams) (self : StateDBRecord)
    (addr : Hash) :
    (self.getStateObject D addr).1.trie = self.trie
      ∧ (self.getStateObject D addr).1.stateObjectsDirty = self.stateObjectsDirty
      ∧ (self.getStateObject D addr).1.journal = self.journal
      ∧ (self.getStateObject D addr).1.validRevisions = self.validRevisions
      ∧ (self.getStateObject D addr).1.nextRevisionId = self.nextRevisionId := by
  unfold StateDBRecord.getStateObject
  cases self.liveObject addr with
  | some obj => cases hd : obj.deleted <;> simp [hd]
  | none =>
    simp only
    cases self.trie.TryGet addr.bytes with
    | error err =>
      have h := StateDBRecord.setError_fields self (some err)
      exact ⟨h.1, h.2.2.1, h.2.2.2.1, h.2.2.2.2.1, h.2.2.2.2.2⟩
    | ok v =>
      have h := StateDBRecord.setError_fields self none
      cases v with
      | none => exact ⟨h.1, h.2.2.1, h.2.2.2.1, h.2.2.2.2.1, h.2.2.2.2.2⟩
      | some enc =>
        simp only
        by_cases hlen : enc.length = 0
        · simp only [hlen, if_true]
          exact ⟨h.1, h.2.2.1, h.2.2.2.1, h.2.2.2.2.1, h.2.2.2.2.2⟩
        · simp only [hlen, if_false]
          cases D.DecodeRecord enc <;> simp [StateDBRecord.setStateObject]

/-- The live object under a hash after `getStateObject` of any hash: the one before, or the
object the call has loaded. -/
theorem StateDBRecord.getStateObject_liveObject (D : StateParams) (self : StateDBRecord)
    (addr h : Hash) :
    (self.getStateObject D addr).1.liveObject h = self.liveObject h
      ∨ (h = addr ∧ self.liveObject h = none
          ∧ (self.getStateObject D addr).1.liveObject h = trieObject D self.trie h
          ∧ trieObject D self.trie h ≠ none) := by
  unfold StateDBRecord.getStateObject
  cases hl : self.liveObject addr with
  | some obj => cases hd : obj.deleted <;> simp [hd]
  | none =>
    simp only
    unfold trieObject
    cases ht : self.trie.TryGet addr.bytes with
    | error err => exact Or.inl (StateDBRecord.liveObject_setError self _ h)
    | ok v =>
      cases v with
      | none => exact Or.inl (StateDBRecord.liveObject_setError self _ h)
      | some enc =>
        simp only
        by_cases hlen : enc.length = 0
        · simp only [hlen, if_true]
          exact Or.inl (StateDBRecord.liveObject_setError self _ h)
        · simp only [hlen, if_false]
          cases hd : D.DecodeRecord enc with
          | none => exact Or.inl rfl
          | some data =>
            simp only
            rw [StateDBRecord.liveObject_setStateObject]
            by_cases hh : h = addr
            · subst hh
              right
              simp [newObjectRecord, hl, ht, hlen, hd]
            · left
              simp [newObjectRecord, hh]

/-- Reading is not observable: after `getStateObject` of any hash every hash reads as before. -/
theorem StateDBRecord.view_getStateObject (D : StateParams) (self : StateDBRecord)
    (addr h : Hash) : (self.getStateObject D addr).1.view D h = self.view D h := by
  rw [StateDBRecord.view_eq, StateDBRecord.view_eq,
    (StateDBRecord.getStateObject_fields D self addr).1]
  rcases StateDBRecord.getStateObject_liveObject D self addr h with hl | ⟨_, hn, hl, hne⟩
  · rw [hl]
  · rw [hl, hn]
    cases ht : trieObject D self.trie h with
    | none => exact absurd ht hne
    | some obj =>
      simp only
      have hdel : obj.deleted = false := by
        unfold trieObject at ht
        cases hg : self.trie.TryGet h.bytes with
        | error err => rw [hg] at ht; simp at ht
        | ok v =>
          rw [hg] at ht
          cases v with
          | none => simp at ht
          | some enc =>
            simp only at ht
            by_cases hlen : enc.length = 0
            · simp [hlen] at ht
            · simp only [hlen, if_false] at ht
              cases hd : D.DecodeRecord enc with
              | none => rw [hd] at ht; simp at ht
              | some data =>
                rw [hd] at ht
                simp only [Option.map_some', Option.some.injEq] at ht
                rw [← ht]
                rfl
      simp [hdel]

/-- The getters in terms of `view`. -/
theorem StateDBRecord.getters_eq (D : StateParams) (self : StateDBRecord) (addr : Hash) :
    (self.Exist D addr).2 = (self.view D addr).isSome
      ∧ (self.GetOrigin D addr).2 = ((self.view D addr).map (fun o => o.data.Origin)).getD
          Address.zero
      ∧ (self.GetOwner D addr).2 = ((self.view D addr).map (fun o => o.data.Owner)).getD
          Address.zero
      ∧ (self.GetStatus D addr).2 = ((self.view D addr).map (fun o => o.data.Status)).getD 100
      ∧ (self.GetTxs D addr).2 = ((self.view D addr).map (fun o => o.data.Txs)).getD [] := by
  unfold StateDBRecord.Exist StateDBRecord.GetOrigin StateDBRecord.GetOwner
    StateDBRecord.GetStatus StateDBRecord.GetTxs StateDBRecord.view
  rcases self.getStateObject D addr with ⟨s1, _ | obj⟩ <;> simp

/-- The state a getter leaves is the state `getStateObject` leaves. -/
theorem StateDBRecord.getters_fst (D : StateParams) (self : StateDBRecord) (addr : Hash) :
    (self.Exist D addr).1 = (self.getStateObject D addr).1
      ∧ (self.GetOrigin D addr).1 = (self.getStateObject D addr).1
      ∧ (self.GetOwner D addr).1 = (self.getStateObject D addr).1
      ∧ (self.GetStatus D addr).1 = (self.getStateObject D addr).1
      ∧ (self.GetTxs D addr).1 = (self.getStateObject D addr).1 := by
  unfold StateDBRecord.Exist StateDBRecord.GetOrigin StateDBRecord.GetOwner
    StateDBRecord.GetStatus StateDBRecord.GetTxs
  rcases self.getStateObject D addr with ⟨s1, _ | obj⟩ <;> simp

theorem Address.Hash_inj (a b : Address) (h : a.Hash = b.Hash) : a = b := by
  cases a with
  | mk ab la =>
    cases b with
    | mk bb lb =>
      have h2 := congrArg Hash.bytes h
      simp only [Address.Hash, BytesToHash, la, lb] at h2
      have h3 : ab = bb := by simpa using h2
      subst h3
      rfl

/-! ## Facts about the cases of `ApplyDataMessage` -/

/-- The `ConfirmationData` case on a hash with a record: the call fails and leaves the record
state as `getStateObject` leaves it. -/
theorem applyConfirmationData_exists (D : StateParams) (txHash hash : Hash) (sender : Address)
    (statedb : StateDB) (r : StateDBRecord) (h : (r.Exist D hash).2 = true) :
    applyConfirmationData D txHash hash sender statedb r
      = (statedb, (r.getStateObject D hash).1, true, some .emptyText) := by
  unfold applyConfirmationData
  have h1 := (StateDBRecord.getters_fst D r hash).1
  rcases hE : r.Exist D hash with ⟨r1, b⟩
  rw [hE] at h h1
  simp only at h h1
  subst h
  simp only
  rw [h1]

/-- The getters of the account state `ApplyDataMessage` hands to the case of the message
type: the nonce of the sender is incremented, and nothing else has changed. -/
theorem StateTransition.bumped_getters (msg : Message) (statedb : StateDB) (a : Address) :
    ((NewStateTransition msg statedb).from_.1.statedb.SetNonce msg.From
          ((statedb.GetNonce msg.From + 1) % 2 ^ 64)).GetNonce a
        = (if a = msg.From then (statedb.GetNonce msg.From + 1) % 2 ^ 64
          else statedb.GetNonce a)
      ∧ ((NewStateTransition msg statedb).from_.1.statedb.SetNonce msg.From
          ((statedb.GetNonce msg.From + 1) % 2 ^ 64)).GetBalance a = statedb.GetBalance a
      ∧ ((NewStateTransition msg statedb).from_.1.statedb.SetNonce msg.From
          ((statedb.GetNonce msg.From + 1) % 2 ^ 64)).GetRecords a = statedb.GetRecords a
      ∧ ((NewStateTransition msg statedb).from_.1.statedb.SetNonce msg.From
          ((statedb.GetNonce msg.From + 1) % 2 ^ 64)).GetContribution a
        = statedb.GetContribution a := by
  have hg : ((NewStateTransition msg statedb).from_.1.statedb.getAccount a).getD Account.new
      = (statedb.getAccount a).getD Account.new :=
    StateTransition.from_getD (NewStateTransition msg statedb) a
  refine ⟨?_, ?_, ?_, ?_⟩
  · rw [StateDB.GetNonce_SetNonce]
    by_cases h : a = msg.From
    · simp [h]
    · simp only [if_neg h]
      unfold StateDB.GetNonce
      rw [hg]
  · rw [StateDB.GetBalance_SetNonce]
    unfold StateDB.GetBalance
    rw [hg]
  · rw [(StateDB.getD_SetNonce_Records _ msg.From a _).1]
    unfold StateDB.GetRecords
    rw [hg]
  · rw [(StateDB.getD_SetNonce_Records _ msg.From a _).2]
    unfold StateDB.GetContribution
    rw [hg]

/-- The `TransferData` case in terms of the owner and the status the record state reads. -/
theorem applyTransferData_eq (D : StateParams) (txHash hash : Hash) (sender : Address)
    (st : StateTransition) (r : StateDBRecord) :
    applyTransferData D txHash hash sender st r
      = if (r.GetOwner D hash).2 ≠ sender then
          (st.statedb, (r.getStateObject D hash).1, true, some .emptyText)
        else if (r.GetStatus D hash).2 ≠ 0 then
          (st.statedb, ((r.getStateObject D hash).1.getStateObject D hash).1, true,
            some .emptyText)
        else
          ((((st.to.1.to.1.statedb.AddRecords st.to.1.to.2 txHash).RemoveRecords sender
              txHash).AddContribution sender (10 ^ 18)),
            ((((r.getStateObject D hash).1.getStateObject D hash).1.SetOwner D hash
              st.to.2).AddTxHash D hash txHash), false, none) := by
  have hstatus : ((r.getStateObject D hash).1.GetStatus D hash).2 = (r.GetStatus D hash).2 := by
    rw [(StateDBRecord.getters_eq D _ hash).2.2.2.1, (StateDBRecord.getters_eq D r hash).2.2.2.1,
      StateDBRecord.view_getStateObject]
  have hs1 := (StateDBRecord.getters_fst D (r.getStateObject D hash).1 hash).2.2.2.1
  have ho1 := (StateDBRecord.getters_fst D r hash).2.2.1
  unfold applyTransferData
  rcases hO : r.GetOwner D hash with ⟨r1, owner⟩
  rw [hO] at ho1
  simp only at ho1 ⊢
  subst ho1
  rcases hS : (r.getStateObject D hash).1.GetStatus D hash with ⟨r2, status⟩
  rw [hS] at hstatus hs1
  simp only at hstatus hs1 ⊢
  subst hs1
  rw [← hstatus]
  by_cases hne : owner = sender
  · have hh : owner.Hash = sender.Hash := by rw [hne]
    by_cases hz : status = 0
    · simp only [hh, hne, hz, ne_eq, not_true_eq_false, if_false]
    · simp only [hh, hne, hz, ne_eq, not_true_eq_false, not_false_eq_true, if_false, if_true]
  · have hh : ¬ owner.Hash = sender.Hash := fun e => hne (Address.Hash_inj _ _ e)
    simp only [hh, hne, ne_eq, not_false_eq_true, if_true]

theorem StateDB.GetRecords_update (s : StateDB) (a b : Address) (f : Account → Account) :
    (s.update a f).GetRecords b
      = if b = a then (f ((s.getAccount a).getD Account.new)).Records else s.GetRecords b := by
  unfold StateDB.GetRecords
  rw [StateDB.getD_update]
  split_ifs <;> rfl

/-- The records of an account after `AddRecords`, `RemoveRecords` and `AddContribution`. -/
theorem StateDB.GetRecords_ops (s : StateDB) (a b : Address) (h : Hash) (amount : Int) :
    (s.AddRecords a h).GetRecords b = (if b = a then s.GetRecords b ++ [h] else s.GetRecords b)
      ∧ (s.RemoveRecords a h).GetRecords b
        = (if b = a then (s.GetRecords b).filter (fun x => !decide (x = h)) else s.GetRecords b)
      ∧ (s.AddContribution a amount).GetRecords b = s.GetRecords b := by
  unfold StateDB.AddRecords StateDB.RemoveRecords StateDB.AddContribution
  simp only [StateDB.GetRecords_update]
  refine ⟨?_, ?_, ?_⟩
  · by_cases hb : b = a
    · subst hb; simp [StateDB.GetRecords]
    · simp [hb]
  · by_cases hb : b = a
    · subst hb; simp [StateDB.GetRecords]
    · simp [hb]
  · by_cases hb : b = a
    · subst hb; simp [StateDB.GetRecords]
    · simp [hb]

theorem StateTransition.to_to_GetRecords (st : StateTransition) (b : Address) :
    st.to.1.to.1.statedb.GetRecords b = st.statedb.GetRecords b
      ∧ st.to.1.to.2 = st.msg.To.getD Address.zero := by
  refine ⟨?_, ?_⟩
  · unfold StateDB.GetRecords
    rw [StateTransition.to_getD, StateTransition.to_getD]
  · rw [(StateTransition.to_msg st.to.1).2, (StateTransition.to_msg st).1]

/-- The records of an account in the account state a `TransferData` message that succeeds
leaves. -/
theorem StateTransition.transfer_GetRecords (st : StateTransition) (sender a : Address)
    (txHash : Hash) :
    (((st.to.1.to.1.statedb.AddRecords st.to.1.to.2 txHash).RemoveRecords sender
        txHash).AddContribution sender (10 ^ 18)).GetRecords a
      = if a = sender then
          (if a = st.msg.To.getD Address.zero then st.statedb.GetRecords a ++ [txHash]
            else st.statedb.GetRecords a).filter (fun x => !decide (x = txHash))
        else if a = st.msg.To.getD Address.zero then st.statedb.GetRecords a ++ [txHash]
        else st.statedb.GetRecords a := by
  rw [(StateDB.GetRecords_ops _ sender a txHash (10 ^ 18)).2.2,
    (StateDB.GetRecords_ops _ sender a txHash 0).2.1,
    (StateDB.GetRecords_ops _ _ a txHash 0).1, (StateTransition.to_to_GetRecords st a).1,
    (StateTransition.to_to_GetRecords st a).2]

/-! ## Facts about writing the record state -/

/-- What a hash reads depends on the live set and the trie only. -/
theorem StateDBRecord.view_congr (D : StateParams) (s t : StateDBRecord)
    (ho : s.stateObjects = t.stateObjects) (ht : s.trie = t.trie) (h : Hash) :
    s.view D h = t.view D h := by
  rw [StateDBRecord.view_eq, StateDBRecord.view_eq, ht]
  unfold StateDBRecord.liveObject
  rw [ho]

theorem StateDBRecord.view_setStateObject (D : StateParams) (s : StateDBRecord)
    (o : stateObjectRecord) (h : Hash) :
    (s.setStateObject o).view D h
      = if h = o.hash then (if o.deleted then none else some o) else s.view D h := by
  rw [StateDBRecord.view_eq, StateDBRecord.view_eq, StateDBRecord.liveObject_setStateObject]
  by_cases hh : h = o.hash
  · simp [hh]
  · simp only [if_neg hh]
    rfl

theorem mem_setObject {o : stateObjectRecord} {l : List (Hash × stateObjectRecord)}
    {e : Hash × stateObjectRecord} (h : e ∈ setObject o l) : e = (o.hash, o) ∨ e ∈ l := by
  induction l with
  | nil => simp [setObject] at h; exact Or.inl h
  | cons x rest ih =>
    unfold setObject at h
    split at h
    · simp only [List.mem_cons] at h ⊢
      rcases h with h | h
      · exact Or.inl h
      · exact Or.inr (Or.inr h)
    · simp only [List.mem_cons] at h ⊢
      rcases h with h | h
      · exact Or.inr (Or.inl h)
      · rcases ih h with h | h
        · exact Or.inl h
        · exact Or.inr (Or.inr h)

theorem StateDBRecord.sound_setStateObject {s : StateDBRecord} (hs : s.sound)
    (o : stateObjectRecord) (hd : o.deleted = false) (hsu : o.suicided = false) :
    (s.setStateObject o).sound := by
  intro e he
  rcases mem_setObject he with h | h
  · subst h; exact ⟨rfl, hd, hsu⟩
  · exact hs e h

theorem StateDBRecord.sound_congr {s t : StateDBRecord} (hs : s.sound)
    (h : t.stateObjects = s.stateObjects) : t.sound := by
  unfold StateDBRecord.sound
  rw [h]
  exact hs

/-- The live object of a sound state under a hash carries the hash and is not deleted. -/
theorem StateDBRecord.sound_liveObject {s : StateDBRecord} (hs : s.sound) {h : Hash}
    {o : stateObjectRecord} (hl : s.liveObject h = some o) :
    o.hash = h ∧ o.deleted = false ∧ o.suicided = false := by
  unfold StateDBRecord.liveObject at hl
  cases hf : s.stateObjects.find? (fun e => decide (e.1 = h)) with
  | none => rw [hf] at hl; simp at hl
  | some e =>
    rw [hf] at hl
    simp only [Option.map_some', Option.some.injEq] at hl
    have hm := List.mem_of_find?_eq_some hf
    have hp := List.find?_some hf
    simp only [decide_eq_true_eq] at hp
    have := hs e hm
    rw [hl] at this
    rw [← hp]
    exact this

theorem trieObject_some {D : StateParams} {t : Trie} {h : Hash} {o : stateObjectRecord}
    (ht : trieObject D t h = some o) :
    ∃ data, o = newObjectRecord h data := by
  unfold trieObject at ht
  cases hg : t.TryGet h.bytes with
  | error err => rw [hg] at ht; simp at ht
  | ok v =>
    rw [hg] at ht
    cases v with
    | none => simp at ht
    | some enc =>
      simp only at ht
      by_cases hlen : enc.length = 0
      · simp [hlen] at ht
      · simp only [hlen, if_false] at ht
        cases hd : D.DecodeRecord enc with
        | none => rw [hd] at ht; simp at ht
        | some data =>
          rw [hd] at ht
          simp only [Option.map_some', Option.some.injEq] at ht
          exact ⟨data, ht.symm⟩

/-- The object a sound state reads under a hash carries the hash, is not deleted, and is the
live object once it is read. -/
theorem StateDBRecord.view_some {D : StateParams} {s : StateDBRecord} (hs : s.sound) {h : Hash}
    {o : stateObjectRecord} (hv : s.view D h = some o) :
    o.hash = h ∧ o.deleted = false ∧ o.suicided = false
      ∧ (s.getStateObject D h).1.liveObject h = some o := by
  have hv2 := hv
  rw [StateDBRecord.view_eq] at hv
  rcases StateDBRecord.getStateObject_liveObject D s h h with hl | ⟨_, hn, hl, _⟩
  · cases hlive : s.liveObject h with
    | some o2 =>
      rw [hlive] at hv
      have hso := StateDBRecord.sound_liveObject hs hlive
      simp only [hso.2.1, Bool.false_eq_true, if_false, Option.some.injEq] at hv
      subst hv
      exact ⟨hso.1, hso.2.1, hso.2.2, hl.trans hlive⟩
    | none =>
      rw [hlive] at hv hl
      simp only at hv
      obtain ⟨data, hd⟩ := trieObject_some hv
      -- the object has been loaded, so the live set cannot be as before
      have hv3 : (s.getStateObject D h).1.view D h = some o := by
        rw [StateDBRecord.view_getStateObject]; exact hv2
      rw [StateDBRecord.view_eq, hl, (StateDBRecord.getStateObject_fields D s h).1] at hv3
      simp only at hv3
      -- `getStateObject` of a hash that reads some object without a live one loads it
      exfalso
      have : (s.getStateObject D h).1.liveObject h ≠ none := by
        unfold StateDBRecord.getStateObject
        rw [hlive]
        simp only
        unfold trieObject at hv
        cases hg : s.trie.TryGet h.bytes with
        | error err => rw [hg] at hv; simp at hv
        | ok v =>
          rw [hg] at hv
          cases v with
          | none => simp at hv
          | some enc =>
            simp only at hv ⊢
            by_cases hlen : enc.length = 0
            · simp [hlen] at hv
            · simp only [hlen, if_false] at hv ⊢
              cases hdd : D.DecodeRecord enc with
              | none => rw [hdd] at hv; simp at hv
              | some data2 =>
                simp only
                rw [StateDBRecord.liveObject_setStateObject]
                simp [newObjectRecord]
      exact this hl
  · rw [hn] at hv
    simp only at hv
    obtain ⟨data, hd⟩ := trieObject_some hv
    subst hd
    exact ⟨rfl, rfl, rfl, hl.trans hv⟩

theorem StateDBRecord.sound_getStateObject (D : StateParams) {s : StateDBRecord} (hs : s.sound)
    (h : Hash) : (s.getStateObject D h).1.sound := by
  unfold StateDBRecord.getStateObject
  cases hl : s.liveObject h with
  | some obj => cases hd : obj.deleted <;> simpa [hd] using hs
  | none =>
    simp only
    cases ht : s.trie.TryGet h.bytes with
    | error err =>
      exact StateDBRecord.sound_congr hs (StateDBRecord.setError_fields s _).2.1
    | ok v =>
      cases v with
      | none => exact StateDBRecord.sound_congr hs (StateDBRecord.setError_fields s _).2.1
      | some enc =>
        simp only
        by_cases hlen : enc.length = 0
        · simp only [hlen, if_true]
          exact StateDBRecord.sound_congr hs (StateDBRecord.setError_fields s _).2.1
        · simp only [hlen, if_false]
          cases hd : D.DecodeRecord enc with
          | none => exact hs
          | some data => exact StateDBRecord.sound_setStateObject hs _ rfl rfl

/-- A hash that a sound state reads as `nil` has no live object and no object in the trie. -/
theorem StateDBRecord.view_none {D : StateParams} {s : StateDBRecord} (hs : s.sound) {h : Hash}
    (hv : s.view D h = none) : s.liveObject h = none ∧ trieObject D s.trie h = none := by
  rw [StateDBRecord.view_eq] at hv
  cases hl : s.liveObject h with
  | some o =>
    rw [hl] at hv
    have := (StateDBRecord.sound_liveObject hs hl).2.1
    simp [this] at hv
  | none =>
    rw [hl] at hv
    exact ⟨rfl, hv⟩

theorem StateDBRecord.view_deleted {D : StateParams} {s : StateDBRecord} {h : Hash}
    {o : stateObjectRecord} (hv : s.view D h = some o) : o.deleted = false := by
  rw [StateDBRecord.view_eq] at hv
  cases hl : s.liveObject h with
  | some o2 =>
    rw [hl] at hv
    cases hd : o2.deleted with
    | true => simp [hd] at hv
    | false =>
      simp only [hd, Bool.false_eq_true, if_false, Option.some.injEq] at hv
      rw [← hv]; exact hd
  | none =>
    rw [hl] at hv
    obtain ⟨data, hd⟩ := trieObject_some hv
    rw [hd]; rfl

/-- Go `createObject`, in terms of what the hash reads. -/
theorem StateDBRecord.createObject_eq (D : StateParams) (s : StateDBRecord) (h : Hash) :
    s.createObject D h
      = (StateDBRecord.setStateObject
          { (s.getStateObject D h).1.MarkStateObjectDirty h with
            journal := ((s.getStateObject D h).1.MarkStateObjectDirty h).journal
              ++ [match s.view D h with
                  | none => journalEntryRecord.createObjectChangeRecord h
                  | some p => journalEntryRecord.resetObjectChangeRecord p] }
          (freshObject h),
        freshObject h, s.view D h) := by
  unfold StateDBRecord.createObject StateDBRecord.view freshObject
  rcases s.getStateObject D h with ⟨s1, prev⟩
  rfl

theorem StateDBRecord.GetOrNewStateObject_some (D : StateParams) (s : StateDBRecord) (h : Hash)
    (o : stateObjectRecord) (hv : s.view D h = some o) :
    s.GetOrNewStateObject D h = ((s.getStateObject D h).1, o) := by
  have hd := StateDBRecord.view_deleted hv
  unfold StateDBRecord.GetOrNewStateObject
  unfold StateDBRecord.view at hv
  rcases hg : s.getStateObject D h with ⟨s1, prev⟩
  rw [hg] at hv
  simp only at hv
  subst hv
  simp [hd]

theorem StateDBRecord.GetOrNewStateObject_none (D : StateParams) (s : StateDBRecord) (h : Hash)
    (hv : s.view D h = none) :
    s.GetOrNewStateObject D h
      = (StateDBRecord.setStateObject
          { (s.getStateObject D h).1.MarkStateObjectDirty h with
            journal := ((s.getStateObject D h).1.MarkStateObjectDirty h).journal
              ++ [journalEntryRecord.createObjectChangeRecord h] }
          (freshObject h),
        freshObject h) := by
  have h2 := StateDBRecord.getStateObject_none D s h hv
  have hv1 : (s.getStateObject D h).1.view D h = none := by
    rw [StateDBRecord.view_getStateObject]; exact hv
  unfold StateDBRecord.GetOrNewStateObject
  unfold StateDBRecord.view at hv
  rcases hg : s.getStateObject D h with ⟨s1, prev⟩
  rw [hg] at hv h2 hv1
  simp only at hv h2 hv1
  subst hv
  simp only
  rw [StateDBRecord.createObject_eq, hv1, h2]

/-- The state after the creation of an object for a hash is a write of the fresh object. -/
theorem wrote_create (s : StateDBRecord) (h : Hash) (e : journalEntryRecord) :
    wrote s
      (StateDBRecord.setStateObject
        { s.MarkStateObjectDirty h with journal := (s.MarkStateObjectDirty h).journal ++ [e] }
        (freshObject h))
      (freshObject h) [e] := by
  refine ⟨rfl, rfl, rfl, rfl, rfl, ?_⟩
  intro x hx
  simp only [StateDBRecord.setStateObject, StateDBRecord.MarkStateObjectDirty]
  split_ifs
  · exact hx
  · exact List.mem_append_left _ hx

/-- The state after the callback of a setter is a write of the object. -/
theorem wrote_markDirty (s : StateDBRecord) (o : stateObjectRecord)
    (es : List journalEntryRecord) :
    wrote s (stateObjectRecord.markDirty { s with journal := s.journal ++ es } o).1
      { o with onDirty := false } es := by
  unfold stateObjectRecord.markDirty
  cases o.onDirty with
  | false => exact ⟨rfl, rfl, rfl, rfl, rfl, fun x hx => hx⟩
  | true =>
    refine ⟨rfl, rfl, rfl, rfl, rfl, ?_⟩
    intro x hx
    simp only [StateDBRecord.setStateObject, StateDBRecord.MarkStateObjectDirty, if_true]
    split_ifs
    · exact hx
    · exact List.mem_append_left _ hx

/-- What a hash reads after a write. -/
theorem wrote_view (D : StateParams) {s s1 : StateDBRecord} {o : stateObjectRecord}
    {es : List journalEntryRecord} (hw : wrote s s1 o es) (h : Hash) :
    s1.view D h = if h = o.hash then (if o.deleted then none else some o) else s.view D h := by
  have hc : s1.view D h = (s.setStateObject o).view D h :=
    StateDBRecord.view_congr D s1 (s.setStateObject o) hw.1 hw.2.1 h
  rw [hc, StateDBRecord.view_setStateObject]

theorem wrote_sound {s s1 : StateDBRecord} {o : stateObjectRecord}
    {es : List journalEntryRecord} (hw : wrote s s1 o es) (hs : s.sound)
    (hd : o.deleted = false) (hsu : o.suicided = false) : s1.sound :=
  StateDBRecord.sound_congr (StateDBRecord.sound_setStateObject hs o hd hsu)
    (by rw [hw.1]; rfl)

/-! ## Facts about the journal -/

theorem undoLoop_append (D : StateParams) (a b : List journalEntryRecord) (s : StateDBRecord) :
    undoLoop D (a ++ b) s = (undoLoop D a s).bind (undoLoop D b) := by
  induction a generalizing s with
  | nil => rfl
  | cons e rest ih =>
    simp only [List.cons_append, undoLoop]
    cases e.undo D s with
    | none => rfl
    | some s1 => exact ih s1

theorem sameRecords_refl (D : StateParams) (s : StateDBRecord) : sameRecords D s s :=
  ⟨rfl, fun _ => rfl⟩

theorem sameRecords_trans {D : StateParams} {a b d : StateDBRecord} (h1 : sameRecords D a b)
    (h2 : sameRecords D b d) : sameRecords D a d :=
  ⟨h1.1.trans h2.1, fun h => (h1.2 h).trans (h2.2 h)⟩

/-- A state reads as before after `getStateObject`. -/
theorem sameRecords_getStateObject (D : StateParams) (s : StateDBRecord) (h : Hash) :
    sameRecords D (s.getStateObject D h).1 s :=
  ⟨(StateDBRecord.getStateObject_fields D s h).1, fun x => by
    unfold StateDBRecord.dataView
    rw [StateDBRecord.view_getStateObject]⟩

theorem sameRecords_symm {D : StateParams} {a b : StateDBRecord} (h : sameRecords D a b) :
    sameRecords D b a :=
  ⟨h.1.symm, fun x => (h.2 x).symm⟩

/-- A read is a step that can be undone, by no undo at all. -/
theorem Undoable_read (D : StateParams) {s : StateDBRecord} (hs : s.sound) (h : Hash) :
    Undoable D s (s.getStateObject D h).1 := by
  have hf := StateDBRecord.getStateObject_fields D s h
  refine ⟨StateDBRecord.sound_getStateObject D hs h, hf.1, hf.2.2.2.1, hf.2.2.2.2, ?_, ?_,
    [], ?_, ?_⟩
  · intro x hx; rw [hf.2.1]; exact hx
  · intro x hx; rw [StateDBRecord.view_getStateObject]; exact hx
  · rw [hf.2.2.1]; simp
  · intro t ht hr
    exact ⟨t, rfl, ht, sameRecords_trans hr (sameRecords_getStateObject D s h), rfl, rfl, rfl,
      fun x hx => Or.inl hx⟩

theorem Undoable_refl (D : StateParams) {s : StateDBRecord} (hs : s.sound) : Undoable D s s :=
  ⟨hs, rfl, rfl, rfl, fun _ hx => hx, fun _ hx => hx, [], by simp, fun t ht hr =>
    ⟨t, rfl, ht, hr, rfl, rfl, rfl, fun x hx => Or.inl hx⟩⟩

/-- Two steps that can be undone make one that can be. -/
theorem Undoable_trans {D : StateParams} {s s1 s2 : StateDBRecord} (h1 : Undoable D s s1)
    (h2 : Undoable D s1 s2) : Undoable D s s2 := by
  obtain ⟨_, ht1, hv1, hn1, hd1, he1, es1, hj1, hu1⟩ := h1
  obtain ⟨hs2, ht2, hv2, hn2, hd2, he2, es2, hj2, hu2⟩ := h2
  refine ⟨hs2, ht2.trans ht1, hv2.trans hv1, hn2.trans hn1, fun x hx => hd2 x (hd1 x hx),
    fun h hh => he2 h (he1 h hh), es1 ++ es2, ?_, ?_⟩
  · rw [hj2, hj1, List.append_assoc]
  · intro t ht hr
    obtain ⟨ta, hua, hsa, hra, hja, hva, hna, hda⟩ := hu2 t ht hr
    obtain ⟨tb, hub, hsb, hrb, hjb, hvb, hnb, hdb⟩ := hu1 ta hsa hra
    refine ⟨tb, ?_, hsb, hrb, hjb.trans hja, hvb.trans hva, hnb.trans hna, ?_⟩
    · rw [List.reverse_append, undoLoop_append, hua]
      exact hub
    · intro x hx
      rcases hda x hx with h | h
      · exact hdb x h
      · right
        by_contra hne
        exact he1 x hne h

theorem mem_filter_ne {x h : Hash} {l : List Hash} (hx : x ∈ l) (hne : x ≠ h) :
    x ∈ l.filter (fun y => !decide (y = h)) := by
  rw [List.mem_filter]
  exact ⟨hx, by simpa using hne⟩

theorem find_filter_ne (l : List (Hash × stateObjectRecord)) (h x : Hash) :
    ((l.filter (fun e => !decide (e.1 = h))).find? (fun e => decide (e.1 = x))).map Prod.snd
      = if x = h then none else (l.find? (fun e => decide (e.1 = x))).map Prod.snd := by
  induction l with
  | nil => simp
  | cons e rest ih =>
    by_cases he : e.1 = h
    · rw [List.filter_cons]
      simp only [he, decide_True, Bool.not_true, Bool.false_eq_true, if_false]
      rw [ih]
      by_cases hx : x = h
      · simp [hx]
      · have : ¬ h = x := fun e2 => hx e2.symm
        simp [hx, he, this]
    · rw [List.filter_cons]
      simp only [he, decide_False, Bool.not_false, if_true, List.find?_cons]
      by_cases hx : e.1 = x
      · have : ¬ x = h := fun e2 => he (hx.trans e2)
        simp [hx, this]
      · simp only [hx, decide_False]
        exact ih

/-- The creation of an object for a hash that reads as `nil` can be undone. -/
theorem Undoable_create (D : StateParams) {s s1 : StateDBRecord} {h : Hash}
    {o : stateObjectRecord} (hs : s.sound) (hv : s.view D h = none)
    (hw : wrote s s1 o [.createObjectChangeRecord h])
    (hh : o.hash = h) (hd : o.deleted = false) (hsu : o.suicided = false) :
    Undoable D s s1 := by
  have hview := wrote_view D hw
  refine ⟨wrote_sound hw hs hd hsu, hw.2.1, hw.2.2.2.1, hw.2.2.2.2.1, hw.2.2.2.2.2, ?_,
    [.createObjectChangeRecord h], hw.2.2.1, ?_⟩
  · intro x hx
    rw [hview x]
    by_cases hxh : x = o.hash
    · simp [hxh, hd]
    · simp [hxh, hx]
  · intro t ht hr
    refine ⟨_, rfl, ?_, ?_, rfl, rfl, rfl, ?_⟩
    · intro e he
      exact ht e (List.mem_of_mem_filter he)
    · refine ⟨hr.1.trans hw.2.1, ?_⟩
      intro x
      have hx : (StateDBRecord.view D
          { t with
            stateObjects := t.stateObjects.filter (fun e => !decide (e.1 = h)),
            stateObjectsDirty := t.stateObjectsDirty.filter (fun y => !decide (y = h)) } x)
          = if x = h then trieObject D t.trie h else t.view D x := by
        rw [StateDBRecord.view_eq, StateDBRecord.view_eq]
        unfold StateDBRecord.liveObject
        simp only
        rw [find_filter_ne]
        by_cases hxh : x = h
        · simp [hxh]
        · simp [hxh]
      unfold StateDBRecord.dataView
      rw [hx]
      by_cases hxh : x = h
      · subst hxh
        simp only [if_true]
        rw [hr.1, hw.2.1, (StateDBRecord.view_none hs hv).2, hv]
      · simp only [if_neg hxh]
        have h1 := hr.2 x
        unfold StateDBRecord.dataView at h1
        rw [h1, hview x, if_neg (by rw [hh]; exact hxh)]
    · intro x hx
      by_cases hxh : x = h
      · right; rw [hxh]; exact hv
      · left; exact mem_filter_ne hx hxh

/-- The replacement of the object a hash reads can be undone. -/
theorem Undoable_reset (D : StateParams) {s s1 : StateDBRecord} {h : Hash}
    {o prev : stateObjectRecord} (hs : s.sound) (hv : s.view D h = some prev)
    (hw : wrote s s1 o [.resetObjectChangeRecord prev])
    (hh : o.hash = h) (hd : o.deleted = false) (hsu : o.suicided = false) :
    Undoable D s s1 := by
  have hview := wrote_view D hw
  have hp := StateDBRecord.view_some hs hv
  refine ⟨wrote_sound hw hs hd hsu, hw.2.1, hw.2.2.2.1, hw.2.2.2.2.1, hw.2.2.2.2.2, ?_,
    [.resetObjectChangeRecord prev], hw.2.2.1, ?_⟩
  · intro x hx
    rw [hview x]
    by_cases hxh : x = o.hash
    · simp [hxh, hd]
    · simp [hxh, hx]
  · intro t ht hr
    refine ⟨t.setStateObject prev, rfl, StateDBRecord.sound_setStateObject ht prev hp.2.1 hp.2.2.1,
      ?_, rfl, rfl, rfl, fun x hx => Or.inl hx⟩
    refine ⟨hr.1.trans hw.2.1, ?_⟩
    intro x
    unfold StateDBRecord.dataView
    rw [StateDBRecord.view_setStateObject, hp.1]
    by_cases hxh : x = h
    · subst hxh
      simp [hp.2.1, hv]
    · simp only [if_neg hxh]
      have h1 := hr.2 x
      unfold StateDBRecord.dataView at h1
      rw [h1, hview x, if_neg (by rw [hh]; exact hxh)]

/-- The state after the callback of a setter, without a journal entry, is a write of the
object. -/
theorem wrote_markDirty_nil (s : StateDBRecord) (o : stateObjectRecord) :
    wrote s (stateObjectRecord.markDirty s o).1 { o with onDirty := false } [] := by
  unfold stateObjectRecord.markDirty
  cases o.onDirty with
  | false => exact ⟨rfl, rfl, by simp [StateDBRecord.setStateObject], rfl, rfl, fun x hx => hx⟩
  | true =>
    refine ⟨rfl, rfl, by simp [StateDBRecord.setStateObject, StateDBRecord.MarkStateObjectDirty],
      rfl, rfl, ?_⟩
    intro x hx
    simp only [StateDBRecord.setStateObject, StateDBRecord.MarkStateObjectDirty, if_true]
    split_ifs
    · exact hx
    · exact List.mem_append_left _ hx

/-- The change of a field of the record a hash reads can be undone, when the undo of its
journal entry is the setter with a value that restores the record. -/
theorem Undoable_field (D : StateParams) {s s1 : StateDBRecord} {h : Hash}
    {o : stateObjectRecord} (e : journalEntryRecord) (upd restore : Record → Record)
    (hs : s.sound) (hv : s.view D h = some o)
    (hw : wrote s s1 { o with data := upd o.data, onDirty := false } [e])
    (hundo : ∀ t, e.undo D t
      = match t.getStateObject D h with
        | (t1, some obj) =>
          some (stateObjectRecord.markDirty t1 { obj with data := restore obj.data }).1
        | (_, none) => none)
    (hres : restore (upd o.data) = o.data) : Undoable D s s1 := by
  have hview := wrote_view D hw
  have hp := StateDBRecord.view_some hs hv
  simp only [hp.1, hp.2.1] at hview
  refine ⟨wrote_sound hw hs hp.2.1 hp.2.2.1, hw.2.1, hw.2.2.2.1, hw.2.2.2.2.1, hw.2.2.2.2.2, ?_,
    [e], hw.2.2.1, ?_⟩
  · intro x hx
    rw [hview x]
    by_cases hxh : x = h
    · simp [hxh]
    · simp [hxh, hx]
  · intro t ht hr
    have hth := hr.2 h
    unfold StateDBRecord.dataView at hth
    rw [hview h] at hth
    simp only [if_true, Bool.false_eq_true, if_false, Option.map_some'] at hth
    cases htv : t.view D h with
    | none => rw [htv] at hth; simp at hth
    | some ot =>
      rw [htv] at hth
      simp only [Option.map_some', Option.some.injEq] at hth
      have hot := StateDBRecord.view_some ht htv
      have ht1 := StateDBRecord.sound_getStateObject D ht h
      have hw2 := wrote_markDirty_nil (t.getStateObject D h).1
        { ot with data := restore ot.data }
      have hview2 : ∀ x, (stateObjectRecord.markDirty (t.getStateObject D h).1
            { ot with data := restore ot.data }).1.view D x
          = if x = h then some { ot with data := restore ot.data, onDirty := false }
            else (t.getStateObject D h).1.view D x := by
        intro x
        rw [wrote_view D hw2 x]
        simp only [hot.1, hot.2.1, Bool.false_eq_true, if_false]
      have hf := StateDBRecord.getStateObject_fields D t h
      refine ⟨(stateObjectRecord.markDirty (t.getStateObject D h).1
          { ot with data := restore ot.data }).1, ?_, ?_, ?_, ?_, ?_, ?_, ?_⟩
      · simp only [List.reverse_cons, List.reverse_nil, List.nil_append, undoLoop]
        rw [hundo t]
        unfold StateDBRecord.view at htv
        rcases hg : t.getStateObject D h with ⟨t1, prev⟩
        rw [hg] at htv
        simp only at htv
        subst htv
        rfl
      · exact wrote_sound hw2 ht1 hot.2.1 hot.2.2.1
      · refine ⟨hw2.2.1.trans (hf.1.trans (hr.1.trans hw.2.1)), ?_⟩
        intro x
        unfold StateDBRecord.dataView
        rw [hview2 x]
        by_cases hxh : x = h
        · subst hxh
          simp only [if_true, Bool.false_eq_true, if_false, Option.map_some', hv, hth, hres]
        · simp only [if_neg hxh]
          rw [StateDBRecord.view_getStateObject]
          have h1 := hr.2 x
          unfold StateDBRecord.dataView at h1
          rw [h1, hview x, if_neg hxh]
      · rw [hw2.2.2.1, hf.2.2.1]; simp
      · rw [hw2.2.2.2.1, hf.2.2.2.1]
      · rw [hw2.2.2.2.2.1, hf.2.2.2.2]
      · intro x hx
        left
        apply hw2.2.2.2.2.2
        rw [hf.2.1]
        exact hx

/-- The entry of the journal of each setter of an object, and the step it makes. -/
theorem Undoable_SetOrigin (D : StateParams) {s : StateDBRecord} {h : Hash}
    {o : stateObjectRecord} (hs : s.sound) (hv : s.view D h = some o) (a : Address) :
    Undoable D s (stateObjectRecord.SetOrigin s o a).1 := by
  have hp := (StateDBRecord.view_some hs hv).1
  subst hp
  exact Undoable_field D (.originChange o.hash o.data.Origin)
    (fun d => { d with Origin := a }) (fun d => { d with Origin := o.data.Origin }) hs hv
    (wrote_markDirty s { o with data := { o.data with Origin := a } }
      [.originChange o.hash o.data.Origin])
    (fun t => rfl) rfl

theorem Undoable_SetOwner (D : StateParams) {s : StateDBRecord} {h : Hash}
    {o : stateObjectRecord} (hs : s.sound) (hv : s.view D h = some o) (a : Address) :
    Undoable D s (stateObjectRecord.SetOwner s o a).1 := by
  have hp := (StateDBRecord.view_some hs hv).1
  subst hp
  exact Undoable_field D (.ownerChange o.hash o.data.Owner)
    (fun d => { d with Owner := a }) (fun d => { d with Owner := o.data.Owner }) hs hv
    (wrote_markDirty s { o with data := { o.data with Owner := a } }
      [.ownerChange o.hash o.data.Owner])
    (fun t => rfl) rfl

theorem Undoable_SetStatus (D : StateParams) {s : StateDBRecord} {h : Hash}
    {o : stateObjectRecord} (hs : s.sound) (hv : s.view D h = some o) (a : Fin 256) :
    Undoable D s (stateObjectRecord.SetStatus s o a).1 := by
  have hp := (StateDBRecord.view_some hs hv).1
  subst hp
  exact Undoable_field D (.statusChange o.hash o.data.Status)
    (fun d => { d with Status := a }) (fun d => { d with Status := o.data.Status }) hs hv
    (wrote_markDirty s { o with data := { o.data with Status := a } }
      [.statusChange o.hash o.data.Status])
    (fun t => rfl) rfl

theorem setObject_setObject (o o1 : stateObjectRecord) (hh : o1.hash = o.hash)
    (l : List (Hash × stateObjectRecord)) : setObject o1 (setObject o l) = setObject o1 l := by
  induction l with
  | nil => simp [setObject, hh]
  | cons e rest ih =>
    by_cases he : e.1 = o.hash
    · have he1 : e.1 = o1.hash := he.trans hh.symm
      have h1 : setObject o (e :: rest) = (o.hash, o) :: rest := by
        rw [setObject, if_pos he]
      have h2 : setObject o1 (e :: rest) = (o1.hash, o1) :: rest := by
        rw [setObject, if_pos he1]
      rw [h1, h2, setObject, if_pos hh.symm]
    · have he1 : ¬ e.1 = o1.hash := fun e2 => he (e2.trans hh)
      have h1 : setObject o (e :: rest) = e :: setObject o rest := by
        rw [setObject, if_neg he]
      have h2 : setObject o1 (e :: rest) = e :: setObject o1 rest := by
        rw [setObject, if_neg he1]
      rw [h1, h2, setObject, if_neg he1, ih]

/-- A write of an object and a write, without a journal entry, of an object with the same
hash are a write of the second object. -/
theorem wrote_overwrite {s s1 s2 : StateDBRecord} {o o1 : stateObjectRecord}
    {es : List journalEntryRecord} (h1 : wrote s s1 o es) (h2 : wrote s1 s2 o1 [])
    (hh : o1.hash = o.hash) : wrote s s2 o1 es := by
  refine ⟨?_, h2.2.1.trans h1.2.1, ?_, h2.2.2.2.1.trans h1.2.2.2.1,
    h2.2.2.2.2.1.trans h1.2.2.2.2.1, fun x hx => h2.2.2.2.2.2 x (h1.2.2.2.2.2 x hx)⟩
  · rw [h2.1, h1.1, setObject_setObject o o1 hh]
  · rw [h2.2.2.1, h1.2.2.1]; simp

/-- Go `GetOrNewStateObject` is a step that can be undone, and the hash reads the object it
returns. -/
theorem Undoable_GetOrNewStateObject (D : StateParams) {s : StateDBRecord} (hs : s.sound)
    (h : Hash) :
    Undoable D s (s.GetOrNewStateObject D h).1
      ∧ (s.GetOrNewStateObject D h).1.view D h = some (s.GetOrNewStateObject D h).2 := by
  cases hv : s.view D h with
  | some o =>
    rw [StateDBRecord.GetOrNewStateObject_some D s h o hv]
    exact ⟨Undoable_read D hs h, by rw [StateDBRecord.view_getStateObject]; exact hv⟩
  | none =>
    rw [StateDBRecord.GetOrNewStateObject_none D s h hv]
    have hs1 := StateDBRecord.sound_getStateObject D hs h
    have hv1 : (s.getStateObject D h).1.view D h = none := by
      rw [StateDBRecord.view_getStateObject]; exact hv
    have hw := wrote_create (s.getStateObject D h).1 h (.createObjectChangeRecord h)
    refine ⟨Undoable_trans (Undoable_read D hs h)
      (Undoable_create D hs1 hv1 hw rfl rfl rfl), ?_⟩
    simp only
    rw [wrote_view D hw h]
    simp [freshObject, newObjectRecord]

/-- Go `CreateRecord` is a step that can be undone. -/
theorem Undoable_CreateRecord (D : StateParams) {s : StateDBRecord} (hs : s.sound) (h : Hash) :
    Undoable D s (s.CreateRecord D h) := by
  have hs1 := StateDBRecord.sound_getStateObject D hs h
  unfold StateDBRecord.CreateRecord
  rw [StateDBRecord.createObject_eq]
  cases hv : s.view D h with
  | none =>
    simp only
    have hv1 : (s.getStateObject D h).1.view D h = none := by
      rw [StateDBRecord.view_getStateObject]; exact hv
    exact Undoable_trans (Undoable_read D hs h)
      (Undoable_create D hs1 hv1
        (wrote_create (s.getStateObject D h).1 h (.createObjectChangeRecord h)) rfl rfl rfl)
  | some prev =>
    simp only
    have hv1 : (s.getStateObject D h).1.view D h = some prev := by
      rw [StateDBRecord.view_getStateObject]; exact hv
    have hw1 := wrote_create (s.getStateObject D h).1 h (.resetObjectChangeRecord prev)
    have hw2 := wrote_markDirty_nil
      (StateDBRecord.setStateObject
        { (s.getStateObject D h).1.MarkStateObjectDirty h with
          journal := ((s.getStateObject D h).1.MarkStateObjectDirty h).journal
            ++ [.resetObjectChangeRecord prev] }
        (freshObject h))
      { freshObject h with data := { (freshObject h).data with Origin := prev.data.Origin } }
    exact Undoable_trans (Undoable_read D hs h)
      (Undoable_reset D hs1 hv1 (wrote_overwrite hw1 hw2 rfl) rfl rfl rfl)

/-- Every mutation is a step that can be undone. -/
theorem Undoable_Mutation (D : StateParams) {s : StateDBRecord} (hs : s.sound) (m : Mutation) :
    Undoable D s (m.apply D s) := by
  have hg := fun h => Undoable_GetOrNewStateObject D hs h
  cases m with
  | CreateRecord addr => exact Undoable_CreateRecord D hs addr
  | SetOrigin addr account =>
    simp only [Mutation.apply, StateDBRecord.SetOrigin]
    exact Undoable_trans (hg addr).1 (Undoable_SetOrigin D (hg addr).1.1 (hg addr).2 account)
  | SetOwner addr account =>
    simp only [Mutation.apply, StateDBRecord.SetOwner]
    exact Undoable_trans (hg addr).1 (Undoable_SetOrigin D (hg addr).1.1 (hg addr).2 account)
  | objectSetOwner addr account =>
    simp only [Mutation.apply]
    exact Undoable_trans (hg addr).1 (Undoable_SetOwner D (hg addr).1.1 (hg addr).2 account)
  | objectSetStatus addr status =>
    simp only [Mutation.apply]
    exact Undoable_trans (hg addr).1 (Undoable_SetStatus D (hg addr).1.1 (hg addr).2 status)

/-- Every sequence of mutations is a step that can be undone. -/
theorem Undoable_applyMutations (D : StateParams) (ms : List Mutation) :
    ∀ {s : StateDBRecord}, s.sound → Undoable D s (applyMutations D ms s) := by
  induction ms with
  | nil => intro s hs; exact Undoable_refl D hs
  | cons m rest ih =>
    intro s hs
    have h1 := Undoable_Mutation D hs m
    exact Undoable_trans h1 (ih h1.1)

/-- Go `sort.Search` finds the index `k` when the test fails below `k` and holds from `k`. -/
theorem sortSearchLoop_spec (f : Nat → Bool) (k : Nat) :
    ∀ (fuel i j : Nat), i ≤ k → k ≤ j → j - i ≤ fuel →
      (∀ m, i ≤ m → m < k → f m = false) → (∀ m, k ≤ m → m < j → f m = true) →
      sortSearchLoop f fuel i j = k := by
  intro fuel
  induction fuel with
  | zero =>
    intro i j hik hkj hfuel _ _
    simp only [sortSearchLoop]
    omega
  | succ n ih =>
    intro i j hik hkj hfuel hlo hhi
    simp only [sortSearchLoop]
    by_cases hij : i < j
    · rw [if_pos hij]
      have hm1 : i ≤ (i + j) / 2 := by omega
      have hm2 : (i + j) / 2 < j := by omega
      cases hf : f ((i + j) / 2) with
      | false =>
        have hlt : (i + j) / 2 < k := by
          by_contra hge
          have := hhi ((i + j) / 2) (by omega) hm2
          rw [hf] at this
          exact Bool.false_ne_true this
        simp only [Bool.not_false, if_true]
        exact ih _ _ (by omega) hkj (by omega) (fun m h1 h2 => hlo m (by omega) h2) hhi
      | true =>
        have hge : k ≤ (i + j) / 2 := by
          by_contra hlt
          have := hlo ((i + j) / 2) hm1 (by omega)
          rw [hf] at this
          exact Bool.false_ne_true this.symm
        simp only [Bool.not_true, Bool.false_eq_true, if_false]
        exact ih _ _ hik hge (by omega) hlo (fun m h1 h2 => hhi m h1 (by omega))
    · rw [if_neg hij]
      omega

/-- The revision of a snapshot is found on the stack when the ids below it are smaller. -/
theorem sortSearch_last (vr : List revision) (id : Int) (j : Nat)
    (hids : ∀ r ∈ vr, r.id < id) :
    sortSearch (vr ++ [(⟨id, j⟩ : revision)]).length
        (fun i => match (vr ++ [(⟨id, j⟩ : revision)]).get? i with
          | some r => decide (r.id ≥ id)
          | none => true)
      = vr.length := by
  unfold sortSearch
  apply sortSearchLoop_spec _ vr.length
  · omega
  · simp
  · simp
  · intro m _ hm
    have hget : (vr ++ [(⟨id, j⟩ : revision)]).get? m = vr.get? m := by
      simp only [List.get?_eq_getElem?]
      exact List.getElem?_append_left hm
    rw [hget]
    have : vr.get? m = some (vr.get ⟨m, hm⟩) := List.get?_eq_get hm
    rw [this]
    simp only [decide_eq_false_iff_not, not_le, ge_iff_le]
    exact hids _ (List.get_mem vr m hm)
  · intro m hm1 hm2
    simp only [List.length_append, List.length_singleton] at hm2
    have hmk : m = vr.length := by omega
    subst hmk
    simp

/-- The getters of two states that read the same records agree. -/
theorem sameRecords_getters {D : StateParams} {t s : StateDBRecord} (hr : sameRecords D t s)
    (h : Hash) :
    (t.Exist D h).2 = (s.Exist D h).2
      ∧ (t.GetOrigin D h).2 = (s.GetOrigin D h).2
      ∧ (t.GetOwner D h).2 = (s.GetOwner D h).2
      ∧ (t.GetStatus D h).2 = (s.GetStatus D h).2
      ∧ (t.GetTxs D h).2 = (s.GetTxs D h).2 := by
  have g1 := StateDBRecord.getters_eq D t h
  have g2 := StateDBRecord.getters_eq D s h
  have hv := hr.2 h
  unfold StateDBRecord.dataView at hv
  rw [g1.1, g1.2.1, g1.2.2.1, g1.2.2.2.1, g1.2.2.2.2, g2.1, g2.2.1, g2.2.2.1, g2.2.2.2.1,
    g2.2.2.2.2]
  cases hvt : t.view D h with
  | none =>
    rw [hvt] at hv
    cases hvs : s.view D h with
    | none => simp
    | some o => rw [hvs] at hv; simp at hv
  | some ot =>
    rw [hvt] at hv
    cases hvs : s.view D h with
    | none => rw [hvs] at hv; simp at hv
    | some o =>
      rw [hvs] at hv
      simp only [Option.map_some', Option.some.injEq] at hv
      simp [hv]

/-- The round trip of `Snapshot`, a step that can be undone and `RevertToSnapshot`. -/
theorem revert_undoable (D : StateParams) (s s2 : StateDBRecord)
    (hids : ∀ r ∈ s.validRevisions, r.id < s.nextRevisionId)
    (hu : Undoable D s.Snapshot.1 s2) :
    ∃ s3, s2.RevertToSnapshot D s.Snapshot.2 = some s3
      ∧ s3.sound ∧ sameRecords D s3 s
      ∧ s3.journal = s.journal ∧ s3.validRevisions = s.validRevisions
      ∧ ∀ x ∈ s.stateObjectsDirty, s.view D x ≠ none → x ∈ s3.stateObjectsDirty := by
  obtain ⟨hs2, ht2, hv2, hn2, hd2, he2, es, hj2, hu2⟩ := hu
  obtain ⟨t1, hundo, hst, hrt, hjt, hvt, hnt, hdt⟩ := hu2 s2 hs2 (sameRecords_refl D s2)
  have hsnapView : ∀ x, s.Snapshot.1.view D x = s.view D x :=
    fun x => StateDBRecord.view_congr D s.Snapshot.1 s rfl rfl x
  have hvr : s2.validRevisions = s.validRevisions ++ [⟨s.nextRevisionId, s.journal.length⟩] :=
    hv2
  have hjr : s2.journal = s.journal ++ es := hj2
  have hidx := sortSearch_last s.validRevisions s.nextRevisionId s.journal.length hids
  have hget : (s.validRevisions ++ [(⟨s.nextRevisionId, s.journal.length⟩ : revision)]).get?
      s.validRevisions.length = some ⟨s.nextRevisionId, s.journal.length⟩ := by
    simp [List.get?_eq_getElem?]
  refine ⟨{ t1 with
      journal := t1.journal.take s.journal.length,
      validRevisions := t1.validRevisions.take s.validRevisions.length }, ?_, ?_, ?_, ?_, ?_, ?_⟩
  · unfold StateDBRecord.RevertToSnapshot
    simp only [StateDBRecord.Snapshot]
    rw [hvr, hidx, hget]
    simp only [ne_eq, not_true_eq_false, if_false]
    rw [hjr]
    simp only [List.length_append, List.drop_left]
    rw [if_neg (by omega), hundo]
  · exact StateDBRecord.sound_congr hst rfl
  · refine ⟨hrt.1, fun x => ?_⟩
    have h1 := hrt.2 x
    unfold StateDBRecord.dataView at h1 ⊢
    rw [hsnapView x] at h1
    rw [← h1]
    exact congrArg _ (StateDBRecord.view_congr D
      { t1 with
        journal := t1.journal.take s.journal.length,
        validRevisions := t1.validRevisions.take s.validRevisions.length } t1 rfl rfl x)
  · simp only
    rw [hjt, hjr]
    simp
  · simp only
    rw [hvt, hvr]
    simp
  · intro x hx hne
    rcases hdt x (hd2 x hx) with h | h
    · exact h
    · rw [hsnapView x] at h
      exact absurd h hne

/-! ## Facts about `Finalise`, `CommitTo` and the storage of a record -/

theorem StateDBRecord.updateStateObject_fields (D : StateParams) (s : StateDBRecord)
    (o : stateObjectRecord) :
    (s.updateStateObject D o).stateObjects = s.stateObjects
      ∧ (s.updateStateObject D o).stateObjectsDirty = s.stateObjectsDirty
      ∧ (s.updateStateObject D o).journal = s.journal
      ∧ (s.updateStateObject D o).validRevisions = s.validRevisions
      ∧ (s.updateStateObject D o).nextRevisionId = s.nextRevisionId := by
  unfold StateDBRecord.updateStateObject
  cases s.trie.TryUpdate o.hash.bytes (D.EncodeRecord o.data) with
  | ok t1 =>
    have h := StateDBRecord.setError_fields { s with trie := t1 } none
    exact ⟨h.2.1, h.2.2.1, h.2.2.2.1, h.2.2.2.2.1, h.2.2.2.2.2⟩
  | error err =>
    have h := StateDBRecord.setError_fields s (some err)
    exact ⟨h.2.1, h.2.2.1, h.2.2.2.1, h.2.2.2.2.1, h.2.2.2.2.2⟩

theorem StateDBRecord.deleteStateObject_fields (s : StateDBRecord) (o : stateObjectRecord) :
    (s.deleteStateObject o).stateObjects = setObject { o with deleted := true } s.stateObjects
      ∧ (s.deleteStateObject o).stateObjectsDirty = s.stateObjectsDirty
      ∧ (s.deleteStateObject o).journal = s.journal
      ∧ (s.deleteStateObject o).validRevisions = s.validRevisions
      ∧ (s.deleteStateObject o).nextRevisionId = s.nextRevisionId := by
  unfold StateDBRecord.deleteStateObject
  cases (s.setStateObject { o with deleted := true }).trie.TryDelete o.hash.bytes with
  | ok t1 =>
    have h := StateDBRecord.setError_fields
      { s.setStateObject { o with deleted := true } with trie := t1 } none
    exact ⟨h.2.1, h.2.2.1, h.2.2.2.1, h.2.2.2.2.1, h.2.2.2.2.2⟩
  | error err =>
    have h := StateDBRecord.setError_fields (s.setStateObject { o with deleted := true })
      (some err)
    exact ⟨h.2.1, h.2.2.1, h.2.2.2.1, h.2.2.2.2.1, h.2.2.2.2.2⟩

/-- The hashes with a live object after the binding of an object. -/
theorem liveObject_setObject_ne_none (o : stateObjectRecord) (s s1 : StateDBRecord)
    (h : s1.stateObjects = setObject o s.stateObjects) (x : Hash)
    (hx : s.liveObject x ≠ none) : s1.liveObject x ≠ none := by
  have h1 : s1.liveObject x = (s.setStateObject o).liveObject x := by
    unfold StateDBRecord.liveObject
    rw [h]
    rfl
  rw [h1, StateDBRecord.liveObject_setStateObject]
  split_ifs
  · simp
  · exact hx

/-- A round of the loop of `Finalise` on a hash with a live object returns; it leaves the
dirty set, the journal and the revisions as they are, and every hash with a live object
keeps one. -/
theorem StateDBRecord.finaliseObject_some (P : Params) (D : StateParams) (s : StateDBRecord)
    (del : Bool) (addr : Hash) (hl : s.liveObject addr ≠ none) :
    ∃ s1, s.finaliseObject P D del addr = some s1
      ∧ s1.stateObjectsDirty = s.stateObjectsDirty ∧ s1.journal = s.journal
      ∧ s1.validRevisions = s.validRevisions ∧ s1.nextRevisionId = s.nextRevisionId
      ∧ ∀ x, s.liveObject x ≠ none → s1.liveObject x ≠ none := by
  unfold StateDBRecord.finaliseObject
  cases hlo : s.liveObject addr with
  | none => exact absurd hlo hl
  | some o =>
    simp only
    split_ifs
    · have hf := StateDBRecord.deleteStateObject_fields s o
      exact ⟨_, rfl, hf.2.1, hf.2.2.1, hf.2.2.2.1, hf.2.2.2.2,
        fun x hx => liveObject_setObject_ne_none _ s _ hf.1 x hx⟩
    · have hf := StateDBRecord.updateStateObject_fields D
        (s.setStateObject (o.updateRoot P D)) (o.updateRoot P D)
      exact ⟨_, rfl, hf.2.1, hf.2.2.1, hf.2.2.2.1, hf.2.2.2.2,
        fun x hx => liveObject_setObject_ne_none _ s _ hf.1 x hx⟩

/-- The loop of `Finalise` over hashes with a live object returns. -/
theorem StateDBRecord.finaliseLoop_some (P : Params) (D : StateParams) (del : Bool) :
    ∀ (l : List Hash) (s : StateDBRecord), (∀ h ∈ l, s.liveObject h ≠ none) →
      ∃ s1, StateDBRecord.finaliseLoop P D del l s = some s1
        ∧ s1.stateObjectsDirty = s.stateObjectsDirty ∧ s1.journal = s.journal
        ∧ s1.validRevisions = s.validRevisions ∧ s1.nextRevisionId = s.nextRevisionId
        ∧ ∀ x, s.liveObject x ≠ none → s1.liveObject x ≠ none := by
  intro l
  induction l with
  | nil => intro s _; exact ⟨s, rfl, rfl, rfl, rfl, rfl, fun _ hx => hx⟩
  | cons a rest ih =>
    intro s hl
    obtain ⟨s1, h1, hd1, hj1, hv1, hn1, hk1⟩ :=
      StateDBRecord.finaliseObject_some P D s del a (hl a (List.mem_cons_self _ _))
    obtain ⟨s2, h2, hd2, hj2, hv2, hn2, hk2⟩ :=
      ih s1 (fun h hh => hk1 h (hl h (List.mem_cons_of_mem _ hh)))
    refine ⟨s2, ?_, hd2.trans hd1, hj2.trans hj1, hv2.trans hv1, hn2.trans hn1,
      fun x hx => hk2 x (hk1 x hx)⟩
    simp only [StateDBRecord.finaliseLoop, h1]
    exact h2

/-- Go `RevertToSnapshot` panics on an empty stack of revisions. -/
theorem StateDBRecord.RevertToSnapshot_nil (D : StateParams) (s : StateDBRecord) (revid : Int)
    (h : s.validRevisions = []) : s.RevertToSnapshot D revid = none := by
  unfold StateDBRecord.RevertToSnapshot
  rw [h]
  rfl

/-- An `int` below the largest is below its successor, as `Snapshot` computes it. -/
theorem int64_succ (x : Int) (hlo : -(2 ^ 63) ≤ x) (hhi : x + 1 < 2 ^ 63) :
    int64 (x + 1) = x + 1 := by
  unfold int64
  omega

/-- What `GetOrNewStateObject` leaves of the journal and the revisions. -/
theorem StateDBRecord.GetOrNewStateObject_journal (D : StateParams) (s : StateDBRecord)
    (h : Hash) :
    (s.GetOrNewStateObject D h).1.validRevisions = s.validRevisions
      ∧ ∃ pre, (s.GetOrNewStateObject D h).1.journal = s.journal ++ pre := by
  have hf := StateDBRecord.getStateObject_fields D s h
  cases hv : s.view D h with
  | some o =>
    rw [StateDBRecord.GetOrNewStateObject_some D s h o hv]
    exact ⟨hf.2.2.2.1, [], by simp [hf.2.2.1]⟩
  | none =>
    rw [StateDBRecord.GetOrNewStateObject_none D s h hv]
    refine ⟨?_, [.createObjectChangeRecord h], ?_⟩
    · simp only [StateDBRecord.setStateObject, StateDBRecord.MarkStateObjectDirty]
      exact hf.2.2.2.1
    · simp only [StateDBRecord.setStateObject, StateDBRecord.MarkStateObjectDirty]
      rw [hf.2.2.1]

/-- The journal after `SetState` ends with the entry of a storage change. -/
theorem StateDBRecord.SetState_journal (D : StateParams) (s : StateDBRecord) (h k v : Hash) :
    (s.SetState D h k v).validRevisions = s.validRevisions
      ∧ ∃ pre a prevalue, (s.SetState D h k v).journal
        = s.journal ++ pre ++ [.storageChangeRecord a k prevalue] := by
  obtain ⟨hv, pre, hj⟩ := StateDBRecord.GetOrNewStateObject_journal D s h
  unfold StateDBRecord.SetState stateObjectRecord.SetState stateObjectRecord.setState
  generalize s.GetOrNewStateObject D h = p at hv hj ⊢
  obtain ⟨s1, o⟩ := p
  simp only at hv hj ⊢
  rcases o.GetState D k with ⟨o1, prevalue⟩
  simp only
  have hw := wrote_markDirty_nil
    { s1 with journal := s1.journal ++ [.storageChangeRecord o.hash k prevalue] }
    { o1 with
      cachedStorage := Storage.set k v o1.cachedStorage,
      dirtyStorage := Storage.set k v o1.dirtyStorage }
  refine ⟨hw.2.2.2.1.trans hv, pre, o.hash, prevalue, ?_⟩
  rw [hw.2.2.1]
  simp only [List.append_nil]
  rw [hj]

/-- Go `RevertToSnapshot` of a snapshot panics when the last entry of the journal is one
whose undo panics. -/
theorem revert_panics (D : StateParams) (s s2 : StateDBRecord) (pre : List journalEntryRecord)
    (e : journalEntryRecord)
    (hids : ∀ r ∈ s.validRevisions, r.id < s.nextRevisionId)
    (hv : s2.validRevisions = s.Snapshot.1.validRevisions)
    (hj : s2.journal = s.journal ++ pre ++ [e])
    (hundo : ∀ t, e.undo D t = none) :
    s2.RevertToSnapshot D s.Snapshot.2 = none := by
  have hvr : s2.validRevisions = s.validRevisions ++ [⟨s.nextRevisionId, s.journal.length⟩] :=
    hv
  have hidx := sortSearch_last s.validRevisions s.nextRevisionId s.journal.length hids
  have hget : (s.validRevisions ++ [(⟨s.nextRevisionId, s.journal.length⟩ : revision)]).get?
      s.validRevisions.length = some ⟨s.nextRevisionId, s.journal.length⟩ := by
    simp [List.get?_eq_getElem?]
  unfold StateDBRecord.RevertToSnapshot
  simp only [StateDBRecord.Snapshot]
  rw [hvr, hidx, hget]
  simp only [ne_eq, not_true_eq_false, if_false]
  rw [hj]
  simp only [List.length_append, List.append_assoc, List.drop_left, List.reverse_append,
    List.reverse_cons, List.reverse_nil, List.nil_append, List.singleton_append, undoLoop, hundo]
  rw [if_neg (by omega)]

/-- The state after `setError` is the state with another remembered error. -/
theorem StateDBRecord.setError_eq (s : StateDBRecord) (x : Option TrieError) :
    ∃ e, s.setError x = { s with dbErr := e } := by
  unfold StateDBRecord.setError
  split_ifs
  · exact ⟨x, rfl⟩
  · exact ⟨s.dbErr, rfl⟩

/-- The remembered error has no part in `updateStateObject` but in the error remembered
after it. -/
theorem StateDBRecord.updateStateObject_dbErr (D : StateParams) (s : StateDBRecord)
    (o : stateObjectRecord) (e : Option TrieError) :
    ∃ e1, StateDBRecord.updateStateObject D { s with dbErr := e } o
      = { s.updateStateObject D o with dbErr := e1 } := by
  unfold StateDBRecord.updateStateObject
  simp only
  cases s.trie.TryUpdate o.hash.bytes (D.EncodeRecord o.data) with
  | ok t1 =>
    obtain ⟨e1, h1⟩ := StateDBRecord.setError_eq { s with dbErr := e, trie := t1 } none
    obtain ⟨e2, h2⟩ := StateDBRecord.setError_eq { s with trie := t1 } none
    exact ⟨e1, by simp only [h1, h2]⟩
  | error err =>
    obtain ⟨e1, h1⟩ := StateDBRecord.setError_eq { s with dbErr := e } (some err)
    obtain ⟨e2, h2⟩ := StateDBRecord.setError_eq s (some err)
    exact ⟨e1, by simp only [h1, h2]⟩

theorem StateDBRecord.deleteStateObject_dbErr (s : StateDBRecord) (o : stateObjectRecord)
    (e : Option TrieError) :
    ∃ e1, StateDBRecord.deleteStateObject { s with dbErr := e } o
      = { s.deleteStateObject o with dbErr := e1 } := by
  have hset : StateDBRecord.setStateObject { s with dbErr := e } { o with deleted := true }
      = { s.setStateObject { o with deleted := true } with dbErr := e } := rfl
  unfold StateDBRecord.deleteStateObject
  rw [hset]
  generalize s.setStateObject { o with deleted := true } = s1
  simp only
  cases s1.trie.TryDelete o.hash.bytes with
  | ok t1 =>
    obtain ⟨e1, h1⟩ := StateDBRecord.setError_eq { s1 with dbErr := e, trie := t1 } none
    obtain ⟨e2, h2⟩ := StateDBRecord.setError_eq { s1 with trie := t1 } none
    exact ⟨e1, by simp only [h1, h2]⟩
  | error err =>
    obtain ⟨e1, h1⟩ := StateDBRecord.setError_eq { s1 with dbErr := e } (some err)
    obtain ⟨e2, h2⟩ := StateDBRecord.setError_eq s1 (some err)
    exact ⟨e1, by simp only [h1, h2]⟩

/-- A round of the loop of `CommitTo` does not read the remembered error. -/
theorem StateDBRecord.commitObject_dbErr (P : Params) (D : StateParams) (dbw : DatabaseWriter)
    (del : Bool) (s : StateDBRecord) (addr : Hash) (o : stateObjectRecord)
    (e : Option TrieError) :
    ∃ e1, StateDBRecord.commitObject P D dbw del { s with dbErr := e } addr o
      = ({ (s.commitObject P D dbw del addr o).1 with dbErr := e1 },
          (s.commitObject P D dbw del addr o).2) := by
  unfold StateDBRecord.commitObject
  simp only
  split_ifs
  · obtain ⟨e1, h1⟩ := StateDBRecord.deleteStateObject_dbErr s o e
    exact ⟨e1, by rw [h1]; rfl⟩
  · rcases o.CommitTrie P D dbw with ⟨obj1, _ | err⟩
    · obtain ⟨e1, h1⟩ := StateDBRecord.updateStateObject_dbErr D (s.setStateObject obj1) obj1 e
      refine ⟨e1, ?_⟩
      simp only
      have h2 : StateDBRecord.setStateObject { s with dbErr := e } obj1
          = { s.setStateObject obj1 with dbErr := e } := rfl
      rw [h2, h1]
      rfl
    · exact ⟨e, rfl⟩
  · exact ⟨e, rfl⟩

/-- The loop of `CommitTo` does not read the remembered error. -/
theorem StateDBRecord.commitLoop_dbErr (P : Params) (D : StateParams) (dbw : DatabaseWriter)
    (del : Bool) :
    ∀ (l : List (Hash × stateObjectRecord)) (s : StateDBRecord) (e : Option TrieError),
      ∃ e1, StateDBRecord.commitLoop P D dbw del l { s with dbErr := e }
        = ({ (StateDBRecord.commitLoop P D dbw del l s).1 with dbErr := e1 },
            (StateDBRecord.commitLoop P D dbw del l s).2) := by
  intro l
  induction l with
  | nil => intro s e; exact ⟨e, rfl⟩
  | cons x rest ih =>
    intro s e
    obtain ⟨e1, h1⟩ := StateDBRecord.commitObject_dbErr P D dbw del s x.1 x.2 e
    simp only [StateDBRecord.commitLoop]
    rw [h1]
    rcases s.commitObject P D dbw del x.1 x.2 with ⟨s1, _ | err⟩
    · simp only
      exact ih s1 e1
    · exact ⟨e1, rfl⟩

/-- Go `CommitTo` returns the root and the error it returns without the remembered error. -/
theorem StateDBRecord.CommitTo_dbErr (P : Params) (D : StateParams) (dbw : DatabaseWriter)
    (del : Bool) (s : StateDBRecord) (e : Option TrieError) :
    (StateDBRecord.CommitTo P D dbw { s with dbErr := e } del).2
      = (s.CommitTo P D dbw del).2 := by
  unfold StateDBRecord.CommitTo
  obtain ⟨e1, h1⟩ := StateDBRecord.commitLoop_dbErr P D dbw del s.stateObjects s e
  simp only
  rw [h1]
  rcases StateDBRecord.commitLoop P D dbw del s.stateObjects s with ⟨s1, _ | err⟩
  · rfl
  · rfl

/-! ## Facts about the records `Finalise` and `CommitTo` write -/

theorem find_insertEntry (k v a : Bytes) (l : List (Bytes × Bytes)) :
    ((insertEntry k v l).find? (fun e => decide (e.1 = a))).map Prod.snd
      = if a = k then some v else (l.find? (fun e => decide (e.1 = a))).map Prod.snd := by
  induction l with
  | nil =>
    by_cases h : a = k
    · subst h; simp [insertEntry]
    · have h2 : ¬ k = a := fun e => h e.symm
      simp [insertEntry, h, h2]
  | cons e rest ih =>
    unfold insertEntry
    by_cases hlt : bytesLt k e.1 = true
    · rw [if_pos hlt]
      by_cases h : a = k
      · subst h; simp
      · have h2 : ¬ k = a := fun e => h e.symm
        simp [h, h2]
    · rw [if_neg hlt]
      by_cases hk : k = e.1
      · rw [if_pos hk]
        by_cases h : a = k
        · subst h; simp
        · have h2 : ¬ k = a := fun e => h e.symm
          have h3 : ¬ e.1 = a := fun e2 => h2 (hk.trans e2)
          simp [h, h2, h3]
      · rw [if_neg hk]
        by_cases h : a = k
        · subst h
          have h3 : ¬ e.1 = a := fun e2 => hk e2.symm
          simp only [if_true] at ih
          simp only [List.find?_cons, h3, decide_False, if_true]
          exact ih
        · simp only [if_neg h] at ih ⊢
          by_cases hb : e.1 = a
          · simp [hb]
          · simp only [List.find?_cons, hb, decide_False]
            exact ih

theorem mem_keys_insertEntry (k v : Bytes) (l : List (Bytes × Bytes)) (a : Bytes)
    (h : a ∈ l.map Prod.fst) : a ∈ (insertEntry k v l).map Prod.fst := by
  induction l with
  | nil => simp at h
  | cons e rest ih =>
    unfold insertEntry
    simp only [List.map_cons, List.mem_cons] at h
    split_ifs with h1 h2
    · simp only [List.map_cons, List.mem_cons]
      rcases h with h | h
      · exact Or.inr (Or.inl h)
      · exact Or.inr (Or.inr h)
    · simp only [List.map_cons, List.mem_cons]
      rcases h with h | h
      · exact Or.inl (h.trans h2.symm)
      · exact Or.inr h
    · simp only [List.map_cons, List.mem_cons]
      rcases h with h | h
      · exact Or.inl h
      · exact Or.inr (ih h)

theorem Hash.bytes_inj {a b : Hash} (h : a.bytes = b.bytes) : a = b := by
  cases a
  cases b
  simp only at h
  subst h
  rfl

/-- Go `TryUpdate` with a value that is not empty, on a key whose path can be resolved. -/
theorem Trie.TryUpdate_ok (t : Trie) (k v : Bytes) (hf : t.fault k = none) (hv : v ≠ []) :
    ∃ t1, t.TryUpdate k v = .ok t1 ∧ t1.faults = t.faults
      ∧ t1.entries = insertEntry k v t.entries := by
  unfold Trie.TryUpdate
  rw [hf]
  have hlen : v.length ≠ 0 := fun h => hv (List.length_eq_zero.mp h)
  simp only [hlen, ne_eq, not_false_eq_true, if_true]
  exact ⟨_, rfl, rfl, rfl⟩

theorem Trie.TryUpdate_error (t : Trie) (k v : Bytes) (e : TrieError)
    (hf : t.fault k = some e) : t.TryUpdate k v = .error e := by
  unfold Trie.TryUpdate
  rw [hf]

/-- Go `TryGet` reads the faults and the bindings. -/
theorem Trie.TryGet_congr (t t1 : Trie) (k : Bytes) (hf : t1.faults = t.faults)
    (he : (t1.entries.find? (fun e => decide (e.1 = k))).map Prod.snd
      = (t.entries.find? (fun e => decide (e.1 = k))).map Prod.snd) :
    t1.TryGet k = t.TryGet k := by
  unfold Trie.TryGet Trie.fault
  rw [hf, he]

/-- The trie after `updateStateObject`, when no encoding of a record is empty: the faults
and the bound keys stay, the other keys read as before, and the key of the object reads the
encoding of its record when its path can be resolved. -/
theorem StateDBRecord.updateStateObject_trie (D : StateParams) (s : StateDBRecord)
    (o : stateObjectRecord) (henc : ∀ r, D.EncodeRecord r ≠ []) :
    (s.updateStateObject D o).trie.faults = s.trie.faults
      ∧ (∀ k ∈ s.trie.entries.map Prod.fst,
          k ∈ (s.updateStateObject D o).trie.entries.map Prod.fst)
      ∧ (∀ k, k ≠ o.hash.bytes → (s.updateStateObject D o).trie.TryGet k = s.trie.TryGet k)
      ∧ (s.trie.fault o.hash.bytes = none →
          (s.updateStateObject D o).trie.TryGet o.hash.bytes
            = .ok (some (D.EncodeRecord o.data))) := by
  unfold StateDBRecord.updateStateObject
  cases hf : s.trie.fault o.hash.bytes with
  | some e =>
    rw [Trie.TryUpdate_error s.trie _ _ e hf]
    simp only
    rw [(StateDBRecord.setError_fields s (some e)).1]
    exact ⟨rfl, fun k hk => hk, fun k _ => rfl, fun h => by simp at h⟩
  | none =>
    obtain ⟨t1, h1, h2, h3⟩ := Trie.TryUpdate_ok s.trie o.hash.bytes (D.EncodeRecord o.data) hf
      (henc o.data)
    rw [h1]
    simp only
    rw [(StateDBRecord.setError_fields { s with trie := t1 } none).1]
    simp only
    refine ⟨h2, ?_, ?_, ?_⟩
    · intro k hk
      rw [h3]
      exact mem_keys_insertEntry _ _ _ k hk
    · intro k hk
      apply Trie.TryGet_congr _ _ _ h2
      rw [h3, find_insertEntry, if_neg hk]
    · intro _
      unfold Trie.TryGet Trie.fault
      rw [h2]
      have hf2 := hf
      unfold Trie.fault at hf2
      rw [hf2, h3, find_insertEntry, if_pos rfl]

theorem trieObject_congr (D : StateParams) (t t1 : Trie) (h : Hash)
    (hg : t1.TryGet h.bytes = t.TryGet h.bytes) : trieObject D t1 h = trieObject D t h := by
  unfold trieObject
  rw [hg]

theorem keepsRecords_refl (D : StateParams) {s : StateDBRecord} (hs : s.sound) :
    keepsRecords D s s :=
  ⟨hs, rfl, fun _ hk => hk, fun _ hx => hx, fun _ hx => hx⟩

theorem keepsRecords_trans {D : StateParams} {s s1 s2 : StateDBRecord}
    (h1 : keepsRecords D s s1) (h2 : keepsRecords D s1 s2) : keepsRecords D s s2 :=
  ⟨h2.1, h2.2.1.trans h1.2.1, fun k hk => h2.2.2.1 k (h1.2.2.1 k hk),
    fun x hx => h2.2.2.2.1 x (h1.2.2.2.1 x hx), fun x hx => h2.2.2.2.2 x (h1.2.2.2.2 x hx)⟩

/-- A step that leaves the live objects and the trie keeps the records and what is
written. -/
theorem keepsRecords_congr (D : StateParams) {s s1 : StateDBRecord} (hs : s.sound)
    (ho : s1.stateObjects = s.stateObjects) (ht : s1.trie = s.trie) :
    keepsRecords D s s1 ∧ ∀ x, s.written D x → s1.written D x := by
  have hl : ∀ x, s1.liveObject x = s.liveObject x := by
    intro x
    unfold StateDBRecord.liveObject
    rw [ho]
  refine ⟨⟨StateDBRecord.sound_congr hs ho, by rw [ht], fun k hk => by rw [ht]; exact hk,
    fun x hx => by rw [StateDBRecord.view_congr D s1 s ho ht x]; exact hx,
    fun x hx => by rw [hl x]; exact hx⟩, ?_⟩
  intro x hx
  obtain ⟨o, h1, h2, h3⟩ := hx
  exact ⟨o, by rw [hl x]; exact h1, h2, by rw [ht]; exact h3⟩

/-- The binding of an object that is not deleted keeps the records. -/
theorem keepsRecords_setStateObject (D : StateParams) {s : StateDBRecord} (hs : s.sound)
    (o : stateObjectRecord) (hd : o.deleted = false) (hsu : o.suicided = false) :
    keepsRecords D s (s.setStateObject o) := by
  refine ⟨StateDBRecord.sound_setStateObject hs o hd hsu, rfl, fun _ hk => hk, ?_, ?_⟩
  · intro x hx
    rw [StateDBRecord.view_setStateObject]
    split_ifs
    · simp [hd] at *
    · simp
    · exact hx
  · intro x hx
    rw [StateDBRecord.liveObject_setStateObject]
    split_ifs
    · simp
    · exact hx

/-- The write of a live object to the trie keeps the records and what is written, and the
object is written when the path of its key can be resolved. -/
theorem keepsRecords_write (D : StateParams) {s : StateDBRecord} (hs : s.sound)
    (o : stateObjectRecord) (hd : o.deleted = false) (hsu : o.suicided = false)
    (henc : ∀ r, D.EncodeRecord r ≠ []) :
    keepsRecords D s ((s.setStateObject o).updateStateObject D o)
      ∧ (∀ x, s.written D x → ((s.setStateObject o).updateStateObject D o).written D x)
      ∧ (s.trie.fault o.hash.bytes = none →
          ((s.setStateObject o).updateStateObject D o).written D o.hash)
      ∧ ((s.setStateObject o).updateStateObject D o).stateObjectsDirty
        = s.stateObjectsDirty := by
  have hf := StateDBRecord.updateStateObject_fields D (s.setStateObject o) o
  have ht := StateDBRecord.updateStateObject_trie D (s.setStateObject o) o henc
  have hk0 := keepsRecords_setStateObject D hs o hd hsu
  have hl : ∀ x, ((s.setStateObject o).updateStateObject D o).liveObject x
      = if x = o.hash then some o else s.liveObject x := by
    intro x
    rw [← StateDBRecord.liveObject_setStateObject]
    unfold StateDBRecord.liveObject
    rw [hf.1]
  have hsound : ((s.setStateObject o).updateStateObject D o).sound :=
    StateDBRecord.sound_congr hk0.1 hf.1
  have hwr : s.trie.fault o.hash.bytes = none →
      ((s.setStateObject o).updateStateObject D o).written D o.hash :=
    fun hfault => ⟨o, by rw [hl, if_pos rfl], hd, ht.2.2.2 hfault⟩
  refine ⟨⟨hsound, ht.1, ht.2.1, ?_, ?_⟩, ?_, hwr, hf.2.1⟩
  · intro x hx
    rw [StateDBRecord.view_eq, hl]
    by_cases hxo : x = o.hash
    · simp [hxo, hd]
    · rw [if_neg hxo]
      have hb : x.bytes ≠ o.hash.bytes := fun e => hxo (Hash.bytes_inj e)
      rw [StateDBRecord.view_eq] at hx
      rw [trieObject_congr D s.trie _ x (ht.2.2.1 x.bytes hb)]
      exact hx
  · intro x hx
    rw [hl]
    split_ifs
    · simp
    · exact hx
  · intro x hx
    by_cases hxo : x = o.hash
    · subst hxo
      obtain ⟨o2, -, -, h3⟩ := hx
      apply hwr
      unfold Trie.TryGet at h3
      cases hfa : s.trie.fault o.hash.bytes with
      | none => rfl
      | some e => rw [hfa] at h3; simp at h3
    · obtain ⟨o2, h1, h2, h3⟩ := hx
      have hb : x.bytes ≠ o.hash.bytes := fun e => hxo (Hash.bytes_inj e)
      exact ⟨o2, by rw [hl, if_neg hxo]; exact h1, h2, by rw [ht.2.2.1 x.bytes hb]; exact h3⟩

theorem stateObjectRecord.setError_identity (o : stateObjectRecord) (e : Option TrieError) :
    (o.setError e).hash = o.hash ∧ (o.setError e).deleted = o.deleted
      ∧ (o.setError e).suicided = o.suicided := by
  unfold stateObjectRecord.setError
  split_ifs <;> exact ⟨rfl, rfl, rfl⟩

theorem stateObjectRecord.getTrie_identity (D : StateParams) (o : stateObjectRecord) :
    (o.getTrie D).1.hash = o.hash ∧ (o.getTrie D).1.deleted = o.deleted
      ∧ (o.getTrie D).1.suicided = o.suicided := by
  unfold stateObjectRecord.getTrie
  cases o.trie with
  | some t => exact ⟨rfl, rfl, rfl⟩
  | none =>
    simp only
    cases D.OpenStorageTrie o.hash o.data.Root with
    | ok t => exact ⟨rfl, rfl, rfl⟩
    | error _ =>
      simp only
      cases D.OpenStorageTrie o.hash Hash.zero with
      | ok t => exact stateObjectRecord.setError_identity _ _
      | error _ => exact stateObjectRecord.setError_identity _ _

theorem stateObjectRecord.updateTrieEntry_identity (o : stateObjectRecord) (tr : Trie)
    (key value : Hash) :
    (o.updateTrieEntry tr key value).1.hash = o.hash
      ∧ (o.updateTrieEntry tr key value).1.deleted = o.deleted
      ∧ (o.updateTrieEntry tr key value).1.suicided = o.suicided := by
  unfold stateObjectRecord.updateTrieEntry
  simp only
  split_ifs
  · cases tr.TryDelete key.bytes <;> exact stateObjectRecord.setError_identity _ _
  · cases tr.TryUpdate key.bytes
      (rlpEncodeBytes (value.bytes.dropWhile (fun b => decide (b = 0)))) <;>
      exact stateObjectRecord.setError_identity _ _

theorem stateObjectRecord.updateTrieLoop_identity :
    ∀ (l : List (Hash × Hash)) (o : stateObjectRecord) (tr : Trie),
      (stateObjectRecord.updateTrieLoop l o tr).1.hash = o.hash
        ∧ (stateObjectRecord.updateTrieLoop l o tr).1.deleted = o.deleted
        ∧ (stateObjectRecord.updateTrieLoop l o tr).1.suicided = o.suicided := by
  intro l
  induction l with
  | nil => intro o tr; exact ⟨rfl, rfl, rfl⟩
  | cons e rest ih =>
    intro o tr
    have h1 := stateObjectRecord.updateTrieEntry_identity o tr e.1 e.2
    have h2 := ih (o.updateTrieEntry tr e.1 e.2).1 (o.updateTrieEntry tr e.1 e.2).2
    simp only [stateObjectRecord.updateTrieLoop]
    exact ⟨h2.1.trans h1.1, h2.2.1.trans h1.2.1, h2.2.2.trans h1.2.2⟩

theorem stateObjectRecord.updateTrie_identity (D : StateParams) (o : stateObjectRecord) :
    (o.updateTrie D).1.hash = o.hash ∧ (o.updateTrie D).1.deleted = o.deleted
      ∧ (o.updateTrie D).1.suicided = o.suicided := by
  have h1 := stateObjectRecord.getTrie_identity D o
  have h2 := stateObjectRecord.updateTrieLoop_identity (o.getTrie D).1.dirtyStorage
    (o.getTrie D).1 (o.getTrie D).2
  unfold stateObjectRecord.updateTrie
  exact ⟨h2.1.trans h1.1, h2.2.1.trans h1.2.1, h2.2.2.trans h1.2.2⟩

/-- Go `updateRoot` leaves the hash and the flags of the object. -/
theorem stateObjectRecord.updateRoot_identity (P : Params) (D : StateParams)
    (o : stateObjectRecord) :
    (o.updateRoot P D).hash = o.hash ∧ (o.updateRoot P D).deleted = o.deleted
      ∧ (o.updateRoot P D).suicided = o.suicided := by
  have h1 := stateObjectRecord.updateTrie_identity D o
  unfold stateObjectRecord.updateRoot
  exact h1

/-- Go `CommitTrie` leaves the hash and the flags of the object. -/
theorem stateObjectRecord.CommitTrie_identity (P : Params) (D : StateParams)
    (dbw : DatabaseWriter) (o : stateObjectRecord) :
    (o.CommitTrie P D dbw).1.hash = o.hash ∧ (o.CommitTrie P D dbw).1.deleted = o.deleted
      ∧ (o.CommitTrie P D dbw).1.suicided = o.suicided := by
  have h1 := stateObjectRecord.updateTrie_identity D o
  unfold stateObjectRecord.CommitTrie
  generalize o.updateTrie D = p at h1 ⊢
  obtain ⟨o1, tr⟩ := p
  simp only at h1 ⊢
  cases hE : o1.dbErr with
  | some err => exact h1
  | none =>
    simp only
    rcases tr.CommitTo P dbw with ⟨root, _ | err⟩
    · exact h1
    · exact h1

theorem Trie.fault_congr (t t1 : Trie) (h : t1.faults = t.faults) (k : Bytes) :
    t1.fault k = t.fault k := by
  unfold Trie.fault
  rw [h]

/-- A round of the loop of `Finalise` on a state without deleted or suicided live objects
writes the live object of the hash. -/
theorem StateDBRecord.finaliseObject_keeps (P : Params) (D : StateParams) (s : StateDBRecord)
    (del : Bool) (addr : Hash) (hs : s.sound) (hl : s.liveObject addr ≠ none)
    (henc : ∀ r, D.EncodeRecord r ≠ []) :
    ∃ s1, s.finaliseObject P D del addr = some s1 ∧ keepsRecords D s s1
      ∧ (∀ x, s.written D x → s1.written D x)
      ∧ (s.trie.fault addr.bytes = none → s1.written D addr)
      ∧ s1.stateObjectsDirty = s.stateObjectsDirty := by
  unfold StateDBRecord.finaliseObject
  cases hlo : s.liveObject addr with
  | none => exact absurd hlo hl
  | some o =>
    have ho := StateDBRecord.sound_liveObject hs hlo
    have hid := stateObjectRecord.updateRoot_identity P D o
    have hw := keepsRecords_write D hs (o.updateRoot P D) (hid.2.1.trans ho.2.1)
      (hid.2.2.trans ho.2.2) henc
    rw [hid.1, ho.1] at hw
    simp only [ho.2.2, stateObjectRecord.empty, Bool.and_false, Bool.or_false,
      Bool.false_eq_true, if_false]
    exact ⟨_, rfl, hw⟩

/-- The loop of `Finalise` writes the live objects of the hashes it visits. -/
theorem StateDBRecord.finaliseLoop_keeps (P : Params) (D : StateParams) (del : Bool)
    (henc : ∀ r, D.EncodeRecord r ≠ []) :
    ∀ (l : List Hash) (s : StateDBRecord), s.sound → (∀ h ∈ l, s.liveObject h ≠ none) →
      ∃ s1, StateDBRecord.finaliseLoop P D del l s = some s1 ∧ keepsRecords D s s1
        ∧ (∀ x, s.written D x → s1.written D x)
        ∧ (∀ x ∈ l, s.trie.fault x.bytes = none → s1.written D x)
        ∧ s1.stateObjectsDirty = s.stateObjectsDirty := by
  intro l
  induction l with
  | nil =>
    intro s hs _
    exact ⟨s, rfl, keepsRecords_refl D hs, fun _ hx => hx, fun x hx => by simp at hx, rfl⟩
  | cons a rest ih =>
    intro s hs hl
    obtain ⟨s1, h1, hk1, hw1, ha1, hd1⟩ :=
      StateDBRecord.finaliseObject_keeps P D s del a hs (hl a (List.mem_cons_self _ _)) henc
    obtain ⟨s2, h2, hk2, hw2, ha2, hd2⟩ :=
      ih s1 hk1.1 (fun h hh => hk1.2.2.2.2 h (hl h (List.mem_cons_of_mem _ hh)))
    refine ⟨s2, ?_, keepsRecords_trans hk1 hk2, fun x hx => hw2 x (hw1 x hx), ?_,
      hd2.trans hd1⟩
    · simp only [StateDBRecord.finaliseLoop, h1]
      exact h2
    · intro x hx hf
      by_cases hxr : x ∈ rest
      · exact ha2 x hxr (by rw [Trie.fault_congr _ _ hk1.2.1]; exact hf)
      · rcases List.mem_cons.mp hx with hxa | hxr2
        · subst hxa
          exact hw2 x (ha1 hf)
        · exact absurd hxr2 hxr

/-- A round of the loop of `CommitTo` on an object that is not deleted or suicided and
carries the hash of its binding: the records are kept, and without an error what was
written stays written, the object is written when it is dirty, and the other dirty hashes
stay dirty. -/
theorem StateDBRecord.commitObject_keeps (P : Params) (D : StateParams) (dbw : DatabaseWriter)
    (del : Bool) (s : StateDBRecord) (addr : Hash) (o : stateObjectRecord) (hs : s.sound)
    (hh : o.hash = addr) (hd : o.deleted = false) (hsu : o.suicided = false)
    (henc : ∀ r, D.EncodeRecord r ≠ []) :
    keepsRecords D s (s.commitObject P D dbw del addr o).1
      ∧ ((s.commitObject P D dbw del addr o).2 = none →
        (∀ x, s.written D x → (s.commitObject P D dbw del addr o).1.written D x)
          ∧ (addr ∈ s.stateObjectsDirty → s.trie.fault addr.bytes = none →
            (s.commitObject P D dbw del addr o).1.written D addr)
          ∧ ∀ x ∈ s.stateObjectsDirty, x ≠ addr →
            x ∈ (s.commitObject P D dbw del addr o).1.stateObjectsDirty) := by
  have hid := stateObjectRecord.CommitTrie_identity P D dbw o
  unfold StateDBRecord.commitObject
  simp only [hsu, stateObjectRecord.empty, Bool.and_false, Bool.or_false, Bool.false_eq_true,
    if_false, decide_eq_true_eq]
  by_cases hdirty : addr ∈ s.stateObjectsDirty
  · rw [if_pos hdirty]
    rcases hc : o.CommitTrie P D dbw with ⟨obj1, _ | err⟩
    · rw [hc] at hid
      simp only at hid ⊢
      have hw := keepsRecords_write D hs obj1 (hid.2.1.trans hd) (hid.2.2.trans hsu) henc
      rw [hid.1, hh] at hw
      have hc2 := keepsRecords_congr D hw.1.1
        (rfl : (((s.setStateObject obj1).updateStateObject D obj1).removeDirty addr).stateObjects
          = ((s.setStateObject obj1).updateStateObject D obj1).stateObjects) rfl
      refine ⟨keepsRecords_trans hw.1 hc2.1, fun _ => ⟨fun x hx => hc2.2 x (hw.2.1 x hx),
        fun _ hf => hc2.2 addr (hw.2.2.1 hf), ?_⟩⟩
      intro x hx hne
      simp only [StateDBRecord.removeDirty, List.mem_filter, hw.2.2.2]
      exact ⟨hx, by simpa using hne⟩
    · rw [hc] at hid
      simp only at hid ⊢
      exact ⟨keepsRecords_setStateObject D hs obj1 (hid.2.1.trans hd) (hid.2.2.trans hsu),
        fun h => by simp at h⟩
  · rw [if_neg hdirty]
    have hc2 := keepsRecords_congr D hs
      (rfl : (s.removeDirty addr).stateObjects = s.stateObjects) rfl
    refine ⟨hc2.1, fun _ => ⟨hc2.2, fun h => absurd h hdirty, ?_⟩⟩
    intro x hx hne
    simp only [StateDBRecord.removeDirty, List.mem_filter]
    exact ⟨hx, by simpa using hne⟩

/-- The loop of `CommitTo` over objects that are not deleted or suicided and carry the hash
of their binding. -/
theorem StateDBRecord.commitLoop_keeps (P : Params) (D : StateParams) (dbw : DatabaseWriter)
    (del : Bool) (henc : ∀ r, D.EncodeRecord r ≠ []) :
    ∀ (l : List (Hash × stateObjectRecord)) (s : StateDBRecord), s.sound →
      (∀ e ∈ l, e.2.hash = e.1 ∧ e.2.deleted = false ∧ e.2.suicided = false) →
      keepsRecords D s (StateDBRecord.commitLoop P D dbw del l s).1
        ∧ ((StateDBRecord.commitLoop P D dbw del l s).2 = none →
          (∀ x, s.written D x → (StateDBRecord.commitLoop P D dbw del l s).1.written D x)
            ∧ ∀ x ∈ s.stateObjectsDirty, x ∈ l.map Prod.fst → s.trie.fault x.bytes = none →
              (StateDBRecord.commitLoop P D dbw del l s).1.written D x) := by
  intro l
  induction l with
  | nil =>
    intro s hs _
    exact ⟨keepsRecords_refl D hs, fun _ => ⟨fun _ hx => hx, fun x _ hx => by simp at hx⟩⟩
  | cons e rest ih =>
    intro s hs hl
    have he := hl e (List.mem_cons_self _ _)
    have h1 := StateDBRecord.commitObject_keeps P D dbw del s e.1 e.2 hs he.1 he.2.1 he.2.2 henc
    simp only [StateDBRecord.commitLoop]
    rcases hc : s.commitObject P D dbw del e.1 e.2 with ⟨s1, _ | err⟩
    · rw [hc] at h1
      simp only at h1 ⊢
      obtain ⟨hk1, hrest⟩ := h1
      obtain ⟨hw1, ha1, hd1⟩ := hrest trivial
      have h2 := ih s1 hk1.1 (fun x hx => hl x (List.mem_cons_of_mem _ hx))
      refine ⟨keepsRecords_trans hk1 h2.1, fun herr => ?_⟩
      obtain ⟨hw2, ha2⟩ := h2.2 herr
      refine ⟨fun x hx => hw2 x (hw1 x hx), ?_⟩
      intro x hx hxl hf
      by_cases hxe : x = e.1
      · subst hxe
        exact hw2 _ (ha1 hx hf)
      · have hxr : x ∈ rest.map Prod.fst := by
          simp only [List.map_cons, List.mem_cons] at hxl
          rcases hxl with h | h
          · exact absurd h hxe
          · exact h
        exact ha2 x (hd1 x hx hxe) hxr (by rw [Trie.fault_congr _ _ hk1.2.1]; exact hf)
    · rw [hc] at h1
      simp only at h1 ⊢
      exact ⟨h1.1, fun h => by simp at h⟩

/-- A hash with a live object is the key of a binding of the live set. -/
theorem StateDBRecord.liveObject_mem_keys (s : StateDBRecord) (x : Hash)
    (h : s.liveObject x ≠ none) : x ∈ s.stateObjects.map Prod.fst := by
  unfold StateDBRecord.liveObject at h
  cases hf : s.stateObjects.find? (fun e => decide (e.1 = x)) with
  | none => rw [hf] at h; simp at h
  | some e =>
    have h1 := List.find?_some hf
    have h2 := List.mem_of_find?_eq_some hf
    simp only [decide_eq_true_eq] at h1
    rw [← h1]
    exact List.mem_map_of_mem _ h2

/-! ## Facts about the order of the candidates -/

/-- Go `sortableAddresses.Less` in words: the first entry has the higher weight, or the
weights are equal and it has the lower address string. -/
theorem Less_iff (P : Params) (a b : sortableAddress) :
    Less P a b = true
      ↔ b.weight < a.weight
        ∨ (a.weight = b.weight
          ∧ bytesLt (P.addressString a.address) (P.addressString b.address) = true) := by
  unfold Less
  by_cases h1 : a.weight < b.weight
  · rw [if_pos h1]
    constructor
    · intro h; cases h
    · intro h
      rcases h with h | h
      · omega
      · omega
  · rw [if_neg h1]
    by_cases h2 : a.weight > b.weight
    · rw [if_pos h2]
      exact ⟨fun _ => Or.inl h2, fun _ => rfl⟩
    · rw [if_neg h2]
      constructor
      · intro h; exact Or.inr ⟨by omega, h⟩
      · intro h
        rcases h with h | h
        · omega
        · exact h.2

theorem Less_irrefl (P : Params) (a : sortableAddress) : Less P a a = false := by
  unfold Less
  simp [bytesLt_irrefl]

theorem Less_trans (P : Params) (a b c : sortableAddress) (h1 : Less P a b = true)
    (h2 : Less P b c = true) : Less P a c = true := by
  rw [Less_iff] at h1 h2 ⊢
  rcases h1 with h1 | ⟨h1, h1s⟩
  · rcases h2 with h2 | ⟨h2, _⟩
    · exact Or.inl (by omega)
    · exact Or.inl (by omega)
  · rcases h2 with h2 | ⟨h2, h2s⟩
    · exact Or.inl (by omega)
    · exact Or.inr ⟨h1.trans h2, bytesLt_trans h1s h2s⟩

/-! ## Facts about `ApplyDataMessage` after any `preCheck` -/

/-- Go `ApplyDataMessage` when `preCheck` returns an error: the error is returned with
`failed` still false, and the record state is the one before. -/
theorem ApplyDataMessage_preCheck_error (D : StateParams) (txHash : Hash) (msg : Message)
    (statedb : StateDB) (r : StateDBRecord) (err : TxError)
    (hfail : (NewStateTransition msg statedb).preCheck.2 = some err) :
    (ApplyDataMessage D txHash msg statedb r).2 = (r, false, some err) := by
  unfold ApplyDataMessage
  rcases hp : (NewStateTransition msg statedb).preCheck with ⟨st1, e⟩
  rw [hp] at hfail
  simp only at hfail
  subst hfail
  rfl

/-- Go `ApplyDataMessage` when `preCheck` returns `nil`, in terms of the cases of the
message type. -/
theorem ApplyDataMessage_preCheck_pass (D : StateParams) (txHash : Hash) (msg : Message)
    (statedb : StateDB) (r : StateDBRecord)
    (hpass : (NewStateTransition msg statedb).preCheck.2 = none) :
    ApplyDataMessage D txHash msg statedb r
      = match msg.Type_ with
        | .ConfirmationData =>
          applyConfirmationData D txHash (recordKey msg.Data) msg.From
            ((NewStateTransition msg statedb).from_.1.statedb.SetNonce msg.From
              ((statedb.GetNonce msg.From + 1) % 2 ^ 64)) r
        | .TransferData =>
          applyTransferData D txHash (recordKey msg.Data) msg.From
            { (NewStateTransition msg statedb).from_.1 with
              statedb := (NewStateTransition msg statedb).from_.1.statedb.SetNonce msg.From
                ((statedb.GetNonce msg.From + 1) % 2 ^ 64) } r
        | _ =>
          ((NewStateTransition msg statedb).from_.1.statedb.SetNonce msg.From
              ((statedb.GetNonce msg.From + 1) % 2 ^ 64), r, false, none) := by
  have hpre : (NewStateTransition msg statedb).preCheck
      = ((NewStateTransition msg statedb).from_.1, none) := by
    rw [StateTransition.preCheck_eq] at hpass ⊢
    simp only at hpass
    rw [hpass]
  have hff := StateTransition.from_from (NewStateTransition msg statedb)
  have hfm := StateTransition.from_msg (NewStateTransition msg statedb)
  have hn : (NewStateTransition msg statedb).from_.1.statedb.GetNonce msg.From
      = statedb.GetNonce msg.From := by
    unfold StateDB.GetNonce
    rw [StateTransition.from_getD]
    rfl
  unfold ApplyDataMessage
  rw [hpre]
  simp only
  rw [hff]
  rcases hf : (NewStateTransition msg statedb).from_ with ⟨st2, sender⟩
  rw [hf] at hfm hn
  simp only [NewStateTransition] at hfm hn ⊢
  rw [hfm.1, hfm.2, hn]

/-! ## Facts about the candidate trie -/

theorem Trie.eq_of_entries (t t1 : Trie) (he : t1.entries = t.entries)
    (hf : t1.faults = t.faults) : t1 = t := by
  cases t
  cases t1
  simp only at he hf
  subst he
  subst hf
  rfl

theorem insertEntry_idem (k v : Bytes) (l : List (Bytes × Bytes)) :
    insertEntry k v (insertEntry k v l) = insertEntry k v l := by
  induction l with
  | nil => simp [insertEntry, bytesLt_irrefl]
  | cons e rest ih =>
    by_cases h1 : bytesLt k e.1 = true
    · have h : insertEntry k v (e :: rest) = (k, v) :: e :: rest := by
        rw [insertEntry, if_pos h1]
      rw [h, insertEntry, if_neg (by rw [bytesLt_irrefl]; simp), if_pos rfl]
    · by_cases h2 : k = e.1
      · have h : insertEntry k v (e :: rest) = (k, v) :: rest := by
          rw [insertEntry, if_neg h1, if_pos h2]
        rw [h, insertEntry, if_neg (by rw [bytesLt_irrefl]; simp), if_pos rfl]
      · have h : insertEntry k v (e :: rest) = e :: insertEntry k v rest := by
          rw [insertEntry, if_neg h1, if_neg h2]
        rw [h, insertEntry, if_neg h1, if_neg h2, ih]

theorem filter_key_absent (k : Bytes) (l : List (Bytes × Bytes))
    (h : k ∉ l.map Prod.fst) : l.filter (fun e => !decide (e.1 = k)) = l := by
  rw [List.filter_eq_self]
  intro e he
  have : e.1 ≠ k := fun h2 => h (h2 ▸ List.mem_map_of_mem Prod.fst he)
  simp [this]

theorem find_isNone_iff (k : Bytes) (l : List (Bytes × Bytes)) :
    (l.find? (fun e => decide (e.1 = k))).map Prod.snd = none ↔ k ∉ l.map Prod.fst := by
  rw [Option.map_eq_none', List.find?_eq_none]
  simp only [decide_eq_true_eq, List.mem_map, not_exists, not_and]

/-- The bytes of an address are the address. -/
theorem BytesToAddress_of_length (b : Bytes) (h : b.length = 20) :
    BytesToAddress b = ⟨b, h⟩ := by
  unfold BytesToAddress
  simp only [Address.mk.injEq, h]
  simp

theorem BytesToAddress_Bytes (a : Address) : BytesToAddress a.Bytes = a := by
  cases a with
  | mk b h => exact BytesToAddress_of_length b h

/-- Go `BecomeCandidate` in terms of the fault of the key. -/
theorem BecomeCandidate_eq (pc : PocContext) (a : Address) :
    (pc.candidateTrie.fault a.Bytes = none →
        (pc.BecomeCandidate a).2 = none
          ∧ (pc.BecomeCandidate a).1.candidateTrie.entries
            = insertEntry a.Bytes a.Bytes pc.candidateTrie.entries
          ∧ (pc.BecomeCandidate a).1.candidateTrie.faults = pc.candidateTrie.faults)
      ∧ (∀ e, pc.candidateTrie.fault a.Bytes = some e →
          pc.BecomeCandidate a = (pc, some (.trie e))) := by
  have hlen : a.Bytes ≠ [] := by
    intro h
    have := a.len
    unfold Address.Bytes at h
    rw [h] at this
    simp at this
  refine ⟨?_, ?_⟩
  · intro hf
    obtain ⟨t1, h1, h2, h3⟩ := Trie.TryUpdate_ok pc.candidateTrie a.Bytes a.Bytes hf hlen
    unfold PocContext.BecomeCandidate
    rw [h1]
    exact ⟨rfl, h3, h2⟩
  · intro e hf
    unfold PocContext.BecomeCandidate
    rw [Trie.TryUpdate_error _ _ _ e hf]

/-- Go `KickoutCandidate` in terms of the fault of the key. -/
theorem KickoutCandidate_eq (pc : PocContext) (a : Address) :
    (pc.candidateTrie.fault a.Bytes = none →
        (pc.KickoutCandidate a).2 = none
          ∧ (pc.KickoutCandidate a).1.candidateTrie.entries
            = pc.candidateTrie.entries.filter (fun e => !decide (e.1 = a.Bytes))
          ∧ (pc.KickoutCandidate a).1.candidateTrie.faults = pc.candidateTrie.faults)
      ∧ (pc.candidateTrie.fault a.Bytes = some .missingNode →
          pc.KickoutCandidate a = (pc, none))
      ∧ (pc.candidateTrie.fault a.Bytes = some .other →
          pc.KickoutCandidate a = (pc, some (.trie .other))) := by
  unfold PocContext.KickoutCandidate Trie.TryDelete
  refine ⟨?_, ?_, ?_⟩
  · intro hf
    rw [hf]
    exact ⟨rfl, rfl, rfl⟩
  · intro hf
    rw [hf]
  · intro hf
    rw [hf]

theorem PocMutation.apply_candidateTrie (P : Params) (H : PocParams) (pc : PocContext)
    (m : PocMutation) :
    (∃ a, m = .BecomeCandidate a) ∨ (∃ a, m = .KickoutCandidate a)
      ∨ (m.apply P H pc).1.candidateTrie = pc.candidateTrie := by
  cases m with
  | BecomeCandidate a => exact Or.inl ⟨a, rfl⟩
  | KickoutCandidate a => exact Or.inr (Or.inl ⟨a, rfl⟩)
  | SetValidators vs => exact Or.inr (Or.inr rfl)
  | SetContributions cs =>
    right; right
    simp only [PocMutation.apply, PocContext.SetContributions]
    cases P.EncodeContributions cs <;> rfl
  | SetLastedTx tx =>
    right; right
    simp only [PocMutation.apply, PocContext.SetLastedTx]
    cases H.EncodeLastedTx tx <;> rfl

theorem candidatesBound_BecomeCandidate (pc : PocContext) (a : Address)
    (hb : pc.candidatesBound) : (pc.BecomeCandidate a).1.candidatesBound := by
  cases hf : pc.candidateTrie.fault a.Bytes with
  | some e => rw [(BecomeCandidate_eq pc a).2 e hf]; exact hb
  | none =>
    intro e he
    rw [((BecomeCandidate_eq pc a).1 hf).2.1] at he
    rcases insertEntry_fst_mem he with h | h
    · subst h; exact ⟨rfl, a.len⟩
    · exact hb e h

theorem candidatesBound_KickoutCandidate (pc : PocContext) (a : Address)
    (hb : pc.candidatesBound) : (pc.KickoutCandidate a).1.candidatesBound := by
  cases hf : pc.candidateTrie.fault a.Bytes with
  | some e =>
    cases e with
    | missingNode => rw [(KickoutCandidate_eq pc a).2.1 hf]; exact hb
    | other => rw [(KickoutCandidate_eq pc a).2.2 hf]; exact hb
  | none =>
    intro e he
    rw [((KickoutCandidate_eq pc a).1 hf).2.1] at he
    exact hb e (List.mem_filter.mp he).1

/-- The bindings of addresses to themselves stay so under every call. -/
theorem candidatesBound_apply (P : Params) (H : PocParams) (pc : PocContext) (m : PocMutation)
    (hb : pc.candidatesBound) : (m.apply P H pc).1.candidatesBound := by
  rcases PocMutation.apply_candidateTrie P H pc m with ⟨a, rfl⟩ | ⟨a, rfl⟩ | h
  · exact candidatesBound_BecomeCandidate pc a hb
  · exact candidatesBound_KickoutCandidate pc a hb
  · intro e he
    rw [h] at he
    exact hb e he

theorem candidatesBound_applyPocMutations (P : Params) (H : PocParams) (ms : List PocMutation) :
    ∀ pc : PocContext, pc.candidatesBound → (applyPocMutations P H ms pc).candidatesBound := by
  induction ms with
  | nil => intro pc hb; exact hb
  | cons m rest ih =>
    intro pc hb
    exact ih _ (candidatesBound_apply P H pc m hb)

/-- The candidates are the addresses whose bytes are keys of the candidate trie. -/
theorem GetCandidates_Bytes (pc : PocContext) (hb : pc.candidatesBound) :
    pc.GetCandidates.map Address.Bytes = pc.candidateTrie.entries.map Prod.fst := by
  unfold PocContext.GetCandidates Trie.iterate
  rw [List.map_map]
  apply List.map_congr_left
  intro e he
  have h := hb e he
  simp only [Function.comp]
  rw [h.1, BytesToAddress_of_length e.1 h.2]
  rfl

theorem mem_GetCandidates_iff (pc : PocContext) (hb : pc.candidatesBound) (a : Address) :
    a ∈ pc.GetCandidates ↔ a.Bytes ∈ pc.candidateTrie.entries.map Prod.fst := by
  rw [← GetCandidates_Bytes pc hb]
  constructor
  · intro h; exact List.mem_map_of_mem _ h
  · intro h
    obtain ⟨b, hb1, hb2⟩ := List.mem_map.mp h
    rw [← Address.Bytes_inj hb2]
    exact hb1

theorem GetCandidates_nodup (pc : PocContext) (hb : pc.candidatesBound) :
    pc.GetCandidates.Nodup := by
  apply List.Nodup.of_map Address.Bytes
  rw [GetCandidates_Bytes pc hb]
  exact keys_nodup pc.candidateTrie.sorted

theorem mem_keys_insertEntry_iff (k v a : Bytes) (l : List (Bytes × Bytes)) :
    a ∈ (insertEntry k v l).map Prod.fst ↔ a = k ∨ a ∈ l.map Prod.fst := by
  have h1 := find_insertEntry k v a l
  have h2 := find_isNone_iff a (insertEntry k v l)
  have h3 := find_isNone_iff a l
  by_cases hak : a = k
  · rw [if_pos hak] at h1
    rw [h1] at h2
    simp only [reduceCtorEq, false_iff, not_not] at h2
    exact ⟨fun _ => Or.inl hak, fun _ => h2⟩
  · rw [if_neg hak] at h1
    rw [h1, h3] at h2
    constructor
    · intro h
      right
      by_contra hn
      exact (h2.mp hn) h
    · intro h
      rcases h with h | h
      · exact absurd h hak
      · by_contra hn
        exact (h2.mpr hn) h

/-- The candidates after `BecomeCandidate` on each address of a list, on a candidate trie
that resolves every path. -/
theorem mem_GetCandidates_become (P : Params) (H : PocParams) (l : List Address) :
    ∀ pc : PocContext, pc.candidatesBound → pc.candidateTrie.faults = [] → ∀ a : Address,
      a ∈ (applyPocMutations P H (l.map PocMutation.BecomeCandidate) pc).GetCandidates
        ↔ a ∈ l ∨ a ∈ pc.GetCandidates := by
  induction l with
  | nil => intro pc _ _ a; simp [applyPocMutations]
  | cons x rest ih =>
    intro pc hb hf a
    have hfx : pc.candidateTrie.fault x.Bytes = none := by
      unfold Trie.fault
      rw [hf]
      rfl
    have hx := (BecomeCandidate_eq pc x).1 hfx
    have hb1 : (pc.BecomeCandidate x).1.candidatesBound :=
      candidatesBound_BecomeCandidate pc x hb
    simp only [List.map_cons, applyPocMutations, PocMutation.apply]
    rw [ih (pc.BecomeCandidate x).1 hb1 (hx.2.2.trans hf) a,
      mem_GetCandidates_iff _ hb1, mem_GetCandidates_iff _ hb, hx.2.1,
      mem_keys_insertEntry_iff, List.mem_cons]
    constructor
    · intro h
      rcases h with h | h | h
      · exact Or.inl (Or.inr h)
      · exact Or.inl (Or.inl (Address.Bytes_inj h))
      · exact Or.inr h
    · intro h
      rcases h with (h | h) | h
      · exact Or.inr (Or.inl (by rw [h]))
      · exact Or.inl h
      · exact Or.inr (Or.inr h)

/-- Go `BecomeCandidate` of an address twice is `BecomeCandidate` of it once. -/
theorem BecomeCandidate_idem (pc : PocContext) (a : Address) :
    (pc.BecomeCandidate a).1.BecomeCandidate a = pc.BecomeCandidate a := by
  cases hf : pc.candidateTrie.fault a.Bytes with
  | some e =>
    rw [(BecomeCandidate_eq pc a).2 e hf]
    simp only
    rw [(BecomeCandidate_eq pc a).2 e hf]
  | none =>
    have h1 := (BecomeCandidate_eq pc a).1 hf
    have hf1 : (pc.BecomeCandidate a).1.candidateTrie.fault a.Bytes = none := by
      rw [Trie.fault_congr _ _ h1.2.2]; exact hf
    have h2 := (BecomeCandidate_eq (pc.BecomeCandidate a).1 a).1 hf1
    have ht : ((pc.BecomeCandidate a).1.BecomeCandidate a).1.candidateTrie
        = (pc.BecomeCandidate a).1.candidateTrie := by
      apply Trie.eq_of_entries
      · rw [h2.2.1, h1.2.1, insertEntry_idem]
      · exact h2.2.2
    have hrest : ∀ q : PocContext, (q.BecomeCandidate a).1
        = { q with candidateTrie := (q.BecomeCandidate a).1.candidateTrie } := by
      intro q
      unfold PocContext.BecomeCandidate
      cases q.candidateTrie.TryUpdate a.Bytes a.Bytes <;> rfl
    apply Prod.ext
    · rw [hrest (pc.BecomeCandidate a).1, ht]
    · rw [h2.1, h1.1]

/-! ## Facts about the number of candidates `kickoutValidator` removes -/

theorem needKickoutValidators_sublist (P : Params) (ec : EpochContext) (epoch : Int) :
    ∀ (validators : List Address) (need : List sortableAddress),
      needKickoutValidators P ec epoch validators = some need →
      (need.map (fun x => x.address)).Sublist validators := by
  intro validators
  induction validators with
  | nil =>
    intro need h
    simp only [needKickoutValidators, Option.some.injEq] at h
    subst h
    exact List.Sublist.refl _
  | cons x xs ih =>
    intro need h
    simp only [needKickoutValidators] at h
    cases hc : mintCnt ec epoch x with
    | none => simp [hc] at h
    | some cnt =>
      cases hr : needKickoutValidators P ec epoch xs with
      | none => simp [hc, hr] at h
      | some l =>
        simp only [hc, hr] at h
        by_cases hlt : cnt < kickoutThreshold P ec
        · simp only [hlt, if_true, Option.some.injEq] at h
          subst h
          exact (ih l hr).cons₂ x
        · simp only [hlt, if_false, Option.some.injEq] at h
          subst h
          exact (ih l hr).cons x

/-- What `kickoutValidator` leaves of a candidate trie without unresolvable keys, also when
there is no stored validator. -/
theorem kickoutValidator_iterate (P : Params) (ec : EpochContext) (epoch : Int)
    (validators : List Address) (need : List sortableAddress)
    (hget : ec.PocContext.GetValidators P = .ok validators)
    (hneed : needKickoutValidators P ec epoch validators = some need)
    (hfaults : ec.PocContext.candidateTrie.faults = []) :
    (kickoutValidator P ec epoch).1.PocContext.candidateTrie.iterate
      = ec.PocContext.candidateTrie.iterate.filter (fun e =>
          !decide (e.1 ∈ ((sortSort (fun a b => Less P b a) need).take
            (ec.PocContext.candidateTrie.iterate.length - P.safeSize)).map
              (fun x => x.address.Bytes))) := by
  by_cases hne : validators = []
  · subst hne
    simp only [needKickoutValidators, Option.some.injEq] at hneed
    subst hneed
    simp [kickoutValidator, hget, sortSort]
  · exact (kickoutValidator_noFault P ec epoch validators need hget hne hneed hfaults).2

/-- With no address twice among the stored validators and every kickout candidate in a
candidate trie without unresolvable keys, the number of entries `kickoutValidator` removes
is the smaller of the number of kickout candidates and of the candidates above the safe
size. -/
theorem kickoutValidator_count (P : Params) (ec : EpochContext) (epoch : Int)
    (validators : List Address) (need : List sortableAddress)
    (hget : ec.PocContext.GetValidators P = .ok validators)
    (hneed : needKickoutValidators P ec epoch validators = some need)
    (hnodup : validators.Nodup)
    (hin : ∀ x ∈ need, (ec.PocContext.candidateTrie.Get x.address.Bytes).isSome = true)
    (hfaults : ec.PocContext.candidateTrie.faults = []) :
    (kickoutValidator P ec epoch).1.PocContext.candidateTrie.iterate.length
        + min need.length (ec.PocContext.candidateTrie.iterate.length - P.safeSize)
      = ec.PocContext.candidateTrie.iterate.length := by
  rw [kickoutValidator_iterate P ec epoch validators need hget hneed hfaults]
  have hperm := sortSort_perm (fun a b => Less P b a) need
  generalize sortSort (fun a b => Less P b a) need = sorted at hperm
  have hnodupNeed : (need.map (fun x => x.address)).Nodup :=
    hnodup.sublist (needKickoutValidators_sublist P ec epoch validators need hneed)
  have hnodupSorted : (sorted.map (fun x => x.address.Bytes)).Nodup := by
    have h1 : (sorted.map (fun x => x.address)).Nodup := (hperm.map _).nodup_iff.mpr hnodupNeed
    have h2 : sorted.map (fun x => x.address.Bytes)
        = (sorted.map (fun x => x.address)).map Address.Bytes := by
      rw [List.map_map]; rfl
    rw [h2]
    exact h1.map (fun a b h => Address.Bytes_inj h)
  have hks : ((sorted.take (ec.PocContext.candidateTrie.iterate.length - P.safeSize)).map
      (fun x => x.address.Bytes)).Nodup :=
    hnodupSorted.sublist ((List.take_sublist _ _).map _)
  have hsub : ∀ k ∈ (sorted.take (ec.PocContext.candidateTrie.iterate.length - P.safeSize)).map
      (fun x => x.address.Bytes), k ∈ ec.PocContext.candidateTrie.iterate.map Prod.fst := by
    intro k hk
    obtain ⟨x, hx, rfl⟩ := List.mem_map.mp hk
    have hxn : x ∈ need := hperm.subset (List.mem_of_mem_take hx)
    exact (Get_isSome_iff _ hfaults _).mp (hin x hxn)
  have hlen := filter_keys_length ec.PocContext.candidateTrie.iterate
    ec.PocContext.candidateTrie.sorted _ hks hsub
  rw [List.length_map, List.length_take, hperm.length_eq] at hlen
  omega

/-! ## Facts about the snapshots of a `PocContext` -/

theorem get?_set_other (h : TrieHeap) (p q : Nat) (t : Trie) (hne : q ≠ p) :
    (h.set p t).get? q = h.get? q := by
  simp only [List.get?_eq_getElem?]
  exact List.getElem?_set_ne (fun e => hne e.symm)

theorem PocContextRef.get?_of_valid {h : TrieHeap} {pc : PocContextRef} (hv : pc.valid h)
    {p : Nat} (hp : p ∈ pc.pointers) : ∃ t, h.get? p = some t :=
  ⟨h.get ⟨p, hv p hp⟩, List.get?_eq_get (hv p hp)⟩

/-- A valid context points to five tries. -/
theorem PocContextRef.deref_of_valid {h : TrieHeap} {pc : PocContextRef} (hv : pc.valid h) :
    ∃ v, pc.deref h = some v := by
  obtain ⟨t1, h1⟩ := PocContextRef.get?_of_valid hv (p := pc.epochTrie)
    (by simp [PocContextRef.pointers])
  obtain ⟨t2, h2⟩ := PocContextRef.get?_of_valid hv (p := pc.contributionTrie)
    (by simp [PocContextRef.pointers])
  obtain ⟨t3, h3⟩ := PocContextRef.get?_of_valid hv (p := pc.latestTxTrie)
    (by simp [PocContextRef.pointers])
  obtain ⟨t4, h4⟩ := PocContextRef.get?_of_valid hv (p := pc.candidateTrie)
    (by simp [PocContextRef.pointers])
  obtain ⟨t5, h5⟩ := PocContextRef.get?_of_valid hv (p := pc.mintCntTrie)
    (by simp [PocContextRef.pointers])
  exact ⟨⟨t1, t2, t3, t4, t5⟩, by unfold PocContextRef.deref; rw [h1, h2, h3, h4, h5]⟩

/-- The tries a context points to are read through its pointers. -/
theorem PocContextRef.deref_congr (h h1 : TrieHeap) (pc : PocContextRef)
    (hsame : ∀ p ∈ pc.pointers, h1.get? p = h.get? p) : pc.deref h1 = pc.deref h := by
  unfold PocContextRef.deref
  rw [hsame pc.epochTrie (by simp [PocContextRef.pointers]),
    hsame pc.contributionTrie (by simp [PocContextRef.pointers]),
    hsame pc.latestTxTrie (by simp [PocContextRef.pointers]),
    hsame pc.candidateTrie (by simp [PocContextRef.pointers]),
    hsame pc.mintCntTrie (by simp [PocContextRef.pointers])]

/-- A call on a valid context returns, and writes no trie object but those the context
points to. -/
theorem PocMutation.applyRef_frame (P : Params) (H : PocParams) (h : TrieHeap)
    (pc : PocContextRef) (m : PocMutation) (hv : pc.valid h) :
    ∃ h1 e, m.applyRef P H h pc = some (h1, e) ∧ h1.length = h.length
      ∧ ∀ q, q ∉ pc.pointers → h1.get? q = h.get? q := by
  have hset : ∀ (p : Nat) (t : Trie), p ∈ pc.pointers →
      (h.set p t).length = h.length ∧ ∀ q, q ∉ pc.pointers → (h.set p t).get? q = h.get? q :=
    fun p t hp => ⟨List.length_set _ _ _,
      fun q hq => get?_set_other h p q t (fun e => hq (e ▸ hp))⟩
  have hid : h.length = h.length ∧ ∀ q, q ∉ pc.pointers → h.get? q = h.get? q :=
    ⟨rfl, fun _ _ => rfl⟩
  cases m with
  | BecomeCandidate a =>
    have hp : pc.candidateTrie ∈ pc.pointers := by simp [PocContextRef.pointers]
    obtain ⟨t, ht⟩ := PocContextRef.get?_of_valid hv hp
    simp only [PocMutation.applyRef, PocContextRef.BecomeCandidate, ht]
    cases t.TryUpdate a.Bytes a.Bytes with
    | error e => exact ⟨_, _, rfl, hid⟩
    | ok t1 => exact ⟨_, _, rfl, hset _ t1 hp⟩
  | KickoutCandidate a =>
    have hp : pc.candidateTrie ∈ pc.pointers := by simp [PocContextRef.pointers]
    obtain ⟨t, ht⟩ := PocContextRef.get?_of_valid hv hp
    simp only [PocMutation.applyRef, PocContextRef.KickoutCandidate, ht]
    cases t.TryDelete a.Bytes with
    | error e =>
      cases e with
      | missingNode => exact ⟨_, _, rfl, hid⟩
      | other => exact ⟨_, _, rfl, hid⟩
    | ok t1 => exact ⟨_, _, rfl, hset _ t1 hp⟩
  | SetValidators vs =>
    have hp : pc.epochTrie ∈ pc.pointers := by simp [PocContextRef.pointers]
    obtain ⟨t, ht⟩ := PocContextRef.get?_of_valid hv hp
    simp only [PocMutation.applyRef, PocContextRef.SetValidators, ht]
    exact ⟨_, _, rfl, hset _ _ hp⟩
  | SetContributions cs =>
    have hp : pc.contributionTrie ∈ pc.pointers := by simp [PocContextRef.pointers]
    obtain ⟨t, ht⟩ := PocContextRef.get?_of_valid hv hp
    simp only [PocMutation.applyRef, PocContextRef.SetContributions, ht]
    cases P.EncodeContributions cs with
    | none => exact ⟨_, _, rfl, hid⟩
    | some enc => exact ⟨_, _, rfl, hset _ _ hp⟩
  | SetLastedTx tx =>
    have hp : pc.latestTxTrie ∈ pc.pointers := by simp [PocContextRef.pointers]
    obtain ⟨t, ht⟩ := PocContextRef.get?_of_valid hv hp
    simp only [PocMutation.applyRef, PocContextRef.SetLastedTx, ht]
    cases H.EncodeLastedTx tx with
    | none => exact ⟨_, _, rfl, hid⟩
    | some enc => exact ⟨_, _, rfl, hset _ _ hp⟩

/-- A sequence of calls on a valid context returns, and writes no trie object but those the
context points to. -/
theorem applyPocMutationsRef_frame (P : Params) (H : PocParams) (pc : PocContextRef)
    (ms : List PocMutation) :
    ∀ h : TrieHeap, pc.valid h →
      ∃ h2, applyPocMutationsRef P H pc ms h = some h2 ∧ h2.length = h.length
        ∧ ∀ q, q ∉ pc.pointers → h2.get? q = h.get? q := by
  induction ms with
  | nil => intro h _; exact ⟨h, rfl, rfl, fun _ _ => rfl⟩
  | cons m rest ih =>
    intro h hv
    obtain ⟨h1, e, h1eq, h1len, h1get⟩ := PocMutation.applyRef_frame P H h pc m hv
    have hv1 : pc.valid h1 := fun p hp => by rw [h1len]; exact hv p hp
    obtain ⟨h2, h2eq, h2len, h2get⟩ := ih h1 hv1
    refine ⟨h2, ?_, h2len.trans h1len, fun q hq => (h2get q hq).trans (h1get q hq)⟩
    simp only [applyPocMutationsRef, h1eq]
    exact h2eq

/-- Go `Copy` of a valid context: the new context points to five new trie objects, which
are the tries the context points to, and the trie objects before are as they were. -/
theorem PocContextRef.Copy_eq {h : TrieHeap} {pc : PocContextRef} {v : PocContext}
    (hd : pc.deref h = some v) :
    ∃ h1 s, pc.Copy h = some (h1, s) ∧ s.deref h1 = some v ∧ h.length ≤ h1.length
      ∧ (∀ p ∈ s.pointers, h.length ≤ p) ∧ (∀ q, q < h.length → h1.get? q = h.get? q) := by
  refine ⟨_, _, by unfold PocContextRef.Copy; rw [hd], ?_, by simp, ?_, ?_⟩
  · unfold PocContextRef.deref
    simp only [List.get?_eq_getElem?]
    rw [List.getElem?_append_right (le_refl _), List.getElem?_append_right (by omega),
      List.getElem?_append_right (by omega), List.getElem?_append_right (by omega),
      List.getElem?_append_right (by omega)]
    simp
  · intro p hp
    simp only [PocContextRef.pointers, List.mem_cons, List.mem_singleton, List.not_mem_nil,
      or_false] at hp
    omega
  · intro q hq
    simp only [List.get?_eq_getElem?]
    exact List.getElem?_append_left hq

/-! ## Facts about the receipts -/

/-- Go `TransitionDb` reports `failed = true` only with an error. -/
theorem StateTransition.TransitionDb_failed (st : StateTransition)
    (h : st.TransitionDb.2.2.1 = true) : st.TransitionDb.2.2.2 ≠ none := by
  unfold StateTransition.TransitionDb at h ⊢
  generalize st.preCheck = p at h ⊢
  obtain ⟨st1, e⟩ := p
  cases e with
  | some err => simp at h
  | none =>
    simp only at h ⊢
    generalize st1.from_ = q at h ⊢
    obtain ⟨st2, sender⟩ := q
    simp only at h ⊢
    generalize st2.to = q2 at h ⊢
    obtain ⟨st3, recipient⟩ := q2
    simp only at h ⊢
    by_cases hc : (!CanTransfer (st3.statedb.SetNonce sender
        ((st3.statedb.GetNonce sender + 1) % 2 ^ 64)) sender st3.msg.Value) = true
    · rw [if_pos hc]
      simp
    · rw [if_neg hc] at h
      simp at h

theorem applyConfirmationData_failed (D : StateParams) (txHash hash : Hash) (sender : Address)
    (statedb : StateDB) (r : StateDBRecord)
    (h : (applyConfirmationData D txHash hash sender statedb r).2.2.1 = true) :
    (applyConfirmationData D txHash hash sender statedb r).2.2.2 ≠ none := by
  unfold applyConfirmationData at h ⊢
  generalize r.Exist D hash = p at h ⊢
  obtain ⟨r1, b⟩ := p
  cases b with
  | false => simp at h
  | true => simp

theorem applyTransferData_failed (D : StateParams) (txHash hash : Hash) (sender : Address)
    (st : StateTransition) (r : StateDBRecord)
    (h : (applyTransferData D txHash hash sender st r).2.2.1 = true) :
    (applyTransferData D txHash hash sender st r).2.2.2 ≠ none := by
  rw [applyTransferData_eq] at h ⊢
  split_ifs at h ⊢
  · simp
  · simp

/-- Go `ApplyDataMessage` reports `failed = true` only with an error. -/
theorem ApplyDataMessage_failed (D : StateParams) (txHash : Hash) (msg : Message)
    (statedb : StateDB) (r : StateDBRecord)
    (h : (ApplyDataMessage D txHash msg statedb r).2.2.1 = true) :
    (ApplyDataMessage D txHash msg statedb r).2.2.2 ≠ none := by
  cases hp : (NewStateTransition msg statedb).preCheck.2 with
  | some err =>
    rw [ApplyDataMessage_preCheck_error D txHash msg statedb r err hp]
    simp
  | none =>
    rw [ApplyDataMessage_preCheck_pass D txHash msg statedb r hp] at h ⊢
    cases ht : msg.Type_ with
    | ConfirmationData =>
      rw [ht] at h
      exact applyConfirmationData_failed D txHash _ _ _ r h
    | TransferData =>
      rw [ht] at h
      exact applyTransferData_failed D txHash _ _ _ r h
    | Binary => rw [ht] at h; simp at h
    | LoginCandidate => rw [ht] at h; simp at h
    | LogoutCandidate => rw [ht] at h; simp at h
    | AuthorizationData => rw [ht] at h; simp at h

/-- The receipt of `makeReceipt` carries the flag and the hash it is given. -/
theorem makeReceipt_ok (P : Params) (D : StateParams) (config : ChainConfig) (s : ChainState)
    (failed : Bool) (txHash : Hash) (receipt : Receipt)
    (h : (makeReceipt P D config s failed txHash).2 = .ok receipt) :
    receipt.failed = failed ∧ receipt.TxHash = txHash := by
  unfold makeReceipt at h
  split_ifs at h
  · cases hF : s.statedbRecord.Finalise P D true with
    | none => rw [hF] at h; simp at h
    | some r1 =>
      rw [hF] at h
      simp only [Except.ok.injEq] at h
      rw [← h]
      exact ⟨rfl, rfl⟩
  · cases hF : s.statedbRecord.IntermediateRoot P D config.IsEIP158 with
    | none => rw [hF] at h; simp at h
    | some p =>
      rw [hF] at h
      simp only [Except.ok.injEq] at h
      rw [← h]
      exact ⟨rfl, rfl⟩

/-- Every receipt of `ApplyTransaction` reports no failure and carries the hash of the
transaction. -/
theorem ApplyTransaction_receipt (P : Params) (D : StateParams) (config : ChainConfig)
    (s : ChainState) (tx : Transaction) (receipt : Receipt)
    (h : (ApplyTransaction P D config s tx).2 = .ok receipt) :
    receipt.failed = false ∧ receipt.TxHash = tx.Hash := by
  unfold ApplyTransaction at h
  cases hm : tx.AsMessage with
  | error err => rw [hm] at h; simp at h
  | ok msg =>
    rw [hm] at h
    simp only at h
    cases hv : tx.Validate with
    | some err => rw [hv] at h; simp at h
    | none =>
      rw [hv] at h
      simp only at h
      have hdata : (match ApplyDataMessage D tx.Hash msg s.statedb s.statedbRecord with
          | (db, r, _, some err) =>
            (({ s with statedb := db, statedbRecord := r } : ChainState),
              (Except.error err : Except TxError Receipt))
          | (db, r, failed, none) =>
            makeReceipt P D config { s with statedb := db, statedbRecord := r } failed
              tx.Hash).2 = .ok receipt →
          receipt.failed = false ∧ receipt.TxHash = tx.Hash := by
        intro h
        have hf := ApplyDataMessage_failed D tx.Hash msg s.statedb s.statedbRecord
        generalize ApplyDataMessage D tx.Hash msg s.statedb s.statedbRecord = p at h hf
        obtain ⟨db, r, failed, e⟩ := p
        cases e with
        | none =>
          simp only at h hf
          have h2 := makeReceipt_ok P D config _ failed tx.Hash receipt h
          cases failed with
          | false => exact h2
          | true => exact absurd rfl (hf rfl)
        | some err => simp at h
      cases ht : msg.Type_ with
      | Binary =>
        rw [ht] at h
        simp only at h
        have hf := StateTransition.TransitionDb_failed (NewStateTransition msg s.statedb)
        unfold ApplyMessage at h
        generalize (NewStateTransition msg s.statedb).TransitionDb = p at h hf
        obtain ⟨db, ret, failed, e⟩ := p
        cases e with
        | none =>
          simp only at h hf
          have h2 := makeReceipt_ok P D config _ failed tx.Hash receipt h
          cases failed with
          | false => exact h2
          | true => exact absurd rfl (hf rfl)
        | some err => simp at h
      | ConfirmationData => rw [ht] at h; exact hdata h
      | AuthorizationData => rw [ht] at h; exact hdata h
      | TransferData => rw [ht] at h; exact hdata h
      | LoginCandidate =>
        rw [ht] at h
        simp only at h
        generalize applyPocMessage s.pocContext msg = p at h
        obtain ⟨pc, e⟩ := p
        cases e with
        | none => exact makeReceipt_ok P D config _ false tx.Hash receipt h
        | some err => simp at h
      | LogoutCandidate =>
        rw [ht] at h
        simp only at h
        generalize applyPocMessage s.pocContext msg = p at h
        obtain ⟨pc, e⟩ := p
        cases e with
        | none => exact makeReceipt_ok P D config _ false tx.Hash receipt h
        | some err => simp at h

/-- The loop of `Process`: its receipts are those it is entered with and one for each
transaction, in order; its error is the error of `ApplyTransaction` for a transaction whose
predecessors have receipts. -/
theorem processLoop_spec (P : Params) (D : StateParams) (config : ChainConfig) :
    ∀ (txs : List Transaction) (s : ChainState) (acc : List Receipt),
      (∀ receipts, (processLoop P D config txs s acc).2 = .ok receipts →
          ∃ rs : List Receipt, receipts = acc ++ rs
            ∧ rs.map (fun r => r.TxHash) = txs.map (fun tx => tx.Hash)
            ∧ ∀ r ∈ rs, r.failed = false)
        ∧ (∀ err, (processLoop P D config txs s acc).2 = .error err →
          ∃ (pre : List Transaction) (tx : Transaction) (post : List Transaction)
            (rs : List Receipt),
            txs = pre ++ tx :: post
              ∧ (processLoop P D config pre s acc).2 = .ok rs
              ∧ (ApplyTransaction P D config (processLoop P D config pre s acc).1 tx).2
                = .error err) := by
  intro txs
  induction txs with
  | nil =>
    intro s acc
    refine ⟨fun receipts h => ⟨[], ?_, rfl, fun r hr => by simp at hr⟩, fun err h => ?_⟩
    · simp only [processLoop, Except.ok.injEq] at h
      simp [h]
    · simp [processLoop] at h
  | cons tx rest ih =>
    intro s acc
    simp only [processLoop]
    rcases ha : ApplyTransaction P D config s tx with ⟨s1, err1 | receipt⟩
    · refine ⟨fun receipts h => by simp at h, fun err h => ?_⟩
      simp only [Except.error.injEq] at h
      subst h
      exact ⟨[], tx, rest, acc, rfl, rfl, by simp only [processLoop]; rw [ha]⟩
    · simp only
      have hr := ApplyTransaction_receipt P D config s tx receipt (by rw [ha])
      obtain ⟨ih1, ih2⟩ := ih s1 (acc ++ [receipt])
      refine ⟨fun receipts h => ?_, fun err h => ?_⟩
      · obtain ⟨rs, h1, h2, h3⟩ := ih1 receipts h
        refine ⟨receipt :: rs, by rw [h1]; simp, ?_, ?_⟩
        · simp only [List.map_cons, h2, hr.2]
        · intro r hmem
          rcases List.mem_cons.mp hmem with h4 | h4
          · rw [h4]; exact hr.1
          · exact h3 r h4
      · obtain ⟨pre, tx2, post, rs, h1, h2, h3⟩ := ih2 err h
        refine ⟨tx :: pre, tx2, post, rs, by rw [h1]; rfl, ?_, ?_⟩
        · simp only [processLoop]
          rw [ha]
          exact h2
        · simp only [processLoop]
          rw [ha]
          exact h3

/-- An error of `ApplyMessage` is the error of `ApplyTransaction` for a Binary
transaction. -/
theorem ApplyTransaction_message_error (P : Params) (D : StateParams) (config : ChainConfig)
    (s : ChainState) (tx : Transaction) (msg : Message) (err : TxError)
    (hm : tx.AsMessage = .ok msg) (hv : tx.Validate = none) (ht : msg.Type_ = .Binary)
    (he : (ApplyMessage msg s.statedb).2.2.2 = some err) :
    (ApplyTransaction P D config s tx).2 = .error err := by
  unfold ApplyTransaction
  rw [hm]
  simp only
  rw [hv]
  simp only
  rw [ht]
  simp only
  generalize ApplyMessage msg s.statedb = p at he
  obtain ⟨db, x, failed, e⟩ := p
  simp only at he
  subst he
  rfl

/-- An error of `ApplyDataMessage` is the error of `ApplyTransaction` for a data
transaction. -/
theorem ApplyTransaction_data_error (P : Params) (D : StateParams) (config : ChainConfig)
    (s : ChainState) (tx : Transaction) (msg : Message) (err : TxError)
    (hm : tx.AsMessage = .ok msg) (hv : tx.Validate = none)
    (ht : msg.Type_ = .ConfirmationData ∨ msg.Type_ = .AuthorizationData
      ∨ msg.Type_ = .TransferData)
    (he : (ApplyDataMessage D tx.Hash msg s.statedb s.statedbRecord).2.2.2 = some err) :
    (ApplyTransaction P D config s tx).2 = .error err := by
  unfold ApplyTransaction
  rw [hm]
  simp only
  rw [hv]
  simp only
  generalize ApplyDataMessage D tx.Hash msg s.statedb s.statedbRecord = p at he
  obtain ⟨db, r, failed, e⟩ := p
  simp only at he
  subst he
  rcases ht with ht | ht | ht <;> rw [ht]

/-- The loop of `Process` ends with the error of `ApplyTransaction` for the first transaction
that has one. -/
theorem processLoop_abort (P : Params) (D : StateParams) (config : ChainConfig) :
    ∀ (pre : List Transaction) (s : ChainState) (acc : List Receipt) (tx : Transaction)
      (post : List Transaction) (rs : List Receipt) (err : TxError),
      (processLoop P D config pre s acc).2 = .ok rs →
      (ApplyTransaction P D config (processLoop P D config pre s acc).1 tx).2 = .error err →
      (processLoop P D config (pre ++ tx :: post) s acc).2 = .error err := by
  intro pre
  induction pre with
  | nil =>
    intro s acc tx post rs err _ h2
    simp only [processLoop, List.nil_append] at h2 ⊢
    generalize ApplyTransaction P D config s tx = p at h2
    obtain ⟨s1, e⟩ := p
    simp only at h2
    subst h2
    rfl
  | cons t pre ih =>
    intro s acc tx post rs err h1 h2
    simp only [processLoop, List.cons_append] at h1 h2 ⊢
    generalize ApplyTransaction P D config s t = p at h1 h2
    obtain ⟨s1, e⟩ := p
    cases e with
    | error e1 => simp at h1
    | ok receipt =>
      simp only at h1 h2 ⊢
      exact ih s1 (acc ++ [receipt]) tx post rs err h1 h2

/-! ## Facts about the iterations of `tryElect` -/

theorem tryElectLoopTraced_fst (P : Params) (parent : Header) (prevEpoch : Int) (g : Bool)
    (n : Nat) : ∀ (i : Int) (iter : List (Bytes × Bytes)) (ec : EpochContext),
      (tryElectLoopTraced P parent prevEpoch g n i iter ec).1
        = tryElectLoop P parent prevEpoch g n i iter ec := by
  induction n with
  | zero => intro i iter ec; rfl
  | succ n ih =>
    intro i iter ec
    rw [tryElectLoopTraced, tryElectLoop]
    simp only
    generalize (if (!g && !iter.isEmpty) = true then kickoutValidator P ec prevEpoch
      else (ec, none)) = kicked
    obtain ⟨ec1, e1⟩ := kicked
    cases e1 with
    | some err => rfl
    | none =>
      simp only
      generalize elect P ec1 parent i = el
      obtain ⟨ec2, e2⟩ := el
      cases e2 with
      | some err => rfl
      | none => exact ih _ _ _

theorem tryElectTraced_fst (P : Params) (ec : EpochContext) (genesis parent : Header) :
    (tryElectTraced P ec genesis parent).1 = tryElect P ec genesis parent := by
  unfold tryElectTraced
  rw [tryElectLoopTraced_fst]
  rfl

/-- The record of the iterations: `kickoutValidator` is called in the iteration `k`, counted
from 0, when the transition is not the genesis transition and the iterator holds more than
`k` bindings. -/
theorem tryElectLoopTraced_get (P : Params) (parent : Header) (prevEpoch : Int) (g : Bool)
    (n : Nat) : ∀ (i : Int) (iter : List (Bytes × Bytes)) (ec : EpochContext) (k : Nat) (b : Bool),
      (tryElectLoopTraced P parent prevEpoch g n i iter ec).2.get? k = some b →
        b = (!g && decide (k < iter.length)) := by
  induction n with
  | zero =>
    intro i iter ec k b h
    simp [tryElectLoopTraced] at h
  | succ n ih =>
    intro i iter ec k b h
    have hhead : (!g && !iter.isEmpty) = (!g && decide (0 < iter.length)) := by
      cases iter <;> simp
    rw [tryElectLoopTraced] at h
    simp only at h
    generalize (if (!g && !iter.isEmpty) = true then kickoutValidator P ec prevEpoch
      else (ec, none)) = kicked at h
    obtain ⟨ec1, e1⟩ := kicked
    cases e1 with
    | some err =>
      simp only at h
      cases k with
      | zero =>
        simp only [List.get?_cons_zero, Option.some.injEq] at h
        rw [← h, hhead]
      | succ k => simp at h
    | none =>
      simp only at h
      generalize elect P ec1 parent i = el at h
      obtain ⟨ec2, e2⟩ := el
      cases e2 with
      | some err =>
        simp only at h
        cases k with
        | zero =>
          simp only [List.get?_cons_zero, Option.some.injEq] at h
          rw [← h, hhead]
        | succ k => simp at h
      | none =>
        simp only at h
        cases k with
        | zero =>
          simp only [List.get?_cons_zero, Option.some.injEq] at h
          rw [← h, hhead]
        | succ k =>
          simp only [List.get?_cons_succ] at h
          have := ih _ _ _ _ _ h
          rw [this]
          cases g with
          | true => rfl
          | false =>
            cases iter with
            | nil => simp
            | cons e es => simp

/-- The record holds one entry for each iteration entered: as many as there are missed
epochs when the loop returns `nil`. -/
theorem tryElectLoopTraced_length (P : Params) (parent : Header) (prevEpoch : Int) (g : Bool)
    (n : Nat) : ∀ (i : Int) (iter : List (Bytes × Bytes)) (ec : EpochContext),
      (tryElectLoopTraced P parent prevEpoch g n i iter ec).2.length ≤ n
        ∧ ((tryElectLoopTraced P parent prevEpoch g n i iter ec).1.2 = none →
            (tryElectLoopTraced P parent prevEpoch g n i iter ec).2.length = n) := by
  induction n with
  | zero => intro i iter ec; exact ⟨Nat.le_refl _, fun _ => rfl⟩
  | succ n ih =>
    intro i iter ec
    rw [tryElectLoopTraced]
    simp only
    generalize (if (!g && !iter.isEmpty) = true then kickoutValidator P ec prevEpoch
      else (ec, none)) = kicked
    obtain ⟨ec1, e1⟩ := kicked
    cases e1 with
    | some err => exact ⟨by simp, fun h => by simp at h⟩
    | none =>
      simp only
      generalize elect P ec1 parent i = el
      obtain ⟨ec2, e2⟩ := el
      cases e2 with
      | some err => exact ⟨by simp, fun h => by simp at h⟩
      | none =>
        simp only [List.length_cons]
        have := ih (i + 1) (if g = true then iter else iter.tail) ec2
        exact ⟨by omega, fun h => by rw [this.2 h]⟩

/-- In the genesis transition, and with an iterator without bindings, the loop of `tryElect`
leaves the candidate trie as it is. -/
theorem tryElectLoop_candidateTrie (P : Params) (parent : Header) (prevEpoch : Int) (g : Bool)
    (n : Nat) : ∀ (i : Int) (iter : List (Bytes × Bytes)) (ec : EpochContext),
      g = true ∨ iter = [] →
      (tryElectLoop P parent prevEpoch g n i iter ec).1.PocContext.candidateTrie
        = ec.PocContext.candidateTrie := by
  induction n with
  | zero => intro i iter ec _; rfl
  | succ n ih =>
    intro i iter ec h
    have hrun : (!g && !iter.isEmpty) = false := by
      rcases h with h | h
      · subst h; rfl
      · subst h; simp
    have hnext : g = true ∨ (if g = true then iter else iter.tail) = [] := by
      rcases h with h | h
      · exact Or.inl h
      · subst h; right; split <;> rfl
    rw [tryElectLoop]
    simp only [hrun, Bool.false_eq_true, if_false]
    have he := elect_candidateTrie P ec parent i
    generalize elect P ec parent i = el at he
    obtain ⟨ec2, e2⟩ := el
    cases e2 with
    | some err => exact he
    | none => exact (ih _ _ _ hnext).trans he

/-! ## Facts about the objects `Finalise` writes -/

theorem stateObjectRecord.setError_core (o : stateObjectRecord) (e : Option TrieError) :
    (o.core).setError e = (o.setError e).core := by
  unfold stateObjectRecord.setError stateObjectRecord.core
  split_ifs <;> rfl

theorem stateObjectRecord.getTrie_core (D : StateParams) (o : stateObjectRecord) :
    (o.core).getTrie D = (((o.getTrie D).1).core, (o.getTrie D).2) := by
  obtain ⟨hash, data, dbErr, trie, cs, ds, su, tc, de, od⟩ := o
  unfold stateObjectRecord.getTrie stateObjectRecord.core
  cases trie with
  | some t => rfl
  | none =>
    simp only
    cases D.OpenStorageTrie hash data.Root with
    | ok t => rfl
    | error _ =>
      simp only
      cases D.OpenStorageTrie hash Hash.zero with
      | ok t =>
        simp only [stateObjectRecord.setError]
        split_ifs <;> rfl
      | error _ =>
        simp only [stateObjectRecord.setError]
        split_ifs <;> rfl

theorem stateObjectRecord.updateTrieEntry_core (o : stateObjectRecord) (tr : Trie)
    (key value : Hash) :
    (o.core).updateTrieEntry tr key value
      = (((o.updateTrieEntry tr key value).1).core, (o.updateTrieEntry tr key value).2) := by
  obtain ⟨hash, data, dbErr, trie, cs, ds, su, tc, de, od⟩ := o
  unfold stateObjectRecord.updateTrieEntry stateObjectRecord.core
  simp only
  split_ifs
  · cases tr.TryDelete key.bytes <;>
      (simp only [stateObjectRecord.setError]; split_ifs <;> rfl)
  · cases tr.TryUpdate key.bytes
      (rlpEncodeBytes (value.bytes.dropWhile (fun b => decide (b = 0)))) <;>
      (simp only [stateObjectRecord.setError]; split_ifs <;> rfl)

theorem stateObjectRecord.updateTrieLoop_core :
    ∀ (l : List (Hash × Hash)) (o : stateObjectRecord) (tr : Trie),
      stateObjectRecord.updateTrieLoop l o.core tr
        = (((stateObjectRecord.updateTrieLoop l o tr).1).core,
            (stateObjectRecord.updateTrieLoop l o tr).2) := by
  intro l
  induction l with
  | nil => intro o tr; rfl
  | cons e rest ih =>
    intro o tr
    simp only [stateObjectRecord.updateTrieLoop]
    rw [stateObjectRecord.updateTrieEntry_core]
    exact ih _ _

theorem stateObjectRecord.updateTrie_core (D : StateParams) (o : stateObjectRecord) :
    (o.core).updateTrie D = (((o.updateTrie D).1).core, (o.updateTrie D).2) := by
  unfold stateObjectRecord.updateTrie
  rw [stateObjectRecord.getTrie_core]
  simp only
  have hd : (o.getTrie D).1.core.dirtyStorage = (o.getTrie D).1.dirtyStorage := rfl
  rw [hd, stateObjectRecord.updateTrieLoop_core]
  rfl

/-- Go `updateRoot` does not read the flag `onDirty`. -/
theorem stateObjectRecord.updateRoot_core (P : Params) (D : StateParams)
    (o : stateObjectRecord) : (o.core).updateRoot P D = (o.updateRoot P D).core := by
  unfold stateObjectRecord.updateRoot
  rw [stateObjectRecord.updateTrie_core]
  rfl

/-- Two objects that differ in the flag `onDirty` only are written by `Finalise` with the
same bytes. -/
theorem finalRecord_core (P : Params) (D : StateParams) (o o1 : stateObjectRecord)
    (h : o1.core = o.core) : finalRecord P D o1 = finalRecord P D o := by
  have h1 : finalRecord P D o1 = finalRecord P D o1.core := by
    unfold finalRecord
    rw [stateObjectRecord.updateRoot_core]
    rfl
  have h2 : finalRecord P D o = finalRecord P D o.core := by
    unfold finalRecord
    rw [stateObjectRecord.updateRoot_core]
    rfl
  rw [h1, h2, h]

/-! ## Facts about the content of a trie -/

theorem Trie.Update_faults (t : Trie) (k v : Bytes) : (t.Update k v).faults = t.faults := by
  unfold Trie.Update Trie.TryUpdate
  cases t.fault k with
  | some e => rfl
  | none =>
    simp only
    split_ifs <;> rfl

/-- The bindings after Go `Update` with a value that is not empty. -/
theorem Trie.Update_find (t : Trie) (k v : Bytes) (hv : v ≠ []) (a : Bytes) :
    ((t.Update k v).entries.find? (fun e => decide (e.1 = a))).map Prod.snd
      = if a = k ∧ t.fault k = none then some v
        else (t.entries.find? (fun e => decide (e.1 = a))).map Prod.snd := by
  cases hf : t.fault k with
  | some e =>
    have : t.Update k v = t := by
      unfold Trie.Update
      rw [Trie.TryUpdate_error t k v e hf]
    rw [this]
    simp
  | none =>
    obtain ⟨t1, h1, _, h3⟩ := Trie.TryUpdate_ok t k v hf hv
    have : t.Update k v = t1 := by
      unfold Trie.Update
      rw [h1]
    rw [this, h3, find_insertEntry]
    by_cases hak : a = k
    · simp [hak]
    · simp [hak]

theorem find_none_of_lt (a : Bytes × Bytes) (l : List (Bytes × Bytes))
    (h : ∀ e ∈ l, entryLt a e) :
    (l.find? (fun e => decide (e.1 = a.1))).map Prod.snd = none := by
  rw [find_isNone_iff]
  intro hmem
  obtain ⟨e, he, hk⟩ := List.mem_map.mp hmem
  have := h e he
  unfold entryLt at this
  rw [hk, bytesLt_irrefl] at this
  cases this

/-- Two lists of bindings in key order that bind every key alike are the same list. -/
theorem entries_ext : ∀ (l1 l2 : List (Bytes × Bytes)), l1.Pairwise entryLt →
    l2.Pairwise entryLt →
    (∀ k, (l1.find? (fun e => decide (e.1 = k))).map Prod.snd
      = (l2.find? (fun e => decide (e.1 = k))).map Prod.snd) → l1 = l2 := by
  intro l1
  induction l1 with
  | nil =>
    intro l2 _ _ h
    cases l2 with
    | nil => rfl
    | cons e r =>
      have := h e.1
      simp at this
  | cons e1 r1 ih =>
    intro l2 h1 h2 h
    cases l2 with
    | nil =>
      have := h e1.1
      simp at this
    | cons e2 r2 =>
      obtain ⟨hx1, hr1⟩ := List.pairwise_cons.mp h1
      obtain ⟨hx2, hr2⟩ := List.pairwise_cons.mp h2
      have hkey : e1.1 = e2.1 := by
        by_contra hne
        by_cases hlt : bytesLt e1.1 e2.1 = true
        · have h3 := h e1.1
          have hne2 : ¬ e2.1 = e1.1 := fun e => hne e.symm
          simp only [List.find?_cons, decide_True, Option.map_some', hne2, decide_False] at h3
          have h4 : (r2.find? (fun e => decide (e.1 = e1.1))).map Prod.snd = none :=
            find_none_of_lt e1 r2 (fun e he => bytesLt_trans hlt (hx2 e he))
          rw [h4] at h3
          cases h3
        · have hgt : bytesLt e2.1 e1.1 = true :=
            bytesLt_total (by simpa using hlt) hne
          have h3 := h e2.1
          simp only [List.find?_cons, decide_True, Option.map_some', hne, decide_False] at h3
          have h4 : (r1.find? (fun e => decide (e.1 = e2.1))).map Prod.snd = none :=
            find_none_of_lt e2 r1 (fun e he => bytesLt_trans hgt (hx1 e he))
          rw [h4] at h3
          cases h3
      have hval : e1.2 = e2.2 := by
        have h3 := h e1.1
        simp only [List.find?_cons, decide_True, Option.map_some', hkey.symm,
          Option.some.injEq] at h3
        exact h3
      have he : e1 = e2 := Prod.ext hkey hval
      subst he
      congr 1
      apply ih r2 hr1 hr2
      intro k
      by_cases hk : e1.1 = k
      · subst hk
        rw [find_none_of_lt e1 r1 hx1, find_none_of_lt e1 r2 hx2]
      · have h3 := h k
        simp only [List.find?_cons, hk, decide_False] at h3
        exact h3

/-- Two tries with the same faults that bind every key alike are the same trie. -/
theorem Trie.ext_find (t t1 : Trie) (hf : t1.faults = t.faults)
    (h : ∀ k, (t1.entries.find? (fun e => decide (e.1 = k))).map Prod.snd
      = (t.entries.find? (fun e => decide (e.1 = k))).map Prod.snd) : t1 = t :=
  Trie.eq_of_entries t t1 (entries_ext _ _ t1.sorted t.sorted h) hf

/-! ## Facts about the trie `Finalise` leaves -/

theorem StateDBRecord.updateStateObject_trie_eq (D : StateParams) (s : StateDBRecord)
    (o : stateObjectRecord) :
    (s.updateStateObject D o).trie = s.trie.Update o.hash.bytes (D.EncodeRecord o.data) := by
  unfold StateDBRecord.updateStateObject Trie.Update
  cases s.trie.TryUpdate o.hash.bytes (D.EncodeRecord o.data) with
  | ok t1 => exact (StateDBRecord.setError_fields { s with trie := t1 } none).1
  | error err => exact (StateDBRecord.setError_fields s (some err)).1

/-- A round of the loop of `Finalise` on a sound state: the trie is updated with the bytes
of the live object of the hash, and the other hashes keep their live objects. -/
theorem StateDBRecord.finaliseObject_eq (P : Params) (D : StateParams) (s : StateDBRecord)
    (del : Bool) (addr : Hash) (o : stateObjectRecord) (hs : s.sound)
    (hl : s.liveObject addr = some o) :
    ∃ s1, s.finaliseObject P D del addr = some s1
      ∧ s1.trie = s.trie.Update addr.bytes (finalRecord P D o)
      ∧ s1.sound
      ∧ (∀ x, x ≠ addr → s1.liveObject x = s.liveObject x)
      ∧ (∀ x, s.liveObject x ≠ none → s1.liveObject x ≠ none) := by
  have ho := StateDBRecord.sound_liveObject hs hl
  have hid := stateObjectRecord.updateRoot_identity P D o
  have hf := StateDBRecord.updateStateObject_fields D
    (s.setStateObject (o.updateRoot P D)) (o.updateRoot P D)
  refine ⟨(s.setStateObject (o.updateRoot P D)).updateStateObject D (o.updateRoot P D),
    ?_, ?_, ?_, ?_, ?_⟩
  · unfold StateDBRecord.finaliseObject
    rw [hl]
    simp only [ho.2.2, stateObjectRecord.empty, Bool.and_false, Bool.or_self,
      Bool.false_eq_true, if_false]
  · rw [StateDBRecord.updateStateObject_trie_eq, hid.1, ho.1]
    rfl
  · exact StateDBRecord.sound_congr
      (StateDBRecord.sound_setStateObject hs (o.updateRoot P D) (hid.2.1.trans ho.2.1)
        (hid.2.2.trans ho.2.2)) hf.1
  · intro x hx
    have h1 : ((s.setStateObject (o.updateRoot P D)).updateStateObject D
        (o.updateRoot P D)).liveObject x = (s.setStateObject (o.updateRoot P D)).liveObject x := by
      unfold StateDBRecord.liveObject
      rw [hf.1]
    rw [h1, StateDBRecord.liveObject_setStateObject, hid.1, ho.1, if_neg hx]
  · intro x hx
    exact liveObject_setObject_ne_none _ s _ hf.1 x hx

/-- The trie the loop of `Finalise` leaves, on a sound state whose dirty hashes are distinct
and have live objects, when no encoding of a record is empty: the faults stay, a visited
hash whose path can be resolved is bound to the bytes of its live object, and every other
key is bound as before. -/
theorem StateDBRecord.finaliseLoop_find (P : Params) (D : StateParams) (del : Bool)
    (henc : ∀ r, D.EncodeRecord r ≠ []) :
    ∀ (l : List Hash) (s : StateDBRecord), s.sound → l.Nodup →
      (∀ x ∈ l, s.liveObject x ≠ none) →
      ∃ s1, StateDBRecord.finaliseLoop P D del l s = some s1
        ∧ s1.trie.faults = s.trie.faults
        ∧ (∀ x ∈ l, ∀ o, s.liveObject x = some o → s.trie.fault x.bytes = none →
            (s1.trie.entries.find? (fun e => decide (e.1 = x.bytes))).map Prod.snd
              = some (finalRecord P D o))
        ∧ (∀ k, (∀ x ∈ l, x.bytes = k → s.trie.fault k ≠ none) →
            (s1.trie.entries.find? (fun e => decide (e.1 = k))).map Prod.snd
              = (s.trie.entries.find? (fun e => decide (e.1 = k))).map Prod.snd) := by
  intro l
  induction l with
  | nil =>
    intro s _ _ _
    exact ⟨s, rfl, rfl, fun x hx => by simp at hx, fun k _ => rfl⟩
  | cons a rest ih =>
    intro s hs hnd hl
    obtain ⟨hna, hnr⟩ := List.nodup_cons.mp hnd
    obtain ⟨oa, hoa⟩ := Option.ne_none_iff_exists'.mp (hl a (List.mem_cons_self _ _))
    obtain ⟨s1, h1, ht1, hs1, hlo1, hne1⟩ := StateDBRecord.finaliseObject_eq P D s del a oa hs hoa
    have hfa1 : s1.trie.faults = s.trie.faults := by rw [ht1, Trie.Update_faults]
    have hfind1 := fun k => by
      have := Trie.Update_find s.trie a.bytes (finalRecord P D oa) (henc _) k
      rw [← ht1] at this
      exact this
    obtain ⟨s2, h2, hf2, ha2, hb2⟩ := ih s1 hs1 hnr
      (fun x hx => hne1 x (hl x (List.mem_cons_of_mem _ hx)))
    refine ⟨s2, ?_, hf2.trans hfa1, ?_, ?_⟩
    · simp only [StateDBRecord.finaliseLoop, h1]
      exact h2
    · intro x hx o hxo hfx
      rcases List.mem_cons.mp hx with hxa | hxr
      · subst hxa
        rw [hoa] at hxo
        injection hxo with hxo
        subst hxo
        rw [hb2 x.bytes, hfind1 x.bytes, if_pos ⟨rfl, hfx⟩]
        intro y hy hyb
        exact absurd (Hash.bytes_inj hyb ▸ hy) hna
      · have hxa : x ≠ a := fun e => hna (e ▸ hxr)
        apply ha2 x hxr o
        · rw [hlo1 x hxa]; exact hxo
        · rw [Trie.fault_congr _ _ hfa1]; exact hfx
    · intro k hk
      rw [hb2 k, hfind1 k]
      · rw [if_neg]
        rintro ⟨hka, hfa⟩
        exact hk a (List.mem_cons_self _ _) hka.symm (hka ▸ hfa)
      · intro x hx hxk
        rw [Trie.fault_congr _ _ hfa1]
        exact hk x (List.mem_cons_of_mem _ hx) hxk

/-- The object a sound state reads under a hash with a live object is that object. -/
theorem StateDBRecord.view_of_live (D : StateParams) {s : StateDBRecord} (hs : s.sound)
    {x : Hash} {o : stateObjectRecord} (hl : s.liveObject x = some o) :
    s.view D x = some o := by
  rw [StateDBRecord.view_eq, hl]
  simp only [(StateDBRecord.sound_liveObject hs hl).2.1, Bool.false_eq_true, if_false]

theorem Trie.find_of_TryGet (t : Trie) (k v : Bytes) (h : t.TryGet k = .ok (some v)) :
    (t.entries.find? (fun e => decide (e.1 = k))).map Prod.snd = some v := by
  unfold Trie.TryGet at h
  cases hf : t.fault k with
  | some e => rw [hf] at h; cases h
  | none =>
    rw [hf] at h
    simp only [Except.ok.injEq] at h
    exact h

/-- The root `IntermediateRoot` returns, by the loop of `Finalise`. -/
theorem StateDBRecord.IntermediateRoot_eq (P : Params) (D : StateParams) (s s1 : StateDBRecord)
    (del : Bool) (h : StateDBRecord.finaliseLoop P D del s.stateObjectsDirty s = some s1) :
    (s.IntermediateRoot P D del).map Prod.snd = some (s1.trie.Hash P) := by
  unfold StateDBRecord.IntermediateRoot StateDBRecord.Finalise
  rw [h]
  rfl

/-- Two tidy states on the same trie that read the same objects have the same
`IntermediateRoot`, when every dirty hash of the first is dirty in the second and every
other dirty hash of the second is written back as the trie of the first holds it. -/
theorem IntermediateRoot_sameObjects (P : Params) (D : StateParams) (del : Bool)
    (henc : ∀ r, D.EncodeRecord r ≠ []) (s t : StateDBRecord)
    (hs : s.tidy) (ht : t.tidy) (hso : sameObjects D t s)
    (hsub : ∀ x ∈ s.stateObjectsDirty, x ∈ t.stateObjectsDirty)
    (hclean : ∀ x ∈ t.stateObjectsDirty, x ∉ s.stateObjectsDirty → s.writesBack P D x) :
    (t.IntermediateRoot P D del).map Prod.snd = (s.IntermediateRoot P D del).map Prod.snd
      ∧ ((s.IntermediateRoot P D del).map Prod.snd).isSome = true := by
  obtain ⟨fs, hfs, hfaS, haS, hbS⟩ :=
    StateDBRecord.finaliseLoop_find P D del henc s.stateObjectsDirty s hs.1 hs.2.1 hs.2.2
  obtain ⟨ft, hft, hfaT, haT, hbT⟩ :=
    StateDBRecord.finaliseLoop_find P D del henc t.stateObjectsDirty t ht.1 ht.2.1 ht.2.2
  rw [StateDBRecord.IntermediateRoot_eq P D s fs del hfs,
    StateDBRecord.IntermediateRoot_eq P D t ft del hft]
  refine ⟨?_, rfl⟩
  have htrie : ft.trie = fs.trie := by
    apply Trie.ext_find
    · rw [hfaT, hfaS, hso.1]
    · intro k
      by_cases hk : ∀ x ∈ t.stateObjectsDirty, x.bytes = k → t.trie.fault k ≠ none
      · rw [hbT k hk, hbS k (fun x hx hxk => by
          rw [← hso.1]; exact hk x (hsub x hx) hxk), hso.1]
      · push_neg at hk
        obtain ⟨x, hx, hxk, hfx⟩ := hk
        subst hxk
        obtain ⟨ot, hot⟩ := Option.ne_none_iff_exists'.mp (ht.2.2 x hx)
        rw [haT x hx ot hot hfx]
        have hvt := StateDBRecord.view_of_live D ht.1 hot
        have hov := hso.2 x
        unfold StateDBRecord.objView at hov
        rw [hvt] at hov
        cases hvs : s.view D x with
        | none => rw [hvs] at hov; simp at hov
        | some os =>
          rw [hvs] at hov
          simp only [Option.map_some', Option.some.injEq] at hov
          have hrec := finalRecord_core P D os ot hov
          rw [hrec]
          have hfs2 : s.trie.fault x.bytes = none := by rw [← hso.1]; exact hfx
          by_cases hxs : x ∈ s.stateObjectsDirty
          · obtain ⟨o2, ho2⟩ := Option.ne_none_iff_exists'.mp (hs.2.2 x hxs)
            have hv2 := StateDBRecord.view_of_live D hs.1 ho2
            rw [hvs] at hv2
            injection hv2 with hv2
            subst hv2
            exact (haS x hxs os ho2 hfs2).symm
          · have hc := hclean x hx hxs
            unfold StateDBRecord.writesBack at hc
            rw [hvs] at hc
            simp only at hc
            rcases hc with hc | hc
            · exact absurd hfs2 hc
            · rw [hbS x.bytes (fun y hy hyb => by
                exact absurd (Hash.bytes_inj hyb ▸ hy) hxs)]
              exact (Trie.find_of_TryGet _ _ _ hc).symm
  rw [htrie]

/-! ## Facts about the objects after the undo of the journal -/

theorem sameObjects_refl (D : StateParams) (s : StateDBRecord) : sameObjects D s s :=
  ⟨rfl, fun _ => rfl⟩

theorem sameObjects_trans {D : StateParams} {a b d : StateDBRecord} (h1 : sameObjects D a b)
    (h2 : sameObjects D b d) : sameObjects D a d :=
  ⟨h1.1.trans h2.1, fun h => (h1.2 h).trans (h2.2 h)⟩

theorem sameObjects_getStateObject (D : StateParams) (s : StateDBRecord) (h : Hash) :
    sameObjects D (s.getStateObject D h).1 s :=
  ⟨(StateDBRecord.getStateObject_fields D s h).1, fun x => by
    unfold StateDBRecord.objView
    rw [StateDBRecord.view_getStateObject]⟩

/-- The dirty set after `MarkStateObjectDirty`. -/
theorem mem_MarkStateObjectDirty (s : StateDBRecord) (h x : Hash) :
    x ∈ (s.MarkStateObjectDirty h).stateObjectsDirty ↔ x ∈ s.stateObjectsDirty ∨ x = h := by
  unfold StateDBRecord.MarkStateObjectDirty
  simp only
  split_ifs with hm
  · constructor
    · exact fun hx => Or.inl hx
    · rintro (hx | hx)
      · exact hx
      · rw [hx]; exact hm
  · simp

theorem nodup_MarkStateObjectDirty (s : StateDBRecord) (h : Hash)
    (hn : s.stateObjectsDirty.Nodup) : (s.MarkStateObjectDirty h).stateObjectsDirty.Nodup := by
  unfold StateDBRecord.MarkStateObjectDirty
  simp only
  split_ifs with hm
  · exact hn
  · rw [List.nodup_append]
    refine ⟨hn, List.nodup_singleton h, ?_⟩
    intro a ha hb
    rw [List.mem_singleton] at hb
    exact hm (hb ▸ ha)

/-- The dirty set after the callback of a setter. -/
theorem markDirty_dirty (s : StateDBRecord) (o : stateObjectRecord) :
    (stateObjectRecord.markDirty s o).1.stateObjectsDirty = s.stateObjectsDirty
      ∨ (stateObjectRecord.markDirty s o).1.stateObjectsDirty
        = (s.MarkStateObjectDirty o.hash).stateObjectsDirty := by
  unfold stateObjectRecord.markDirty
  cases o.onDirty with
  | false => exact Or.inl rfl
  | true => exact Or.inr rfl

theorem StateDBRecord.tidy_getStateObject (D : StateParams) {s : StateDBRecord} (hs : s.tidy)
    (h : Hash) : (s.getStateObject D h).1.tidy := by
  have hf := StateDBRecord.getStateObject_fields D s h
  refine ⟨StateDBRecord.sound_getStateObject D hs.1 h, by rw [hf.2.1]; exact hs.2.1, ?_⟩
  intro x hx
  rw [hf.2.1] at hx
  rcases StateDBRecord.getStateObject_liveObject D s h x with hl | ⟨_, _, hl, hne⟩
  · rw [hl]; exact hs.2.2 x hx
  · rw [hl]; exact hne

/-- A write of an object under its hash, with the hash marked dirty or the dirty set as it
was, leaves a tidy state tidy. -/
theorem tidy_wrote {s s1 : StateDBRecord} {o : stateObjectRecord}
    {es : List journalEntryRecord} (hs : s.tidy) (hw : wrote s s1 o es)
    (hd : o.deleted = false) (hsu : o.suicided = false)
    (hdirty : s1.stateObjectsDirty = s.stateObjectsDirty
      ∨ s1.stateObjectsDirty = (s.MarkStateObjectDirty o.hash).stateObjectsDirty) :
    s1.tidy
      ∧ ∀ x ∈ s1.stateObjectsDirty, x ∈ s.stateObjectsDirty ∨ x = o.hash := by
  have hlive : ∀ x, s.liveObject x ≠ none → s1.liveObject x ≠ none :=
    fun x hx => liveObject_setObject_ne_none o s s1 hw.1 x hx
  have hself : s1.liveObject o.hash ≠ none := by
    have h1 : s1.liveObject o.hash = (s.setStateObject o).liveObject o.hash := by
      unfold StateDBRecord.liveObject
      rw [hw.1]
      rfl
    rw [h1, StateDBRecord.liveObject_setStateObject, if_pos rfl]
    simp
  rcases hdirty with h | h
  · refine ⟨⟨wrote_sound hw hs.1 hd hsu, by rw [h]; exact hs.2.1, ?_⟩, ?_⟩
    · intro x hx
      rw [h] at hx
      exact hlive x (hs.2.2 x hx)
    · intro x hx
      rw [h] at hx
      exact Or.inl hx
  · refine ⟨⟨wrote_sound hw hs.1 hd hsu,
      by rw [h]; exact nodup_MarkStateObjectDirty s o.hash hs.2.1, ?_⟩, ?_⟩
    · intro x hx
      rw [h, mem_MarkStateObjectDirty] at hx
      rcases hx with hx | hx
      · exact hlive x (hs.2.2 x hx)
      · rw [hx]; exact hself
    · intro x hx
      rw [h, mem_MarkStateObjectDirty] at hx
      exact hx

/-- What a hash reads, without the flag `onDirty`, after a write. -/
theorem wrote_objView (D : StateParams) {s s1 : StateDBRecord} {o : stateObjectRecord}
    {es : List journalEntryRecord} (hw : wrote s s1 o es) (h : Hash) :
    s1.objView D h
      = if h = o.hash then (if o.deleted then none else some o.core) else s.objView D h := by
  unfold StateDBRecord.objView
  rw [wrote_view D hw h]
  split_ifs <;> rfl

theorem Restorable_refl (D : StateParams) (A : List Hash) {s : StateDBRecord} (hs : s.tidy) :
    Restorable D A s s :=
  ⟨hs, fun _ hx => Or.inl hx, [], by simp, fun t ht hr =>
    ⟨t, rfl, ht, hr, fun x hx => Or.inl hx⟩⟩

theorem Restorable_mono {D : StateParams} {A B : List Hash} {s s1 : StateDBRecord}
    (h : Restorable D A s s1) (hAB : ∀ x ∈ A, x ∈ B) : Restorable D B s s1 := by
  obtain ⟨h1, h2, es, h3, h4⟩ := h
  refine ⟨h1, fun x hx => (h2 x hx).imp id (hAB x), es, h3, ?_⟩
  intro t ht hr
  obtain ⟨t1, hu, ht1, hr1, hd1⟩ := h4 t ht hr
  exact ⟨t1, hu, ht1, hr1, fun x hx => (hd1 x hx).imp id (hAB x)⟩

/-- A read is a step that can be undone, by no undo at all. -/
theorem Restorable_read (D : StateParams) (A : List Hash) {s : StateDBRecord} (hs : s.tidy)
    (h : Hash) : Restorable D A s (s.getStateObject D h).1 := by
  have hf := StateDBRecord.getStateObject_fields D s h
  refine ⟨StateDBRecord.tidy_getStateObject D hs h, ?_, [], ?_, ?_⟩
  · intro x hx; rw [hf.2.1] at hx; exact Or.inl hx
  · rw [hf.2.2.1]; simp
  · intro t ht hr
    exact ⟨t, rfl, ht, sameObjects_trans hr (sameObjects_getStateObject D s h),
      fun x hx => Or.inl hx⟩

theorem Restorable_trans {D : StateParams} {A : List Hash} {s s1 s2 : StateDBRecord}
    (h1 : Restorable D A s s1) (h2 : Restorable D A s1 s2) : Restorable D A s s2 := by
  obtain ⟨_, hd1, es1, hj1, hu1⟩ := h1
  obtain ⟨hs2, hd2, es2, hj2, hu2⟩ := h2
  refine ⟨hs2, ?_, es1 ++ es2, ?_, ?_⟩
  · intro x hx
    rcases hd2 x hx with h | h
    · exact hd1 x h
    · exact Or.inr h
  · rw [hj2, hj1, List.append_assoc]
  · intro t ht hr
    obtain ⟨ta, hua, hsa, hra, hda⟩ := hu2 t ht hr
    obtain ⟨tb, hub, hsb, hrb, hdb⟩ := hu1 ta hsa hra
    refine ⟨tb, ?_, hsb, hrb, ?_⟩
    · rw [List.reverse_append, undoLoop_append, hua]
      exact hub
    · intro x hx
      rcases hdb x hx with h | h
      · exact hda x h
      · exact Or.inr h

/-- The creation of an object for a hash that reads as `nil` can be undone. -/
theorem Restorable_create (D : StateParams) {A : List Hash} {s s1 : StateDBRecord} {h : Hash}
    {o : stateObjectRecord} (hs : s.tidy) (hv : s.view D h = none)
    (hw : wrote s s1 o [.createObjectChangeRecord h])
    (hh : o.hash = h) (hd : o.deleted = false) (hsu : o.suicided = false)
    (hdirty : s1.stateObjectsDirty = s.stateObjectsDirty
      ∨ s1.stateObjectsDirty = (s.MarkStateObjectDirty o.hash).stateObjectsDirty)
    (hA : h ∈ A) : Restorable D A s s1 := by
  have hview := wrote_objView D hw
  obtain ⟨ht1, hm1⟩ := tidy_wrote hs hw hd hsu hdirty
  refine ⟨ht1, fun x hx => (hm1 x hx).imp id (fun e => by rw [e, hh]; exact hA),
    [.createObjectChangeRecord h], hw.2.2.1, ?_⟩
  intro t ht hr
  have hlive : ∀ x, x ≠ h →
      StateDBRecord.liveObject
        { t with
          stateObjects := t.stateObjects.filter (fun e => !decide (e.1 = h)),
          stateObjectsDirty := t.stateObjectsDirty.filter (fun y => !decide (y = h)) } x
        = t.liveObject x := by
    intro x hx
    unfold StateDBRecord.liveObject
    simp only
    rw [find_filter_ne, if_neg hx]
  refine ⟨_, rfl, ⟨?_, ?_, ?_⟩, ?_, ?_⟩
  · intro e he
    exact ht.1 e (List.mem_of_mem_filter he)
  · exact ht.2.1.filter _
  · intro x hx
    have hx2 := List.mem_filter.mp hx
    have hne : x ≠ h := by simpa using hx2.2
    rw [hlive x hne]
    exact ht.2.2 x hx2.1
  · refine ⟨hr.1.trans hw.2.1, ?_⟩
    intro x
    have hx : (StateDBRecord.view D
        { t with
          stateObjects := t.stateObjects.filter (fun e => !decide (e.1 = h)),
          stateObjectsDirty := t.stateObjectsDirty.filter (fun y => !decide (y = h)) } x)
        = if x = h then trieObject D t.trie h else t.view D x := by
      rw [StateDBRecord.view_eq, StateDBRecord.view_eq]
      unfold StateDBRecord.liveObject
      simp only
      rw [find_filter_ne]
      by_cases hxh : x = h
      · simp [hxh]
      · simp [hxh]
    unfold StateDBRecord.objView
    rw [hx]
    by_cases hxh : x = h
    · subst hxh
      simp only [if_true]
      rw [hr.1, hw.2.1, (StateDBRecord.view_none hs.1 hv).2, hv]
    · simp only [if_neg hxh]
      have h1 := hr.2 x
      unfold StateDBRecord.objView at h1
      rw [h1]
      have h2 := hview x
      unfold StateDBRecord.objView at h2
      rw [h2, if_neg (by rw [hh]; exact hxh)]
  · intro x hx
    exact Or.inl (List.mem_of_mem_filter hx)

/-- The replacement of the object a hash reads can be undone. -/
theorem Restorable_reset (D : StateParams) {A : List Hash} {s s1 : StateDBRecord} {h : Hash}
    {o prev : stateObjectRecord} (hs : s.tidy) (hv : s.view D h = some prev)
    (hw : wrote s s1 o [.resetObjectChangeRecord prev])
    (hh : o.hash = h) (hd : o.deleted = false) (hsu : o.suicided = false)
    (hdirty : s1.stateObjectsDirty = s.stateObjectsDirty
      ∨ s1.stateObjectsDirty = (s.MarkStateObjectDirty o.hash).stateObjectsDirty)
    (hA : h ∈ A) : Restorable D A s s1 := by
  have hview := wrote_objView D hw
  have hp := StateDBRecord.view_some hs.1 hv
  obtain ⟨ht1, hm1⟩ := tidy_wrote hs hw hd hsu hdirty
  refine ⟨ht1, fun x hx => (hm1 x hx).imp id (fun e => by rw [e, hh]; exact hA),
    [.resetObjectChangeRecord prev], hw.2.2.1, ?_⟩
  intro t ht hr
  refine ⟨t.setStateObject prev, rfl,
    ⟨StateDBRecord.sound_setStateObject ht.1 prev hp.2.1 hp.2.2.1, ht.2.1,
      fun x hx => liveObject_setObject_ne_none prev t _ rfl x (ht.2.2 x hx)⟩,
    ?_, fun x hx => Or.inl hx⟩
  refine ⟨hr.1.trans hw.2.1, ?_⟩
  intro x
  unfold StateDBRecord.objView
  rw [StateDBRecord.view_setStateObject, hp.1]
  by_cases hxh : x = h
  · subst hxh
    simp [hp.2.1, hv]
  · simp only [if_neg hxh]
    have h1 := hr.2 x
    unfold StateDBRecord.objView at h1
    rw [h1]
    have h2 := hview x
    unfold StateDBRecord.objView at h2
    rw [h2, if_neg (by rw [hh]; exact hxh)]

/-- The setter with the value that restores the record gives back the object, the flag
`onDirty` apart. -/
theorem core_restore (o ot : stateObjectRecord) (upd restore : Record → Record)
    (hth : ot.core = ({ o with data := upd o.data, onDirty := false } : stateObjectRecord).core)
    (hres : restore (upd o.data) = o.data) :
    ({ ot with data := restore ot.data, onDirty := false } : stateObjectRecord).core
      = o.core := by
  obtain ⟨h1, d1, e1, t1, c1, ds1, su1, tc1, de1, od1⟩ := ot
  obtain ⟨h0, d0, e0, t0, c0, ds0, su0, tc0, de0, od0⟩ := o
  simp only [stateObjectRecord.core, stateObjectRecord.mk.injEq] at hth hres ⊢
  obtain ⟨a1, a2, a3, a4, a5, a6, a7, a8, a9, -⟩ := hth
  subst a2
  exact ⟨a1, hres, a3, a4, a5, a6, a7, a8, a9, trivial⟩

/-- The change of a field of the record a hash reads can be undone, when the undo of its
journal entry is the setter with a value that restores the record. -/
theorem Restorable_field (D : StateParams) {A : List Hash} {s s1 : StateDBRecord} {h : Hash}
    {o : stateObjectRecord} (e : journalEntryRecord) (upd restore : Record → Record)
    (hs : s.tidy) (hv : s.view D h = some o)
    (hw : wrote s s1 { o with data := upd o.data, onDirty := false } [e])
    (hdirty : s1.stateObjectsDirty = s.stateObjectsDirty
      ∨ s1.stateObjectsDirty = (s.MarkStateObjectDirty o.hash).stateObjectsDirty)
    (hundo : ∀ t, e.undo D t
      = match t.getStateObject D h with
        | (t1, some obj) =>
          some (stateObjectRecord.markDirty t1 { obj with data := restore obj.data }).1
        | (_, none) => none)
    (hres : restore (upd o.data) = o.data) (hA : h ∈ A) : Restorable D A s s1 := by
  have hp := StateDBRecord.view_some hs.1 hv
  have hview : ∀ x, s1.objView D x
      = if x = h then
          some ({ o with data := upd o.data, onDirty := false } : stateObjectRecord).core
        else s.objView D x := by
    intro x
    rw [wrote_objView D hw x]
    have e1 : ({ o with data := upd o.data, onDirty := false } : stateObjectRecord).hash = h :=
      hp.1
    have e2 : ({ o with data := upd o.data, onDirty := false } : stateObjectRecord).deleted
        = false := hp.2.1
    rw [e1, e2]
    simp only [Bool.false_eq_true, if_false]
  obtain ⟨ht1, hm1⟩ := tidy_wrote hs hw hp.2.1 hp.2.2.1 hdirty
  refine ⟨ht1, fun x hx => (hm1 x hx).imp id (fun e => by rw [e]; exact hp.1 ▸ hA),
    [e], hw.2.2.1, ?_⟩
  intro t ht hr
  have hth := hr.2 h
  rw [hview h, if_pos rfl] at hth
  unfold StateDBRecord.objView at hth
  cases htv : t.view D h with
  | none => rw [htv] at hth; simp at hth
  | some ot =>
    rw [htv] at hth
    simp only [Option.map_some', Option.some.injEq] at hth
    have hot := StateDBRecord.view_some ht.1 htv
    have ht1g := StateDBRecord.tidy_getStateObject D ht h
    have hw2 := wrote_markDirty_nil (t.getStateObject D h).1
      { ot with data := restore ot.data }
    have hd2 := markDirty_dirty (t.getStateObject D h).1 { ot with data := restore ot.data }
    obtain ⟨htidy2, hm2⟩ := tidy_wrote ht1g hw2 hot.2.1 hot.2.2.1 hd2
    have hf := StateDBRecord.getStateObject_fields D t h
    refine ⟨(stateObjectRecord.markDirty (t.getStateObject D h).1
        { ot with data := restore ot.data }).1, ?_, htidy2, ?_, ?_⟩
    · simp only [List.reverse_cons, List.reverse_nil, List.nil_append, undoLoop]
      rw [hundo t]
      unfold StateDBRecord.view at htv
      rcases hg : t.getStateObject D h with ⟨t1, prev⟩
      rw [hg] at htv
      simp only at htv
      subst htv
      rfl
    · refine ⟨hw2.2.1.trans (hf.1.trans (hr.1.trans hw.2.1)), ?_⟩
      intro x
      rw [wrote_objView D hw2 x]
      by_cases hxh : x = h
      · rw [if_pos (hxh.trans hot.1.symm), if_neg (by rw [Bool.not_eq_true]; exact hot.2.1)]
        subst hxh
        unfold StateDBRecord.objView
        rw [hv]
        simp only [Option.map_some', Option.some.injEq]
        exact core_restore o ot upd restore hth hres
      · rw [if_neg (fun e => hxh (e.trans hot.1))]
        unfold StateDBRecord.objView
        rw [StateDBRecord.view_getStateObject]
        have h1 := hr.2 x
        unfold StateDBRecord.objView at h1
        rw [h1]
        have h2 := hview x
        unfold StateDBRecord.objView at h2
        rw [h2, if_neg hxh]
    · intro x hx
      rcases hm2 x hx with hx1 | hx1
      · rw [hf.2.1] at hx1
        exact Or.inl hx1
      · right
        rw [hx1]
        exact hot.1 ▸ hA

theorem Restorable_SetOrigin (D : StateParams) {A : List Hash} {s : StateDBRecord} {h : Hash}
    {o : stateObjectRecord} (hs : s.tidy) (hv : s.view D h = some o) (a : Address)
    (hA : h ∈ A) : Restorable D A s (stateObjectRecord.SetOrigin s o a).1 := by
  have hp := (StateDBRecord.view_some hs.1 hv).1
  subst hp
  exact Restorable_field D (.originChange o.hash o.data.Origin)
    (fun d => { d with Origin := a }) (fun d => { d with Origin := o.data.Origin }) hs hv
    (wrote_markDirty s { o with data := { o.data with Origin := a } }
      [.originChange o.hash o.data.Origin])
    (markDirty_dirty { s with journal := s.journal ++ [.originChange o.hash o.data.Origin] }
      { o with data := { o.data with Origin := a } })
    (fun t => rfl) rfl hA

theorem Restorable_SetOwner (D : StateParams) {A : List Hash} {s : StateDBRecord} {h : Hash}
    {o : stateObjectRecord} (hs : s.tidy) (hv : s.view D h = some o) (a : Address)
    (hA : h ∈ A) : Restorable D A s (stateObjectRecord.SetOwner s o a).1 := by
  have hp := (StateDBRecord.view_some hs.1 hv).1
  subst hp
  exact Restorable_field D (.ownerChange o.hash o.data.Owner)
    (fun d => { d with Owner := a }) (fun d => { d with Owner := o.data.Owner }) hs hv
    (wrote_markDirty s { o with data := { o.data with Owner := a } }
      [.ownerChange o.hash o.data.Owner])
    (markDirty_dirty { s with journal := s.journal ++ [.ownerChange o.hash o.data.Owner] }
      { o with data := { o.data with Owner := a } })
    (fun t => rfl) rfl hA

theorem Restorable_SetStatus (D : StateParams) {A : List Hash} {s : StateDBRecord} {h : Hash}
    {o : stateObjectRecord} (hs : s.tidy) (hv : s.view D h = some o) (a : Fin 256)
    (hA : h ∈ A) : Restorable D A s (stateObjectRecord.SetStatus s o a).1 := by
  have hp := (StateDBRecord.view_some hs.1 hv).1
  subst hp
  exact Restorable_field D (.statusChange o.hash o.data.Status)
    (fun d => { d with Status := a }) (fun d => { d with Status := o.data.Status }) hs hv
    (wrote_markDirty s { o with data := { o.data with Status := a } }
      [.statusChange o.hash o.data.Status])
    (markDirty_dirty { s with journal := s.journal ++ [.statusChange o.hash o.data.Status] }
      { o with data := { o.data with Status := a } })
    (fun t => rfl) rfl hA

/-- Go `GetOrNewStateObject` is a step that can be undone, and the hash reads the object it
returns. -/
theorem Restorable_GetOrNewStateObject (D : StateParams) {A : List Hash} {s : StateDBRecord}
    (hs : s.tidy) (h : Hash) (hA : h ∈ A) :
    Restorable D A s (s.GetOrNewStateObject D h).1
      ∧ (s.GetOrNewStateObject D h).1.view D h = some (s.GetOrNewStateObject D h).2 := by
  cases hv : s.view D h with
  | some o =>
    rw [StateDBRecord.GetOrNewStateObject_some D s h o hv]
    exact ⟨Restorable_read D A hs h, by rw [StateDBRecord.view_getStateObject]; exact hv⟩
  | none =>
    rw [StateDBRecord.GetOrNewStateObject_none D s h hv]
    have hs1 := StateDBRecord.tidy_getStateObject D hs h
    have hv1 : (s.getStateObject D h).1.view D h = none := by
      rw [StateDBRecord.view_getStateObject]; exact hv
    have hw := wrote_create (s.getStateObject D h).1 h (.createObjectChangeRecord h)
    refine ⟨Restorable_trans (Restorable_read D A hs h)
      (Restorable_create D hs1 hv1 hw rfl rfl rfl (Or.inr rfl) hA), ?_⟩
    simp only
    rw [wrote_view D hw h]
    simp [freshObject, newObjectRecord]

/-- Go `CreateRecord` is a step that can be undone. -/
theorem Restorable_CreateRecord (D : StateParams) {A : List Hash} {s : StateDBRecord}
    (hs : s.tidy) (h : Hash) (hA : h ∈ A) : Restorable D A s (s.CreateRecord D h) := by
  have hs1 := StateDBRecord.tidy_getStateObject D hs h
  unfold StateDBRecord.CreateRecord
  rw [StateDBRecord.createObject_eq]
  cases hv : s.view D h with
  | none =>
    simp only
    have hv1 : (s.getStateObject D h).1.view D h = none := by
      rw [StateDBRecord.view_getStateObject]; exact hv
    exact Restorable_trans (Restorable_read D A hs h)
      (Restorable_create D hs1 hv1
        (wrote_create (s.getStateObject D h).1 h (.createObjectChangeRecord h)) rfl rfl rfl
        (Or.inr rfl) hA)
  | some prev =>
    simp only
    have hv1 : (s.getStateObject D h).1.view D h = some prev := by
      rw [StateDBRecord.view_getStateObject]; exact hv
    have hw1 := wrote_create (s.getStateObject D h).1 h (.resetObjectChangeRecord prev)
    have hw2 := wrote_markDirty_nil
      (StateDBRecord.setStateObject
        { (s.getStateObject D h).1.MarkStateObjectDirty h with
          journal := ((s.getStateObject D h).1.MarkStateObjectDirty h).journal
            ++ [.resetObjectChangeRecord prev] }
        (freshObject h))
      { freshObject h with data := { (freshObject h).data with Origin := prev.data.Origin } }
    exact Restorable_trans (Restorable_read D A hs h)
      (Restorable_reset D hs1 hv1 (wrote_overwrite hw1 hw2 rfl) rfl rfl rfl (Or.inr rfl) hA)

/-- Every mutation is a step that can be undone, and marks no hash but the one it names. -/
theorem Restorable_Mutation (D : StateParams) {A : List Hash} {s : StateDBRecord} (hs : s.tidy)
    (m : Mutation) (hA : m.addr ∈ A) : Restorable D A s (m.apply D s) := by
  have hg := fun h hA => Restorable_GetOrNewStateObject (A := A) D hs h hA
  cases m with
  | CreateRecord addr => exact Restorable_CreateRecord D hs addr hA
  | SetOrigin addr account =>
    simp only [Mutation.apply, StateDBRecord.SetOrigin]
    exact Restorable_trans (hg addr hA).1
      (Restorable_SetOrigin D (hg addr hA).1.1 (hg addr hA).2 account hA)
  | SetOwner addr account =>
    simp only [Mutation.apply, StateDBRecord.SetOwner]
    exact Restorable_trans (hg addr hA).1
      (Restorable_SetOrigin D (hg addr hA).1.1 (hg addr hA).2 account hA)
  | objectSetOwner addr account =>
    simp only [Mutation.apply]
    exact Restorable_trans (hg addr hA).1
      (Restorable_SetOwner D (hg addr hA).1.1 (hg addr hA).2 account hA)
  | objectSetStatus addr status =>
    simp only [Mutation.apply]
    exact Restorable_trans (hg addr hA).1
      (Restorable_SetStatus D (hg addr hA).1.1 (hg addr hA).2 status hA)

/-- Every sequence of mutations is a step that can be undone, and marks no hash but those
it names. -/
theorem Restorable_applyMutations (D : StateParams) (A : List Hash) (ms : List Mutation) :
    ∀ {s : StateDBRecord}, s.tidy → (∀ m ∈ ms, m.addr ∈ A) →
      Restorable D A s (applyMutations D ms s) := by
  induction ms with
  | nil => intro s hs _; exact Restorable_refl D A hs
  | cons m rest ih =>
    intro s hs hA
    have h1 := Restorable_Mutation D hs m (hA m (List.mem_cons_self _ _))
    exact Restorable_trans h1 (ih h1.1 (fun x hx => hA x (List.mem_cons_of_mem _ hx)))

/-- Go `RevertToSnapshot` of the id of the last snapshot, by the undo of the entries the
journal has got since. -/
theorem revert_eq (D : StateParams) (s s2 t1 : StateDBRecord) (es : List journalEntryRecord)
    (hids : ∀ r ∈ s.validRevisions, r.id < s.nextRevisionId)
    (hvr : s2.validRevisions = s.Snapshot.1.validRevisions)
    (hjr : s2.journal = s.Snapshot.1.journal ++ es)
    (hundo : undoLoop D es.reverse s2 = some t1) :
    s2.RevertToSnapshot D s.Snapshot.2
      = some { t1 with
          journal := t1.journal.take s.journal.length,
          validRevisions := t1.validRevisions.take s.validRevisions.length } := by
  have hvr2 : s2.validRevisions
      = s.validRevisions ++ [⟨s.nextRevisionId, s.journal.length⟩] := hvr
  have hjr2 : s2.journal = s.journal ++ es := hjr
  have hidx := sortSearch_last s.validRevisions s.nextRevisionId s.journal.length hids
  have hget : (s.validRevisions ++ [(⟨s.nextRevisionId, s.journal.length⟩ : revision)]).get?
      s.validRevisions.length = some ⟨s.nextRevisionId, s.journal.length⟩ := by
    simp [List.get?_eq_getElem?]
  unfold StateDBRecord.RevertToSnapshot
  simp only [StateDBRecord.Snapshot]
  rw [hvr2, hidx, hget]
  simp only [ne_eq, not_true_eq_false, if_false]
  rw [hjr2]
  simp only [List.length_append, List.drop_left]
  rw [if_neg (by omega), hundo]

/-- The round trip of `Snapshot`, mutations and `RevertToSnapshot` on a tidy state: the
state it leaves is tidy and reads the objects of the state before; what was dirty is dirty,
and what is dirty was dirty or is named by a mutation. -/
theorem revert_restorable (D : StateParams) (s : StateDBRecord) (ms : List Mutation)
    (hs : s.tidy) (hids : ∀ r ∈ s.validRevisions, r.id < s.nextRevisionId) :
    ∃ s3, (applyMutations D ms s.Snapshot.1).RevertToSnapshot D s.Snapshot.2 = some s3
      ∧ s3.tidy ∧ sameObjects D s3 s
      ∧ (∀ x ∈ s.stateObjectsDirty, x ∈ s3.stateObjectsDirty)
      ∧ (∀ x ∈ s3.stateObjectsDirty,
          x ∈ s.stateObjectsDirty ∨ x ∈ ms.map Mutation.addr) := by
  have hsnap : s.Snapshot.1.tidy := hs
  have hR := Restorable_applyMutations D (ms.map Mutation.addr) ms hsnap
    (fun m hm => List.mem_map_of_mem _ hm)
  obtain ⟨ht2, hd2, es, hj2, hu2⟩ := hR
  obtain ⟨t1, hundo, ht1, hr1, hdt1⟩ := hu2 _ ht2 (sameObjects_refl D _)
  have hU := Undoable_applyMutations D ms (s := s.Snapshot.1) hs.1
  have hrev := revert_eq D s _ t1 es hids hU.2.2.1 hj2 hundo
  obtain ⟨s3o, hrevo, -, -, -, -, hkeep⟩ := revert_undoable D s _ hids hU
  rw [hrev] at hrevo
  injection hrevo with hrevo
  have hsnapView : ∀ x, s.Snapshot.1.objView D x = s.objView D x := by
    intro x
    unfold StateDBRecord.objView
    rw [StateDBRecord.view_congr D s.Snapshot.1 s rfl rfl x]
  have htidy3 : StateDBRecord.tidy { t1 with
      journal := t1.journal.take s.journal.length,
      validRevisions := t1.validRevisions.take s.validRevisions.length } := ht1
  have hsame3 : sameObjects D { t1 with
      journal := t1.journal.take s.journal.length,
      validRevisions := t1.validRevisions.take s.validRevisions.length } s := by
    refine ⟨hr1.1, fun x => ?_⟩
    rw [← hsnapView x, ← hr1.2 x]
    unfold StateDBRecord.objView
    exact congrArg _ (StateDBRecord.view_congr D
      { t1 with
        journal := t1.journal.take s.journal.length,
        validRevisions := t1.validRevisions.take s.validRevisions.length } t1 rfl rfl x)
  refine ⟨_, hrev, htidy3, hsame3, ?_, ?_⟩
  · intro x hx
    obtain ⟨o, ho⟩ := Option.ne_none_iff_exists'.mp (hs.2.2 x hx)
    have hv := StateDBRecord.view_of_live D hs.1 ho
    have := hkeep x hx (by rw [hv]; simp)
    rw [← hrevo] at this
    exact this
  · intro x hx
    rcases hdt1 x hx with h | h
    · exact hd2 x h
    · exact Or.inr h

/-! ## The claims -/

/-- C1. `kickoutValidator` never shrinks the candidate pool below `safeSize`: whatever it
returns, the number of candidates afterwards is at least the smaller of the number before
and `safeSize`. -/
theorem kickoutValidator_keeps_safeSize (P : Params) (ec : EpochContext) (epoch : Int) :
    min ec.PocContext.GetCandidates.length P.safeSize
      ≤ (kickoutValidator P ec epoch).1.PocContext.GetCandidates.length := by
  unfold kickoutValidator
  split
  · exact Nat.min_le_left _ _
  · split
    · exact Nat.min_le_left _ _
    · split
      · exact Nat.min_le_left _ _
      · split
        · exact Nat.min_le_left _ _
        · apply kickoutLoop_length
          have := countCandidates_le (List.length ‹List sortableAddress› + P.safeSize)
            ec.PocContext.candidateTrie.iterate 0
          simpa [PocContext.GetCandidates] using this

/-- C2. After a `tryElect` that elects, kicks no candidate out and returns `nil`, the stored
validator list is a permutation of the first `maxValidatorSize` entries of the ranking of the
candidates by contribution descending, ties broken by ascending address string (all of the
ranking when there are fewer candidates); there are at least `safeSize` candidates. -/
theorem tryElect_validators_top_ranked (P : Params) (ec : EpochContext) (genesis parent : Header)
    (helect : Int.tdiv parent.Time P.epochInterval < Int.tdiv ec.TimeStamp P.epochInterval)
    (hnokick : (tryElect P ec genesis parent).1.PocContext.candidateTrie
      = ec.PocContext.candidateTrie)
    (hnil : (tryElect P ec genesis parent).2 = none)
    (ranked : List sortableAddress)
    (hperm : ranked.Perm (candidatesOf ec))
    (hranked : ranked.Pairwise (fun x y => y.weight < x.weight ∨ (y.weight = x.weight
      ∧ bytesLt (P.addressString y.address) (P.addressString x.address) = false))) :
    P.safeSize ≤ ec.PocContext.GetCandidates.length
      ∧ ∃ vs : List Address,
        (tryElect P ec genesis parent).1.PocContext.GetValidators P = .ok vs
          ∧ vs.length = min ec.PocContext.GetCandidates.length P.maxValidatorSize
          ∧ vs.Perm ((ranked.take P.maxValidatorSize).map (fun c => c.address)) := by
  obtain ⟨hst, hsafe, j, hget⟩ := tryElect_elected P ec genesis parent helect hnil
  have hc := candidatesOf_congr hst hnokick
  rw [hc] at hsafe hget
  have hlen : (candidatesOf ec).length = ec.PocContext.GetCandidates.length := by
    simp [candidatesOf]
  refine ⟨hlen ▸ hsafe, _, hget, ?_, ?_⟩
  · rw [sortedValidators_length, hlen]
  · have hsorted : ranked.Pairwise (fun x y => Less P y x = false) := by
      refine hranked.imp ?_
      intro x y h
      unfold Less
      rcases h with h | ⟨h1, h2⟩
      · simp [h]
      · simp [h1, h2]
    have huniq := sortSort_unique (Less P) (Less_asymm P) (Less_negtrans P) (Less_total P)
      hperm hsorted
    rw [huniq]
    exact sortedValidators_perm P _ parent j

/-- The election of the sample context at the genesis transition: six candidates, the five
with the highest contributions elected. -/
theorem tryElect_validators_top_ranked_witness :
    smallNet.safeSize ≤ sampleEpochContext.PocContext.GetCandidates.length
      ∧ ∃ vs : List Address,
        (tryElect smallNet sampleEpochContext ⟨0, []⟩ ⟨1190, []⟩).1.PocContext.GetValidators smallNet
            = .ok vs
          ∧ vs.length = min sampleEpochContext.PocContext.GetCandidates.length
              smallNet.maxValidatorSize
          ∧ vs.Perm ((([⟨addr 77, 78⟩, ⟨addr 4, 5⟩, ⟨addr 3, 4⟩, ⟨addr 2, 3⟩, ⟨addr 1, 2⟩,
              ⟨addr 0, 1⟩] : List sortableAddress).take smallNet.maxValidatorSize).map
                (fun c => c.address)) :=
  tryElect_validators_top_ranked smallNet sampleEpochContext ⟨0, []⟩ ⟨1190, []⟩ (by decide)
    (by decide) (by decide) _ (by decide) (by decide)

/-- C3. After a `tryElect` that elects and returns `nil`, the stored validator list has
length `min (number of candidates left) maxValidatorSize`; it is at most `maxValidatorSize`
and, with `safeSize ≤ maxValidatorSize`, at least `safeSize`. -/
theorem tryElect_validators_length (P : Params) (ec : EpochContext) (genesis parent : Header)
    (hsize : P.safeSize ≤ P.maxValidatorSize)
    (helect : Int.tdiv parent.Time P.epochInterval < Int.tdiv ec.TimeStamp P.epochInterval)
    (hnil : (tryElect P ec genesis parent).2 = none) :
    ∃ vs : List Address,
      (tryElect P ec genesis parent).1.PocContext.GetValidators P = .ok vs
        ∧ vs.length
          = min (tryElect P ec genesis parent).1.PocContext.GetCandidates.length P.maxValidatorSize
        ∧ P.safeSize ≤ vs.length ∧ vs.length ≤ P.maxValidatorSize := by
  obtain ⟨_, hsafe, j, hget⟩ := tryElect_elected P ec genesis parent helect hnil
  have hlen : (candidatesOf (tryElect P ec genesis parent).1).length
      = (tryElect P ec genesis parent).1.PocContext.GetCandidates.length := by
    simp [candidatesOf]
  refine ⟨_, hget, ?_, ?_, ?_⟩
  · rw [sortedValidators_length, hlen]
  · rw [sortedValidators_length]
    exact Nat.le_min.mpr ⟨hsafe, hsize⟩
  · rw [sortedValidators_length]
    exact Nat.min_le_right _ _

/-- The election of the sample context after a kickout: three candidates are left and all
three are elected. -/
theorem tryElect_validators_length_witness :
    ∃ vs : List Address,
      (tryElect smallNet { sampleEpochContext with TimeStamp := 2400 } ⟨0, []⟩
          ⟨2390, []⟩).1.PocContext.GetValidators smallNet = .ok vs
        ∧ vs.length
          = min (tryElect smallNet { sampleEpochContext with TimeStamp := 2400 } ⟨0, []⟩
              ⟨2390, []⟩).1.PocContext.GetCandidates.length smallNet.maxValidatorSize
        ∧ smallNet.safeSize ≤ vs.length ∧ vs.length ≤ smallNet.maxValidatorSize :=
  tryElect_validators_length smallNet { sampleEpochContext with TimeStamp := 2400 } ⟨0, []⟩
    ⟨2390, []⟩ (by decide) (by decide) (by decide)

/-- With an epoch of two block intervals and three stored validators, the time
`2 * blockInterval` is in slot 0 of the next epoch: `lookupValidator` returns the validator
of index 0, not the one of index 2. -/
theorem lookupValidator_slot_counterexample :
    threeValidators.PocContext.GetValidators shortNet = .ok [addr 0, addr 1, addr 2]
      ∧ (0 : Int) ≤ 2 * shortNet.blockInterval
      ∧ (2 * shortNet.blockInterval) % shortNet.blockInterval = 0
      ∧ lookupValidator shortNet threeValidators (2 * shortNet.blockInterval) = .ok (addr 0)
      ∧ [addr 0, addr 1, addr 2].get? 2 = some (addr 2)
      ∧ addr 0 ≠ addr 2 := by
  decide

/-- C4, amended. With `blockInterval` dividing `epochInterval`, a non-empty stored validator
list `vs` and a time `t ≥ 0` on a block-interval boundary, `lookupValidator t` returns
`vs[((t mod epochInterval) / blockInterval) mod |vs|]` without error; and for `i < |vs|` with
`i * blockInterval < epochInterval` it returns `vs[i]` at `i * blockInterval`. -/
theorem lookupValidator_slot (P : Params) (ec : EpochContext) (vs : List Address) (t : Int)
    (hdiv : P.blockInterval ∣ P.epochInterval)
    (hget : ec.PocContext.GetValidators P = .ok vs) (hne : vs ≠ [])
    (ht : 0 ≤ t) (hboundary : t % P.blockInterval = 0) :
    (∃ v : Address,
        vs.get? (((t % P.epochInterval) / P.blockInterval) % vs.length).toNat = some v
          ∧ lookupValidator P ec t = .ok v)
      ∧ ∀ (i : Nat) (hi : i < vs.length), (i : Int) * P.blockInterval < P.epochInterval →
          lookupValidator P ec (i * P.blockInterval) = .ok (vs.get ⟨i, hi⟩) := by
  have hB := P.blockInterval_pos
  constructor
  · apply lookupValidator_ok P ec t vs hget hne ht
    rw [Int.emod_emod_of_dvd _ hdiv]
    exact hboundary
  · intro i hi hlt
    have hnn : (0 : Int) ≤ i * P.blockInterval :=
      Int.mul_nonneg (Int.ofNat_nonneg _) (le_of_lt hB)
    have hmod : ((i : Int) * P.blockInterval) % P.epochInterval = i * P.blockInterval :=
      Int.emod_eq_of_lt hnn hlt
    obtain ⟨v, hv, hres⟩ := lookupValidator_ok P ec (i * P.blockInterval) vs hget hne hnn
      (by rw [hmod]; exact Int.mul_emod_left _ _)
    rw [hmod, Int.mul_ediv_cancel _ (ne_of_gt hB)] at hv
    have hi2 : ((i : Int) % vs.length).toNat = i := by
      rw [Int.emod_eq_of_lt (Int.ofNat_nonneg _) (by exact_mod_cast hi)]
      rfl
    rw [hi2, List.get?_eq_get hi] at hv
    rw [hres]
    injection hv with hv
    rw [hv]

/-- The slots of three stored validators in epochs of 120 block intervals. -/
theorem lookupValidator_slot_witness :
    (∃ v : Address,
        [addr 0, addr 1, addr 2].get?
            ((((20 : Int) % smallNet.epochInterval) / smallNet.blockInterval)
              % ([addr 0, addr 1, addr 2] : List Address).length).toNat = some v
          ∧ lookupValidator smallNet threeValidators 20 = .ok v)
      ∧ ∀ (i : Nat) (hi : i < ([addr 0, addr 1, addr 2] : List Address).length),
          (i : Int) * smallNet.blockInterval < smallNet.epochInterval →
          lookupValidator smallNet threeValidators (i * smallNet.blockInterval)
            = .ok (([addr 0, addr 1, addr 2] : List Address).get ⟨i, hi⟩) :=
  lookupValidator_slot smallNet threeValidators [addr 0, addr 1, addr 2] 20 ⟨120, by decide⟩
    (by decide) (by decide) (by decide) (by decide)

/-- With `epochInterval = 15` and `blockInterval = 10`, the time 20 is a multiple of
`blockInterval` and is refused with `ErrInvalidMintBlockTime`, and the time 15 is no
multiple of `blockInterval` and is accepted. -/
theorem lookupValidator_invalid_time_counterexample :
    Int.tmod 20 oddNet.blockInterval = 0
      ∧ lookupValidator oddNet threeValidators 20 = .error .ErrInvalidMintBlockTime
      ∧ Int.tmod 15 oddNet.blockInterval ≠ 0
      ∧ lookupValidator oddNet threeValidators 15 = .ok (addr 0) := by
  decide

/-- C5, amended. For every `epochInterval` and `blockInterval`, `lookupValidator t` fails
with `ErrInvalidMintBlockTime` exactly when the offset `t mod epochInterval` is not a
multiple of `blockInterval`; when `blockInterval` divides `epochInterval` that is exactly
when `t mod blockInterval ≠ 0`. -/
theorem lookupValidator_invalid_time (P : Params) (ec : EpochContext) (t : Int) :
    (lookupValidator P ec t = .error .ErrInvalidMintBlockTime
        ↔ Int.tmod (Int.tmod t P.epochInterval) P.blockInterval ≠ 0)
      ∧ (P.blockInterval ∣ P.epochInterval →
          (lookupValidator P ec t = .error .ErrInvalidMintBlockTime
            ↔ Int.tmod t P.blockInterval ≠ 0)) := by
  refine ⟨lookupValidator_invalid_iff P ec t, fun hdiv => ?_⟩
  rw [lookupValidator_invalid_iff, Ne, Ne, tmod_tmod_eq_zero_iff hdiv]

/-- The times 20 and 15 in epochs of 15 seconds with a block every 10 seconds, where the
offsets are 5 and 0, and the time 1195 in epochs of 1200 seconds with a block every 10
seconds, where 10 divides 1200. -/
theorem lookupValidator_invalid_time_witness :
    (lookupValidator oddNet threeValidators 20 = .error .ErrInvalidMintBlockTime
        ↔ Int.tmod (Int.tmod 20 oddNet.epochInterval) oddNet.blockInterval ≠ 0)
      ∧ (lookupValidator oddNet threeValidators 15 = .error .ErrInvalidMintBlockTime
        ↔ Int.tmod (Int.tmod 15 oddNet.epochInterval) oddNet.blockInterval ≠ 0)
      ∧ Int.tmod (Int.tmod 20 oddNet.epochInterval) oddNet.blockInterval = 5
      ∧ Int.tmod (Int.tmod 15 oddNet.epochInterval) oddNet.blockInterval = 0
      ∧ (lookupValidator smallNet threeValidators 1195 = .error .ErrInvalidMintBlockTime
        ↔ Int.tmod 1195 smallNet.blockInterval ≠ 0)
      ∧ lookupValidator smallNet threeValidators 1195 = .error .ErrInvalidMintBlockTime :=
  ⟨(lookupValidator_invalid_time oddNet threeValidators 20).1,
    (lookupValidator_invalid_time oddNet threeValidators 15).1, by decide, by decide,
    (lookupValidator_invalid_time smallNet threeValidators 1195).2 ⟨120, by decide⟩,
    by decide⟩

/-- C6. When the parent and the current time lie in the same epoch, `tryElect` returns `nil`
and changes nothing: the context, and with it the hash of the epoch trie, the validator
list, the candidate trie and the contribution trie, are the ones before the call. -/
theorem tryElect_same_epoch (P : Params) (ec : EpochContext) (genesis parent : Header)
    (hsame : Int.tdiv parent.Time P.epochInterval = Int.tdiv ec.TimeStamp P.epochInterval) :
    tryElect P ec genesis parent = (ec, none)
      ∧ (tryElect P ec genesis parent).1.PocContext.epochTrie.Hash P
        = ec.PocContext.epochTrie.Hash P
      ∧ (tryElect P ec genesis parent).1.PocContext.GetValidators P
        = ec.PocContext.GetValidators P := by
  have h : tryElect P ec genesis parent = (ec, none) := by
    unfold tryElect
    simp only [hsame, lt_self_iff_false, decide_False, Bool.and_false, Bool.false_eq_true,
      if_false, sub_self, Int.toNat_zero, tryElectLoop]
  rw [h]
  exact ⟨rfl, rfl, rfl⟩

/-- The sample context with the parent at time 1200 and the current time 1210, both in
epoch 1. -/
theorem tryElect_same_epoch_witness :
    Int.tdiv (1200 : Int) smallNet.epochInterval = Int.tdiv (1210 : Int) smallNet.epochInterval
      ∧ tryElect smallNet { sampleEpochContext with TimeStamp := 1210 } ⟨0, []⟩ ⟨1200, []⟩
        = ({ sampleEpochContext with TimeStamp := 1210 }, none) :=
  ⟨by decide, (tryElect_same_epoch smallNet { sampleEpochContext with TimeStamp := 1210 } ⟨0, []⟩
    ⟨1200, []⟩ (by decide)).1⟩

/-- C7. When the parent lies in the genesis epoch and the current time in a later one,
`tryElect` is one election, the one of epoch `currentEpoch - 1`, and runs no kickout: its
loop is entered once, without a call of `kickoutValidator`, and the candidate trie is the
one before the call, whatever the validators minted. The election returns an error and
leaves the context when there is no candidate or fewer than `safeSize`; otherwise it stores
the validators it elects, shuffled with the seed of epoch `currentEpoch - 1`: as many as
there are candidates, at most `maxValidatorSize`, and a permutation of the head of the
ranking of the candidates by contribution descending, ties broken by ascending address
string; it then returns `nil` unless the contributions cannot be encoded. -/
theorem tryElect_genesis_transition (P : Params) (ec : EpochContext) (genesis parent : Header)
    (hgenesis : Int.tdiv parent.Time P.epochInterval = Int.tdiv genesis.Time P.epochInterval)
    (hlater : Int.tdiv genesis.Time P.epochInterval < Int.tdiv ec.TimeStamp P.epochInterval) :
    tryElect P ec genesis parent
        = elect P ec parent (Int.tdiv ec.TimeStamp P.epochInterval - 1)
      ∧ (tryElectTraced P ec genesis parent).2 = [false]
      ∧ (tryElect P ec genesis parent).1.PocContext.candidateTrie
        = ec.PocContext.candidateTrie
      ∧ (ec.PocContext.GetCandidates = [] →
          tryElect P ec genesis parent = (ec, some .noCandidates))
      ∧ (ec.PocContext.GetCandidates ≠ [] →
          ec.PocContext.GetCandidates.length < P.safeSize →
          tryElect P ec genesis parent = (ec, some .tooFewCandidates))
      ∧ (ec.PocContext.GetCandidates ≠ [] →
          P.safeSize ≤ ec.PocContext.GetCandidates.length →
          ∃ vs : List Address,
            (tryElect P ec genesis parent).1.PocContext.GetValidators P = .ok vs
              ∧ vs = sortedValidators P (candidatesOf ec) parent
                  (Int.tdiv ec.TimeStamp P.epochInterval - 1)
              ∧ vs.length = min ec.PocContext.GetCandidates.length P.maxValidatorSize
              ∧ (∀ ranked : List sortableAddress, ranked.Perm (candidatesOf ec) →
                  ranked.Pairwise (fun x y => y.weight < x.weight ∨ (y.weight = x.weight
                    ∧ bytesLt (P.addressString y.address) (P.addressString x.address)
                      = false)) →
                  vs.Perm ((ranked.take P.maxValidatorSize).map (fun c => c.address)))
              ∧ ((tryElect P ec genesis parent).2 = none
                ∨ (tryElect P ec genesis parent).2 = some .failedToEncodeContributions)) := by
  have h1 : (Int.tdiv ec.TimeStamp P.epochInterval
      - (Int.tdiv ec.TimeStamp P.epochInterval - 1)).toNat = 1 := by
    have : Int.tdiv ec.TimeStamp P.epochInterval
      - (Int.tdiv ec.TimeStamp P.epochInterval - 1) = 1 := by omega
    rw [this]; rfl
  have h : tryElect P ec genesis parent
      = elect P ec parent (Int.tdiv ec.TimeStamp P.epochInterval - 1) := by
    unfold tryElect
    simp only [hgenesis, decide_True, Bool.true_and, decide_eq_true_eq, hlater, if_true, h1,
      tryElectLoop, Bool.not_true, Bool.false_and, Bool.false_eq_true, if_false]
    split <;> rename_i heq <;> rw [heq]
  have htrace : (tryElectTraced P ec genesis parent).2 = [false] := by
    unfold tryElectTraced prevEpochOf prevEpochIsGenesis
    simp only [hgenesis, decide_True, Bool.true_and, decide_eq_true_eq, hlater, if_true, h1,
      tryElectLoopTraced, Bool.not_true, Bool.false_and, Bool.false_eq_true, if_false]
    split <;> rfl
  have hlen : (candidatesOf ec).length = ec.PocContext.GetCandidates.length := by
    simp [candidatesOf]
  have hiter : ec.PocContext.GetCandidates = [] ↔ ec.PocContext.candidateTrie.iterate = [] := by
    unfold PocContext.GetCandidates
    exact List.map_eq_nil_iff
  have hout := elect_outcome P ec parent (Int.tdiv ec.TimeStamp P.epochInterval - 1)
  have hcount : ∀ ctbs : List AccountContribution, countContributions ec = .ok ctbs →
      ec.PocContext.GetCandidates ≠ [] := by
    intro ctbs hc hnil
    unfold countContributions at hc
    rw [hiter.mp hnil] at hc
    cases hc
  refine ⟨h, htrace, ?_, ?_, ?_, ?_⟩
  · rw [h]
    exact elect_candidateTrie P ec parent _
  · intro hnil
    rw [h]
    unfold elect countContributions
    rw [hiter.mp hnil]
  · intro hne hlt
    rw [h]
    rcases hout with ⟨_, hc⟩ | ⟨he, _, _⟩ | ⟨ctbs, _, hsafe, _, _⟩
    · unfold countContributions at hc
      cases hi : ec.PocContext.candidateTrie.iterate with
      | nil => exact absurd (hiter.mpr hi) hne
      | cons e es => rw [hi] at hc; cases hc
    · exact he
    · exact absurd (hlen ▸ hlt) hsafe
  · intro hne hsafe
    rw [h]
    rcases hout with ⟨_, hc⟩ | ⟨_, _, hlt⟩ | ⟨ctbs, _, _, herr, hget⟩
    · unfold countContributions at hc
      cases hi : ec.PocContext.candidateTrie.iterate with
      | nil => exact absurd (hiter.mpr hi) hne
      | cons e es => rw [hi] at hc; cases hc
    · rw [hlen] at hlt
      omega
    · refine ⟨_, hget, rfl, ?_, ?_, ?_⟩
      · rw [sortedValidators_length, hlen]
      · intro ranked hperm hranked
        have hsorted : ranked.Pairwise (fun x y => Less P y x = false) := by
          refine hranked.imp ?_
          intro x y h
          unfold Less
          rcases h with h | ⟨h1, h2⟩
          · simp [h]
          · simp [h1, h2]
        have huniq := sortSort_unique (Less P) (Less_asymm P) (Less_negtrans P) (Less_total P)
          hperm hsorted
        rw [huniq]
        exact sortedValidators_perm P _ parent _
      · rw [herr]
        cases P.EncodeContributions ctbs with
        | none => exact Or.inr rfl
        | some enc => exact Or.inl rfl

/-- The sample context at the genesis transition: every validator has count 0 in epoch 0,
below the bound, and a kickout would remove three of them, yet the candidate trie stays; of
the six candidates the five with the highest contributions are stored as validators, and
the loop is entered once without a kickout. -/
theorem tryElect_genesis_transition_witness :
    (∀ v ∈ [addr 0, addr 1, addr 2, addr 3, addr 4],
        mintCnt sampleEpochContext 0 v = some 0 ∧ (0 : Int) < kickoutThreshold smallNet
          sampleEpochContext)
      ∧ (kickoutValidator smallNet sampleEpochContext 0).1.PocContext.GetCandidates
        = [addr 0, addr 1, addr 77]
      ∧ sampleEpochContext.PocContext.GetCandidates
        = [addr 0, addr 1, addr 2, addr 3, addr 4, addr 77]
      ∧ (tryElect smallNet sampleEpochContext ⟨0, []⟩ ⟨1190, []⟩).2 = none
      ∧ (tryElect smallNet sampleEpochContext ⟨0, []⟩ ⟨1190, []⟩).1.PocContext.GetValidators
          smallNet = .ok [addr 4, addr 3, addr 2, addr 1, addr 77]
      ∧ (tryElect smallNet sampleEpochContext ⟨0, []⟩ ⟨1190, []⟩).1.PocContext.GetCandidates
        = [addr 0, addr 1, addr 2, addr 3, addr 4, addr 77]
      ∧ tryElect smallNet sampleEpochContext ⟨0, []⟩ ⟨1190, []⟩
        = elect smallNet sampleEpochContext ⟨1190, []⟩
            (Int.tdiv sampleEpochContext.TimeStamp smallNet.epochInterval - 1)
      ∧ (tryElectTraced smallNet sampleEpochContext ⟨0, []⟩ ⟨1190, []⟩).2 = [false]
      ∧ (tryElect smallNet sampleEpochContext ⟨0, []⟩ ⟨1190, []⟩).1.PocContext.candidateTrie
        = sampleEpochContext.PocContext.candidateTrie :=
  ⟨by decide, by decide, by decide, by decide, by decide, by decide,
    (tryElect_genesis_transition smallNet sampleEpochContext ⟨0, []⟩ ⟨1190, []⟩ (by decide)
      (by decide)).1,
    (tryElect_genesis_transition smallNet sampleEpochContext ⟨0, []⟩ ⟨1190, []⟩ (by decide)
      (by decide)).2.1,
    (tryElect_genesis_transition smallNet sampleEpochContext ⟨0, []⟩ ⟨1190, []⟩ (by decide)
      (by decide)).2.2.1⟩

/-- The count stored for the validator 1 is the 8-byte big-endian value `2 ^ 63`, far
above the bound 12: `kickoutValidator` reads it as the `int64` `-2 ^ 63`, takes the
validator as a kickout candidate and removes it from the candidate trie. -/
theorem kickoutValidator_threshold_counterexample :
    hugeMintCnt.PocContext.GetValidators smallNet
        = .ok [addr 0, addr 1, addr 2, addr 3, addr 4]
      ∧ hugeMintCnt.PocContext.mintCntTrie.Get (PutUint64 (uint64 1) ++ (addr 1).Bytes)
        = some [128, 0, 0, 0, 0, 0, 0, 0]
      ∧ Uint64 [128, 0, 0, 0, 0, 0, 0, 0] = some (2 ^ 63)
      ∧ kickoutThreshold smallNet hugeMintCnt = 12
      ∧ ¬ ((2 ^ 63 : Nat) : Int) < kickoutThreshold smallNet hugeMintCnt
      ∧ mintCnt hugeMintCnt 1 (addr 1) = some (-2 ^ 63)
      ∧ needKickoutValidators smallNet hugeMintCnt 1 [addr 0, addr 1, addr 2, addr 3, addr 4]
        = some [⟨addr 1, -2 ^ 63⟩]
      ∧ hugeMintCnt.PocContext.GetCandidates
        = [addr 0, addr 1, addr 2, addr 3, addr 4, addr 9]
      ∧ (kickoutValidator smallNet hugeMintCnt 1).2 = none
      ∧ (kickoutValidator smallNet hugeMintCnt 1).1.PocContext.GetCandidates
        = [addr 0, addr 2, addr 3, addr 4, addr 9] := by
  decide

/-- C8, amended. `kickoutValidator` compares the count of a validator with
`D / blockInterval / maxValidatorSize / 2`, where `D` is the `int64` difference
`TimeStamp - timeOfFirstBlock` when that is below `epochInterval` and `epochInterval`
otherwise. The count is `0` when the key `bigEndian64(epoch) ‖ V` is absent from
`mintCntTrie`, and otherwise the stored 8-byte big-endian value read as an `int64`: the
value itself below `2 ^ 63`, and the value less `2 ^ 64`, a negative count, from `2 ^ 63`
on. The kickout candidates are exactly the validators whose count is strictly below the
bound, with their count as weight; the call leaves the candidate-trie binding of every
address that is no kickout candidate, so of every address whose count is at least the
bound, as it was. -/
theorem kickoutValidator_threshold (P : Params) (ec : EpochContext) (epoch : Int)
    (validators : List Address) (need : List sortableAddress)
    (hget : ec.PocContext.GetValidators P = .ok validators)
    (hneed : needKickoutValidators P ec epoch validators = some need) :
    kickoutThreshold P ec
        = Int.tdiv (Int.tdiv (Int.tdiv
            (if int64 (ec.TimeStamp - P.timeOfFirstBlock) < P.epochInterval then
              int64 (ec.TimeStamp - P.timeOfFirstBlock) else P.epochInterval)
            P.blockInterval) P.maxValidatorSize) 2
      ∧ (∀ v : Address,
          ec.PocContext.mintCntTrie.Get (PutUint64 (uint64 epoch) ++ v.Bytes) = none →
          mintCnt ec epoch v = some 0)
      ∧ (∀ (v : Address) (n : Nat), n < 2 ^ 64 →
          ec.PocContext.mintCntTrie.Get (PutUint64 (uint64 epoch) ++ v.Bytes)
            = some (PutUint64 n) →
          mintCnt ec epoch v = some (int64 n)
            ∧ (n < 2 ^ 63 → mintCnt ec epoch v = some (n : Int))
            ∧ (2 ^ 63 ≤ n → mintCnt ec epoch v = some ((n : Int) - 2 ^ 64)))
      ∧ (∀ (v : Address) (w : Int), (⟨v, w⟩ : sortableAddress) ∈ need
          ↔ v ∈ validators ∧ mintCnt ec epoch v = some w ∧ w < kickoutThreshold P ec)
      ∧ (∀ v : Address, (∀ x ∈ need, x.address ≠ v) →
          (kickoutValidator P ec epoch).1.PocContext.candidateTrie.Get v.Bytes
            = ec.PocContext.candidateTrie.Get v.Bytes)
      ∧ (∀ (v : Address) (cnt : Int), mintCnt ec epoch v = some cnt →
          kickoutThreshold P ec ≤ cnt →
          (kickoutValidator P ec epoch).1.PocContext.candidateTrie.Get v.Bytes
            = ec.PocContext.candidateTrie.Get v.Bytes) := by
  refine ⟨rfl, ?_, ?_, needKickoutValidators_mem P ec epoch validators need hneed,
    kickoutValidator_Get_of_not_need P ec epoch validators need hget hneed, ?_⟩
  · intro v h
    simp [mintCnt, h]
  · intro v n hn h
    have hm : mintCnt ec epoch v = some (int64 n) := by
      simp only [mintCnt, h, Uint64_PutUint64 n hn, Option.map_some']
    refine ⟨hm, fun h1 => ?_, fun h1 => ?_⟩
    · rw [hm, int64_of_lt n h1]
    · have h2 : int64 n = (n : Int) - 2 ^ 64 := by
        unfold int64
        omega
      rw [hm, h2]
  · intro v cnt h1 h2
    exact kickoutValidator_Get P ec epoch v cnt h1 h2

/-- Five validators of which one has the count 11, below the bound 12: it is the one kickout
candidate and the one candidate removed. -/
theorem kickoutValidator_threshold_witness :
    kickoutThreshold smallNet oneIdleValidator = 12
      ∧ mintCnt oneIdleValidator 1 (addr 1) = some 11
      ∧ mintCnt oneIdleValidator 1 (addr 2) = some 12
      ∧ (∀ (v : Address) (w : Int), (⟨v, w⟩ : sortableAddress) ∈ [⟨addr 1, 11⟩]
          ↔ v ∈ [addr 0, addr 1, addr 2, addr 3, addr 4] ∧ mintCnt oneIdleValidator 1 v = some w
            ∧ w < kickoutThreshold smallNet oneIdleValidator)
      ∧ (kickoutValidator smallNet oneIdleValidator 1).1.PocContext.GetCandidates
          = [addr 0, addr 2, addr 3, addr 4, addr 9] :=
  ⟨by decide, by decide, by decide,
    (kickoutValidator_threshold smallNet oneIdleValidator 1 [addr 0, addr 1, addr 2, addr 3, addr 4]
      [⟨addr 1, 11⟩] (by decide) (by decide)).2.2.2.1,
    by decide⟩

/-- Five validators with the counts 11, 10, 9, 8, 7, all kickout candidates, of which two may
be removed: in the order weight descending the first two are the addresses 0 and 1, and
`kickoutValidator` keeps them and removes the addresses 3 and 4. -/
theorem kickoutValidator_order_counterexample :
    needKickoutValidators smallNet allIdleValidators 1 [addr 0, addr 1, addr 2, addr 3, addr 4]
        = some [⟨addr 0, 11⟩, ⟨addr 1, 10⟩, ⟨addr 2, 9⟩, ⟨addr 3, 8⟩, ⟨addr 4, 7⟩]
      ∧ ([⟨addr 0, 11⟩, ⟨addr 1, 10⟩, ⟨addr 2, 9⟩, ⟨addr 3, 8⟩, ⟨addr 4, 7⟩]
          : List sortableAddress).Pairwise (fun x y => y.weight < x.weight ∨ (y.weight = x.weight
            ∧ bytesLt (smallNet.addressString y.address) (smallNet.addressString x.address)
              = false))
      ∧ allIdleValidators.PocContext.GetCandidates = [addr 0, addr 1, addr 2, addr 3, addr 4]
      ∧ (kickoutValidator smallNet allIdleValidators 1).2 = none
      ∧ (kickoutValidator smallNet allIdleValidators 1).1.PocContext.GetCandidates
        = [addr 0, addr 1, addr 2]
      ∧ (kickoutValidator smallNet allIdleValidators 1).1.PocContext.GetCandidates
        ≠ [addr 2, addr 3, addr 4] := by
  decide

/-- C9, amended. `kickoutValidator` processes the kickout candidates in order of weight
(mint count) ascending, ties broken by descending address string: on a candidate trie
without unresolvable keys and with `c` candidates, the call returns `nil` and removes from
the candidate trie the keys of the first `c - safeSize` kickout candidates in that order
(lowest weight first), all of them when there are fewer, and nothing else. -/
theorem kickoutValidator_order (P : Params) (ec : EpochContext) (epoch : Int)
    (validators : List Address) (need ranked : List sortableAddress)
    (hget : ec.PocContext.GetValidators P = .ok validators) (hne : validators ≠ [])
    (hneed : needKickoutValidators P ec epoch validators = some need)
    (hfaults : ec.PocContext.candidateTrie.faults = [])
    (hperm : ranked.Perm need)
    (hranked : ranked.Pairwise (fun x y => x.weight < y.weight ∨ (x.weight = y.weight
      ∧ bytesLt (P.addressString x.address) (P.addressString y.address) = false))) :
    (kickoutValidator P ec epoch).2 = none
      ∧ (kickoutValidator P ec epoch).1.PocContext.candidateTrie.iterate
        = ec.PocContext.candidateTrie.iterate.filter (fun e =>
            !decide (e.1 ∈ (ranked.take
              (ec.PocContext.candidateTrie.iterate.length - P.safeSize)).map
                (fun x => x.address.Bytes))) := by
  have hsorted : ranked.Pairwise (fun x y => (fun a b => Less P b a) y x = false) := by
    refine hranked.imp ?_
    intro x y h
    simp only
    unfold Less
    rcases h with h | ⟨h1, h2⟩
    · simp [h]
    · simp [h1, h2]
  have huniq := sortSort_unique (fun a b => Less P b a) (fun a b h => Less_asymm P b a h)
    (fun a b c h1 h2 => Less_negtrans P c b a h2 h1) (fun a b h1 h2 => Less_total P a b h2 h1)
    hperm hsorted
  rw [huniq]
  exact kickoutValidator_noFault P ec epoch validators need hget hne hneed hfaults

/-- Five validators with the counts 11, 10, 9, 8, 7: the two removed are the first two in
the order weight ascending, the addresses 4 and 3. -/
theorem kickoutValidator_order_witness :
    (kickoutValidator smallNet allIdleValidators 1).2 = none
      ∧ (kickoutValidator smallNet allIdleValidators 1).1.PocContext.candidateTrie.iterate
        = allIdleValidators.PocContext.candidateTrie.iterate.filter (fun e =>
            !decide (e.1 ∈ (([⟨addr 4, 7⟩, ⟨addr 3, 8⟩, ⟨addr 2, 9⟩, ⟨addr 1, 10⟩, ⟨addr 0, 11⟩]
              : List sortableAddress).take
              (allIdleValidators.PocContext.candidateTrie.iterate.length - smallNet.safeSize)).map
                (fun x => x.address.Bytes))) :=
  kickoutValidator_order smallNet allIdleValidators 1 [addr 0, addr 1, addr 2, addr 3, addr 4]
    [⟨addr 0, 11⟩, ⟨addr 1, 10⟩, ⟨addr 2, 9⟩, ⟨addr 3, 8⟩, ⟨addr 4, 7⟩]
    [⟨addr 4, 7⟩, ⟨addr 3, 8⟩, ⟨addr 2, 9⟩, ⟨addr 1, 10⟩, ⟨addr 0, 11⟩]
    (by decide) (by decide) (by decide) (by decide) (by decide) (by decide)

/-- C10. When every validator is under-producing, their mint counts are pairwise distinct
and the candidate pool is exactly the `maxValidatorSize` validators (on a candidate trie
without unresolvable keys, with `safeSize ≤ maxValidatorSize`), `kickoutValidator` returns
`nil`, leaves exactly `safeSize` candidates, and every validator it removes has a strictly
lower mint count than every validator it keeps. -/
theorem kickoutValidator_least_active (P : Params) (ec : EpochContext) (epoch : Int)
    (validators : List Address)
    (hget : ec.PocContext.GetValidators P = .ok validators)
    (hlen : validators.length = P.maxValidatorSize)
    (hpoolLen : ec.PocContext.GetCandidates.length = P.maxValidatorSize)
    (hpool : ∀ v ∈ validators, (ec.PocContext.candidateTrie.Get v.Bytes).isSome = true)
    (hunder : ∀ v ∈ validators, ∃ cnt : Int,
      mintCnt ec epoch v = some cnt ∧ cnt < kickoutThreshold P ec)
    (hdistinct : validators.Pairwise (fun v w => mintCnt ec epoch v ≠ mintCnt ec epoch w))
    (hsize : P.safeSize ≤ P.maxValidatorSize)
    (hfaults : ec.PocContext.candidateTrie.faults = []) :
    (kickoutValidator P ec epoch).2 = none
      ∧ (kickoutValidator P ec epoch).1.PocContext.GetCandidates.length = P.safeSize
      ∧ ∀ a ∈ validators, ∀ b ∈ validators, ∀ ca cb : Int,
          mintCnt ec epoch a = some ca → mintCnt ec epoch b = some cb →
          (kickoutValidator P ec epoch).1.PocContext.candidateTrie.Get a.Bytes = none →
          ((kickoutValidator P ec epoch).1.PocContext.candidateTrie.Get b.Bytes).isSome = true →
          ca < cb := by
  obtain ⟨need, hneed, hmap⟩ := needKickoutValidators_all P ec epoch validators hunder
  have hMpos := P.maxValidatorSize_pos
  have hne : validators ≠ [] := by
    intro h; rw [h] at hlen; simp at hlen; omega
  obtain ⟨hnil, hiter⟩ := kickoutValidator_noFault P ec epoch validators need hget hne hneed hfaults
  have hmem := needKickoutValidators_mem P ec epoch validators need hneed
  have hc : ec.PocContext.candidateTrie.iterate.length = P.maxValidatorSize := by
    simpa [PocContext.GetCandidates] using hpoolLen
  rw [hc] at hiter
  have hperm := sortSort_perm (fun a b => Less P b a) need
  have hsorted := sortSort_sorted (fun a b => Less P b a) (fun a b h => Less_asymm P b a h)
    (fun a b c h1 h2 => Less_negtrans P c b a h2 h1) need
  generalize sortSort (fun a b => Less P b a) need = sorted at hiter hperm hsorted
  have hnodupV : validators.Nodup := by
    refine hdistinct.imp ?_
    intro v w h hvw
    exact h (by rw [hvw])
  have hsortedAddr : (sorted.map (fun x => x.address)).Perm validators := by
    rw [← hmap]; exact hperm.map _
  have hmemSorted : ∀ x ∈ sorted, x.address ∈ validators := by
    intro x hx
    exact hsortedAddr.subset (List.mem_map_of_mem _ hx)
  have hKeq : (sorted.take (P.maxValidatorSize - P.safeSize)).map (fun x => x.address.Bytes)
      = ((sorted.take (P.maxValidatorSize - P.safeSize)).map (fun x => x.address)).map
          Address.Bytes := by
    rw [List.map_map]; rfl
  have hKnodup : ((sorted.take (P.maxValidatorSize - P.safeSize)).map
      (fun x => x.address.Bytes)).Nodup := by
    rw [hKeq]
    apply List.Nodup.map (fun a b h => Address.Bytes_inj h)
    exact (hsortedAddr.nodup_iff.mpr hnodupV).sublist ((List.take_sublist _ _).map _)
  have hKsub : ∀ k ∈ (sorted.take (P.maxValidatorSize - P.safeSize)).map
      (fun x => x.address.Bytes), k ∈ ec.PocContext.candidateTrie.entries.map Prod.fst := by
    intro k hk
    obtain ⟨x, hx, rfl⟩ := List.mem_map.mp hk
    exact (Get_isSome_iff _ hfaults _).mp (hpool _ (hmemSorted x (List.mem_of_mem_take hx)))
  have hKlen : ((sorted.take (P.maxValidatorSize - P.safeSize)).map
      (fun x => x.address.Bytes)).length = P.maxValidatorSize - P.safeSize := by
    rw [List.length_map, List.length_take, hperm.length_eq]
    have : need.length = P.maxValidatorSize := by
      rw [← hlen, ← hmap, List.length_map]
    omega
  have hflen := filter_keys_length ec.PocContext.candidateTrie.entries
    ec.PocContext.candidateTrie.sorted _ hKnodup hKsub
  have hGet : ∀ v : Address,
      (kickoutValidator P ec epoch).1.PocContext.candidateTrie.Get v.Bytes
        = if v.Bytes ∈ (sorted.take (P.maxValidatorSize - P.safeSize)).map
            (fun x => x.address.Bytes) then none
          else ec.PocContext.candidateTrie.Get v.Bytes := by
    intro v
    have := find_filter_key ec.PocContext.candidateTrie.entries
      ((sorted.take (P.maxValidatorSize - P.safeSize)).map (fun x => x.address.Bytes)) v.Bytes
    simp only [Trie.iterate] at hiter
    rw [Trie.Get_noFaults _ ((kickoutValidator_faults P ec epoch).trans hfaults),
      Trie.Get_noFaults _ hfaults, hiter, this]
    split <;> rfl
  refine ⟨hnil, ?_, ?_⟩
  · simp only [PocContext.GetCandidates, List.length_map, hiter]
    simp only [Trie.iterate] at hc ⊢
    omega
  · intro a ha b hb ca cb hca hcb hra hkb
    rw [hGet a] at hra
    rw [hGet b] at hkb
    have haK : a.Bytes ∈ (sorted.take (P.maxValidatorSize - P.safeSize)).map
        (fun x => x.address.Bytes) := by
      by_contra hnot
      rw [if_neg hnot] at hra
      have := hpool a ha
      rw [hra] at this
      simp at this
    have hbK : b.Bytes ∉ (sorted.take (P.maxValidatorSize - P.safeSize)).map
        (fun x => x.address.Bytes) := by
      intro hin
      rw [if_pos hin] at hkb
      simp at hkb
    obtain ⟨x, hx, hxa⟩ := List.mem_map.mp haK
    have hxa2 : x.address = a := Address.Bytes_inj hxa
    have hxw : x.weight = ca := by
      have := (hmem x.address x.weight).mp (hperm.subset (List.mem_of_mem_take hx))
      rw [hxa2, hca] at this
      injection this.2.1 with h
      exact h.symm
    obtain ⟨cb2, hcb2, hcblt⟩ := hunder b hb
    have hbneed : (⟨b, cb⟩ : sortableAddress) ∈ need := by
      rw [hcb] at hcb2
      injection hcb2 with hcb2
      exact (hmem b cb).mpr ⟨hb, hcb, by rw [hcb2]; exact hcblt⟩
    have hbsorted : (⟨b, cb⟩ : sortableAddress) ∈ sorted := hperm.symm.subset hbneed
    rw [← List.take_append_drop (P.maxValidatorSize - P.safeSize) sorted] at hbsorted hsorted
    have hbdrop : (⟨b, cb⟩ : sortableAddress) ∈ sorted.drop (P.maxValidatorSize - P.safeSize) := by
      rcases List.mem_append.mp hbsorted with h | h
      · exact absurd (List.mem_map_of_mem (fun x => x.address.Bytes) h) hbK
      · exact h
    have hle := (List.pairwise_append.mp hsorted).2.2 x hx _ hbdrop
    simp only [Less, hxw] at hle
    have hab : a ≠ b := by
      intro h; rw [h] at haK; exact hbK haK
    have hcne : mintCnt ec epoch a ≠ mintCnt ec epoch b :=
      List.Pairwise.forall (fun v w h => Ne.symm h) hdistinct ha hb hab
    rw [hca, hcb] at hcne
    have hcne2 : ca ≠ cb := fun h => hcne (by rw [h])
    by_cases h1 : ca < cb
    · exact h1
    · by_cases h2 : ca > cb
      · simp [h1, h2] at hle
      · omega

/-- Five validators with the counts 11, 10, 9, 8, 7 and a safe size of 3. -/
theorem kickoutValidator_least_active_witness :
    (kickoutValidator smallNet allIdleValidators 1).2 = none
      ∧ (kickoutValidator smallNet allIdleValidators 1).1.PocContext.GetCandidates.length
        = smallNet.safeSize
      ∧ ∀ a ∈ [addr 0, addr 1, addr 2, addr 3, addr 4],
        ∀ b ∈ [addr 0, addr 1, addr 2, addr 3, addr 4], ∀ ca cb : Int,
          mintCnt allIdleValidators 1 a = some ca → mintCnt allIdleValidators 1 b = some cb →
          (kickoutValidator smallNet allIdleValidators 1).1.PocContext.candidateTrie.Get a.Bytes
            = none →
          ((kickoutValidator smallNet allIdleValidators 1).1.PocContext.candidateTrie.Get
            b.Bytes).isSome = true →
          ca < cb :=
  kickoutValidator_least_active smallNet allIdleValidators 1
    [addr 0, addr 1, addr 2, addr 3, addr 4] (by decide) (by decide) (by decide) (by decide)
    (by decide) (by decide) (by decide) (by decide)

/-- C11. With an empty validator list, never written or written as the empty list,
`kickoutValidator` returns an error and leaves the context, and so the candidate trie, as it
was. -/
theorem kickoutValidator_no_validators (P : Params) (ec : EpochContext) (epoch : Int)
    (hempty : ec.PocContext.epochTrie.Get validatorKey = none
      ∨ ec.PocContext.GetValidators P = .ok []) :
    ((kickoutValidator P ec epoch).2 = some .failedToGetValidator
        ∨ (kickoutValidator P ec epoch).2 = some .noValidatorCouldBeKickout)
      ∧ (kickoutValidator P ec epoch).1 = ec
      ∧ (kickoutValidator P ec epoch).1.PocContext.candidateTrie
        = ec.PocContext.candidateTrie := by
  rcases hempty with h | h
  · have hg : ec.PocContext.GetValidators P = .error .failedToDecodeValidators := by
      simp [PocContext.GetValidators, h, P.decode_nil]
    simp [kickoutValidator, hg]
  · simp [kickoutValidator, h]

/-- A context with no epoch trie entry, and one whose validator list was written empty. -/
theorem kickoutValidator_no_validators_witness :
    (((kickoutValidator smallNet emptyEpochContext 1).2 = some .failedToGetValidator
        ∨ (kickoutValidator smallNet emptyEpochContext 1).2 = some .noValidatorCouldBeKickout)
      ∧ (kickoutValidator smallNet emptyEpochContext 1).1 = emptyEpochContext
      ∧ (kickoutValidator smallNet emptyEpochContext 1).1.PocContext.candidateTrie
        = emptyEpochContext.PocContext.candidateTrie)
      ∧ (kickoutValidator smallNet
          { sampleEpochContext with
            PocContext := (sampleEpochContext.PocContext.SetValidators smallNet []).1 } 1).2
        = some .noValidatorCouldBeKickout :=
  ⟨kickoutValidator_no_validators smallNet emptyEpochContext 1 (Or.inl (by decide)),
    by decide⟩

/-- C12. When a new epoch must be elected and the candidate trie holds fewer than `safeSize`
addresses, `tryElect` returns an error and writes no validator list: the epoch trie and the
contribution trie are the ones before the call. -/
theorem tryElect_too_few_candidates (P : Params) (ec : EpochContext) (genesis parent : Header)
    (helect : Int.tdiv parent.Time P.epochInterval < Int.tdiv ec.TimeStamp P.epochInterval)
    (hfew : ec.PocContext.GetCandidates.length < P.safeSize) :
    (tryElect P ec genesis parent).2 ≠ none
      ∧ (tryElect P ec genesis parent).1.PocContext.epochTrie = ec.PocContext.epochTrie
      ∧ (tryElect P ec genesis parent).1.PocContext.contributionTrie
        = ec.PocContext.contributionTrie := by
  obtain ⟨prevEpoch, g, n, iter, hloop⟩ := tryElect_eq_loop P ec genesis parent helect
  rw [hloop]
  exact tryElectLoop_few P parent prevEpoch g n prevEpoch iter ec hfew

/-- Two candidates with a safe size of 3, at the genesis transition and one epoch later. -/
theorem tryElect_too_few_candidates_witness :
    ((tryElect smallNet twoCandidates ⟨0, []⟩ ⟨1190, []⟩).2 ≠ none
      ∧ (tryElect smallNet twoCandidates ⟨0, []⟩ ⟨1190, []⟩).1.PocContext.epochTrie
        = twoCandidates.PocContext.epochTrie
      ∧ (tryElect smallNet twoCandidates ⟨0, []⟩ ⟨1190, []⟩).1.PocContext.contributionTrie
        = twoCandidates.PocContext.contributionTrie)
      ∧ (tryElect smallNet twoCandidates ⟨0, []⟩ ⟨1190, []⟩).2 = some .tooFewCandidates
      ∧ (tryElect smallNet emptyEpochContext ⟨0, []⟩ ⟨1190, []⟩).2 = some .noCandidates :=
  ⟨tryElect_too_few_candidates smallNet twoCandidates ⟨0, []⟩ ⟨1190, []⟩ (by decide)
    (by decide), by decide, by decide⟩

/-- Two pairs of runs with the same parent, times, candidate trie and contributions: the
first pair differs in the stored validators only, the second in the mint counts only, and
both pairs elect different validator lists. -/
theorem tryElect_deterministic_counterexample :
    laterEpochContext.PocContext.candidateTrie = laterOneValidator.PocContext.candidateTrie
      ∧ laterEpochContext.PocContext.candidateTrie = laterBusyValidator.PocContext.candidateTrie
      ∧ laterEpochContext.PocContext.mintCntTrie = laterOneValidator.PocContext.mintCntTrie
      ∧ laterEpochContext.PocContext.epochTrie = laterBusyValidator.PocContext.epochTrie
      ∧ (tryElect smallNet laterEpochContext ⟨0, []⟩ ⟨2390, []⟩).2 = none
      ∧ (tryElect smallNet laterEpochContext ⟨0, []⟩ ⟨2390, []⟩).1.PocContext.GetValidators
          smallNet = .ok [addr 1, addr 0, addr 77]
      ∧ (tryElect smallNet laterOneValidator ⟨0, []⟩ ⟨2390, []⟩).2 = none
      ∧ (tryElect smallNet laterOneValidator ⟨0, []⟩ ⟨2390, []⟩).1.PocContext.GetValidators
          smallNet = .ok [addr 4, addr 3, addr 2, addr 1, addr 77]
      ∧ (tryElect smallNet laterBusyValidator ⟨0, []⟩ ⟨2390, []⟩).2 = none
      ∧ (tryElect smallNet laterBusyValidator ⟨0, []⟩ ⟨2390, []⟩).1.PocContext.GetValidators
          smallNet = .ok [addr 4, addr 0, addr 77] := by
  decide

/-- C13, amended. Two runs of `tryElect` with the same parent hash, the same genesis, parent
and current times, the same candidate trie, the same contributions of the candidates, the
same mint-count trie and the same stored validator list return the same error and leave the
same validator list, element by element, whatever the latestTx trie, the contribution trie
and the rest of the epoch trie hold. -/
theorem tryElect_deterministic (P : Params) (ec1 ec2 : EpochContext)
    (genesis1 genesis2 parent1 parent2 : Header)
    (hgenesis : genesis1.Time = genesis2.Time)
    (hparentTime : parent1.Time = parent2.Time) (hparentHash : parent1.Hash = parent2.Hash)
    (hnow : ec1.TimeStamp = ec2.TimeStamp)
    (hcandidates : ec1.PocContext.candidateTrie = ec2.PocContext.candidateTrie)
    (hcontributions : ∀ a ∈ ec1.PocContext.GetCandidates, ec1.stateDB a = ec2.stateDB a)
    (hmintCnt : ec1.PocContext.mintCntTrie = ec2.PocContext.mintCntTrie)
    (hvalidators : ec1.PocContext.GetValidators P = ec2.PocContext.GetValidators P) :
    (tryElect P ec1 genesis1 parent1).2 = (tryElect P ec2 genesis2 parent2).2
      ∧ (tryElect P ec1 genesis1 parent1).1.PocContext.GetValidators P
        = (tryElect P ec2 genesis2 parent2).1.PocContext.GetValidators P := by
  have hp : parent1 = parent2 := by
    cases parent1; cases parent2
    simp only at hparentTime hparentHash
    rw [hparentTime, hparentHash]
  subst hp
  have hR : sameElectionInput P ec1 ec2 :=
    ⟨hnow, hcandidates, hmintCnt, hvalidators, hcontributions⟩
  unfold tryElect
  simp only [hgenesis, hnow, hmintCnt]
  have key := fun pe g n i iter => tryElectLoop_congr P parent1 pe g n i iter ec1 ec2 hR
  exact ⟨(key _ _ _ _ _).1, (key _ _ _ _ _).2.2.2.2.1⟩

/-- Two runs one epoch later that differ in the latestTx trie, the contribution trie and the
contributions of addresses that are no candidates. -/
theorem tryElect_deterministic_witness :
    (tryElect smallNet laterEpochContext ⟨0, []⟩ ⟨2390, []⟩).2
        = (tryElect smallNet
            { laterEpochContext with
              PocContext := { laterEpochContext.PocContext with
                latestTxTrie := Trie.empty.Update [1] [2],
                contributionTrie := Trie.empty.Update [3] [4] },
              stateDB := fun a => if a = addr 200 then 5 else laterEpochContext.stateDB a }
            ⟨0, [9]⟩ ⟨2390, []⟩).2
      ∧ (tryElect smallNet laterEpochContext ⟨0, []⟩ ⟨2390, []⟩).1.PocContext.GetValidators
          smallNet
        = (tryElect smallNet
            { laterEpochContext with
              PocContext := { laterEpochContext.PocContext with
                latestTxTrie := Trie.empty.Update [1] [2],
                contributionTrie := Trie.empty.Update [3] [4] },
              stateDB := fun a => if a = addr 200 then 5 else laterEpochContext.stateDB a }
            ⟨0, [9]⟩ ⟨2390, []⟩).1.PocContext.GetValidators smallNet :=
  tryElect_deterministic smallNet laterEpochContext _ ⟨0, []⟩ ⟨0, [9]⟩ ⟨2390, []⟩ ⟨2390, []⟩
    rfl rfl rfl rfl rfl (by decide) rfl rfl

/-- C14. With nonce checking enabled, `preCheck` returns nil exactly when the nonce of the
sender equals the nonce of the message, the nonce-too-low error exactly when it is greater,
and `ErrNonceTooHigh` exactly when it is less; so exactly one of the three outcomes occurs. -/
theorem preCheck_nonce (st : StateTransition) (hcheck : st.msg.CheckNonce = true) :
    (st.preCheck.2 = none ↔ st.statedb.GetNonce st.msg.From = st.msg.Nonce)
      ∧ (st.preCheck.2 = some .nonceTooLow ↔ st.statedb.GetNonce st.msg.From > st.msg.Nonce)
      ∧ (st.preCheck.2 = some .ErrNonceTooHigh
          ↔ st.statedb.GetNonce st.msg.From < st.msg.Nonce) := by
  rw [StateTransition.preCheck_eq]
  simp only [hcheck, if_true]
  rcases Nat.lt_trichotomy (st.statedb.GetNonce st.msg.From) st.msg.Nonce with h | h | h
  · have h1 : ¬ st.statedb.GetNonce st.msg.From = st.msg.Nonce := by omega
    have h2 : ¬ st.statedb.GetNonce st.msg.From > st.msg.Nonce := by omega
    simp [h, h1, h2]
  · have h1 : ¬ st.statedb.GetNonce st.msg.From < st.msg.Nonce := by omega
    have h2 : ¬ st.statedb.GetNonce st.msg.From > st.msg.Nonce := by omega
    simp [h, h1, h2]
  · have h1 : ¬ st.statedb.GetNonce st.msg.From < st.msg.Nonce := by omega
    have h2 : ¬ st.statedb.GetNonce st.msg.From = st.msg.Nonce := by omega
    simp [h, h1, h2]

/-- A sender with nonce 5 and a message with nonce 5. -/
theorem preCheck_nonce_witness :
    ((NewStateTransition (sampleMessage .Binary 2 1 3 5 [])
          (sampleStateDB [(1, 0, 100), (2, 5, 7)])).preCheck.2 = none
        ↔ (sampleStateDB [(1, 0, 100), (2, 5, 7)]).GetNonce (addr 2) = 5)
      ∧ ((NewStateTransition (sampleMessage .Binary 2 1 3 5 [])
          (sampleStateDB [(1, 0, 100), (2, 5, 7)])).preCheck.2 = some .nonceTooLow
        ↔ (sampleStateDB [(1, 0, 100), (2, 5, 7)]).GetNonce (addr 2) > 5)
      ∧ ((NewStateTransition (sampleMessage .Binary 2 1 3 5 [])
          (sampleStateDB [(1, 0, 100), (2, 5, 7)])).preCheck.2 = some .ErrNonceTooHigh
        ↔ (sampleStateDB [(1, 0, 100), (2, 5, 7)]).GetNonce (addr 2) < 5) :=
  preCheck_nonce
    (NewStateTransition (sampleMessage .Binary 2 1 3 5 [])
      (sampleStateDB [(1, 0, 100), (2, 5, 7)])) rfl

/-- A sender with an account and a message whose nonce 1 is not the nonce 0 of the sender:
`ApplyMessage` and `ApplyDataMessage` report `failed = false`. A sender without an account
has one after the call. A message without nonce checking is applied whatever its nonce. -/
theorem apply_nonce_mismatch_counterexample :
    (sampleStateDB [(1, 0, 100), (2, 5, 7)]).GetNonce (addr 1) ≠ 1
      ∧ (ApplyMessage (sampleMessage .Binary 1 2 30 1 [])
          (sampleStateDB [(1, 0, 100), (2, 5, 7)])).2.2.1 = false
      ∧ (ApplyDataMessage sampleStateParams (hashOf 50)
          (sampleMessage .ConfirmationData 1 2 0 1 [7, 7])
          (sampleStateDB [(1, 0, 100), (2, 5, 7)]) emptyRecordState).2.2.1 = false
      ∧ (sampleStateDB [(1, 0, 100), (2, 5, 7)]).GetNonce (addr 9) ≠ 1
      ∧ (sampleStateDB [(1, 0, 100), (2, 5, 7)]).Exist (addr 9) = false
      ∧ (ApplyMessage (sampleMessage .Binary 9 2 30 1 [])
          (sampleStateDB [(1, 0, 100), (2, 5, 7)])).1.Exist (addr 9) = true
      ∧ (ApplyMessage (sampleMessage .Binary 9 2 30 1 [])
          (sampleStateDB [(1, 0, 100), (2, 5, 7)])).1 ≠ sampleStateDB [(1, 0, 100), (2, 5, 7)]
      ∧ (ApplyDataMessage sampleStateParams (hashOf 50)
          (sampleMessage .ConfirmationData 9 2 0 1 [7, 7])
          (sampleStateDB [(1, 0, 100), (2, 5, 7)]) emptyRecordState).1.Exist (addr 9) = true
      ∧ (ApplyMessage { sampleMessage .Binary 1 2 30 1 [] with CheckNonce := false }
          (sampleStateDB [(1, 0, 100), (2, 5, 7)])).2.2.2 = none
      ∧ (ApplyMessage { sampleMessage .Binary 1 2 30 1 [] with CheckNonce := false }
          (sampleStateDB [(1, 0, 100), (2, 5, 7)])).1.GetBalance (addr 1) = 70 := by
  decide

/-- C15, amended. For every state, sender and message with nonce checking whose nonce is not
the nonce of the sender, `ApplyMessage` and `ApplyDataMessage` return the nonce error with
`failed = false`; the record state is the one before the call, and the account state is the
one before the call when the sender has an account, and otherwise that state with a fresh
account of the sender; so every nonce, balance, contribution and list of records reads as
before. -/
theorem apply_nonce_mismatch (D : StateParams) (txHash : Hash) (msg : Message)
    (statedb : StateDB) (statedbRecord : StateDBRecord)
    (hcheck : msg.CheckNonce = true) (hne : msg.Nonce ≠ statedb.GetNonce msg.From) :
    ApplyMessage msg statedb
        = (if statedb.Exist msg.From then statedb else statedb.CreateAccount msg.From, [], false,
            some (if statedb.GetNonce msg.From < msg.Nonce then TxError.ErrNonceTooHigh
              else TxError.nonceTooLow))
      ∧ ApplyDataMessage D txHash msg statedb statedbRecord
        = (if statedb.Exist msg.From then statedb else statedb.CreateAccount msg.From,
            statedbRecord, false,
            some (if statedb.GetNonce msg.From < msg.Nonce then TxError.ErrNonceTooHigh
              else TxError.nonceTooLow))
      ∧ ∀ a,
        (if statedb.Exist msg.From then statedb else statedb.CreateAccount msg.From).GetNonce a
            = statedb.GetNonce a
          ∧ (if statedb.Exist msg.From then statedb
              else statedb.CreateAccount msg.From).GetBalance a = statedb.GetBalance a
          ∧ (if statedb.Exist msg.From then statedb
              else statedb.CreateAccount msg.From).GetContribution a = statedb.GetContribution a
          ∧ (if statedb.Exist msg.From then statedb
              else statedb.CreateAccount msg.From).GetRecords a = statedb.GetRecords a := by
  have hpre : (NewStateTransition msg statedb).preCheck
      = ((NewStateTransition msg statedb).from_.1,
          some (if statedb.GetNonce msg.From < msg.Nonce then TxError.ErrNonceTooHigh
            else TxError.nonceTooLow)) := by
    rw [StateTransition.preCheck_eq]
    simp only [NewStateTransition, hcheck, if_true]
    by_cases hlt : statedb.GetNonce msg.From < msg.Nonce
    · simp [hlt]
    · have hgt : statedb.GetNonce msg.From > msg.Nonce := by omega
      simp [hlt, hgt]
  have hst : (NewStateTransition msg statedb).from_.1.statedb
      = if statedb.Exist msg.From then statedb else statedb.CreateAccount msg.From := by
    rw [StateTransition.from_statedb]
    rfl
  have hget : ∀ a, ((if statedb.Exist msg.From then statedb
        else statedb.CreateAccount msg.From).getAccount a).getD Account.new
      = (statedb.getAccount a).getD Account.new := by
    intro a
    rw [← hst]
    exact StateTransition.from_getD (NewStateTransition msg statedb) a
  refine ⟨?_, ?_, ?_⟩
  · unfold ApplyMessage StateTransition.TransitionDb
    rw [hpre]
    simp only [hst]
  · unfold ApplyDataMessage
    rw [hpre]
    simp only [hst]
  · intro a
    unfold StateDB.GetNonce StateDB.GetBalance StateDB.GetContribution StateDB.GetRecords
    rw [hget a]
    exact ⟨rfl, rfl, rfl, rfl⟩

/-- A message with nonce 1 from a sender with nonce 0 and from a sender without an account. -/
theorem apply_nonce_mismatch_witness :
    (ApplyMessage (sampleMessage .Binary 1 2 30 1 []) (sampleStateDB [(1, 0, 100), (2, 5, 7)])
        = (sampleStateDB [(1, 0, 100), (2, 5, 7)], [], false, some TxError.ErrNonceTooHigh))
      ∧ (ApplyDataMessage sampleStateParams (hashOf 50)
          (sampleMessage .TransferData 2 1 0 1 [7, 7])
          (sampleStateDB [(1, 0, 100), (2, 5, 7)]) emptyRecordState).2.2.2
        = some TxError.nonceTooLow :=
  ⟨(apply_nonce_mismatch sampleStateParams (hashOf 50) (sampleMessage .Binary 1 2 30 1 [])
      (sampleStateDB [(1, 0, 100), (2, 5, 7)]) emptyRecordState rfl (by decide)).1,
    by decide⟩

/-- C16. A LoginCandidate or LogoutCandidate transaction that `ApplyTransaction` applies
goes through `applyPocMessage` only: whatever the nonce of the message is, the nonce of the
sender and every other nonce are the same after the call, so the nonce of the sender is not
increased by 1. -/
theorem ApplyTransaction_candidate_nonce (P : Params) (D : StateParams) (config : ChainConfig)
    (s : ChainState) (tx : Transaction) (msg : Message)
    (hmsg : tx.AsMessage = .ok msg)
    (htype : msg.Type_ = .LoginCandidate ∨ msg.Type_ = .LogoutCandidate) :
    ∀ a, (ApplyTransaction P D config s tx).1.statedb.GetNonce a = s.statedb.GetNonce a := by
  intro a
  unfold ApplyTransaction
  rw [hmsg]
  simp only
  cases tx.Validate with
  | some err => rfl
  | none =>
    simp only
    rcases htype with ht | ht
    · rw [ht]
      simp only [applyPocMessage, ht]
      obtain ⟨del, hdel⟩ := makeReceipt_statedb P D config
        { s with pocContext := (s.pocContext.BecomeCandidate msg.From).1 } false tx.Hash
      rw [hdel]
      exact StateDB.GetNonce_Finalise s.statedb del a
    · rw [ht]
      simp only [applyPocMessage, ht]
      obtain ⟨del, hdel⟩ := makeReceipt_statedb P D config
        { s with pocContext := (s.pocContext.KickoutCandidate msg.From).1 } false tx.Hash
      rw [hdel]
      exact StateDB.GetNonce_Finalise s.statedb del a

/-- A LoginCandidate transaction of the address 1, whose nonce is 0, is applied: it returns a
receipt, the address is a candidate, and its nonce is still 0; a second application of the
same transaction returns a receipt again. A Binary transaction on the same state leaves the
nonce 1. -/
theorem ApplyTransaction_candidate_nonce_witness :
    (∀ a, (ApplyTransaction smallNet sampleStateParams ⟨true, true⟩
          ⟨emptyPocContext, sampleStateDB [(1, 0, 100), (2, 5, 7)], emptyRecordState⟩
          ⟨.ok (sampleMessage .LoginCandidate 1 2 0 0 []), none, hashOf 50⟩).1.statedb.GetNonce a
        = (sampleStateDB [(1, 0, 100), (2, 5, 7)]).GetNonce a)
      ∧ (ApplyTransaction smallNet sampleStateParams ⟨true, true⟩
          ⟨emptyPocContext, sampleStateDB [(1, 0, 100), (2, 5, 7)], emptyRecordState⟩
          ⟨.ok (sampleMessage .LoginCandidate 1 2 0 0 []), none, hashOf 50⟩).2
        = .ok ⟨[], [], false, hashOf 50⟩
      ∧ (ApplyTransaction smallNet sampleStateParams ⟨true, true⟩
          ⟨emptyPocContext, sampleStateDB [(1, 0, 100), (2, 5, 7)], emptyRecordState⟩
          ⟨.ok (sampleMessage .LoginCandidate 1 2 0 0 []), none, hashOf 50⟩).1.pocContext.GetCandidates
        = [addr 1]
      ∧ (ApplyTransaction smallNet sampleStateParams ⟨true, true⟩
          ⟨emptyPocContext, sampleStateDB [(1, 0, 100), (2, 5, 7)], emptyRecordState⟩
          ⟨.ok (sampleMessage .LoginCandidate 1 2 0 0 []), none, hashOf 50⟩).1.statedb.GetNonce
            (addr 1) = 0
      ∧ (ApplyTransaction smallNet sampleStateParams ⟨true, true⟩
          (ApplyTransaction smallNet sampleStateParams ⟨true, true⟩
            ⟨emptyPocContext, sampleStateDB [(1, 0, 100), (2, 5, 7)], emptyRecordState⟩
            ⟨.ok (sampleMessage .LoginCandidate 1 2 0 0 []), none, hashOf 50⟩).1
          ⟨.ok (sampleMessage .LoginCandidate 1 2 0 0 []), none, hashOf 50⟩).2
        = .ok ⟨[], [], false, hashOf 50⟩
      ∧ (ApplyTransaction smallNet sampleStateParams ⟨true, true⟩
          ⟨emptyPocContext, sampleStateDB [(1, 0, 100), (2, 5, 7)], emptyRecordState⟩
          ⟨.ok (sampleMessage .Binary 1 2 30 0 []), none, hashOf 50⟩).1.statedb.GetNonce
            (addr 1) = 1 :=
  ⟨ApplyTransaction_candidate_nonce smallNet sampleStateParams ⟨true, true⟩
      ⟨emptyPocContext, sampleStateDB [(1, 0, 100), (2, 5, 7)], emptyRecordState⟩
      ⟨.ok (sampleMessage .LoginCandidate 1 2 0 0 []), none, hashOf 50⟩
      (sampleMessage .LoginCandidate 1 2 0 0 []) rfl (Or.inl rfl),
    by decide, by decide, by decide, by decide, by decide⟩

/-- C17. For every message whose nonce is the nonce of the sender and whose value the
balance of the sender covers, as for the Binary messages `ApplyMessage` is called with,
`TransitionDb` returns `failed = false` and a nil error; afterwards the balance of the sender
is decreased by the value and the balance of the recipient increased by it, both are
unchanged when the sender is the recipient, every other balance is unchanged, and the sum of
all balances is the same. The recipient of a message without one is the zero address. -/
theorem TransitionDb_transfer (st : StateTransition)
    (hnonce : st.statedb.GetNonce st.msg.From = st.msg.Nonce)
    (hbalance : st.statedb.GetBalance st.msg.From ≥ st.msg.Value) :
    st.TransitionDb.2.2.1 = false
      ∧ st.TransitionDb.2.2.2 = none
      ∧ (st.msg.From ≠ st.msg.To.getD Address.zero →
          st.TransitionDb.1.GetBalance st.msg.From
              = st.statedb.GetBalance st.msg.From - st.msg.Value
            ∧ st.TransitionDb.1.GetBalance (st.msg.To.getD Address.zero)
              = st.statedb.GetBalance (st.msg.To.getD Address.zero) + st.msg.Value)
      ∧ (st.msg.From = st.msg.To.getD Address.zero →
          st.TransitionDb.1.GetBalance st.msg.From = st.statedb.GetBalance st.msg.From)
      ∧ (∀ a, a ≠ st.msg.From → a ≠ st.msg.To.getD Address.zero →
          st.TransitionDb.1.GetBalance a = st.statedb.GetBalance a)
      ∧ st.TransitionDb.1.totalBalance = st.statedb.totalBalance := by
  rw [StateTransition.TransitionDb_eq st (StateTransition.preCheck_pass st hnonce),
    if_pos hbalance]
  have hb : ∀ b, (if !(st.prepared.SetNonce st.msg.From
                ((st.statedb.GetNonce st.msg.From + 1) % 2 ^ 64)).Exist
              (st.msg.To.getD Address.zero) then
            (st.prepared.SetNonce st.msg.From
              ((st.statedb.GetNonce st.msg.From + 1) % 2 ^ 64)).CreateAccount
              (st.msg.To.getD Address.zero)
          else st.prepared.SetNonce st.msg.From
            ((st.statedb.GetNonce st.msg.From + 1) % 2 ^ 64)).GetBalance b
        = st.statedb.GetBalance b := by
    intro b
    split_ifs
    · rw [StateDB.GetBalance_CreateAccount, StateDB.GetBalance_SetNonce,
        StateTransition.prepared_GetBalance]
    · rw [StateDB.GetBalance_SetNonce, StateTransition.prepared_GetBalance]
  have ht : (if !(st.prepared.SetNonce st.msg.From
                ((st.statedb.GetNonce st.msg.From + 1) % 2 ^ 64)).Exist
              (st.msg.To.getD Address.zero) then
            (st.prepared.SetNonce st.msg.From
              ((st.statedb.GetNonce st.msg.From + 1) % 2 ^ 64)).CreateAccount
              (st.msg.To.getD Address.zero)
          else st.prepared.SetNonce st.msg.From
            ((st.statedb.GetNonce st.msg.From + 1) % 2 ^ 64)).totalBalance
        = st.statedb.totalBalance := by
    split_ifs
    · rw [StateDB.totalBalance_CreateAccount, StateDB.totalBalance_SetNonce,
        StateTransition.prepared_totalBalance]
    · rw [StateDB.totalBalance_SetNonce, StateTransition.prepared_totalBalance]
  refine ⟨rfl, rfl, ?_, ?_, ?_, ?_⟩
  · intro hne
    simp only [Transfer_GetBalance, hb]
    have hne2 : ¬ st.msg.To.getD Address.zero = st.msg.From := fun e => hne e.symm
    simp [hne, hne2]
  · intro he
    simp only [Transfer_GetBalance, hb]
    simp [← he]
  · intro a h1 h2
    simp only [Transfer_GetBalance, hb]
    simp [h1, h2]
  · simp only [Transfer_totalBalance, ht]

/-- A transfer of 30 from an account with balance 100 to an account with balance 7. -/
theorem TransitionDb_transfer_witness :
    ((NewStateTransition (sampleMessage .Binary 1 2 30 0 [])
          (sampleStateDB [(1, 0, 100), (2, 5, 7)])).TransitionDb.1.GetBalance (addr 1) = 70
      ∧ (NewStateTransition (sampleMessage .Binary 1 2 30 0 [])
          (sampleStateDB [(1, 0, 100), (2, 5, 7)])).TransitionDb.1.GetBalance (addr 2) = 37)
      ∧ (NewStateTransition (sampleMessage .Binary 1 2 30 0 [])
          (sampleStateDB [(1, 0, 100), (2, 5, 7)])).TransitionDb.1.totalBalance = 107 :=
  ⟨((TransitionDb_transfer
      (NewStateTransition (sampleMessage .Binary 1 2 30 0 [])
        (sampleStateDB [(1, 0, 100), (2, 5, 7)])) (by decide) (by decide)).2.2.1 (by decide)),
    by decide⟩

/-- The nonce of the message matches, the balance 100 of the sender does not cover the value
300: `TransitionDb` fails with `ErrInsufficientBalance`, and the nonce of the sender is 1
after the call, so the state is no longer the state before it. -/
theorem TransitionDb_insufficient_counterexample :
    (sampleStateDB [(1, 0, 100), (2, 5, 7)]).GetNonce (addr 1) = 0
      ∧ (sampleStateDB [(1, 0, 100), (2, 5, 7)]).GetBalance (addr 1) < 300
      ∧ (NewStateTransition (sampleMessage .Binary 1 2 300 0 [])
          (sampleStateDB [(1, 0, 100), (2, 5, 7)])).TransitionDb.2.2.2
        = some .ErrInsufficientBalance
      ∧ (NewStateTransition (sampleMessage .Binary 1 2 300 0 [])
          (sampleStateDB [(1, 0, 100), (2, 5, 7)])).TransitionDb.1.GetNonce (addr 1) = 1
      ∧ (NewStateTransition (sampleMessage .Binary 1 2 300 0 [])
          (sampleStateDB [(1, 0, 100), (2, 5, 7)])).TransitionDb.1
        ≠ sampleStateDB [(1, 0, 100), (2, 5, 7)] := by
  decide

/-- C18, amended. A message whose nonce is the nonce of the sender fails with
`ErrInsufficientBalance` exactly when the balance of the sender is less than the value; in
that case `failed` is true and no balance changes, but the nonce of the sender has been
incremented, by 1 modulo 2^64, and no other nonce has changed. -/
theorem TransitionDb_insufficient (st : StateTransition)
    (hnonce : st.statedb.GetNonce st.msg.From = st.msg.Nonce) :
    (st.TransitionDb.2.2.2 = some .ErrInsufficientBalance
        ↔ st.statedb.GetBalance st.msg.From < st.msg.Value)
      ∧ (st.statedb.GetBalance st.msg.From < st.msg.Value →
          st.TransitionDb.2.2.1 = true
            ∧ (∀ a, st.TransitionDb.1.GetBalance a = st.statedb.GetBalance a)
            ∧ st.TransitionDb.1.GetNonce st.msg.From
              = (st.statedb.GetNonce st.msg.From + 1) % 2 ^ 64
            ∧ ∀ a, a ≠ st.msg.From → st.TransitionDb.1.GetNonce a = st.statedb.GetNonce a) := by
  rw [StateTransition.TransitionDb_eq st (StateTransition.preCheck_pass st hnonce)]
  by_cases hb : st.statedb.GetBalance st.msg.From ≥ st.msg.Value
  · rw [if_pos hb]
    have hlt : ¬ st.statedb.GetBalance st.msg.From < st.msg.Value := by omega
    exact ⟨⟨fun h => by simp at h, fun h => absurd h hlt⟩, fun h => absurd h hlt⟩
  · rw [if_neg hb]
    have hlt : st.statedb.GetBalance st.msg.From < st.msg.Value := by omega
    refine ⟨⟨fun _ => hlt, fun _ => rfl⟩, fun _ => ⟨rfl, ?_, ?_, ?_⟩⟩
    · intro a
      simp only [StateDB.GetBalance_SetNonce, StateTransition.prepared_GetBalance]
    · simp only [StateDB.GetNonce_SetNonce, if_true]
    · intro a ha
      simp only [StateDB.GetNonce_SetNonce, if_neg ha, StateTransition.prepared_GetNonce]

/-- A value of 300 against a balance of 100. -/
theorem TransitionDb_insufficient_witness :
    (NewStateTransition (sampleMessage .Binary 1 2 300 0 [])
        (sampleStateDB [(1, 0, 100), (2, 5, 7)])).TransitionDb.2.2.2
      = some .ErrInsufficientBalance :=
  (TransitionDb_insufficient
    (NewStateTransition (sampleMessage .Binary 1 2 300 0 [])
      (sampleStateDB [(1, 0, 100), (2, 5, 7)])) (by decide)).1.mpr (by decide)

/-- C19. The record key of `ApplyDataMessage` is `common.BytesToHash` of the RLP encoding of
the data, its last 32 bytes, and no digest of the payload: the key of a payload of 33 bytes
is the payload without its first byte, so two such payloads that differ in their first byte
only have the same key. -/
theorem recordKey_collision (x y : Byte) (rest : Bytes) (hlen : rest.length = 32) :
    rlpEncodeBytes (x :: rest) = 161 :: x :: rest
      ∧ (recordKey (x :: rest)).bytes = rest
      ∧ recordKey (x :: rest) = recordKey (y :: rest) := by
  have henc : ∀ z : Byte, rlpEncodeBytes (z :: rest) = 161 :: z :: rest := by
    intro z
    cases rest with
    | nil => simp at hlen
    | cons r rs =>
      have h33 : (z :: r :: rs).length = 33 := by simpa using hlen
      simp only [rlpEncodeBytes, h33]
      rfl
  have hkey : ∀ z : Byte, (recordKey (z :: rest)).bytes = rest := by
    intro z
    simp [recordKey, BytesToHash, henc z, hlen]
  refine ⟨henc x, hkey x, ?_⟩
  have hb : (recordKey (x :: rest)).bytes = (recordKey (y :: rest)).bytes := by
    rw [hkey x, hkey y]
  cases hx : recordKey (x :: rest) with
  | mk bx lx =>
    cases hy : recordKey (y :: rest) with
    | mk b2 l2 =>
      rw [hx, hy] at hb
      simp only at hb
      subst hb
      rfl

/-- Two payloads of 33 bytes with the first bytes 0 and 1: after a ConfirmationData of the
first payload a ConfirmationData of the second payload, from another sender, fails as a
duplicate. -/
theorem recordKey_collision_witness :
    (rlpEncodeBytes (0 :: List.replicate 32 7) = 161 :: 0 :: List.replicate 32 7
        ∧ (recordKey (0 :: List.replicate 32 7)).bytes = List.replicate 32 7
        ∧ recordKey (0 :: List.replicate 32 7) = recordKey (1 :: List.replicate 32 7))
      ∧ (0 :: List.replicate 32 7 : Bytes) ≠ 1 :: List.replicate 32 7
      ∧ (ApplyDataMessage sampleStateParams (hashOf 50)
          (sampleMessage .ConfirmationData 1 2 0 0 (0 :: List.replicate 32 7))
          (sampleStateDB [(1, 0, 100), (2, 5, 7)]) emptyRecordState).2.2 = (false, none)
      ∧ (ApplyDataMessage sampleStateParams (hashOf 51)
          (sampleMessage .ConfirmationData 2 1 0 5 (1 :: List.replicate 32 7))
          (ApplyDataMessage sampleStateParams (hashOf 50)
            (sampleMessage .ConfirmationData 1 2 0 0 (0 :: List.replicate 32 7))
            (sampleStateDB [(1, 0, 100), (2, 5, 7)]) emptyRecordState).1
          (ApplyDataMessage sampleStateParams (hashOf 50)
            (sampleMessage .ConfirmationData 1 2 0 0 (0 :: List.replicate 32 7))
            (sampleStateDB [(1, 0, 100), (2, 5, 7)]) emptyRecordState).2.1).2.2
        = (true, some .emptyText) :=
  ⟨recordKey_collision 0 1 (List.replicate 32 7) (by decide), by decide, by decide, by decide⟩

/-- C20. For every ConfirmationData message whose nonce is the nonce of the sender and whose
record hash, the key `recordKey` of its data, has no record in the record state,
`ApplyDataMessage` returns `failed = false` and a nil error, and afterwards the record exists
with origin and owner the sender, `txs = [txHash]` and status 0, the hash is appended to the
records of the sender, and the contribution of the sender is increased by 2 * 10^18. -/
theorem ApplyDataMessage_confirmation (D : StateParams) (txHash : Hash) (msg : Message)
    (statedb : StateDB) (statedbRecord : StateDBRecord)
    (htype : msg.Type_ = .ConfirmationData)
    (hnonce : statedb.GetNonce msg.From = msg.Nonce)
    (hfresh : (statedbRecord.Exist D (recordKey msg.Data)).2 = false) :
    (ApplyDataMessage D txHash msg statedb statedbRecord).2.2.1 = false
      ∧ (ApplyDataMessage D txHash msg statedb statedbRecord).2.2.2 = none
      ∧ ((ApplyDataMessage D txHash msg statedb statedbRecord).2.1.Exist D
          (recordKey msg.Data)).2 = true
      ∧ ((ApplyDataMessage D txHash msg statedb statedbRecord).2.1.GetOrigin D
          (recordKey msg.Data)).2 = msg.From
      ∧ ((ApplyDataMessage D txHash msg statedb statedbRecord).2.1.GetOwner D
          (recordKey msg.Data)).2 = msg.From
      ∧ ((ApplyDataMessage D txHash msg statedb statedbRecord).2.1.GetTxs D
          (recordKey msg.Data)).2 = [txHash]
      ∧ ((ApplyDataMessage D txHash msg statedb statedbRecord).2.1.GetStatus D
          (recordKey msg.Data)).2 = 0
      ∧ (ApplyDataMessage D txHash msg statedb statedbRecord).1.GetRecords msg.From
        = statedb.GetRecords msg.From ++ [recordKey msg.Data]
      ∧ (ApplyDataMessage D txHash msg statedb statedbRecord).1.GetContribution msg.From
        = statedb.GetContribution msg.From + 2 * 10 ^ 18 := by
  have hnone : (statedbRecord.getStateObject D (recordKey msg.Data)).2 = none := by
    simpa [StateDBRecord.Exist] using hfresh
  rw [ApplyDataMessage_eq D txHash msg statedb statedbRecord hnonce, htype]
  simp only
  obtain ⟨h1, h2, h3⟩ := applyConfirmationData_fresh D txHash (recordKey msg.Data) msg.From
    ((NewStateTransition msg statedb).from_.1.statedb.SetNonce msg.From
      ((statedb.GetNonce msg.From + 1) % 2 ^ 64)) statedbRecord hnone
  cases hl : (applyConfirmationData D txHash (recordKey msg.Data) msg.From
      ((NewStateTransition msg statedb).from_.1.statedb.SetNonce msg.From
        ((statedb.GetNonce msg.From + 1) % 2 ^ 64)) statedbRecord).2.1.liveObject
      (recordKey msg.Data) with
  | none => rw [hl] at h3; simp at h3
  | some obj =>
    rw [hl] at h3
    simp only [Option.map_some', Option.some.injEq, Prod.mk.injEq] at h3
    obtain ⟨hd, ho, hw, ht, hs⟩ := h3
    have hget := StateDBRecord.getStateObject_live D _ _ obj hl hd
    have hrec : (NewStateTransition msg statedb).from_.1.statedb.GetRecords msg.From
        = statedb.GetRecords msg.From := by
      unfold StateDB.GetRecords
      rw [StateTransition.from_getD]
      rfl
    have hcon : (NewStateTransition msg statedb).from_.1.statedb.GetContribution msg.From
        = statedb.GetContribution msg.From := by
      unfold StateDB.GetContribution
      rw [StateTransition.from_getD]
      rfl
    have hrec2 := (StateDB.getD_SetNonce_Records (NewStateTransition msg statedb).from_.1.statedb
      msg.From msg.From ((statedb.GetNonce msg.From + 1) % 2 ^ 64))
    rw [hrec, hcon] at hrec2
    refine ⟨congrArg Prod.fst h2, congrArg Prod.snd h2, ?_, ?_, ?_, ?_, ?_, ?_, ?_⟩
    · unfold StateDBRecord.Exist; rw [hget]; rfl
    · unfold StateDBRecord.GetOrigin; rw [hget]; exact ho
    · unfold StateDBRecord.GetOwner; rw [hget]; exact hw
    · unfold StateDBRecord.GetTxs; rw [hget]; exact ht
    · unfold StateDBRecord.GetStatus; rw [hget]; exact hs
    · rw [h1]
      unfold StateDB.GetRecords at hrec2 ⊢
      unfold StateDB.AddContribution StateDB.AddRecords
      simp only [StateDB.getD_update, if_true]
      rw [hrec2.1]
    · rw [h1]
      unfold StateDB.GetContribution at hrec2 ⊢
      unfold StateDB.AddContribution StateDB.AddRecords
      simp only [StateDB.getD_update, if_true]
      rw [hrec2.2]

/-- The first record of the payload `[7, 7]`, confirmed by the address 1. -/
theorem ApplyDataMessage_confirmation_witness :
    (ApplyDataMessage sampleStateParams (hashOf 50)
        (sampleMessage .ConfirmationData 1 2 0 0 [7, 7])
        (sampleStateDB [(1, 0, 100), (2, 5, 7)]) emptyRecordState).2.2.1 = false
      ∧ ((ApplyDataMessage sampleStateParams (hashOf 50)
          (sampleMessage .ConfirmationData 1 2 0 0 [7, 7])
          (sampleStateDB [(1, 0, 100), (2, 5, 7)]) emptyRecordState).2.1.GetOwner
            sampleStateParams (recordKey [7, 7])).2 = addr 1
      ∧ (ApplyDataMessage sampleStateParams (hashOf 50)
          (sampleMessage .ConfirmationData 1 2 0 0 [7, 7])
          (sampleStateDB [(1, 0, 100), (2, 5, 7)]) emptyRecordState).1.GetRecords (addr 1)
        = [recordKey [7, 7]]
      ∧ (ApplyDataMessage sampleStateParams (hashOf 50)
          (sampleMessage .ConfirmationData 1 2 0 0 [7, 7])
          (sampleStateDB [(1, 0, 100), (2, 5, 7)]) emptyRecordState).1.GetContribution (addr 1)
        = 2000000000000000000 :=
  ⟨(ApplyDataMessage_confirmation sampleStateParams (hashOf 50)
      (sampleMessage .ConfirmationData 1 2 0 0 [7, 7])
      (sampleStateDB [(1, 0, 100), (2, 5, 7)]) emptyRecordState rfl (by decide) (by decide)).1,
    by decide, by decide, by decide⟩

/-- A ConfirmationData message of the address 2 for a payload that the address 1 has
confirmed: with the nonce 5 of the sender the call fails and the nonce of the sender is 6
afterwards, so the account state is no longer the state before it; with the nonce 0 the
call reports `failed = false`. -/
theorem ApplyDataMessage_duplicate_counterexample :
    (afterConfirmation.2.1.Exist sampleStateParams
          (recordKey [7, 7])).2 = true
      ∧ afterConfirmation.1.GetNonce (addr 2) = 5
      ∧ (ApplyDataMessage sampleStateParams (hashOf 51)
          (sampleMessage .ConfirmationData 2 1 0 5 [7, 7])
          afterConfirmation.1
          afterConfirmation.2.1).2.2
        = (true, some .emptyText)
      ∧ (ApplyDataMessage sampleStateParams (hashOf 51)
          (sampleMessage .ConfirmationData 2 1 0 5 [7, 7])
          afterConfirmation.1
          afterConfirmation.2.1).1.GetNonce (addr 2)
        = 6
      ∧ (ApplyDataMessage sampleStateParams (hashOf 51)
          (sampleMessage .ConfirmationData 2 1 0 5 [7, 7])
          afterConfirmation.1
          afterConfirmation.2.1).1
        ≠ afterConfirmation.1
      ∧ (ApplyDataMessage sampleStateParams (hashOf 51)
          (sampleMessage .ConfirmationData 2 1 0 0 [7, 7])
          afterConfirmation.1
          afterConfirmation.2.1).2.2.1 = false := by
  decide

/-- C21, amended. For every ConfirmationData message whose nonce is the nonce of the sender
and whose record hash has a record in the record state, from any sender, `ApplyDataMessage`
fails with `failed = true` and an error; every record reads as before (existence, origin,
owner, txs, status), and every balance, list of records and contribution reads as before,
but the nonce of the sender has been incremented, by 1 modulo 2^64; no other nonce has
changed. -/
theorem ApplyDataMessage_duplicate (D : StateParams) (txHash : Hash) (msg : Message)
    (statedb : StateDB) (statedbRecord : StateDBRecord)
    (htype : msg.Type_ = .ConfirmationData)
    (hnonce : statedb.GetNonce msg.From = msg.Nonce)
    (hexists : (statedbRecord.Exist D (recordKey msg.Data)).2 = true) :
    (ApplyDataMessage D txHash msg statedb statedbRecord).2.2.1 = true
      ∧ (ApplyDataMessage D txHash msg statedb statedbRecord).2.2.2 = some .emptyText
      ∧ (∀ h,
          ((ApplyDataMessage D txHash msg statedb statedbRecord).2.1.Exist D h).2
              = (statedbRecord.Exist D h).2
            ∧ ((ApplyDataMessage D txHash msg statedb statedbRecord).2.1.GetOrigin D h).2
              = (statedbRecord.GetOrigin D h).2
            ∧ ((ApplyDataMessage D txHash msg statedb statedbRecord).2.1.GetOwner D h).2
              = (statedbRecord.GetOwner D h).2
            ∧ ((ApplyDataMessage D txHash msg statedb statedbRecord).2.1.GetTxs D h).2
              = (statedbRecord.GetTxs D h).2
            ∧ ((ApplyDataMessage D txHash msg statedb statedbRecord).2.1.GetStatus D h).2
              = (statedbRecord.GetStatus D h).2)
      ∧ (∀ a,
          (ApplyDataMessage D txHash msg statedb statedbRecord).1.GetBalance a
              = statedb.GetBalance a
            ∧ (ApplyDataMessage D txHash msg statedb statedbRecord).1.GetRecords a
              = statedb.GetRecords a
            ∧ (ApplyDataMessage D txHash msg statedb statedbRecord).1.GetContribution a
              = statedb.GetContribution a)
      ∧ (ApplyDataMessage D txHash msg statedb statedbRecord).1.GetNonce msg.From
        = (statedb.GetNonce msg.From + 1) % 2 ^ 64
      ∧ ∀ a, a ≠ msg.From →
          (ApplyDataMessage D txHash msg statedb statedbRecord).1.GetNonce a
            = statedb.GetNonce a := by
  rw [ApplyDataMessage_eq D txHash msg statedb statedbRecord hnonce, htype]
  simp only
  rw [applyConfirmationData_exists D txHash _ msg.From _ statedbRecord hexists]
  refine ⟨rfl, rfl, ?_, ?_, ?_, ?_⟩
  · intro h
    have hv := StateDBRecord.view_getStateObject D statedbRecord (recordKey msg.Data) h
    have g1 := StateDBRecord.getters_eq D
      (statedbRecord.getStateObject D (recordKey msg.Data)).1 h
    have g2 := StateDBRecord.getters_eq D statedbRecord h
    rw [hv] at g1
    exact ⟨g1.1.trans g2.1.symm, g1.2.1.trans g2.2.1.symm, g1.2.2.1.trans g2.2.2.1.symm,
      g1.2.2.2.2.trans g2.2.2.2.2.symm, g1.2.2.2.1.trans g2.2.2.2.1.symm⟩
  · intro a
    have hb := StateTransition.bumped_getters msg statedb a
    exact ⟨hb.2.1, hb.2.2.1, hb.2.2.2⟩
  · have hb := (StateTransition.bumped_getters msg statedb msg.From).1
    rw [if_pos rfl] at hb
    exact hb
  · intro a ha
    have hb := (StateTransition.bumped_getters msg statedb a).1
    rw [if_neg ha] at hb
    exact hb

/-- The payload `[7, 7]`, confirmed by the address 1 and then sent by the address 2. -/
theorem ApplyDataMessage_duplicate_witness :
    (ApplyDataMessage sampleStateParams (hashOf 51)
        (sampleMessage .ConfirmationData 2 1 0 5 [7, 7])
        afterConfirmation.1
        afterConfirmation.2.1).2.2.1 = true :=
  (ApplyDataMessage_duplicate sampleStateParams (hashOf 51)
    (sampleMessage .ConfirmationData 2 1 0 5 [7, 7])
    afterConfirmation.1
    afterConfirmation.2.1
    rfl (by decide) (by decide)).1

/-- C22. For every TransferData message whose nonce is the nonce of the sender, on the record
under the key of its data: `ApplyDataMessage` reports `failed = false` only if the owner of
the record is the sender and its status is 0; if the owner is not the sender or the status
is not 0 it returns `failed = true` with an error, and the owner and the txs of the record
read as before. -/
theorem ApplyDataMessage_transfer_guard (D : StateParams) (txHash : Hash) (msg : Message)
    (statedb : StateDB) (statedbRecord : StateDBRecord)
    (htype : msg.Type_ = .TransferData)
    (hnonce : statedb.GetNonce msg.From = msg.Nonce) :
    ((ApplyDataMessage D txHash msg statedb statedbRecord).2.2.1 = false →
        (statedbRecord.GetOwner D (recordKey msg.Data)).2 = msg.From
          ∧ (statedbRecord.GetStatus D (recordKey msg.Data)).2 = 0)
      ∧ ((statedbRecord.GetOwner D (recordKey msg.Data)).2 ≠ msg.From
          ∨ (statedbRecord.GetStatus D (recordKey msg.Data)).2 ≠ 0 →
        (ApplyDataMessage D txHash msg statedb statedbRecord).2.2.1 = true
          ∧ (ApplyDataMessage D txHash msg statedb statedbRecord).2.2.2 = some .emptyText
          ∧ ((ApplyDataMessage D txHash msg statedb statedbRecord).2.1.GetOwner D
              (recordKey msg.Data)).2 = (statedbRecord.GetOwner D (recordKey msg.Data)).2
          ∧ ((ApplyDataMessage D txHash msg statedb statedbRecord).2.1.GetTxs D
              (recordKey msg.Data)).2 = (statedbRecord.GetTxs D (recordKey msg.Data)).2) := by
  rw [ApplyDataMessage_eq D txHash msg statedb statedbRecord hnonce, htype]
  simp only
  rw [applyTransferData_eq]
  have hv1 := StateDBRecord.view_getStateObject D statedbRecord (recordKey msg.Data)
    (recordKey msg.Data)
  have hv2 := StateDBRecord.view_getStateObject D
    (statedbRecord.getStateObject D (recordKey msg.Data)).1 (recordKey msg.Data)
    (recordKey msg.Data)
  have g0 := StateDBRecord.getters_eq D statedbRecord (recordKey msg.Data)
  have g1 := StateDBRecord.getters_eq D (statedbRecord.getStateObject D (recordKey msg.Data)).1
    (recordKey msg.Data)
  have g2 := StateDBRecord.getters_eq D
    ((statedbRecord.getStateObject D (recordKey msg.Data)).1.getStateObject D
      (recordKey msg.Data)).1 (recordKey msg.Data)
  rw [hv2, hv1] at g2
  rw [hv1] at g1
  by_cases ho : (statedbRecord.GetOwner D (recordKey msg.Data)).2 = msg.From
  · rw [if_neg (by simpa using ho)]
    by_cases hs : (statedbRecord.GetStatus D (recordKey msg.Data)).2 = 0
    · rw [if_neg (by simpa using hs)]
      refine ⟨fun _ => ⟨ho, hs⟩, fun h => ?_⟩
      rcases h with h | h
      · exact absurd ho h
      · exact absurd hs h
    · rw [if_pos hs]
      refine ⟨fun h => by simp at h, fun _ => ⟨rfl, rfl, ?_, ?_⟩⟩
      · exact g2.2.2.1.trans g0.2.2.1.symm
      · exact g2.2.2.2.2.trans g0.2.2.2.2.symm
  · rw [if_pos ho]
    refine ⟨fun h => by simp at h, fun _ => ⟨rfl, rfl, ?_, ?_⟩⟩
    · exact g1.2.2.1.trans g0.2.2.1.symm
    · exact g1.2.2.2.2.trans g0.2.2.2.2.symm

/-- The record of the payload `[7, 7]` is owned by the address 1: a TransferData message of
the address 2 fails. -/
theorem ApplyDataMessage_transfer_guard_witness :
    (ApplyDataMessage sampleStateParams (hashOf 51) (sampleMessage .TransferData 2 1 0 5 [7, 7])
        afterConfirmation.1 afterConfirmation.2.1).2.2.1 = true
      ∧ (ApplyDataMessage sampleStateParams (hashOf 51)
          (sampleMessage .TransferData 2 1 0 5 [7, 7]) afterConfirmation.1
          afterConfirmation.2.1).2.2.2 = some .emptyText
      ∧ ((ApplyDataMessage sampleStateParams (hashOf 51)
          (sampleMessage .TransferData 2 1 0 5 [7, 7]) afterConfirmation.1
          afterConfirmation.2.1).2.1.GetOwner sampleStateParams (recordKey [7, 7])).2
        = (afterConfirmation.2.1.GetOwner sampleStateParams (recordKey [7, 7])).2
      ∧ ((ApplyDataMessage sampleStateParams (hashOf 51)
          (sampleMessage .TransferData 2 1 0 5 [7, 7]) afterConfirmation.1
          afterConfirmation.2.1).2.1.GetTxs sampleStateParams (recordKey [7, 7])).2
        = (afterConfirmation.2.1.GetTxs sampleStateParams (recordKey [7, 7])).2 :=
  (ApplyDataMessage_transfer_guard sampleStateParams (hashOf 51)
    (sampleMessage .TransferData 2 1 0 5 [7, 7]) afterConfirmation.1 afterConfirmation.2.1
    rfl (by decide)).2 (Or.inl (by decide))

/-- C23. Go `StateDBRecord.SetOwner` calls `SetOrigin` on the object: on a record state as
the methods of the package leave it, after `SetOwner(h, a)` the owner of `h` reads as
before and the origin of `h` reads `a`. -/
theorem SetOwner_sets_origin (D : StateParams) (s : StateDBRecord) (h : Hash) (a : Address)
    (hs : s.sound) :
    ((s.SetOwner D h a).GetOwner D h).2 = (s.GetOwner D h).2
      ∧ ((s.SetOwner D h a).GetOrigin D h).2 = a := by
  have hg := Undoable_GetOrNewStateObject D hs h
  have howner : (s.GetOrNewStateObject D h).2.data.Owner = (s.GetOwner D h).2 := by
    rw [(StateDBRecord.getters_eq D s h).2.2.1]
    cases hvs : s.view D h with
    | some o => rw [StateDBRecord.GetOrNewStateObject_some D s h o hvs]; rfl
    | none => rw [StateDBRecord.GetOrNewStateObject_none D s h hvs]; rfl
  have heq : s.SetOwner D h a
      = (stateObjectRecord.SetOrigin (s.GetOrNewStateObject D h).1
          (s.GetOrNewStateObject D h).2 a).1 := rfl
  rw [heq]
  clear heq
  generalize s.GetOrNewStateObject D h = p at hg howner ⊢
  obtain ⟨s1, o⟩ := p
  simp only at hg howner ⊢
  obtain ⟨hh, hd, -, -⟩ := StateDBRecord.view_some hg.1.1 hg.2
  subst hh
  have hw := wrote_markDirty s1 { o with data := { o.data with Origin := a } }
    [.originChange o.hash o.data.Origin]
  have hv : (stateObjectRecord.SetOrigin s1 o a).1.view D o.hash
      = some { o with data := { o.data with Origin := a }, onDirty := false } := by
    refine (wrote_view D hw o.hash).trans ?_
    rw [if_pos rfl]
    exact if_neg (show ¬ o.deleted = true by rw [hd]; simp)
  rw [(StateDBRecord.getters_eq D _ o.hash).2.2.1, (StateDBRecord.getters_eq D _ o.hash).2.1, hv]
  exact ⟨howner, rfl⟩

/-- The record of the payload `[7, 7]` has origin and owner the address 1; `SetOwner` to the
address 2, and the TransferData message of the address 1 to the address 2, which succeeds,
leave the owner 1 and the origin 2. -/
theorem SetOwner_sets_origin_witness :
    (((afterConfirmation.2.1.SetOwner sampleStateParams (recordKey [7, 7]) (addr 2)).GetOwner
          sampleStateParams (recordKey [7, 7])).2
        = (afterConfirmation.2.1.GetOwner sampleStateParams (recordKey [7, 7])).2
      ∧ ((afterConfirmation.2.1.SetOwner sampleStateParams (recordKey [7, 7]) (addr 2)).GetOrigin
          sampleStateParams (recordKey [7, 7])).2 = addr 2)
      ∧ (afterConfirmation.2.1.GetOwner sampleStateParams (recordKey [7, 7])).2 = addr 1
      ∧ (afterConfirmation.2.1.GetOrigin sampleStateParams (recordKey [7, 7])).2 = addr 1
      ∧ afterTransfer.2.2 = (false, none)
      ∧ (afterTransfer.2.1.GetOwner sampleStateParams (recordKey [7, 7])).2 = addr 1
      ∧ (afterTransfer.2.1.GetOrigin sampleStateParams (recordKey [7, 7])).2 = addr 2 :=
  ⟨SetOwner_sets_origin sampleStateParams afterConfirmation.2.1 (recordKey [7, 7]) (addr 2)
      (by decide),
    by decide, by decide, by decide, by decide, by decide⟩

/-- C24. A TransferData message that succeeds passes the hash of the transaction, not the
hash of the record, to `AddRecords` and `RemoveRecords`: when the two hashes differ, the
record hash is in the records of an account after the call exactly when it was before, so
the records of the sender keep it and the records of the recipient do not get it, and the
records of the recipient get the hash of the transaction. -/
theorem ApplyDataMessage_transfer_records (D : StateParams) (txHash : Hash) (msg : Message)
    (statedb : StateDB) (statedbRecord : StateDBRecord) (recipient : Address)
    (htype : msg.Type_ = .TransferData)
    (hnonce : statedb.GetNonce msg.From = msg.Nonce)
    (howner : (statedbRecord.GetOwner D (recordKey msg.Data)).2 = msg.From)
    (hstatus : (statedbRecord.GetStatus D (recordKey msg.Data)).2 = 0)
    (hto : msg.To = some recipient) (hne : recipient ≠ msg.From)
    (htx : txHash ≠ recordKey msg.Data) :
    (ApplyDataMessage D txHash msg statedb statedbRecord).2.2 = (false, none)
      ∧ (∀ a, recordKey msg.Data ∈ (ApplyDataMessage D txHash msg statedb
            statedbRecord).1.GetRecords a
          ↔ recordKey msg.Data ∈ statedb.GetRecords a)
      ∧ txHash ∈ (ApplyDataMessage D txHash msg statedb statedbRecord).1.GetRecords
          recipient := by
  rw [ApplyDataMessage_eq D txHash msg statedb statedbRecord hnonce, htype]
  simp only
  rw [applyTransferData_eq, if_neg (by simpa using howner), if_neg (by simpa using hstatus)]
  simp only
  have hbump := fun a => (StateTransition.bumped_getters msg statedb a).2.2.1
  have hmsg : (NewStateTransition msg statedb).from_.1.msg = msg :=
    (StateTransition.from_msg (NewStateTransition msg statedb)).1
  have hk : ¬ recordKey msg.Data = txHash := fun e => htx e.symm
  refine ⟨trivial, ?_, ?_⟩
  · intro a
    rw [StateTransition.transfer_GetRecords]
    simp only [hmsg, hto, Option.getD_some, hbump]
    split_ifs <;> simp [List.mem_filter, hk]
  · rw [StateTransition.transfer_GetRecords]
    simp only [hmsg, hto, Option.getD_some, hbump, if_neg hne, if_true]
    simp

/-- The transfer of the record of the payload `[7, 7]` from the address 1 to the address 2
with the transaction hash 51: the records of the address 1 still hold the record, and the
records of the address 2 hold the hash 51 and not the record. -/
theorem ApplyDataMessage_transfer_records_witness :
    (afterTransfer.2.2 = (false, none)
        ∧ (∀ a, recordKey [7, 7] ∈ afterTransfer.1.GetRecords a
            ↔ recordKey [7, 7] ∈ afterConfirmation.1.GetRecords a)
        ∧ hashOf 51 ∈ afterTransfer.1.GetRecords (addr 2))
      ∧ afterConfirmation.1.GetRecords (addr 1) = [recordKey [7, 7]]
      ∧ afterTransfer.1.GetRecords (addr 1) = [recordKey [7, 7]]
      ∧ afterTransfer.1.GetRecords (addr 2) = [hashOf 51] :=
  ⟨ApplyDataMessage_transfer_records sampleStateParams (hashOf 51)
      (sampleMessage .TransferData 1 2 0 1 [7, 7]) afterConfirmation.1 afterConfirmation.2.1
      (addr 2) rfl (by decide) (by decide) (by decide) rfl (by decide) (by decide),
    by decide, by decide, by decide⟩

set_option maxRecDepth 8192

/-- C25. From the states without accounts and records, three transactions that
`ApplyTransaction` applies, each with a receipt that reports no failure, lead to a state in
which the records of the address 2 hold the hash 51 of the last transaction, for which the
record state has no record; the record the address 1 has transferred is still in the records
of the address 1, with owner 1 and origin 2. -/
theorem ApplyTransaction_records_invariant_fails :
    afterOneTransaction.2.toOption.map Receipt.failed = some false
      ∧ afterTwoTransactions.2.toOption.map Receipt.failed = some false
      ∧ afterThreeTransactions.2.toOption.map Receipt.failed = some false
      ∧ afterThreeTransactions.1.statedb.GetRecords (addr 2) = [recordKey [8], hashOf 51]
      ∧ (afterThreeTransactions.1.statedbRecord.Exist sampleStateParams (hashOf 51)).2 = false
      ∧ afterThreeTransactions.1.statedb.GetRecords (addr 1) = [recordKey [7, 7]]
      ∧ (afterThreeTransactions.1.statedbRecord.GetOwner sampleStateParams
          (recordKey [7, 7])).2 = addr 1
      ∧ (afterThreeTransactions.1.statedbRecord.GetOrigin sampleStateParams
          (recordKey [7, 7])).2 = addr 2 :=
  ⟨by decide, by decide, by decide, by decide, by decide, by decide, by decide, by decide⟩

/-- C27. On a record state whose dirty hashes have live objects, `Finalise` and
`IntermediateRoot` return; after them the journal and the stack of valid revisions are
empty, `RevertToSnapshot` panics for every revision id, and the id the next `Snapshot`
returns is above the id of every `Snapshot` taken before, from a state whose counter is
below the largest `int` and has not been passed since. -/
theorem Finalise_clears_snapshots (P : Params) (D : StateParams) (s0 s : StateDBRecord)
    (del : Bool) (hlive : ∀ h ∈ s.stateObjectsDirty, s.liveObject h ≠ none)
    (hlo : -(2 ^ 63) ≤ s0.nextRevisionId) (hhi : s0.nextRevisionId + 1 < 2 ^ 63)
    (hmono : s0.Snapshot.1.nextRevisionId ≤ s.nextRevisionId) :
    ∃ s1, s.Finalise P D del = some s1
      ∧ s.IntermediateRoot P D del = some (s1, s1.trie.Hash P)
      ∧ s1.journal = [] ∧ s1.validRevisions = []
      ∧ (∀ revid, s1.RevertToSnapshot D revid = none)
      ∧ s0.Snapshot.2 < s1.Snapshot.2 := by
  obtain ⟨s1, h1, -, -, -, hn, -⟩ :=
    StateDBRecord.finaliseLoop_some P D del s.stateObjectsDirty s hlive
  have hF : s.Finalise P D del = some s1.clearJournalAndRefund := by
    unfold StateDBRecord.Finalise
    rw [h1]
    rfl
  refine ⟨s1.clearJournalAndRefund, hF, ?_, rfl, rfl,
    fun revid => StateDBRecord.RevertToSnapshot_nil D _ revid rfl, ?_⟩
  · unfold StateDBRecord.IntermediateRoot
    rw [hF]
    rfl
  · have h2 : s0.Snapshot.1.nextRevisionId = s0.nextRevisionId + 1 :=
      int64_succ s0.nextRevisionId hlo hhi
    have h3 : s1.clearJournalAndRefund.Snapshot.2 = s1.nextRevisionId := rfl
    have h4 : s0.Snapshot.2 = s0.nextRevisionId := rfl
    rw [h3, h4, hn]
    omega

/-- The record state after the transfer of the record of the payload `[7, 7]`: a snapshot
with the id 0, a mutation and `Finalise`; the revert of the id 0 panics and the next
snapshot has the id 1. -/
theorem Finalise_clears_snapshots_witness :
    afterTransfer.2.1.Snapshot.2 = 0
      ∧ ((applyMutations sampleStateParams [.SetOrigin (recordKey [7, 7]) (addr 2)]
          afterTransfer.2.1.Snapshot.1).RevertToSnapshot sampleStateParams 0).isSome = true
      ∧ ∃ s1, (applyMutations sampleStateParams [.SetOrigin (recordKey [7, 7]) (addr 2)]
            afterTransfer.2.1.Snapshot.1).Finalise smallNet sampleStateParams true = some s1
        ∧ (applyMutations sampleStateParams [.SetOrigin (recordKey [7, 7]) (addr 2)]
            afterTransfer.2.1.Snapshot.1).IntermediateRoot smallNet sampleStateParams true
          = some (s1, s1.trie.Hash smallNet)
        ∧ s1.journal = [] ∧ s1.validRevisions = []
        ∧ (∀ revid, s1.RevertToSnapshot sampleStateParams revid = none)
        ∧ afterTransfer.2.1.Snapshot.2 < s1.Snapshot.2 :=
  ⟨by decide, by decide,
    Finalise_clears_snapshots smallNet sampleStateParams afterTransfer.2.1
      (applyMutations sampleStateParams [.SetOrigin (recordKey [7, 7]) (addr 2)]
        afterTransfer.2.1.Snapshot.1) true (by decide) (by decide) (by decide) (by decide)⟩

/-- C28. Go `storageChangeRecord.undo` is `panic("implement me")`: for every record state
whose valid revisions have ids below the next revision id, every hash, key and value, after
`Snapshot` and `SetState` the `RevertToSnapshot` of the id of the snapshot panics. -/
theorem SetState_revert_panics (D : StateParams) (s : StateDBRecord) (h k v : Hash)
    (hids : ∀ r ∈ s.validRevisions, r.id < s.nextRevisionId) :
    (s.Snapshot.1.SetState D h k v).RevertToSnapshot D s.Snapshot.2 = none := by
  obtain ⟨hv, pre, a, prevalue, hj⟩ := StateDBRecord.SetState_journal D s.Snapshot.1 h k v
  exact revert_panics D s _ pre (.storageChangeRecord a k prevalue) hids hv hj (fun _ => rfl)

/-- The record stored under the hash 7: the revert after `SetState` panics, the revert after
`SetOrigin` returns. -/
theorem SetState_revert_panics_witness :
    (storedRecord.Snapshot.1.SetState sampleStateParams (hashOf 7) (hashOf 1)
        (hashOf 2)).RevertToSnapshot sampleStateParams storedRecord.Snapshot.2 = none
      ∧ ((storedRecord.Snapshot.1.SetOrigin sampleStateParams (hashOf 7)
          (addr 2)).RevertToSnapshot sampleStateParams storedRecord.Snapshot.2).isSome = true
      ∧ ((storedRecord.Snapshot.1.SetState sampleStateParams (hashOf 7) (hashOf 1)
          (hashOf 2)).GetState sampleStateParams (hashOf 7) (hashOf 1)).2 = hashOf 2
      ∧ (storedRecord.GetState sampleStateParams (hashOf 7) (hashOf 1)).2 = Hash.zero :=
  ⟨SetState_revert_panics sampleStateParams storedRecord (hashOf 7) (hashOf 1) (hashOf 2)
      (by decide),
    by decide, by decide, by decide⟩

/-- C29. For every record state whose live objects are bound to their own hash and are
neither deleted nor suicided, whose dirty hashes have live objects, with a record encoding
that is never empty, and either value of `deleteEmptyObjects`: `Finalise` returns, and
after `Finalise` and after `CommitTo` no live object is deleted, the trie binds every key
it bound before, every hash for which a record existed has one, and every dirty hash
whose path in the trie can be resolved is bound in the trie to the encoding of the record of
its live object (after `CommitTo`, when it returns no error). -/
theorem Finalise_CommitTo_keep_records (P : Params) (D : StateParams) (dbw : DatabaseWriter)
    (s : StateDBRecord) (del : Bool) (hs : s.sound)
    (hlive : ∀ h ∈ s.stateObjectsDirty, s.liveObject h ≠ none)
    (henc : ∀ r, D.EncodeRecord r ≠ []) :
    (∃ s1, s.Finalise P D del = some s1
        ∧ (∀ e ∈ s1.stateObjects, e.2.deleted = false)
        ∧ (∀ k ∈ s.trie.entries.map Prod.fst, k ∈ s1.trie.entries.map Prod.fst)
        ∧ (∀ h, (s.Exist D h).2 = true → (s1.Exist D h).2 = true)
        ∧ ∀ h ∈ s.stateObjectsDirty, s.trie.fault h.bytes = none → s1.written D h)
      ∧ (∀ e ∈ (s.CommitTo P D dbw del).1.stateObjects, e.2.deleted = false)
      ∧ (∀ k ∈ s.trie.entries.map Prod.fst,
          k ∈ (s.CommitTo P D dbw del).1.trie.entries.map Prod.fst)
      ∧ (∀ h, (s.Exist D h).2 = true → ((s.CommitTo P D dbw del).1.Exist D h).2 = true)
      ∧ ((s.CommitTo P D dbw del).2.2 = none →
          ∀ h ∈ s.stateObjectsDirty, s.trie.fault h.bytes = none →
            (s.CommitTo P D dbw del).1.written D h) := by
  have hexist : ∀ {s1 : StateDBRecord}, keepsRecords D s s1 →
      ∀ h, (s.Exist D h).2 = true → (s1.Exist D h).2 = true := by
    intro s1 hk h he
    rw [(StateDBRecord.getters_eq D s h).1] at he
    rw [(StateDBRecord.getters_eq D s1 h).1]
    have hne : s.view D h ≠ none := fun hv => by rw [hv] at he; simp at he
    have h1 := hk.2.2.2.1 h hne
    cases hv : s1.view D h with
    | none => exact absurd hv h1
    | some o => rfl
  refine ⟨?_, ?_⟩
  · obtain ⟨s1, h1, hk, -, hw, -⟩ :=
      StateDBRecord.finaliseLoop_keeps P D del henc s.stateObjectsDirty s hs hlive
    have hc := keepsRecords_congr D hk.1
      (rfl : s1.clearJournalAndRefund.stateObjects = s1.stateObjects) rfl
    have hk2 := keepsRecords_trans hk hc.1
    refine ⟨s1.clearJournalAndRefund, ?_, fun e he => (hk2.1 e he).2.1, hk2.2.2.1, hexist hk2,
      fun h hh hf => hc.2 h (hw h hh hf)⟩
    unfold StateDBRecord.Finalise
    rw [h1]
    rfl
  · have hl := StateDBRecord.commitLoop_keeps P D dbw del henc s.stateObjects s hs hs
    have hkeep : keepsRecords D s (s.CommitTo P D dbw del).1
        ∧ ((s.CommitTo P D dbw del).2.2 = none →
          ∀ h ∈ s.stateObjectsDirty, s.trie.fault h.bytes = none →
            (s.CommitTo P D dbw del).1.written D h) := by
      unfold StateDBRecord.CommitTo
      rcases hc : StateDBRecord.commitLoop P D dbw del s.stateObjects s with ⟨s1, _ | err⟩
      · rw [hc] at hl
        simp only at hl ⊢
        have hc2 := keepsRecords_congr D hl.1.1
          (rfl : s1.clearJournalAndRefund.stateObjects = s1.stateObjects) rfl
        refine ⟨keepsRecords_trans hl.1 hc2.1, fun _ h hh hf => ?_⟩
        exact hc2.2 h ((hl.2 trivial).2 h hh
          (StateDBRecord.liveObject_mem_keys s h (hlive h hh)) hf)
      · rw [hc] at hl
        simp only at hl ⊢
        have hc2 := keepsRecords_congr D hl.1.1
          (rfl : s1.clearJournalAndRefund.stateObjects = s1.stateObjects) rfl
        exact ⟨keepsRecords_trans hl.1 hc2.1, fun h => by simp at h⟩
    exact ⟨fun e he => (hkeep.1.1 e he).2.1, hkeep.1.2.2.1, hexist hkeep.1, hkeep.2⟩

/-- The record state after the transfer of the record of the payload `[7, 7]`, which is
dirty: `Finalise` and `CommitTo` with `deleteEmptyObjects` write the record to the trie,
which bound no key before. -/
theorem Finalise_CommitTo_keep_records_witness :
    afterTransfer.2.1.stateObjectsDirty = [recordKey [7, 7]]
      ∧ afterTransfer.2.1.trie.entries = []
      ∧ ((afterTransfer.2.1.Finalise smallNet sampleStateParams true).map
          (fun s1 => s1.trie.entries.map Prod.fst)) = some [(recordKey [7, 7]).bytes]
      ∧ ((∃ s1, afterTransfer.2.1.Finalise smallNet sampleStateParams true = some s1
          ∧ (∀ e ∈ s1.stateObjects, e.2.deleted = false)
          ∧ (∀ k ∈ afterTransfer.2.1.trie.entries.map Prod.fst,
              k ∈ s1.trie.entries.map Prod.fst)
          ∧ (∀ h, (afterTransfer.2.1.Exist sampleStateParams h).2 = true →
              (s1.Exist sampleStateParams h).2 = true)
          ∧ ∀ h ∈ afterTransfer.2.1.stateObjectsDirty,
              afterTransfer.2.1.trie.fault h.bytes = none → s1.written sampleStateParams h)
        ∧ (∀ e ∈ (afterTransfer.2.1.CommitTo smallNet sampleStateParams (fun _ => none)
              true).1.stateObjects, e.2.deleted = false)
        ∧ (∀ k ∈ afterTransfer.2.1.trie.entries.map Prod.fst,
            k ∈ (afterTransfer.2.1.CommitTo smallNet sampleStateParams (fun _ => none)
              true).1.trie.entries.map Prod.fst)
        ∧ (∀ h, (afterTransfer.2.1.Exist sampleStateParams h).2 = true →
            ((afterTransfer.2.1.CommitTo smallNet sampleStateParams (fun _ => none)
              true).1.Exist sampleStateParams h).2 = true)
        ∧ ((afterTransfer.2.1.CommitTo smallNet sampleStateParams (fun _ => none)
              true).2.2 = none →
            ∀ h ∈ afterTransfer.2.1.stateObjectsDirty,
              afterTransfer.2.1.trie.fault h.bytes = none →
                (afterTransfer.2.1.CommitTo smallNet sampleStateParams (fun _ => none)
                  true).1.written sampleStateParams h)) :=
  ⟨by decide, by decide, by decide,
    Finalise_CommitTo_keep_records smallNet sampleStateParams (fun _ => none)
      afterTransfer.2.1 true (by decide) (by decide) (fun _ => List.cons_ne_nil _ _)⟩

/-- C30. A failed read of the trie by `Exist`, `GetOwner` or `GetStatus`, for a hash without
a live object: the getter returns its default, the state remembers the error unless it
remembers an earlier one, and no later error replaces the one remembered; but `CommitTo`
does not read the remembered error: the root and the error it returns after the failed read
are those it returns without it. -/
theorem CommitTo_drops_read_error (P : Params) (D : StateParams) (dbw : DatabaseWriter)
    (s : StateDBRecord) (del : Bool) (h : Hash) (err : TrieError)
    (hl : s.liveObject h = none) (hread : s.trie.TryGet h.bytes = .error err) :
    (s.Exist D h).2 = false ∧ (s.GetOwner D h).2 = Address.zero ∧ (s.GetStatus D h).2 = 100
      ∧ (s.Exist D h).1 = s.setError (some err)
      ∧ (s.GetOwner D h).1 = s.setError (some err)
      ∧ (s.GetStatus D h).1 = s.setError (some err)
      ∧ (s.setError (some err)).dbErr = (if s.dbErr = none then some err else s.dbErr)
      ∧ (∀ err2, ((s.setError (some err)).setError err2).dbErr = (s.setError (some err)).dbErr)
      ∧ (StateDBRecord.CommitTo P D dbw (s.setError (some err)) del).2
        = (s.CommitTo P D dbw del).2 := by
  have hg : s.getStateObject D h = (s.setError (some err), none) := by
    unfold StateDBRecord.getStateObject
    rw [hl]
    simp only
    rw [hread]
  have hv : s.view D h = none := by
    unfold StateDBRecord.view
    rw [hg]
  have g := StateDBRecord.getters_eq D s h
  have f := StateDBRecord.getters_fst D s h
  rw [hv] at g
  rw [hg] at f
  refine ⟨g.1, g.2.2.1, g.2.2.2.1, f.1, f.2.2.1, f.2.2.2.1, ?_, ?_, ?_⟩
  · unfold StateDBRecord.setError
    split_ifs <;> rfl
  · intro err2
    unfold StateDBRecord.setError
    split_ifs <;> simp_all
  · obtain ⟨e, he⟩ := StateDBRecord.setError_eq s (some err)
    rw [he]
    exact StateDBRecord.CommitTo_dbErr P D dbw del s e

/-- The read of the hash 7 fails on `unreadableRecordState`: `Exist` returns false and
the state remembers the error, and the `CommitTo` that follows returns no error. -/
theorem CommitTo_drops_read_error_witness :
    ((unreadableRecordState.Exist sampleStateParams (hashOf 7)).2 = false
        ∧ (unreadableRecordState.GetOwner sampleStateParams (hashOf 7)).2 = Address.zero
        ∧ (unreadableRecordState.GetStatus sampleStateParams (hashOf 7)).2 = 100
        ∧ (unreadableRecordState.Exist sampleStateParams (hashOf 7)).1
          = unreadableRecordState.setError (some .missingNode)
        ∧ (unreadableRecordState.GetOwner sampleStateParams (hashOf 7)).1
          = unreadableRecordState.setError (some .missingNode)
        ∧ (unreadableRecordState.GetStatus sampleStateParams (hashOf 7)).1
          = unreadableRecordState.setError (some .missingNode)
        ∧ (unreadableRecordState.setError (some .missingNode)).dbErr
          = (if unreadableRecordState.dbErr = none then some .missingNode
            else unreadableRecordState.dbErr)
        ∧ (∀ err2, ((unreadableRecordState.setError (some .missingNode)).setError err2).dbErr
          = (unreadableRecordState.setError (some .missingNode)).dbErr)
        ∧ (StateDBRecord.CommitTo smallNet sampleStateParams (fun _ => none)
            (unreadableRecordState.setError (some .missingNode)) false).2
          = (unreadableRecordState.CommitTo smallNet sampleStateParams (fun _ => none) false).2)
      ∧ (unreadableRecordState.Exist sampleStateParams (hashOf 7)).1.dbErr = some .missingNode
      ∧ (StateDBRecord.CommitTo smallNet sampleStateParams (fun _ => none)
          (unreadableRecordState.Exist sampleStateParams (hashOf 7)).1 false).2.2 = none :=
  ⟨CommitTo_drops_read_error smallNet sampleStateParams (fun _ => none) unreadableRecordState
      false (hashOf 7) .missingNode (by decide) (by decide),
    by decide, by decide⟩

/-- On an epoch trie that cannot resolve the path of the key `"validator"`,
`SetValidators` of the address 7 returns `nil` and stores nothing: the context is the one
before, and `GetValidators` returns an error, not the list. -/
theorem SetValidators_GetValidators_counterexample :
    ((unreadableEpoch .missingNode).SetValidators smallNet [addr 7]).2 = none
      ∧ ((unreadableEpoch .missingNode).SetValidators smallNet [addr 7]).1
        = unreadableEpoch .missingNode
      ∧ ((unreadableEpoch .missingNode).SetValidators smallNet [addr 7]).1.GetValidators smallNet
        = .error .failedToDecodeValidators
      ∧ ((unreadableEpoch .missingNode).SetValidators smallNet [addr 7]).1.GetValidators smallNet
        ≠ .ok [addr 7] := by
  decide

/-- C31, amended. For every list of addresses, the empty one too, `SetValidators` returns
`nil`, whether or not the update of the epoch trie succeeds: the error of `Update` is
dropped. On an epoch trie that can resolve the path of the key `"validator"`,
`GetValidators` then returns a `nil` error and the list itself, with the same length and
order; on one that cannot, the context is the one before and `GetValidators` returns an
error. -/
theorem SetValidators_GetValidators (P : Params) (pc : PocContext) (vs : List Address) :
    (pc.SetValidators P vs).2 = none
      ∧ (pc.epochTrie.fault validatorKey = none →
          (pc.SetValidators P vs).1.GetValidators P = .ok vs)
      ∧ (pc.epochTrie.fault validatorKey ≠ none →
          (pc.SetValidators P vs).1 = pc
            ∧ (pc.SetValidators P vs).1.GetValidators P = .error .failedToDecodeValidators) := by
  refine ⟨rfl, fun hf => ?_, fun hf => ?_⟩
  · obtain ⟨t1, h1, h2, h3⟩ := Trie.TryUpdate_ok pc.epochTrie validatorKey
      (P.EncodeValidators vs) hf (fun h => P.encode_ne_nil vs (by rw [h]; rfl))
    have hget : t1.Get validatorKey = some (P.EncodeValidators vs) := by
      unfold Trie.Get Trie.TryGet
      rw [Trie.fault_congr _ _ h2, hf]
      simp only
      rw [h3, find_insertEntry, if_pos rfl]
    unfold PocContext.SetValidators PocContext.GetValidators Trie.Update
    rw [h1]
    simp only
    rw [hget]
    simp only [Option.getD_some, P.decode_encode]
  · obtain ⟨e, he⟩ := Option.ne_none_iff_exists'.mp hf
    have hup : pc.epochTrie.Update validatorKey (P.EncodeValidators vs) = pc.epochTrie := by
      unfold Trie.Update Trie.TryUpdate
      rw [he]
    have hset : (pc.SetValidators P vs).1 = pc := by
      unfold PocContext.SetValidators
      simp only
      rw [hup]
    refine ⟨hset, ?_⟩
    rw [hset]
    unfold PocContext.GetValidators Trie.Get Trie.TryGet
    rw [he]
    simp only [Option.getD_none, P.decode_nil]

/-- The round trip on the sample context, whose epoch trie holds a validator list, with a
list of three addresses and with the empty list. -/
theorem SetValidators_GetValidators_witness :
    sampleEpochContext.PocContext.epochTrie.fault validatorKey = none
      ∧ (sampleEpochContext.PocContext.SetValidators smallNet [addr 7, addr 3, addr 7]).2 = none
      ∧ (sampleEpochContext.PocContext.SetValidators smallNet
          [addr 7, addr 3, addr 7]).1.GetValidators smallNet = .ok [addr 7, addr 3, addr 7]
      ∧ (sampleEpochContext.PocContext.SetValidators smallNet []).1.GetValidators smallNet
        = .ok [] :=
  ⟨by decide,
    (SetValidators_GetValidators smallNet sampleEpochContext.PocContext
      [addr 7, addr 3, addr 7]).1,
    (SetValidators_GetValidators smallNet sampleEpochContext.PocContext
      [addr 7, addr 3, addr 7]).2.1 (by decide),
    (SetValidators_GetValidators smallNet sampleEpochContext.PocContext []).2.1 (by decide)⟩

/-- C32. For every context that points to five trie objects: `Snapshot` returns a context
`s` with the root of the context; after every sequence of calls of `BecomeCandidate`,
`KickoutCandidate`, `SetValidators`, `SetContributions` and `SetLastedTx` on the context,
the root of `s` is still the root the context had when the snapshot was taken; and after
`RevertToSnapShot(s)` the root of the context is that root. -/
theorem PocContext_Snapshot_round_trip (P : Params) (H : PocParams) (h : TrieHeap)
    (pc : PocContextRef) (ms : List PocMutation) (hv : pc.valid h) :
    ∃ h1 s h2 root, pc.Snapshot h = some (h1, s)
      ∧ pc.Root P H h = some root
      ∧ pc.Root P H h1 = some root
      ∧ s.Root P H h1 = some root
      ∧ applyPocMutationsRef P H pc ms h1 = some h2
      ∧ s.Root P H h2 = some root
      ∧ (pc.RevertToSnapShot s).Root P H h2 = some root := by
  obtain ⟨v, hd⟩ := PocContextRef.deref_of_valid hv
  obtain ⟨h1, s, hcopy, hs, hlen, hfresh, hold⟩ := PocContextRef.Copy_eq hd
  have hv1 : pc.valid h1 := fun p hp => lt_of_lt_of_le (hv p hp) hlen
  obtain ⟨h2, hm, -, hframe⟩ := applyPocMutationsRef_frame P H pc ms h1 hv1
  have hpc1 : pc.deref h1 = some v := by
    rw [PocContextRef.deref_congr h h1 pc (fun p hp => hold p (hv p hp)), hd]
  have hs2 : s.deref h2 = some v := by
    rw [PocContextRef.deref_congr h1 h2 s (fun p hp => hframe p (fun hq => by
      have h3 := hfresh p hp
      have h4 := hv p hq
      omega)), hs]
  have hrev : pc.RevertToSnapShot s = s := rfl
  refine ⟨h1, s, h2, v.Root P H, hcopy, ?_, ?_, ?_, hm, ?_, ?_⟩
  · unfold PocContextRef.Root; rw [hd]; rfl
  · unfold PocContextRef.Root; rw [hpc1]; rfl
  · unfold PocContextRef.Root; rw [hs]; rfl
  · unfold PocContextRef.Root; rw [hs2]; rfl
  · rw [hrev]; unfold PocContextRef.Root; rw [hs2]; rfl

/-- The sample context: after `BecomeCandidate` of the address 9 and `SetValidators` the
root of the context is no longer the root of the snapshot, which is the root before. -/
theorem PocContext_Snapshot_round_trip_witness :
    (samplePocContextRef.Snapshot sampleTrieHeap).map Prod.snd
        = some ⟨5, 6, 7, 8, 9⟩
      ∧ ((samplePocContextRef.Snapshot sampleTrieHeap).bind (fun r =>
          (applyPocMutationsRef smallNet samplePocParams samplePocContextRef
            [.BecomeCandidate (addr 9), .SetValidators [addr 9]] r.1).map (fun h2 =>
              decide (samplePocContextRef.Root smallNet samplePocParams h2
                = r.2.Root smallNet samplePocParams h2)))) = some false
      ∧ ∃ h1 s h2 root, samplePocContextRef.Snapshot sampleTrieHeap = some (h1, s)
        ∧ samplePocContextRef.Root smallNet samplePocParams sampleTrieHeap = some root
        ∧ samplePocContextRef.Root smallNet samplePocParams h1 = some root
        ∧ s.Root smallNet samplePocParams h1 = some root
        ∧ applyPocMutationsRef smallNet samplePocParams samplePocContextRef
            [.BecomeCandidate (addr 9), .SetValidators [addr 9]] h1 = some h2
        ∧ s.Root smallNet samplePocParams h2 = some root
        ∧ (samplePocContextRef.RevertToSnapShot s).Root smallNet samplePocParams h2
          = some root :=
  ⟨by decide, by decide,
    PocContext_Snapshot_round_trip smallNet samplePocParams sampleTrieHeap samplePocContextRef
      [.BecomeCandidate (addr 9), .SetValidators [addr 9]] (by decide)⟩

/-- C33. From a context whose candidate trie binds addresses to themselves, as the one of
`NewPocContext` does, after every sequence of calls of the methods that write a trie,
`GetCandidates` returns each address at most once; after `BecomeCandidate` on each address
of a list, on a candidate trie that resolves every path, the candidates are the addresses of
the list and the candidates before; and `BecomeCandidate` of an address twice returns the
context and the error of `BecomeCandidate` once, so the candidate trie and its root hash are
the same. -/
theorem candidateTrie_is_set (P : Params) (H : PocParams) (pc : PocContext)
    (hb : pc.candidatesBound) :
    (∀ ms : List PocMutation,
        (applyPocMutations P H ms pc).candidatesBound
          ∧ (applyPocMutations P H ms pc).GetCandidates.Nodup)
      ∧ (pc.candidateTrie.faults = [] → ∀ (l : List Address) (a : Address),
          a ∈ (applyPocMutations P H (l.map PocMutation.BecomeCandidate) pc).GetCandidates
            ↔ a ∈ l ∨ a ∈ pc.GetCandidates)
      ∧ (∀ a : Address,
          (pc.BecomeCandidate a).1.BecomeCandidate a = pc.BecomeCandidate a
            ∧ ((pc.BecomeCandidate a).1.BecomeCandidate a).1.candidateTrie.Hash P
              = (pc.BecomeCandidate a).1.candidateTrie.Hash P) := by
  refine ⟨?_, ?_, ?_⟩
  · intro ms
    have h := candidatesBound_applyPocMutations P H ms pc hb
    exact ⟨h, GetCandidates_nodup _ h⟩
  · intro hf l a
    exact mem_GetCandidates_become P H l pc hb hf a
  · intro a
    have h := BecomeCandidate_idem pc a
    exact ⟨h, by rw [h]⟩

/-- The context of `NewPocContext`: after `BecomeCandidate` of the addresses 3, 1, 3 and 2
the candidates are the addresses 1, 2 and 3, each once, and after calls that become and
kick out candidates no address is listed twice. -/
theorem candidateTrie_is_set_witness :
    emptyPocContext.GetCandidates = []
      ∧ (applyPocMutations smallNet samplePocParams
          ([addr 3, addr 1, addr 3, addr 2].map PocMutation.BecomeCandidate)
          emptyPocContext).GetCandidates = [addr 1, addr 2, addr 3]
      ∧ (applyPocMutations smallNet samplePocParams
          [.BecomeCandidate (addr 3), .BecomeCandidate (addr 1), .KickoutCandidate (addr 3),
            .KickoutCandidate (addr 7), .BecomeCandidate (addr 1), .SetValidators [addr 1]]
          emptyPocContext).GetCandidates = [addr 1]
      ∧ ((∀ ms : List PocMutation,
          (applyPocMutations smallNet samplePocParams ms emptyPocContext).candidatesBound
            ∧ (applyPocMutations smallNet samplePocParams ms emptyPocContext).GetCandidates.Nodup)
        ∧ (emptyPocContext.candidateTrie.faults = [] → ∀ (l : List Address) (a : Address),
            a ∈ (applyPocMutations smallNet samplePocParams
                (l.map PocMutation.BecomeCandidate) emptyPocContext).GetCandidates
              ↔ a ∈ l ∨ a ∈ emptyPocContext.GetCandidates)
        ∧ (∀ a : Address,
            (emptyPocContext.BecomeCandidate a).1.BecomeCandidate a
                = emptyPocContext.BecomeCandidate a
              ∧ ((emptyPocContext.BecomeCandidate a).1.BecomeCandidate a).1.candidateTrie.Hash
                  smallNet
                = (emptyPocContext.BecomeCandidate a).1.candidateTrie.Hash smallNet)) :=
  ⟨by decide, by decide, by decide,
    candidateTrie_is_set smallNet samplePocParams emptyPocContext (by decide)⟩

/-- On a candidate trie that cannot resolve the path of the address 1, a candidate,
`TryDelete` reports a missing node and `KickoutCandidate` returns `nil`: the context and
the root hash of the candidate trie are those before, and the address 1 is a candidate
afterwards as it was before. -/
theorem KickoutCandidate_outcome_counterexample :
    (unreadableCandidates .missingNode).candidateTrie.TryDelete (addr 1).Bytes
        = .error .missingNode
      ∧ addr 1 ∈ (unreadableCandidates .missingNode).GetCandidates
      ∧ ((unreadableCandidates .missingNode).KickoutCandidate (addr 1)).2 = none
      ∧ ((unreadableCandidates .missingNode).KickoutCandidate (addr 1)).1.candidateTrie.Hash
          smallNet
        = (unreadableCandidates .missingNode).candidateTrie.Hash smallNet
      ∧ ((unreadableCandidates .missingNode).KickoutCandidate (addr 1)).1.GetCandidates
        = [addr 0, addr 1, addr 2, addr 3, addr 4, addr 9]
      ∧ addr 1 ∈ ((unreadableCandidates .missingNode).KickoutCandidate (addr 1)).1.GetCandidates
      := by
  decide

/-- C34, amended. Go `KickoutCandidate(A)` returns `nil` when `TryDelete` succeeds or
reports a missing node, and returns every other error of the trie, leaving the context as
it was. When the delete succeeds, the candidate trie is the one `TryDelete` returns: the key
of `A` is not in it and reads as absent, every other address reads as before, and on a
candidate trie that binds addresses to themselves `A` is no candidate and the other
candidates are those before. When a missing node is reported nothing is deleted: the
context is the one before, so `A` is a candidate afterwards exactly when it was one. When
`A` was not a candidate, bound to nothing or not listed, and the trie reports no other
error, the call returns `nil` and the context is the one before. -/
theorem KickoutCandidate_outcome (pc : PocContext) (a : Address) :
    (∀ t : Trie, pc.candidateTrie.TryDelete a.Bytes = .ok t →
        pc.KickoutCandidate a = ({ pc with candidateTrie := t }, none)
          ∧ a.Bytes ∉ (pc.KickoutCandidate a).1.candidateTrie.iterate.map Prod.fst
          ∧ (pc.KickoutCandidate a).1.candidateTrie.Get a.Bytes = none
          ∧ (∀ v : Address, v ≠ a →
              (pc.KickoutCandidate a).1.candidateTrie.Get v.Bytes
                = pc.candidateTrie.Get v.Bytes)
          ∧ (pc.candidatesBound →
              a ∉ (pc.KickoutCandidate a).1.GetCandidates
                ∧ ∀ v : Address, v ≠ a →
                  (v ∈ (pc.KickoutCandidate a).1.GetCandidates ↔ v ∈ pc.GetCandidates)))
      ∧ (pc.candidateTrie.TryDelete a.Bytes = .error .missingNode →
          pc.KickoutCandidate a = (pc, none)
            ∧ (a ∈ (pc.KickoutCandidate a).1.GetCandidates ↔ a ∈ pc.GetCandidates))
      ∧ (∀ e : TrieError, pc.candidateTrie.TryDelete a.Bytes = .error e → e ≠ .missingNode →
          pc.KickoutCandidate a = (pc, some (.trie e)))
      ∧ (pc.candidateTrie.TryGet a.Bytes = .ok none → pc.KickoutCandidate a = (pc, none))
      ∧ (pc.candidatesBound → a ∉ pc.GetCandidates →
          pc.candidateTrie.fault a.Bytes ≠ some .other → pc.KickoutCandidate a = (pc, none)) := by
  have hK := KickoutCandidate_eq pc a
  have habsent : pc.candidateTrie.fault a.Bytes = none →
      a.Bytes ∉ pc.candidateTrie.entries.map Prod.fst → pc.KickoutCandidate a = (pc, none) := by
    intro hf habs
    have h := hK.1 hf
    have ht : (pc.KickoutCandidate a).1.candidateTrie = pc.candidateTrie := by
      apply Trie.eq_of_entries
      · rw [h.2.1, filter_key_absent _ _ habs]
      · exact h.2.2
    have hrest : (pc.KickoutCandidate a).1
        = { pc with candidateTrie := (pc.KickoutCandidate a).1.candidateTrie } := by
      unfold PocContext.KickoutCandidate
      cases pc.candidateTrie.TryDelete a.Bytes with
      | ok t => rfl
      | error e => cases e <;> rfl
    apply Prod.ext
    · rw [hrest, ht]
    · exact h.1
  refine ⟨?_, ?_, ?_, ?_, ?_⟩
  · intro t ht
    have hf : pc.candidateTrie.fault a.Bytes = none := by
      unfold Trie.TryDelete at ht
      cases hfa : pc.candidateTrie.fault a.Bytes with
      | none => rfl
      | some e => rw [hfa] at ht; cases ht
    have h := hK.1 hf
    have hkeys : a.Bytes ∉ (pc.KickoutCandidate a).1.candidateTrie.iterate.map Prod.fst := by
      unfold Trie.iterate
      rw [h.2.1]
      intro hmem
      obtain ⟨e, he, hk⟩ := List.mem_map.mp hmem
      have := (List.mem_filter.mp he).2
      simp [hk] at this
    refine ⟨?_, hkeys, ?_, fun v hv => KickoutCandidate_Get pc a v (fun h => hv h.symm), ?_⟩
    · unfold PocContext.KickoutCandidate
      rw [ht]
    · unfold Trie.Get Trie.TryGet
      rw [Trie.fault_congr _ _ h.2.2, hf]
      simp only
      rw [find_isNone_iff]
      exact hkeys
    · intro hb
      have hb1 : (pc.KickoutCandidate a).1.candidatesBound :=
        candidatesBound_KickoutCandidate pc a hb
      refine ⟨?_, ?_⟩
      · rw [mem_GetCandidates_iff _ hb1]
        exact hkeys
      · intro v hv
        have hne : ¬ v.Bytes = a.Bytes := fun e => hv (Address.Bytes_inj e)
        rw [mem_GetCandidates_iff _ hb1, mem_GetCandidates_iff _ hb, h.2.1]
        simp only [List.mem_map, List.mem_filter, Bool.not_eq_true', decide_eq_false_iff_not]
        constructor
        · rintro ⟨e, ⟨he, _⟩, hk⟩
          exact ⟨e, he, hk⟩
        · rintro ⟨e, he, hk⟩
          exact ⟨e, ⟨he, by rw [hk]; exact hne⟩, hk⟩
  · intro hd
    have h : pc.KickoutCandidate a = (pc, none) := by
      unfold PocContext.KickoutCandidate
      rw [hd]
    rw [h]
    exact ⟨rfl, Iff.rfl⟩
  · intro e hd hne
    unfold PocContext.KickoutCandidate
    rw [hd]
    cases e with
    | missingNode => exact absurd rfl hne
    | other => rfl
  · intro hg
    have hf : pc.candidateTrie.fault a.Bytes = none := by
      unfold Trie.TryGet at hg
      cases hfa : pc.candidateTrie.fault a.Bytes with
      | none => rfl
      | some e => rw [hfa] at hg; cases hg
    apply habsent hf
    unfold Trie.TryGet at hg
    rw [hf] at hg
    simp only [Except.ok.injEq] at hg
    exact (find_isNone_iff _ _).mp hg
  · intro hb hnot hother
    have habs : a.Bytes ∉ pc.candidateTrie.entries.map Prod.fst :=
      fun h => hnot ((mem_GetCandidates_iff pc hb a).mpr h)
    cases hf : pc.candidateTrie.fault a.Bytes with
    | none => exact habsent hf habs
    | some e =>
      cases e with
      | missingNode => exact hK.2.1 hf
      | other => exact absurd hf hother

/-- The candidates 0 to 4 and 9: the kickout of the address 1 returns `nil`, removes it and
leaves the others; the kickout of the address 7, no candidate, leaves the context; on a
candidate trie that cannot resolve the path of the address 1, the kickout returns the error
that is no missing node. -/
theorem KickoutCandidate_outcome_witness :
    oneIdleValidator.PocContext.GetCandidates
        = [addr 0, addr 1, addr 2, addr 3, addr 4, addr 9]
      ∧ (oneIdleValidator.PocContext.KickoutCandidate (addr 1)).2 = none
      ∧ (oneIdleValidator.PocContext.KickoutCandidate (addr 1)).1.GetCandidates
        = [addr 0, addr 2, addr 3, addr 4, addr 9]
      ∧ oneIdleValidator.PocContext.KickoutCandidate (addr 7)
        = (oneIdleValidator.PocContext, none)
      ∧ (unreadableCandidates .other).KickoutCandidate (addr 1)
        = (unreadableCandidates .other, some (.trie .other))
      ∧ (oneIdleValidator.PocContext.candidatesBound →
          addr 1 ∉ (oneIdleValidator.PocContext.KickoutCandidate (addr 1)).1.GetCandidates
            ∧ ∀ v : Address, v ≠ addr 1 →
              (v ∈ (oneIdleValidator.PocContext.KickoutCandidate (addr 1)).1.GetCandidates
                ↔ v ∈ oneIdleValidator.PocContext.GetCandidates)) :=
  ⟨by decide, by decide, by decide, by decide, by decide,
    ((KickoutCandidate_outcome oneIdleValidator.PocContext (addr 1)).1
      ⟨oneIdleValidator.PocContext.candidateTrie.entries.filter
          (fun e => !decide (e.1 = (addr 1).Bytes)),
        oneIdleValidator.PocContext.candidateTrie.sorted.filter _,
        oneIdleValidator.PocContext.candidateTrie.faults⟩ (by decide)).2.2.2.2⟩

/-- C35. Go `PocContext.Root` is the keccak256 digest of the encodings of the five root
hashes in the order epoch, contribution, candidate, latestTx, mintCnt; it is the root of
`ToProto`; `CommitTo` returns a proto exactly when it returns no error, which it does when
the writer takes the five tries, and the proto is then the one of `ToProto`, with the root
of each trie in the field of its name, so that its root is the root of the context. -/
theorem PocContext_Root_proto (P : Params) (H : PocParams) (dbw : DatabaseWriter)
    (pc : PocContext) :
    pc.Root P H
        = H.keccak256 (H.EncodeHash (pc.epochTrie.Hash P)
          ++ (H.EncodeHash (pc.contributionTrie.Hash P)
          ++ (H.EncodeHash (pc.candidateTrie.Hash P)
          ++ (H.EncodeHash (pc.latestTxTrie.Hash P)
          ++ H.EncodeHash (pc.mintCntTrie.Hash P)))))
      ∧ (pc.ToProto P).Root H = pc.Root P H
      ∧ ((pc.CommitTo P dbw).2 = none → (pc.CommitTo P dbw).1 = some (pc.ToProto P))
      ∧ (∀ proto, (pc.CommitTo P dbw).1 = some proto →
          (pc.CommitTo P dbw).2 = none ∧ proto = pc.ToProto P
            ∧ proto.EpochHash = pc.epochTrie.Hash P
            ∧ proto.ContributionHash = pc.contributionTrie.Hash P
            ∧ proto.CandidateHash = pc.candidateTrie.Hash P
            ∧ proto.LatestTxHash = pc.latestTxTrie.Hash P
            ∧ proto.MintCntHash = pc.mintCntTrie.Hash P
            ∧ proto.Root H = pc.Root P H)
      ∧ (dbw pc.epochTrie.entries = none → dbw pc.contributionTrie.entries = none →
          dbw pc.latestTxTrie.entries = none → dbw pc.candidateTrie.entries = none →
          dbw pc.mintCntTrie.entries = none →
          pc.CommitTo P dbw = (some (pc.ToProto P), none)) := by
  have hcommit : pc.CommitTo P dbw = (some (pc.ToProto P), none)
      ∨ ((pc.CommitTo P dbw).1 = none ∧ (pc.CommitTo P dbw).2 ≠ none
        ∧ ¬ (dbw pc.epochTrie.entries = none ∧ dbw pc.contributionTrie.entries = none
          ∧ dbw pc.latestTxTrie.entries = none ∧ dbw pc.candidateTrie.entries = none
          ∧ dbw pc.mintCntTrie.entries = none)) := by
    unfold PocContext.CommitTo Trie.CommitTo
    cases h1 : dbw pc.epochTrie.entries with
    | some e => right; simp
    | none =>
      cases h2 : dbw pc.contributionTrie.entries with
      | some e => right; simp
      | none =>
        cases h3 : dbw pc.latestTxTrie.entries with
        | some e => right; simp
        | none =>
          cases h4 : dbw pc.candidateTrie.entries with
          | some e => right; simp
          | none =>
            cases h5 : dbw pc.mintCntTrie.entries with
            | some e => right; simp
            | none => left; rfl
  refine ⟨rfl, rfl, ?_, ?_, ?_⟩
  · intro h
    rcases hcommit with hc | hc
    · rw [hc]
    · exact absurd h hc.2.1
  · intro proto h
    rcases hcommit with hc | hc
    · rw [hc] at h ⊢
      simp only [Option.some.injEq] at h
      subst h
      exact ⟨rfl, rfl, rfl, rfl, rfl, rfl, rfl, rfl⟩
    · rw [hc.1] at h
      cases h
  · intro h1 h2 h3 h4 h5
    rcases hcommit with hc | hc
    · exact hc
    · exact absurd ⟨h1, h2, h3, h4, h5⟩ hc.2.2

/-- The sample context and a writer that takes every trie: the root of the proto that
`CommitTo` returns is the root of the context. -/
theorem PocContext_Root_proto_witness :
    (sampleEpochContext.PocContext.CommitTo smallNet (fun _ => none)).2 = none
      ∧ ((sampleEpochContext.PocContext.CommitTo smallNet (fun _ => none)).1.map
          (fun p => p.Root samplePocParams))
        = some (sampleEpochContext.PocContext.Root smallNet samplePocParams)
      ∧ (sampleEpochContext.PocContext.CommitTo smallNet (fun _ => some .other)).1 = none
      ∧ sampleEpochContext.PocContext.CommitTo smallNet (fun _ => none)
        = (some (sampleEpochContext.PocContext.ToProto smallNet), none) :=
  ⟨by decide, by decide, by decide,
    (PocContext_Root_proto smallNet samplePocParams (fun _ => none)
      sampleEpochContext.PocContext).2.2.2.2 rfl rfl rfl rfl rfl⟩

/-- The stored validators 0, 0 and 1 are all kickout candidates and all in the candidate
trie of five candidates, of which two may be removed: `kickoutValidator` removes the
address 0 alone, one address and not two. -/
theorem kickoutValidator_exact_count_counterexample :
    repeatedValidator.PocContext.GetValidators smallNet = .ok [addr 0, addr 0, addr 1]
      ∧ needKickoutValidators smallNet repeatedValidator 1 [addr 0, addr 0, addr 1]
        = some [⟨addr 0, 0⟩, ⟨addr 0, 0⟩, ⟨addr 1, 1⟩]
      ∧ (∀ x ∈ ([⟨addr 0, 0⟩, ⟨addr 0, 0⟩, ⟨addr 1, 1⟩] : List sortableAddress),
          (repeatedValidator.PocContext.candidateTrie.Get x.address.Bytes).isSome = true)
      ∧ repeatedValidator.PocContext.candidateTrie.faults = []
      ∧ repeatedValidator.PocContext.GetCandidates = [addr 0, addr 1, addr 2, addr 3, addr 4]
      ∧ smallNet.safeSize = 3
      ∧ (kickoutValidator smallNet repeatedValidator 1).2 = none
      ∧ (kickoutValidator smallNet repeatedValidator 1).1.PocContext.GetCandidates
        = [addr 1, addr 2, addr 3, addr 4]
      ∧ (kickoutValidator smallNet repeatedValidator 1).1.PocContext.candidateTrie.iterate.length
          + min 2 (repeatedValidator.PocContext.candidateTrie.iterate.length - smallNet.safeSize)
        ≠ repeatedValidator.PocContext.candidateTrie.iterate.length := by
  decide

/-- C36, amended. Exact kickout count: when the stored validator list holds no address
twice and every kickout candidate (under-producing validator) is in the candidate trie (a
trie without unresolvable keys), among `c` candidates and `m` kickout candidates
`kickoutValidator` removes exactly `min m (c - safeSize)` entries, all of them kickout
candidates; it removes nothing when `m = 0` and removes all `m` when `c ≥ m + safeSize`,
and no address that is not an under-producing validator is removed. -/
theorem kickoutValidator_exact_count (P : Params) (ec : EpochContext) (epoch : Int)
    (validators : List Address) (need : List sortableAddress)
    (hget : ec.PocContext.GetValidators P = .ok validators)
    (hneed : needKickoutValidators P ec epoch validators = some need)
    (hnodup : validators.Nodup)
    (hin : ∀ x ∈ need, (ec.PocContext.candidateTrie.Get x.address.Bytes).isSome = true)
    (hfaults : ec.PocContext.candidateTrie.faults = []) :
    (kickoutValidator P ec epoch).1.PocContext.GetCandidates.Sublist ec.PocContext.GetCandidates
      ∧ (kickoutValidator P ec epoch).1.PocContext.GetCandidates.length
          + min need.length (ec.PocContext.GetCandidates.length - P.safeSize)
        = ec.PocContext.GetCandidates.length
      ∧ (∀ v : Address,
          (kickoutValidator P ec epoch).1.PocContext.candidateTrie.Get v.Bytes
              ≠ ec.PocContext.candidateTrie.Get v.Bytes →
            v ∈ validators ∧ ∃ cnt : Int, (⟨v, cnt⟩ : sortableAddress) ∈ need
              ∧ mintCnt ec epoch v = some cnt ∧ cnt < kickoutThreshold P ec)
      ∧ (need.length = 0 →
          (kickoutValidator P ec epoch).1.PocContext.candidateTrie = ec.PocContext.candidateTrie)
      ∧ (need.length + P.safeSize ≤ ec.PocContext.GetCandidates.length →
          ∀ x ∈ need,
            (kickoutValidator P ec epoch).1.PocContext.candidateTrie.Get x.address.Bytes = none)
      ∧ (validators ≠ [] → (kickoutValidator P ec epoch).2 = none) := by
  have hiter := kickoutValidator_iterate P ec epoch validators need hget hneed hfaults
  have hcount := kickoutValidator_count P ec epoch validators need hget hneed hnodup hin hfaults
  have hfaults1 : (kickoutValidator P ec epoch).1.PocContext.candidateTrie.faults = [] := by
    rw [kickoutValidator_faults]; exact hfaults
  refine ⟨kickoutValidator_sublist P ec epoch, ?_, ?_, ?_, ?_, ?_⟩
  · simpa only [PocContext.GetCandidates, List.length_map] using hcount
  · intro v hv
    by_cases hx : ∀ x ∈ need, x.address ≠ v
    · exact absurd
        (kickoutValidator_Get_of_not_need P ec epoch validators need hget hneed v hx) hv
    · push_neg at hx
      obtain ⟨x, hxn, hxv⟩ := hx
      obtain ⟨a, w⟩ := x
      simp only at hxv
      subst hxv
      have := (needKickoutValidators_mem P ec epoch validators need hneed a w).mp hxn
      exact ⟨this.1, w, hxn, this.2.1, this.2.2⟩
  · intro hm
    have hn : need = [] := List.length_eq_zero.mp hm
    subst hn
    apply Trie.eq_of_entries
    · have : (kickoutValidator P ec epoch).1.PocContext.candidateTrie.entries
          = ec.PocContext.candidateTrie.entries := by
        simpa [Trie.iterate, sortSort] using hiter
      exact this
    · rw [kickoutValidator_faults]
  · intro hc x hx
    have hlen : need.length ≤ ec.PocContext.candidateTrie.iterate.length - P.safeSize := by
      simp only [PocContext.GetCandidates, List.length_map] at hc
      omega
    have hperm := sortSort_perm (fun a b => Less P b a) need
    have htake : (sortSort (fun a b => Less P b a) need).take
        (ec.PocContext.candidateTrie.iterate.length - P.safeSize)
        = sortSort (fun a b => Less P b a) need :=
      List.take_of_length_le (by rw [hperm.length_eq]; exact hlen)
    rw [htake] at hiter
    have hnot : ¬ ((kickoutValidator P ec epoch).1.PocContext.candidateTrie.Get
        x.address.Bytes).isSome = true := by
      rw [Get_isSome_iff _ hfaults1]
      intro hmem
      obtain ⟨e, he, hek⟩ := List.mem_map.mp hmem
      have he1 : e ∈ (kickoutValidator P ec epoch).1.PocContext.candidateTrie.iterate := he
      rw [hiter, List.mem_filter] at he1
      have : e.1 ∈ (sortSort (fun a b => Less P b a) need).map (fun x => x.address.Bytes) := by
        rw [hek]
        exact List.mem_map_of_mem _ (hperm.symm.subset hx)
      simp [this] at he1
    cases hg : (kickoutValidator P ec epoch).1.PocContext.candidateTrie.Get x.address.Bytes with
    | none => rfl
    | some b => rw [hg] at hnot; simp at hnot
  · intro hne
    exact (kickoutValidator_noFault P ec epoch validators need hget hne hneed hfaults).1

/-- Five validators that minted 11, 10, 9, 8 and 7 blocks, all kickout candidates and all
candidates: of the five candidates two are removed, the smaller of 5 and 5 - 3. -/
theorem kickoutValidator_exact_count_witness :
    (kickoutValidator smallNet allIdleValidators 1).1.PocContext.GetCandidates.length
        + min 5 (allIdleValidators.PocContext.GetCandidates.length - smallNet.safeSize)
        = allIdleValidators.PocContext.GetCandidates.length
      ∧ (kickoutValidator smallNet allIdleValidators 1).1.PocContext.GetCandidates.length = 3
      ∧ allIdleValidators.PocContext.GetCandidates.length = 5 :=
  ⟨(kickoutValidator_exact_count smallNet allIdleValidators 1
      [addr 0, addr 1, addr 2, addr 3, addr 4]
      [⟨addr 0, 11⟩, ⟨addr 1, 10⟩, ⟨addr 2, 9⟩, ⟨addr 3, 8⟩, ⟨addr 4, 7⟩]
      (by decide) (by decide) (by decide) (by decide) (by decide)).2.1,
    by decide, by decide⟩

/-- One mint count under the prefix of epoch 1, the parent in epoch 1, the genesis block in
epoch 0 and the time in epoch 3, two missed epochs: `tryElect` returns `nil`, it calls
`kickoutValidator` in the first iteration and not in the second, and five candidates are
left, where a second call would leave three. -/
theorem tryElect_kickout_iterations_counterexample :
    prevEpochIsGenesis smallNet ⟨0, []⟩ ⟨1200, []⟩ = false
      ∧ prevEpochOf smallNet oneMintCntEntry ⟨0, []⟩ ⟨1200, []⟩ = 1
      ∧ Int.tdiv oneMintCntEntry.TimeStamp smallNet.epochInterval = 3
      ∧ (oneMintCntEntry.PocContext.mintCntTrie.iteratePrefixed (PutUint64 (uint64 1))).length = 1
      ∧ (tryElect smallNet oneMintCntEntry ⟨0, []⟩ ⟨1200, []⟩).2 = none
      ∧ (tryElectTraced smallNet oneMintCntEntry ⟨0, []⟩ ⟨1200, []⟩).2 = [true, false]
      ∧ (tryElect smallNet oneMintCntEntry ⟨0, []⟩ ⟨1200, []⟩).1.PocContext.GetCandidates
        = [addr 1, addr 2, addr 3, addr 4, addr 5]
      ∧ (kickoutValidator smallNet
          (tryElectLoop smallNet ⟨1200, []⟩ 1 false 1 1
            (oneMintCntEntry.PocContext.mintCntTrie.iteratePrefixed (PutUint64 (uint64 1)))
            oneMintCntEntry).1 1).1.PocContext.GetCandidates.length = 3 := by
  decide

/-- C37, amended. In `tryElect`, in the iteration `k` of the loop over the missed epochs
(`k = 0` for `i = prevEpoch`), `kickoutValidator(prevEpoch)` is run if and only if the
transition is not the genesis transition and `mintCntTrie` has more than `k` entries whose
key starts with `bigEndian64(prevEpoch)`: the iterator advances by one entry in each
iteration. A loop that returns `nil` has one iteration for each missed epoch. With no such
entry no kickout happens and the candidate trie is unchanged, and with one such entry and
several missed epochs the kickout is run in the first iteration only. -/
theorem tryElect_kickout_iterations (P : Params) (ec : EpochContext) (genesis parent : Header) :
    (tryElectTraced P ec genesis parent).1 = tryElect P ec genesis parent
      ∧ (tryElectTraced P ec genesis parent).2.length
        ≤ (Int.tdiv ec.TimeStamp P.epochInterval - prevEpochOf P ec genesis parent).toNat
      ∧ ((tryElect P ec genesis parent).2 = none →
          (tryElectTraced P ec genesis parent).2.length
            = (Int.tdiv ec.TimeStamp P.epochInterval - prevEpochOf P ec genesis parent).toNat)
      ∧ (∀ (k : Nat) (b : Bool), (tryElectTraced P ec genesis parent).2.get? k = some b →
          (b = true ↔ prevEpochIsGenesis P genesis parent = false
            ∧ k < (ec.PocContext.mintCntTrie.iteratePrefixed
                (PutUint64 (uint64 (prevEpochOf P ec genesis parent)))).length))
      ∧ (ec.PocContext.mintCntTrie.iteratePrefixed
            (PutUint64 (uint64 (prevEpochOf P ec genesis parent))) = []
          ↔ ∀ e ∈ ec.PocContext.mintCntTrie.iterate,
              startsWith e.1 (PutUint64 (uint64 (prevEpochOf P ec genesis parent))) = false)
      ∧ (prevEpochIsGenesis P genesis parent = true
            ∨ ec.PocContext.mintCntTrie.iteratePrefixed
                (PutUint64 (uint64 (prevEpochOf P ec genesis parent))) = [] →
          (∀ b ∈ (tryElectTraced P ec genesis parent).2, b = false)
            ∧ (tryElect P ec genesis parent).1.PocContext.candidateTrie
              = ec.PocContext.candidateTrie)
      ∧ (prevEpochIsGenesis P genesis parent = false →
          (ec.PocContext.mintCntTrie.iteratePrefixed
            (PutUint64 (uint64 (prevEpochOf P ec genesis parent)))).length = 1 →
          ∀ (k : Nat) (b : Bool), (tryElectTraced P ec genesis parent).2.get? k = some b →
            (b = true ↔ k = 0)) := by
  have hfst := tryElectTraced_fst P ec genesis parent
  have hlen := tryElectLoopTraced_length P parent (prevEpochOf P ec genesis parent)
    (prevEpochIsGenesis P genesis parent)
    (Int.tdiv ec.TimeStamp P.epochInterval - prevEpochOf P ec genesis parent).toNat
    (prevEpochOf P ec genesis parent)
    (ec.PocContext.mintCntTrie.iteratePrefixed
      (PutUint64 (uint64 (prevEpochOf P ec genesis parent)))) ec
  have hget : ∀ (k : Nat) (b : Bool), (tryElectTraced P ec genesis parent).2.get? k = some b →
      b = (!prevEpochIsGenesis P genesis parent
        && decide (k < (ec.PocContext.mintCntTrie.iteratePrefixed
            (PutUint64 (uint64 (prevEpochOf P ec genesis parent)))).length)) :=
    fun k b h => tryElectLoopTraced_get P parent _ _ _ _ _ _ k b h
  refine ⟨hfst, hlen.1, ?_, ?_, ?_, ?_, ?_⟩
  · intro h
    apply hlen.2
    have : (tryElectTraced P ec genesis parent).1.2 = none := by rw [hfst]; exact h
    exact this
  · intro k b h
    rw [hget k b h]
    cases prevEpochIsGenesis P genesis parent <;> simp
  · simp only [Trie.iteratePrefixed, Trie.iterate, List.filter_eq_nil_iff, Bool.not_eq_true]
  · intro h
    constructor
    · intro b hb
      obtain ⟨k, hk⟩ := List.mem_iff_get?.mp hb
      rw [hget k b hk]
      rcases h with h | h
      · rw [h]; rfl
      · rw [h]; simp
    · rw [← hfst]
      unfold tryElectTraced
      rw [tryElectLoopTraced_fst]
      exact tryElectLoop_candidateTrie P parent _ _ _ _ _ ec h
  · intro hg h1 k b h
    rw [hget k b h, hg, h1]
    simp

/-- The context with one mint count and two missed epochs: the record of the two iterations
is `true` for the first and `false` for the second; and in the same context without mint
counts no kickout is run and the candidates stay. -/
theorem tryElect_kickout_iterations_witness :
    (tryElectTraced smallNet oneMintCntEntry ⟨0, []⟩ ⟨1200, []⟩).2 = [true, false]
      ∧ (∀ (k : Nat) (b : Bool),
          (tryElectTraced smallNet oneMintCntEntry ⟨0, []⟩ ⟨1200, []⟩).2.get? k = some b →
            (b = true ↔ prevEpochIsGenesis smallNet ⟨0, []⟩ ⟨1200, []⟩ = false
              ∧ k < (oneMintCntEntry.PocContext.mintCntTrie.iteratePrefixed
                  (PutUint64 (uint64
                    (prevEpochOf smallNet oneMintCntEntry ⟨0, []⟩ ⟨1200, []⟩)))).length)) :=
  ⟨by decide,
    (tryElect_kickout_iterations smallNet oneMintCntEntry ⟨0, []⟩ ⟨1200, []⟩).2.2.2.1⟩

/-- C38. Go `sortableAddresses.Less` holds exactly when the first entry has the higher
weight, or the weights are equal and its address string is the lower one; it is irreflexive
and transitive, exactly one of `Less(i, j)` and `Less(j, i)` holds for two entries with
different addresses, and the result of `sort.Sort` is the same for every two arrangements of
a list: every arrangement in which no entry is less than an earlier one is that result. -/
theorem Less_strict_total_order (P : Params) :
    (∀ a b : sortableAddress, Less P a b = true
        ↔ b.weight < a.weight
          ∨ (a.weight = b.weight
            ∧ bytesLt (P.addressString a.address) (P.addressString b.address) = true))
      ∧ (∀ a : sortableAddress, Less P a a = false)
      ∧ (∀ a b c : sortableAddress, Less P a b = true → Less P b c = true → Less P a c = true)
      ∧ (∀ a b : sortableAddress, a.address ≠ b.address →
          (Less P a b = true ∧ Less P b a = false) ∨ (Less P a b = false ∧ Less P b a = true))
      ∧ (∀ l1 l2 : List sortableAddress, l1.Perm l2 →
          sortSort (Less P) l1 = sortSort (Less P) l2)
      ∧ (∀ l s : List sortableAddress, s.Perm l →
          s.Pairwise (fun x y => Less P y x = false) → s = sortSort (Less P) l) := by
  have huniq : ∀ l s : List sortableAddress, s.Perm l →
      s.Pairwise (fun x y => Less P y x = false) → s = sortSort (Less P) l :=
    fun l s hp hs => sortSort_unique (Less P) (Less_asymm P) (Less_negtrans P) (Less_total P)
      hp hs
  refine ⟨Less_iff P, Less_irrefl P, Less_trans P, ?_, ?_, huniq⟩
  · intro a b hne
    cases hab : Less P a b with
    | true => exact Or.inl ⟨rfl, Less_asymm P a b hab⟩
    | false =>
      right
      refine ⟨rfl, ?_⟩
      cases hba : Less P b a with
      | true => rfl
      | false =>
        have := Less_total P a b hab hba
        exact absurd (by rw [this]) hne
  · intro l1 l2 hp
    exact huniq l2 (sortSort (Less P) l1) ((sortSort_perm (Less P) l1).trans hp)
      (sortSort_sorted (Less P) (Less_asymm P) (Less_negtrans P) l1)

/-- Three candidates with the weights 5, 9 and 5: both arrangements sort to the weight 9
first and then the address 1 before the address 3. -/
theorem Less_strict_total_order_witness :
    sortSort (Less smallNet) [⟨addr 3, 5⟩, ⟨addr 2, 9⟩, ⟨addr 1, 5⟩]
        = [⟨addr 2, 9⟩, ⟨addr 1, 5⟩, ⟨addr 3, 5⟩]
      ∧ sortSort (Less smallNet) [⟨addr 1, 5⟩, ⟨addr 3, 5⟩, ⟨addr 2, 9⟩]
        = sortSort (Less smallNet) [⟨addr 3, 5⟩, ⟨addr 2, 9⟩, ⟨addr 1, 5⟩] :=
  ⟨by decide,
    (Less_strict_total_order smallNet).2.2.2.2.1 _ _ (by decide)⟩

/-- C39. A TransferData message for a record hash that has no record, from any sender, the
zero address too: the owner of the hash reads the zero address and its status reads 100,
`ApplyDataMessage` returns an error, with `failed = true` when `preCheck` has passed, and
the hash has no record afterwards. -/
theorem ApplyDataMessage_transfer_missing (D : StateParams) (txHash : Hash) (msg : Message)
    (statedb : StateDB) (statedbRecord : StateDBRecord)
    (htype : msg.Type_ = .TransferData)
    (hmissing : (statedbRecord.Exist D (recordKey msg.Data)).2 = false) :
    (statedbRecord.GetOwner D (recordKey msg.Data)).2 = Address.zero
      ∧ (statedbRecord.GetStatus D (recordKey msg.Data)).2 = 100
      ∧ (ApplyDataMessage D txHash msg statedb statedbRecord).2.2.2 ≠ none
      ∧ ((NewStateTransition msg statedb).preCheck.2 = none →
          (ApplyDataMessage D txHash msg statedb statedbRecord).2.2 = (true, some .emptyText))
      ∧ ((ApplyDataMessage D txHash msg statedb statedbRecord).2.1.Exist D
          (recordKey msg.Data)).2 = false := by
  have g0 := StateDBRecord.getters_eq D statedbRecord (recordKey msg.Data)
  have hv : statedbRecord.view D (recordKey msg.Data) = none := by
    rw [g0.1] at hmissing
    cases h : statedbRecord.view D (recordKey msg.Data) with
    | none => rfl
    | some o => rw [h] at hmissing; simp at hmissing
  have howner : (statedbRecord.GetOwner D (recordKey msg.Data)).2 = Address.zero := by
    rw [g0.2.2.1, hv]; rfl
  have hstatus : (statedbRecord.GetStatus D (recordKey msg.Data)).2 = 100 := by
    rw [g0.2.2.2.1, hv]; rfl
  have hv1 := StateDBRecord.view_getStateObject D statedbRecord (recordKey msg.Data)
    (recordKey msg.Data)
  have hv2 := StateDBRecord.view_getStateObject D
    (statedbRecord.getStateObject D (recordKey msg.Data)).1 (recordKey msg.Data)
    (recordKey msg.Data)
  have hpassed : (NewStateTransition msg statedb).preCheck.2 = none →
      (ApplyDataMessage D txHash msg statedb statedbRecord).2.2 = (true, some .emptyText)
        ∧ ((ApplyDataMessage D txHash msg statedb statedbRecord).2.1.Exist D
            (recordKey msg.Data)).2 = false := by
    intro hpass
    rw [ApplyDataMessage_preCheck_pass D txHash msg statedb statedbRecord hpass, htype]
    simp only
    rw [applyTransferData_eq, howner, hstatus]
    by_cases hz : Address.zero = msg.From
    · rw [if_neg (by simpa using hz), if_pos (by decide)]
      refine ⟨rfl, ?_⟩
      simp only
      rw [(StateDBRecord.getters_eq D _ (recordKey msg.Data)).1, hv2, hv1, hv]
      rfl
    · rw [if_pos hz]
      refine ⟨rfl, ?_⟩
      simp only
      rw [(StateDBRecord.getters_eq D _ (recordKey msg.Data)).1, hv1, hv]
      rfl
  refine ⟨howner, hstatus, ?_, fun hp => (hpassed hp).1, ?_⟩
  · cases hp : (NewStateTransition msg statedb).preCheck.2 with
    | none => rw [(hpassed hp).1]; simp
    | some err =>
      rw [ApplyDataMessage_preCheck_error D txHash msg statedb statedbRecord err hp]
      simp
  · cases hp : (NewStateTransition msg statedb).preCheck.2 with
    | none => exact (hpassed hp).2
    | some err =>
      rw [ApplyDataMessage_preCheck_error D txHash msg statedb statedbRecord err hp]
      exact hmissing

/-- The payload `[9]` has no record after the confirmation of the payload `[7, 7]`: its
transfer fails for the address 1 and for the zero address, without nonce checking. -/
theorem ApplyDataMessage_transfer_missing_witness :
    ((afterConfirmation.2.1.GetOwner sampleStateParams (recordKey [9])).2 = Address.zero
        ∧ (afterConfirmation.2.1.GetStatus sampleStateParams (recordKey [9])).2 = 100
        ∧ (ApplyDataMessage sampleStateParams (hashOf 51)
            (sampleMessage .TransferData 1 2 0 1 [9]) afterConfirmation.1
            afterConfirmation.2.1).2.2.2 ≠ none
        ∧ ((NewStateTransition (sampleMessage .TransferData 1 2 0 1 [9])
              afterConfirmation.1).preCheck.2 = none →
            (ApplyDataMessage sampleStateParams (hashOf 51)
              (sampleMessage .TransferData 1 2 0 1 [9]) afterConfirmation.1
              afterConfirmation.2.1).2.2 = (true, some .emptyText))
        ∧ ((ApplyDataMessage sampleStateParams (hashOf 51)
            (sampleMessage .TransferData 1 2 0 1 [9]) afterConfirmation.1
            afterConfirmation.2.1).2.1.Exist sampleStateParams (recordKey [9])).2 = false)
      ∧ (ApplyDataMessage sampleStateParams (hashOf 51)
          (sampleMessage .TransferData 1 2 0 1 [9]) afterConfirmation.1
          afterConfirmation.2.1).2.2 = (true, some .emptyText)
      ∧ (ApplyDataMessage sampleStateParams (hashOf 51)
          zeroSenderTransfer afterConfirmation.1 afterConfirmation.2.1).2.2
        = (true, some .emptyText) :=
  ⟨ApplyDataMessage_transfer_missing sampleStateParams (hashOf 51)
      (sampleMessage .TransferData 1 2 0 1 [9]) afterConfirmation.1 afterConfirmation.2.1
      rfl (by decide),
    by decide, by decide⟩

/-- C40. Go `ApplyMessage` and `ApplyDataMessage` report `failed = true` only together with
an error; every receipt `ApplyTransaction` returns has `failed = false` and the hash of the
transaction; when `Process` returns receipts, there is one for each transaction, in the
order of the transactions, each with the hash of its transaction and `failed = false`; and
an error of `ApplyMessage` or of `ApplyDataMessage` is the error of `ApplyTransaction`, which
then returns no receipt, and `Process` returns the error of `ApplyTransaction` for the first
transaction that has one, and no receipt: its errors are those and no others. -/
theorem Process_receipts (P : Params) (D : StateParams) (E : ProcessParams)
    (config : ChainConfig) (txs : List Transaction) (s : ChainState) :
    (∀ (msg : Message) (db : StateDB),
        (ApplyMessage msg db).2.2.1 = true → (ApplyMessage msg db).2.2.2 ≠ none)
      ∧ (∀ (txHash : Hash) (msg : Message) (db : StateDB) (r : StateDBRecord),
          (ApplyDataMessage D txHash msg db r).2.2.1 = true →
            (ApplyDataMessage D txHash msg db r).2.2.2 ≠ none)
      ∧ (∀ (s0 : ChainState) (tx : Transaction) (receipt : Receipt),
          (ApplyTransaction P D config s0 tx).2 = .ok receipt →
            receipt.failed = false ∧ receipt.TxHash = tx.Hash)
      ∧ (∀ receipts, (Process P D E config txs s).2 = .ok receipts →
          receipts.length = txs.length
            ∧ receipts.map (fun r => r.TxHash) = txs.map (fun tx => tx.Hash)
            ∧ ∀ r ∈ receipts, r.failed = false)
      ∧ (∀ err, (Process P D E config txs s).2 = .error err →
          ∃ (pre : List Transaction) (tx : Transaction) (post : List Transaction)
            (rs : List Receipt),
            txs = pre ++ tx :: post
              ∧ (processLoop P D config pre
                  (if E.daoFork then { s with statedb := E.ApplyDAOHardFork s.statedb } else s)
                  []).2 = .ok rs
              ∧ (ApplyTransaction P D config
                  (processLoop P D config pre
                    (if E.daoFork then { s with statedb := E.ApplyDAOHardFork s.statedb }
                      else s) []).1 tx).2 = .error err)
      ∧ (∀ (s0 : ChainState) (tx : Transaction) (msg : Message) (err : TxError),
          tx.AsMessage = .ok msg → tx.Validate = none → msg.Type_ = .Binary →
          (ApplyMessage msg s0.statedb).2.2.2 = some err →
            (ApplyTransaction P D config s0 tx).2 = .error err)
      ∧ (∀ (s0 : ChainState) (tx : Transaction) (msg : Message) (err : TxError),
          tx.AsMessage = .ok msg → tx.Validate = none →
          msg.Type_ = .ConfirmationData ∨ msg.Type_ = .AuthorizationData
            ∨ msg.Type_ = .TransferData →
          (ApplyDataMessage D tx.Hash msg s0.statedb s0.statedbRecord).2.2.2 = some err →
            (ApplyTransaction P D config s0 tx).2 = .error err)
      ∧ (∀ (pre : List Transaction) (tx : Transaction) (post : List Transaction)
          (rs : List Receipt) (err : TxError),
          txs = pre ++ tx :: post →
          (processLoop P D config pre
            (if E.daoFork then { s with statedb := E.ApplyDAOHardFork s.statedb } else s)
            []).2 = .ok rs →
          (ApplyTransaction P D config
            (processLoop P D config pre
              (if E.daoFork then { s with statedb := E.ApplyDAOHardFork s.statedb }
                else s) []).1 tx).2 = .error err →
            (Process P D E config txs s).2 = .error err) := by
  have hloop := processLoop_spec P D config txs
    (if E.daoFork then { s with statedb := E.ApplyDAOHardFork s.statedb } else s) []
  have hproc : (Process P D E config txs s).2
      = (processLoop P D config txs
          (if E.daoFork then { s with statedb := E.ApplyDAOHardFork s.statedb } else s) []).2 := by
    unfold Process
    generalize processLoop P D config txs
      (if E.daoFork then { s with statedb := E.ApplyDAOHardFork s.statedb } else s) [] = p
    obtain ⟨s1, e⟩ := p
    cases e <;> rfl
  refine ⟨fun msg db h => StateTransition.TransitionDb_failed _ h,
    fun txHash msg db r h => ApplyDataMessage_failed D txHash msg db r h,
    fun s0 tx receipt h => ApplyTransaction_receipt P D config s0 tx receipt h, ?_, ?_,
    fun s0 tx msg err hm hv ht he =>
      ApplyTransaction_message_error P D config s0 tx msg err hm hv ht he,
    fun s0 tx msg err hm hv ht he =>
      ApplyTransaction_data_error P D config s0 tx msg err hm hv ht he, ?_⟩
  · intro receipts h
    rw [hproc] at h
    obtain ⟨rs, h1, h2, h3⟩ := hloop.1 receipts h
    simp only [List.nil_append] at h1
    subst h1
    refine ⟨?_, h2, h3⟩
    have := congrArg List.length h2
    simpa using this
  · intro err h
    rw [hproc] at h
    exact hloop.2 err h
  · intro pre tx post rs err htxs h1 h2
    rw [hproc, htxs]
    exact processLoop_abort P D config pre _ [] tx post rs err h1 h2

/-- The three sample transactions: `Process` returns their three receipts, with the hashes
49, 50 and 51; with a fourth transaction that cannot pay, for which `ApplyMessage` reports
`failed = true`, `Process` returns the error and no receipt. -/
theorem Process_receipts_witness :
    (Process smallNet sampleStateParams sampleProcessParams ⟨true, true⟩ threeTransactions
        emptyChainState).2
        = .ok [⟨[], [], false, hashOf 49⟩, ⟨[], [], false, hashOf 50⟩,
            ⟨[], [], false, hashOf 51⟩]
      ∧ (ApplyMessage (sampleMessage .Binary 3 1 5 0 []) StateDB.empty).2.2
        = (true, some .ErrInsufficientBalance)
      ∧ (Process smallNet sampleStateParams sampleProcessParams ⟨true, true⟩
          (threeTransactions ++ [poorTransaction]) emptyChainState).2
        = .error .ErrInsufficientBalance
      ∧ (∀ receipts, (Process smallNet sampleStateParams sampleProcessParams ⟨true, true⟩
            threeTransactions emptyChainState).2 = .ok receipts →
          receipts.length = threeTransactions.length
            ∧ receipts.map (fun r => r.TxHash) = threeTransactions.map (fun tx => tx.Hash)
            ∧ ∀ r ∈ receipts, r.failed = false) :=
  ⟨by decide, by decide, by decide,
    (Process_receipts smallNet sampleStateParams sampleProcessParams ⟨true, true⟩
      threeTransactions emptyChainState).2.2.2.1⟩

end AQChain
